import Mathlib

/-!
# Pinboard: object codec, proof-of-work arithmetic and the pin store

A shallow embedding of `src/object.cpp`, `src/multihash.cpp`,
`src/pow_certificate.cpp` and `src/pinboard.cpp`.

Conventions of the embedding.

* Machine integers are `Nat`; every place where the C++ arithmetic is done in a
  fixed width carries an explicit `% 2 ^ w`.
* A C++ method that mutates `*this` becomes a function that returns the new
  object next to its result.
* An operation that raises a C++ exception (division by zero on `uint256_t`)
  returns `none`.
* The stream reader and writer, the hash functions and the constant
  `MIN_TARGET` belong to libraries or headers outside `src/`; the reader and
  writer are embedded from their library behaviour, the hash functions and
  `MIN_TARGET` are parameters (`environment`).
-/

namespace Pinboard

/-! ## Bytes, hashes and the little-endian stream primitives -/

/-- One octet of a `data_chunk`. -/
abbrev byte := Fin 256

/-- The type `data_chunk` of the library: `std::vector<uint8_t>`. -/
abbrev data_chunk := List byte

/-- The type `hash_digest` of the library: `std::array<uint8_t, 32>`. -/
abbrev hash_digest := { l : data_chunk // l.length = 32 }

/-- The all-zero hash `bc::null_hash`. -/
def null_hash : hash_digest := ⟨List.replicate 32 0, by simp⟩

/-- Lexicographic `operator<` of `std::array`, the order of `std::map` and
`std::set` keyed by `hash_digest`. -/
def bytes_lt : data_chunk → data_chunk → Bool
  | [], [] => false
  | [], _ :: _ => true
  | _ :: _, [] => false
  | a :: as, b :: bs => if a.val < b.val then true else if b.val < a.val then false else bytes_lt as bs

/-- Order on hashes used by the ordered containers. -/
def hash_lt (a b : hash_digest) : Bool := bytes_lt a.val b.val

/-- The `n` low-order bytes of `v`, least significant first. -/
def to_little_endian : Nat → Nat → data_chunk
  | 0, _ => []
  | n + 1, v => ⟨v % 256, Nat.mod_lt _ (by decide)⟩ :: to_little_endian n (v / 256)

/-- The number whose little-endian digits are the given bytes. -/
def from_little_endian : data_chunk → Nat
  | [] => 0
  | b :: bs => b.val + 256 * from_little_endian bs

/-- Library function `to_uint256`: the hash read as a little-endian 256-bit number. -/
def to_uint256 (h : hash_digest) : Nat := from_little_endian h.val

/-- Writer primitive `write_variable_little_endian` (`write_size_little_endian`
forwards to it): one byte below `0xfd`, else a marker byte and 2, 4 or 8 bytes. -/
def write_size_little_endian (v : Nat) : data_chunk :=
  if v < 0xfd then to_little_endian 1 v
  else if v ≤ 0xffff then (0xfd : byte) :: to_little_endian 2 v
  else if v ≤ 0xffffffff then (0xfe : byte) :: to_little_endian 4 v
  else (0xff : byte) :: to_little_endian 8 v

/-- Library function `variable_uint_size`: the length of the encoding above. -/
def variable_uint_size (v : Nat) : Nat :=
  if v < 0xfd then 1 else if v ≤ 0xffff then 3 else if v ≤ 0xffffffff then 5 else 9

/-- The `istream_reader` over a `data_source`: the bytes not yet read and the
stream state (`operator bool`). A read that runs past the end fails the stream;
every later read fails too. The values handed back by a failed read are never
kept by the callers below (they reset themselves when the stream has failed). -/
structure reader where
  data : data_chunk
  valid : Bool
deriving DecidableEq, Repr

/-- A `data_source` freshly opened on a chunk. -/
def reader.open (data : data_chunk) : reader := ⟨data, true⟩

/-- The state of a stream after a failed read. -/
def reader.failed : reader := ⟨[], false⟩

/-- Reader primitive `read_byte` (`stream.get()`, which yields `EOF`, that is `0xff`
after the cast, when nothing is left). -/
def reader.read_byte (r : reader) : byte × reader :=
  if r.valid then
    match r.data with
    | [] => (0xff, reader.failed)
    | b :: rest => (b, ⟨rest, true⟩)
  else (0xff, reader.failed)

/-- Reader primitive `read_bytes(size)`: a zero-filled buffer of `size` bytes
overwritten by what the stream still holds. -/
def reader.read_bytes (size : Nat) (r : reader) : data_chunk × reader :=
  if size = 0 then ([], r)
  else if r.valid && decide (size ≤ r.data.length) then
    (r.data.take size, ⟨r.data.drop size, true⟩)
  else if r.valid then (r.data ++ List.replicate (size - r.data.length) 0, reader.failed)
  else (List.replicate size 0, reader.failed)

/-- Reader primitive `read_hash`: 32 raw bytes. -/
def reader.read_hash (r : reader) : hash_digest × reader :=
  if h : r.valid = true ∧ 32 ≤ r.data.length then
    (⟨r.data.take 32, by simp [List.length_take]; omega⟩, ⟨r.data.drop 32, true⟩)
  else (null_hash, reader.failed)

/-- Reader primitives `read_2_bytes_little_endian`, `read_4_bytes_little_endian`
and `read_8_bytes_little_endian`, by width. -/
def reader.read_little_endian (width : Nat) (r : reader) : Nat × reader :=
  if r.valid && decide (width ≤ r.data.length) then
    (from_little_endian (r.data.take width), ⟨r.data.drop width, true⟩)
  else if r.valid then
    (from_little_endian (r.data ++ List.replicate (width - r.data.length) 0), reader.failed)
  else (0, reader.failed)

/-- Reader primitive `read_variable_little_endian`. -/
def reader.read_variable_little_endian (r : reader) : Nat × reader :=
  let (value, r1) := r.read_byte
  if value.val = 0xff then r1.read_little_endian 8
  else if value.val = 0xfe then r1.read_little_endian 4
  else if value.val = 0xfd then r1.read_little_endian 2
  else (value.val, r1)

/-- Reader primitive `read_size_little_endian`: the variable integer, which always
fits `size_t` on a 64-bit platform. -/
def reader.read_size_little_endian (r : reader) : Nat × reader :=
  r.read_variable_little_endian

/-! ## Multihash (`src/multihash.cpp`) -/

/-- Enumerator `digest_type::identity`. -/
def digest_type.identity : Nat := 0x00
/-- Enumerator `digest_type::sha2_256`. -/
def digest_type.sha2_256 : Nat := 0x12
/-- Enumerator `digest_type::md5`. -/
def digest_type.md5 : Nat := 0xd5
/-- Enumerator `digest_type::max_digest_type`, one past `md5`. -/
def digest_type.max_digest_type : Nat := 0xd6

/-- Class `multihash`: `fn_code_` holds the `uint32_t` value of the enum. -/
structure multihash where
  fn_code_ : Nat
  digest_ : data_chunk
deriving DecidableEq, Repr

namespace multihash

/-- Default constructor, also the state left by `reset()`. -/
def default : multihash := ⟨digest_type.identity, []⟩

/-- Method `multihash::from_data(version, reader&)`. -/
def from_data (source : reader) : Bool × multihash × reader :=
  let (code, s1) := source.read_size_little_endian
  let (dig_size, s2) := s1.read_size_little_endian
  let (digest, s3) := s2.read_bytes dig_size
  if s3.valid then (true, ⟨code % 2 ^ 32, digest⟩, s3) else (false, default, s3)

/-- Method `multihash::to_data(version, writer&)`. -/
def to_data (m : multihash) : data_chunk :=
  write_size_little_endian m.fn_code_ ++ write_size_little_endian m.digest_.length ++ m.digest_

/-- Method `multihash::is_valid`. -/
def is_valid (m : multihash) : Bool := decide (m.fn_code_ < digest_type.max_digest_type)

/-- Method `multihash::serialized_size`. -/
def serialized_size (m : multihash) : Nat :=
  variable_uint_size m.fn_code_ + variable_uint_size m.digest_.length + m.digest_.length

/-- Method `multihash::operator==`. -/
def eq (a b : multihash) : Bool :=
  decide (a.fn_code_ = b.fn_code_) && decide (a.digest_ = b.digest_)

/-- Method `multihash::empty`. -/
def empty (m : multihash) : Bool := m.digest_.isEmpty

end multihash

/-! ## PoW certificate (`src/pow_certificate.cpp`) -/

/-- Enumerator `pow_type::plain`. -/
def pow_type.plain : Nat := 0x00
/-- Enumerator `pow_type::scrypt_14_1_8`. -/
def pow_type.scrypt_14_1_8 : Nat := 0x01
/-- Enumerator `pow_type::scrypt_10_1_1`. -/
def pow_type.scrypt_10_1_1 : Nat := 0x02
/-- Enumerator `pow_type::max_pow_type`. -/
def pow_type.max_pow_type : Nat := 0x03

/-- Enumerator `chain_tag::unknown`. -/
def chain_tag.unknown : Nat := 0
/-- Enumerator `chain_tag::litecoin_main`. -/
def chain_tag.litecoin_main : Nat := 10
/-- Enumerator `chain_tag::litecoin_test4`. -/
def chain_tag.litecoin_test4 : Nat := 11
/-- Enumerator `chain_tag::max_chain_tag`, one past `litecoin_test4`. -/
def chain_tag.max_chain_tag : Nat := 12

/-- The hash functions of the cryptographic library and the constant of the
absent header `config.hpp`, on which the code below depends. -/
structure environment where
  /-- Library function `sha256_hash`. -/
  sha256_hash : data_chunk → hash_digest
  /-- The function `default_pow::calculate`, that is `scrypt<32>(data, data, 16384, 1, 8)`. -/
  scrypt : data_chunk → hash_digest
  /-- The constant `MIN_TARGET` of `config.hpp`, a `uint256_t`. -/
  MIN_TARGET : Nat

/-- Typedef `default_pow` is `pow_scrypt_14_1_8`: its `type()`. -/
def default_pow.type : Nat := pow_type.scrypt_14_1_8

/-- Typedef `default_pow` is `pow_scrypt_14_1_8`: its `pow_mul()`, the template argument `MUL`. -/
def default_pow.pow_mul : Nat := 30

/-- Division of `uint256_t` values, which raises `std::overflow_error` on a zero divisor. -/
def uint256_div (a b : Nat) : Option Nat := if b = 0 then none else some (a / b)

/-- The expression `((~pow_value) / (pow_value + 1)) + 1` over `uint256_t`, shared by
`object_payload::get_work_done`, `pow_certificate::calculate_work_done` and the miner. -/
def work_done_of (pow_value : Nat) : Option Nat :=
  (uint256_div (2 ^ 256 - 1 - pow_value) ((pow_value + 1) % 2 ^ 256)).map
    fun q => (q + 1) % 2 ^ 256

/-- Class `pow_certificate`: `type_` and `tag_` hold the `uint32_t` values of the enums. -/
structure pow_certificate where
  type_ : Nat
  tag_ : Nat
  anchor_ : hash_digest
  nonce_ : Nat
deriving DecidableEq, Repr

namespace pow_certificate

/-- Default constructor, also the state left by `reset()`. -/
def default : pow_certificate := ⟨pow_type.plain, chain_tag.unknown, null_hash, 0⟩

/-- Method `pow_certificate::from_data(version, reader&)`. -/
def from_data (source : reader) : Bool × pow_certificate × reader :=
  let (type, s1) := source.read_size_little_endian
  let (tag, s2) := s1.read_size_little_endian
  let (anchor, s3) := s2.read_hash
  let (nonce, s4) := s3.read_little_endian 8
  if s4.valid then (true, ⟨type % 2 ^ 32, tag % 2 ^ 32, anchor, nonce⟩, s4)
  else (false, default, s4)

/-- Method `pow_certificate::to_data(version, writer&)`. -/
def to_data (c : pow_certificate) : data_chunk :=
  write_size_little_endian c.type_ ++ write_size_little_endian c.tag_ ++ c.anchor_.val
    ++ to_little_endian 8 c.nonce_

/-- Method `pow_certificate::is_valid`. -/
def is_valid (c : pow_certificate) : Bool :=
  decide (c.type_ < pow_type.max_pow_type) && decide (c.tag_ < chain_tag.max_chain_tag)
    && decide (c.anchor_ ≠ null_hash)

/-- Method `pow_certificate::serialized_size`. -/
def serialized_size (c : pow_certificate) : Nat :=
  variable_uint_size c.type_ + variable_uint_size c.tag_ + c.anchor_.val.length + 8

/-- Method `pow_certificate::operator==`. -/
def eq (a b : pow_certificate) : Bool :=
  decide (a.type_ = b.type_) && decide (a.tag_ = b.tag_) && decide (a.anchor_ = b.anchor_)
    && decide (a.nonce_ = b.nonce_)

/-- Method `pow_certificate::to_pow_blob(chunk, writer&)`. -/
def to_pow_blob (c : pow_certificate) (chunk : data_chunk) : data_chunk := chunk ++ c.to_data

/-- Method `pow_certificate::calculate_pow_hash`. -/
def calculate_pow_hash (env : environment) (c : pow_certificate) (chunk : data_chunk) :
    hash_digest :=
  env.scrypt (c.to_pow_blob chunk)

/-- Method `pow_certificate::calculate_work_done(const data_chunk&)`. -/
def calculate_work_done (env : environment) (c : pow_certificate) (chunk : data_chunk) :
    Option Nat :=
  work_done_of (to_uint256 (c.calculate_pow_hash env chunk))

end pow_certificate

/-! ## Object payload and object (`src/object.cpp`) -/

/-- The struct `object_payload::validation`: caches, zero or null when not yet computed. -/
structure validation where
  work_done : Nat
  pow_value : Nat
  pow_hash : hash_digest
  id : hash_digest
deriving DecidableEq, Repr

/-- The member initialiser `validation{}`. -/
def validation.default : validation := ⟨0, 0, null_hash, null_hash⟩

/-- Class `object_payload`. -/
structure object_payload where
  validation : validation
  body_ : data_chunk
  body_id_ : multihash
  pow_ : pow_certificate
deriving DecidableEq, Repr

namespace object_payload

/-- Default constructor. -/
def default : object_payload :=
  ⟨validation.default, [], multihash.default, pow_certificate.default⟩

/-- Copy constructor (the move constructor builds the same value): the caches start empty. -/
def copy (other : object_payload) : object_payload :=
  ⟨validation.default, other.body_, other.body_id_, other.pow_⟩

/-- Method `object_payload::reset`: the caches are left alone. -/
def reset (self : object_payload) : object_payload :=
  { self with body_ := [], body_id_ := multihash.default, pow_ := pow_certificate.default }

/-- Method `object_payload::from_data(version, reader&)`. -/
def from_data (self : object_payload) (source : reader) : Bool × object_payload × reader :=
  let self := self.reset
  let (body_size, s1) := source.read_size_little_endian
  let (self, s2) :=
    if body_size > 0 then
      let (body, s) := s1.read_bytes body_size
      ({ self with body_ := body }, s)
    else
      let (_, id, s) := multihash.from_data s1
      ({ self with body_id_ := id }, s)
  let (_, pow, s3) := pow_certificate.from_data s2
  let self := { self with pow_ := pow }
  if s3.valid then (true, self, s3) else (false, self.reset, s3)

/-- Method `object_payload::from_data(version, const data_chunk&)`. -/
def from_data_chunk (self : object_payload) (data : data_chunk) : Bool × object_payload :=
  let (ok, self, _) := self.from_data (reader.open data)
  (ok, self)

/-- Method `object_payload::to_data(version, writer&)`, collected as `to_data(version)` does. -/
def to_data (self : object_payload) : data_chunk :=
  write_size_little_endian self.body_.length
    ++ (if !self.body_.isEmpty then self.body_ else self.body_id_.to_data)
    ++ self.pow_.to_data

/-- Method `object_payload::is_valid`. -/
def is_valid (self : object_payload) : Bool :=
  ((self.body_.isEmpty && !self.body_id_.empty) || !self.body_.isEmpty)
    && self.body_id_.is_valid && self.pow_.is_valid

/-- Method `object_payload::serialized_size`. -/
def serialized_size (self : object_payload) : Nat :=
  variable_uint_size self.body_.length + self.body_.length
    + (if self.body_.isEmpty then self.body_id_.serialized_size else 0)
    + self.pow_.serialized_size

/-- Method `object_payload::operator==`. -/
def eq (self other : object_payload) : Bool :=
  decide (self.body_ = other.body_) && self.body_id_.eq other.body_id_ && self.pow_.eq other.pow_

/-- Method `object_payload::get_pow_type`. -/
def get_pow_type (self : object_payload) : Nat := self.pow_.type_

/-- Method `object_payload::get_anchor`. -/
def get_anchor (self : object_payload) : hash_digest := self.pow_.anchor_

/-- Method `object_payload::get_id`: the identifier is cached in `validation.id`. -/
def get_id (env : environment) (self : object_payload) : hash_digest × object_payload :=
  if self.validation.id = null_hash then
    let id := env.sha256_hash self.to_data
    (id, { self with validation := { self.validation with id := id } })
  else (self.validation.id, self)

/-- Method `object_payload::get_body_id`: fills `body_id_` in when its digest is empty, with
`sha256_hash_chunk(body_)`, the bytes of `sha256_hash(body_)`. -/
def get_body_id (env : environment) (self : object_payload) : multihash × object_payload :=
  if self.body_id_.empty then
    let mh : multihash := ⟨digest_type.sha2_256, (env.sha256_hash self.body_).val⟩
    (mh, { self with body_id_ := mh })
  else (self.body_id_, self)

/-- Method `object_payload::serialize_id_and_pow`. -/
def serialize_id_and_pow (env : environment) (self : object_payload) :
    data_chunk × object_payload :=
  let (_, self) := self.get_body_id env
  (self.body_id_.to_data ++ self.pow_.to_data, self)

/-- Method `object_payload::get_pow_value`. -/
def get_pow_value (env : environment) (self : object_payload) : Nat × object_payload :=
  if self.validation.pow_value = 0 then
    let (body_id, self) := self.get_body_id env
    let pow_hash := self.pow_.calculate_pow_hash env body_id.to_data
    let self := { self with validation :=
      { self.validation with pow_hash := pow_hash, pow_value := to_uint256 pow_hash } }
    (self.validation.pow_value, self)
  else (self.validation.pow_value, self)

/-- Method `object_payload::get_work_done`; `none` when the division raises. -/
def get_work_done (env : environment) (self : object_payload) : Option Nat × object_payload :=
  if self.validation.work_done = 0 then
    let (_, self) := self.get_pow_value env
    match work_done_of self.validation.pow_value with
    | none => (none, self)
    | some w => (some w, { self with validation := { self.validation with work_done := w } })
  else (some self.validation.work_done, self)

end object_payload

/-- Class `object`, the wire message wrapping one payload. -/
structure object where
  payload_ : object_payload
deriving DecidableEq, Repr

/-- Method `object::payload`. -/
def object.payload (self : object) : object_payload := self.payload_

/-! ## The part of the header tracker used by admission (`src/chain_listener.cpp`) -/

/-- Class `lite_header`: the six serialized fields, the `validation` annotation (`height`,
`median_time_past`) and the two caches `hash_` and `pow_hash_`, `none` for a null pointer. -/
structure lite_header where
  version_ : Nat
  previous_block_hash_ : hash_digest
  merkle_ : hash_digest
  timestamp_ : Nat
  bits_ : Nat
  nonce_ : Nat
  height : Nat
  median_time_past : Nat
  hash_ : Option hash_digest
  pow_hash_ : Option hash_digest
deriving DecidableEq, Repr

/-- Method `lite_header::timestamp`. -/
def lite_header.timestamp (h : lite_header) : Nat := h.timestamp_

/-- Lookup in a `std::map`, held as the list of its entries. -/
def map_find {K V : Type} [DecidableEq K] (k : K) : List (K × V) → Option V
  | [] => none
  | e :: rest => if e.1 = k then some e.2 else map_find k rest

/-- The place of a new entry in a map ordered by `lt`: before the first greater key. -/
def map_insert {K V : Type} (lt : K → K → Bool) (k : K) (v : V) :
    List (K × V) → List (K × V)
  | [] => [(k, v)]
  | e :: rest => if lt k e.1 then (k, v) :: e :: rest else e :: map_insert lt k v rest

/-- Method `std::map::emplace`: nothing when the key is there, else the entry is inserted at
its place in the order. -/
def map_emplace {K V : Type} [DecidableEq K] (lt : K → K → Bool) (k : K) (v : V)
    (m : List (K × V)) : List (K × V) :=
  match map_find k m with
  | some _ => m
  | none => map_insert lt k v m

/-- Method `std::map::erase` by key (or by the iterator `find` returned for that key). -/
def map_erase {K V : Type} [DecidableEq K] (k : K) (m : List (K × V)) : List (K × V) :=
  m.filter fun e => decide (e.1 ≠ k)

/-- The update `m[k] = f(m[k])` of a key of the map. -/
def map_modify {K V : Type} [DecidableEq K] (k : K) (f : V → V) (m : List (K × V)) :
    List (K × V) :=
  m.map fun e => if e.1 = k then (e.1, f e.2) else e

/-- The place of a new member in a set ordered by `lt`: before the first greater member. -/
def ordered_insert {K : Type} (lt : K → K → Bool) (x : K) : List K → List K
  | [] => [x]
  | y :: rest => if lt x y then x :: y :: rest else y :: ordered_insert lt x rest

/-- Method `std::set::insert`, the set held as the ordered list of its members: nothing when
the member is there. -/
def set_insert {K : Type} [DecidableEq K] (lt : K → K → Bool) (x : K) (s : List K) : List K :=
  if x ∈ s then s else ordered_insert lt x s

/-- Class `chain_sync_state`: the members guarded by its mutex. -/
structure chain_sync_state where
  starting_height_ : Nat
  chain_ : List (List hash_digest)
  known_blocks_ : List (hash_digest × lite_header)
deriving DecidableEq, Repr

/-- Method `chain_sync_state::get_header_by_id`: `none` stands for the result `false`, and
`some` holds the stored header, which the method assigns to its output argument. -/
def chain_sync_state.get_header_by_id (self : chain_sync_state) (id : hash_digest) :
    Option lite_header :=
  map_find id self.known_blocks_

/-! ## Pin store (`src/pinboard.cpp`) -/

/-- The error codes that `pinboard::process`, `lite_header::check` and the header-sync
protocol use. -/
inductive code where
  | success
  | bad_stream
  | invalid_proof_of_work
  | unknown
  | futuristic_timestamp
  | invalid_previous_block
deriving DecidableEq, Repr

/-- The struct `pinboard::object_details`. -/
structure object_details where
  object_ : object_payload
  bucket_id_ : Nat
  anchor_timestamp_ : Nat
  ttl_ : Nat
deriving DecidableEq, Repr

/-- Class `pinboard`: the two maps guarded by its mutex. -/
structure pinboard where
  objects_ : List (hash_digest × object_details)
  buckets_ : List (Nat × List hash_digest)
deriving DecidableEq, Repr

/-- The order of the `uint32_t` keys of `bucket_map`. -/
def bucket_lt (a b : Nat) : Bool := decide (a < b)

namespace pinboard

/-- A pin store just constructed. -/
def empty : pinboard := ⟨[], []⟩

/-- Method `pinboard::calc_ttl`; `none` when the division by `size` raises. -/
def calc_ttl (work_done : Nat) (size : Nat) : Option Nat :=
  (uint256_div ((default_pow.pow_mul * work_done) % 2 ^ 256) size).map fun ttl =>
    if ttl > 60 * 60 * 24 then 60 * 60 * 24 else ttl % 2 ^ 32

/-- Method `pinboard::calc_bucket_id`, over `uint32_t`. -/
def calc_bucket_id (ttl : Nat) : Nat := (((ttl >>> 8) + 1) <<< 8) % 2 ^ 32

end pinboard

/-- What one call of `pinboard::process` does: the code returned (`none` when an exception
leaves the call), the store afterwards, the messages handed to
`broadcaster_->broadcast_to_pb` and the calls of `handler`. -/
structure process_result where
  ec : Option code
  store : pinboard
  broadcast : List object
  handled : List (code × object)
deriving DecidableEq, Repr

namespace pinboard

/-- The critical section of `pinboard::process`: nothing when `id` is stored already, else
the insertion into `buckets_` and `objects_`; the flag tells whether the object was new. -/
def store_object (self : pinboard) (id : hash_digest) (details : object_details) :
    Bool × pinboard :=
  match map_find id self.objects_ with
  | some _ => (false, self)
  | none =>
    let buckets :=
      match map_find details.bucket_id_ self.buckets_ with
      | none => map_emplace bucket_lt details.bucket_id_ [id] self.buckets_
      | some _ =>
        map_modify details.bucket_id_ (set_insert hash_lt id)
          (map_emplace bucket_lt details.bucket_id_ [] self.buckets_)
    (true, ⟨map_emplace hash_lt id details self.objects_, buckets⟩)

/-- Method `pinboard::process`, with the tracker `chain_state_` and the value `time(nullptr)`
as arguments. -/
def process (env : environment) (chain_state : chain_sync_state) (time : Nat)
    (self : pinboard) (obj : object) : process_result :=
  let op := object_payload.copy obj.payload
  if !op.is_valid then ⟨some code.bad_stream, self, [], []⟩
  else
    let (id, op) := op.get_id env
    if op.get_pow_type ≠ default_pow.type then ⟨some code.invalid_proof_of_work, self, [], []⟩
    else
      match op.get_work_done env with
      | (none, _) => ⟨none, self, [], []⟩
      | (some work_done, op) =>
        let size := op.serialized_size
        let (pow_value, op) := op.get_pow_value env
        if pow_value > env.MIN_TARGET then ⟨some code.invalid_proof_of_work, self, [], []⟩
        else
          let anchor := op.get_anchor
          match chain_state.get_header_by_id anchor with
          | none => ⟨some code.unknown, self, [], []⟩
          | some header =>
            match calc_ttl work_done size with
            | none => ⟨none, self, [], []⟩
            | some ttl =>
              let now := time % 2 ^ 32
              if now ≥ (header.timestamp + ttl) % 2 ^ 32 then ⟨some code.unknown, self, [], []⟩
              else
                let details : object_details :=
                  ⟨op.copy, calc_bucket_id ((header.timestamp + ttl) % 2 ^ 32),
                    header.timestamp, ttl⟩
                match self.store_object id details with
                | (false, self) => ⟨some code.success, self, [], []⟩
                | (true, self) => ⟨some code.success, self, [obj], [(code.success, obj)]⟩

/-- The body of the inner loop of `pinboard::cleanup`: `find`, then `erase` of the iterator
when the id is found. -/
def erase_found (id : hash_digest) (objects : List (hash_digest × object_details)) :
    List (hash_digest × object_details) :=
  match map_find id objects with
  | some _ => map_erase id objects
  | none => objects

/-- The inner loop of `pinboard::cleanup`, over the ids of one bucket. -/
def erase_ids (ids : List hash_digest) (objects : List (hash_digest × object_details)) :
    List (hash_digest × object_details) :=
  ids.foldl (fun objs id => erase_found id objs) objects

/-- The first loop of `pinboard::cleanup`: walks the buckets in key order and gives the
objects left and the list `buckets_to_remove`. -/
def sweep (now : Nat) (buckets : List (Nat × List hash_digest))
    (objects : List (hash_digest × object_details)) :
    List (hash_digest × object_details) × List Nat :=
  buckets.foldl
    (fun acc bucket =>
      if bucket.1 > now then acc
      else (erase_ids bucket.2 acc.1, acc.2 ++ [bucket.1]))
    (objects, [])

/-- Method `pinboard::cleanup`, with the value `time(nullptr)` as argument. -/
def cleanup (time : Nat) (self : pinboard) : pinboard :=
  let now := time % 2 ^ 32
  let (objects, buckets_to_remove) := sweep now self.buckets_ self.objects_
  let buckets := buckets_to_remove.foldl (fun b bucket_id => map_erase bucket_id b) self.buckets_
  ⟨objects, buckets⟩

end pinboard

/-! ## Lite header (`src/lite_header.cpp`) -/

/-- The functions and constants of the libraries on which the header code depends. -/
structure chain_environment where
  /-- Library function `bitcoin_hash`, the double SHA-256. -/
  bitcoin_hash : data_chunk → hash_digest
  /-- The call `scrypt<32>(data, data, 1024, 1, 1)` of `lite_header::pow_hash`. -/
  scrypt : data_chunk → hash_digest
  /-- Library class `compact`: the target that compact `bits` decode to, `none` when
  `is_overflowed()`. -/
  compact_target : Nat → Option Nat
  /-- The static `pow_limit` of `is_valid_proof_of_work`, the target of `work_limit`. -/
  pow_limit : Nat

/-- Library constant `timestamp_future_seconds`, two hours. -/
def timestamp_future_seconds : Nat := 2 * 60 * 60

/-- Library class `chain::header`, as far as its serialized fields go; the elements of a
`headers` message. -/
structure header where
  version : Nat
  previous_block_hash : hash_digest
  merkle : hash_digest
  timestamp : Nat
  bits : Nat
  nonce : Nat
deriving DecidableEq, Repr

/-- Library method `chain::header::to_data`: the 80 bytes of the wire format. -/
def header.to_data (h : header) : data_chunk :=
  to_little_endian 4 h.version ++ h.previous_block_hash.val ++ h.merkle.val
    ++ to_little_endian 4 h.timestamp ++ to_little_endian 4 h.bits ++ to_little_endian 4 h.nonce

/-- Library method `chain::header::factory_from_data`, on a chunk: a default header when the
chunk is too short. -/
def header.factory_from_data (data : data_chunk) : header :=
  let s0 := reader.open data
  let (version, s1) := s0.read_little_endian 4
  let (prev, s2) := s1.read_hash
  let (merkle, s3) := s2.read_hash
  let (timestamp, s4) := s3.read_little_endian 4
  let (bits, s5) := s4.read_little_endian 4
  let (nonce, s6) := s5.read_little_endian 4
  if s6.valid then ⟨version, prev, merkle, timestamp, bits, nonce⟩
  else ⟨0, null_hash, null_hash, 0, 0, 0⟩

namespace lite_header

/-- The constructor from the six fields: `validation{}` and null caches. -/
def construct (version : Nat) (previous_block_hash merkle : hash_digest)
    (timestamp bits nonce : Nat) : lite_header :=
  ⟨version, previous_block_hash, merkle, timestamp, bits, nonce, 0, 0, none, none⟩

/-- Default constructor. -/
def default : lite_header := construct 0 null_hash null_hash 0 0 0

/-- Copy constructor (the move constructor builds the same value): the fields and
`validation` of `other`, null caches. -/
def copy (other : lite_header) : lite_header :=
  { construct other.version_ other.previous_block_hash_ other.merkle_ other.timestamp_
      other.bits_ other.nonce_ with
    height := other.height, median_time_past := other.median_time_past }

/-- The constructors `lite_header(other, hash)`: a copy whose `hash_` holds the given hash. -/
def copy_with_hash (other : lite_header) (hash : hash_digest) : lite_header :=
  { copy other with hash_ := some hash }

/-- The two `operator=`: the fields and `validation` of `other`; the caches of `self` stay. -/
def assign (self other : lite_header) : lite_header :=
  { self with
    version_ := other.version_, previous_block_hash_ := other.previous_block_hash_,
    merkle_ := other.merkle_, timestamp_ := other.timestamp_, bits_ := other.bits_,
    nonce_ := other.nonce_, height := other.height,
    median_time_past := other.median_time_past }

/-- Method `lite_header::operator==`. -/
def eq (self other : lite_header) : Bool :=
  decide (self.version_ = other.version_)
    && decide (self.previous_block_hash_ = other.previous_block_hash_)
    && decide (self.merkle_ = other.merkle_)
    && decide (self.timestamp_ = other.timestamp_)
    && decide (self.bits_ = other.bits_)
    && decide (self.nonce_ = other.nonce_)

/-- Method `lite_header::invalidate_cache`: resets `hash_`, and only it. -/
def invalidate_cache (self : lite_header) : lite_header := { self with hash_ := none }

/-- Method `lite_header::reset`. -/
def reset (self : lite_header) : lite_header :=
  invalidate_cache { self with
    version_ := 0, previous_block_hash_ := null_hash, merkle_ := null_hash, timestamp_ := 0,
    bits_ := 0, nonce_ := 0 }

/-- Method `lite_header::from_data(reader&, wire)`. -/
def from_data (self : lite_header) (source : reader) (wire : Bool) :
    Bool × lite_header × reader :=
  let (version, s1) := source.read_little_endian 4
  let (prev, s2) := s1.read_hash
  let (merkle, s3) := s2.read_hash
  let (timestamp, s4) := s3.read_little_endian 4
  let (bits, s5) := s4.read_little_endian 4
  let (nonce, s6) := s5.read_little_endian 4
  let self := { self with
    version_ := version, previous_block_hash_ := prev, merkle_ := merkle,
    timestamp_ := timestamp, bits_ := bits, nonce_ := nonce }
  let (self, s7) :=
    if !wire then
      let (mtp, s) := s6.read_little_endian 4
      ({ self with median_time_past := mtp }, s)
    else (self, s6)
  if s7.valid then (true, self, s7) else (false, self.reset, s7)

/-- Method `lite_header::from_data(const data_chunk&, wire)`. -/
def from_data_chunk (self : lite_header) (data : data_chunk) (wire : Bool) :
    Bool × lite_header :=
  let (ok, self, _) := self.from_data (reader.open data) wire
  (ok, self)

/-- Method `lite_header::to_data(writer&, wire)`, collected as `to_data(wire)` does. -/
def to_data (self : lite_header) (wire : Bool) : data_chunk :=
  to_little_endian 4 self.version_ ++ self.previous_block_hash_.val ++ self.merkle_.val
    ++ to_little_endian 4 self.timestamp_ ++ to_little_endian 4 self.bits_
    ++ to_little_endian 4 self.nonce_
    ++ (if !wire then to_little_endian 4 self.median_time_past else [])

/-- Method `lite_header::satoshi_fixed_size`. -/
def satoshi_fixed_size : Nat := 4 + 32 + 32 + 4 + 4 + 4

/-- Method `lite_header::serialized_size`. -/
def serialized_size (wire : Bool) : Nat := satoshi_fixed_size + (if wire then 0 else 4)

/-- The constructor `lite_header(const header&)`: `validation{}`, null caches, and the fields
read back by `from_data` from `other.to_data()`. -/
def from_header (other : header) : lite_header :=
  (default.from_data_chunk other.to_data true).2

/-- Method `lite_header::set_version`. -/
def set_version (self : lite_header) (value : Nat) : lite_header :=
  invalidate_cache { self with version_ := value }

/-- Method `lite_header::set_previous_block_hash`. -/
def set_previous_block_hash (self : lite_header) (value : hash_digest) : lite_header :=
  invalidate_cache { self with previous_block_hash_ := value }

/-- Method `lite_header::set_merkle`. -/
def set_merkle (self : lite_header) (value : hash_digest) : lite_header :=
  invalidate_cache { self with merkle_ := value }

/-- Method `lite_header::set_timestamp`. -/
def set_timestamp (self : lite_header) (value : Nat) : lite_header :=
  invalidate_cache { self with timestamp_ := value }

/-- Method `lite_header::set_bits`. -/
def set_bits (self : lite_header) (value : Nat) : lite_header :=
  invalidate_cache { self with bits_ := value }

/-- Method `lite_header::set_nonce`. -/
def set_nonce (self : lite_header) (value : Nat) : lite_header :=
  invalidate_cache { self with nonce_ := value }

/-- Method `lite_header::hash`: the cached hash when `hash_` is set, else the hash of
`to_data()`, which it caches. -/
def hash (cenv : chain_environment) (self : lite_header) : hash_digest × lite_header :=
  match self.hash_ with
  | some h => (h, self)
  | none =>
    let h := cenv.bitcoin_hash (self.to_data true)
    (h, { self with hash_ := some h })

/-- Method `lite_header::pow_hash`: the cached hash when `pow_hash_` is set, else the scrypt
hash of `to_data()` with itself as salt, which it caches. -/
def pow_hash (cenv : chain_environment) (self : lite_header) : hash_digest × lite_header :=
  match self.pow_hash_ with
  | some h => (h, self)
  | none =>
    let h := cenv.scrypt (self.to_data true)
    (h, { self with pow_hash_ := some h })

/-- Method `lite_header::is_valid_timestamp`, with the wall clock (in seconds) as argument. -/
def is_valid_timestamp (time : Nat) (self : lite_header) : Bool :=
  decide (self.timestamp_ ≤ time + timestamp_future_seconds)

/-- Method `lite_header::is_valid_proof_of_work`. -/
def is_valid_proof_of_work (cenv : chain_environment) (self : lite_header) :
    Bool × lite_header :=
  match cenv.compact_target self.bits_ with
  | none => (false, self)
  | some target =>
    if target < 1 ∨ target > cenv.pow_limit then (false, self)
    else
      let (h, self) := self.pow_hash cenv
      (decide (to_uint256 h ≤ target), self)

/-- Method `lite_header::check`, with the wall clock as argument. -/
def check (cenv : chain_environment) (time : Nat) (self : lite_header) : code × lite_header :=
  let (ok, self) := self.is_valid_proof_of_work cenv
  if !ok then (code.invalid_proof_of_work, self)
  else if !self.is_valid_timestamp time then (code.futuristic_timestamp, self)
  else (code.success, self)

end lite_header

/-! ## Header tracker (`src/chain_listener.cpp`)

Heights and vector sizes are `size_t`; they are `Nat` here. A height is the checkpoint's
height plus the number of headers above it, so it stays far below `2^64`; where the index
arithmetic of the code would go below zero the embedding stops with `none`. -/

/-- Library enumeration `inventory_vector::type_id`. -/
inductive inventory_type_id where
  | error
  | transaction
  | block
  | filtered_block
  | compact_block
deriving DecidableEq, Repr

/-- Library class `inventory_vector`. -/
structure inventory_vector where
  type : inventory_type_id
  hash : hash_digest
deriving DecidableEq, Repr

/-- Library message `inventory`: the list `inventories()`. -/
abbrev inventory := List inventory_vector

/-- Method `std::vector::resize`: cut to `n` elements, or filled up to `n` with `fill`. -/
def vector_resize {α : Type} (n : Nat) (fill : α) (v : List α) : List α :=
  v.take n ++ List.replicate (n - v.length) fill

/-- The update `v[i] = f(v[i])` of an element of a vector, for `i` below its size. -/
def modify_at {α : Type} (f : α → α) : Nat → List α → List α
  | _, [] => []
  | 0, x :: xs => f x :: xs
  | i + 1, x :: xs => x :: modify_at f i xs

/-- The statement `known_blocks_[k] = v`: `operator[]` default-constructs the header of a new
key, `lite_header::operator=` then assigns to it. -/
def map_assign (k : hash_digest) (v : lite_header) (m : List (hash_digest × lite_header)) :
    List (hash_digest × lite_header) :=
  map_modify k (fun e => e.assign v) (map_emplace hash_lt k lite_header.default m)

/-- What the body of the loop of `chain_sync_state::merge` does with one header. -/
inductive merge_step_result where
  /-- The header fails `check`: `merge` returns the code. -/
  | rejected (ec : code)
  /-- The header is known already, or its parent is not known: nothing changes. -/
  | skipped
  /-- The header is inserted under the hash `id`. -/
  | inserted (id : hash_digest) (state : chain_sync_state)
  /-- The parent's height is below `starting_height_ - 1`: the index arithmetic wraps. -/
  | wrapped
deriving DecidableEq, Repr

/-- What one call of `chain_sync_state::merge` does: the code returned (`none` when the index
arithmetic wraps), the tracker afterwards and the messages handed to
`broadcaster_->broadcast_to_pb`. -/
structure merge_result where
  ec : Option code
  state : chain_sync_state
  broadcast : List inventory
deriving DecidableEq, Repr

namespace chain_sync_state

/-- Constructor of `chain_sync_state`. -/
def construct (cenv : chain_environment) (last_checkpoint : lite_header) : chain_sync_state :=
  ⟨last_checkpoint.height,
    modify_at (set_insert hash_lt (last_checkpoint.hash cenv).1) 0 (vector_resize 1 [] []),
    map_assign (last_checkpoint.hash cenv).1 last_checkpoint []⟩

/-- The body of the loop of `chain_sync_state::merge`, with the wall clock as argument. -/
def merge_step (cenv : chain_environment) (time : Nat) (self : chain_sync_state)
    (h : header) : merge_step_result :=
  let lh := lite_header.from_header h
  let (ec, lh) := lh.check cenv time
  if ec ≠ code.success then merge_step_result.rejected ec
  else
    let (id, lh) := lh.hash cenv
    match map_find id self.known_blocks_ with
    | some _ => merge_step_result.skipped
    | none =>
      match map_find lh.previous_block_hash_ self.known_blocks_ with
      | none => merge_step_result.skipped
      | some parent =>
        let height := parent.height + 1
        if height < self.starting_height_ then merge_step_result.wrapped
        else
          let lh := { lh with height := height }
          let chain :=
            if self.chain_.length ≤ height then
              vector_resize (height - self.starting_height_ + 1) [] self.chain_
            else self.chain_
          let known := map_assign id lh self.known_blocks_
          let chain := modify_at (set_insert hash_lt id) (height - self.starting_height_) chain
          merge_step_result.inserted id ⟨self.starting_height_, chain, known⟩

/-- The loop of `chain_sync_state::merge` from a given state of its variables `count` and
`latest_header_id`, and the statements after it. -/
def merge_from (cenv : chain_environment) (time : Nat) :
    chain_sync_state → Nat → hash_digest → List header → merge_result
  | self, count, latest_header_id, [] =>
    if count > 0 then
      ⟨some code.success, self, [[⟨inventory_type_id.block, latest_header_id⟩]]⟩
    else ⟨some code.success, self, []⟩
  | self, count, latest_header_id, h :: rest =>
    match merge_step cenv time self h with
    | merge_step_result.rejected ec => ⟨some ec, self, []⟩
    | merge_step_result.skipped => merge_from cenv time self count latest_header_id rest
    | merge_step_result.inserted id state => merge_from cenv time state (count + 1) id rest
    | merge_step_result.wrapped => ⟨none, self, []⟩

/-- Method `chain_sync_state::merge`, on the elements of the `headers` message and with the
wall clock as argument. -/
def merge (cenv : chain_environment) (time : Nat) (self : chain_sync_state)
    (elements : List header) : merge_result :=
  merge_from cenv time self 0 null_hash elements

/-- The test of the downward loops: the set is not empty and its first member is not the null
hash. -/
def slot_usable (slot : List hash_digest) : Bool :=
  match slot with
  | [] => false
  | first :: _ => decide (first ≠ null_hash)

/-- The loop `for (size_t i = start; i >= 0; i--)` of `get_last_known_block_hash` and
`get_known_block_hashes`: the first usable slot from index `i` downwards; `none` when the
index leaves the vector, as it does when it wraps below zero. -/
def scan_down (chain : List (List hash_digest)) : Nat → Option (List hash_digest)
  | 0 =>
    match chain[0]? with
    | none => none
    | some slot => if slot_usable slot then some slot else none
  | i + 1 =>
    match chain[i + 1]? with
    | none => none
    | some slot => if slot_usable slot then some slot else scan_down chain i

/-- Method `chain_sync_state::get_last_known_block_hash`; `none` when the loop index leaves
the vector. -/
def get_last_known_block_hash (self : chain_sync_state) : Option (List hash_digest) :=
  scan_down self.chain_ (self.chain_.length - 1)

/-- The body of the loop of `get_top_height`: `none` when `find` yields `end()`, which the
code dereferences. -/
def top_height_step (self : chain_sync_state) (max_height : Option Nat) (h : hash_digest) :
    Option Nat :=
  match max_height with
  | none => none
  | some m =>
    if h ≠ null_hash then
      match map_find h self.known_blocks_ with
      | none => none
      | some e => if e.height > m then some e.height else some m
    else some m

/-- Method `chain_sync_state::get_top_height`. -/
def get_top_height (self : chain_sync_state) : Option Nat :=
  match self.get_last_known_block_hash with
  | none => none
  | some top => top.foldl (top_height_step self) (some 0)

/-- Method `chain_sync_state::get_height_by_id`. -/
def get_height_by_id (self : chain_sync_state) (id : hash_digest) : Option Nat :=
  (map_find id self.known_blocks_).map fun e => e.height

/-- Method `chain_sync_state::get_prev_hash_by_id`. -/
def get_prev_hash_by_id (self : chain_sync_state) (id : hash_digest) : Option hash_digest :=
  (map_find id self.known_blocks_).map fun e => e.previous_block_hash_

end chain_sync_state

/-! ### Queries by height and by clock -/

namespace chain_sync_state

/-- Method `chain_sync_state::get_known_block_hashes`: the empty set for a height outside
the vector, else the downward loop from the index of the height; `none` when the loop index
leaves the vector. -/
def get_known_block_hashes (self : chain_sync_state) (height : Nat) :
    Option (List hash_digest) :=
  if height < self.starting_height_ then some []
  else if height - self.starting_height_ ≥ self.chain_.length then some []
  else scan_down self.chain_ (height - self.starting_height_)

/-- The test of `is_synchronized` on one member of a slot: the header is found and
`now > timestamp && (now - 600) < timestamp`, the difference taken in `uint32_t`. -/
def is_recent (self : chain_sync_state) (now : Nat) (id : hash_digest) : Bool :=
  match map_find id self.known_blocks_ with
  | none => false
  | some e => decide (now > e.timestamp_) && decide ((now + 2 ^ 32 - 600) % 2 ^ 32 < e.timestamp_)

/-- The loop `for (size_t pos = ...; pos > 0; pos--)` of `is_synchronized` from the index
`pos` downwards: the first slot that is not empty decides. -/
def scan_synchronized (self : chain_sync_state) (now : Nat) : Nat → Bool
  | 0 => false
  | pos + 1 =>
    match self.chain_[pos + 1]? with
    | none => false
    | some slot =>
      if slot ≠ [] then slot.any (self.is_recent now)
      else scan_synchronized self now pos

/-- Method `chain_sync_state::is_synchronized`, with the value `time(nullptr)` as argument. -/
def is_synchronized (self : chain_sync_state) (time : Nat) : Bool :=
  if self.chain_.length = 0 then false
  else scan_synchronized self (time % 2 ^ 32) (self.chain_.length - 1)

end chain_sync_state

/-! ### Queries on the top set -/

namespace chain_sync_state

/-- The body of the loop of `get_latest_timestamp`: `none` when `find` yields `end()`, which
the code dereferences. -/
def latest_timestamp_step (self : chain_sync_state) (latest_timestamp : Option Nat)
    (h : hash_digest) : Option Nat :=
  match latest_timestamp with
  | none => none
  | some t =>
    if h ≠ null_hash then
      match map_find h self.known_blocks_ with
      | none => none
      | some e => if e.timestamp_ > t then some e.timestamp_ else some t
    else some t

/-- Method `chain_sync_state::get_latest_timestamp`. -/
def get_latest_timestamp (self : chain_sync_state) : Option Nat :=
  match self.get_last_known_block_hash with
  | none => none
  | some top => top.foldl (latest_timestamp_step self) (some 0)

/-- The body of the loop of `get_top_checkpoint` on the variables `id_at_max_height` and
`max_height`: `none` when `find` yields `end()`, which the code dereferences. The hash is
`hash()` of the stored header. -/
def top_checkpoint_step (cenv : chain_environment) (self : chain_sync_state)
    (vars : Option (hash_digest × Nat)) (h : hash_digest) : Option (hash_digest × Nat) :=
  match vars with
  | none => none
  | some (id_at_max_height, max_height) =>
    if h ≠ null_hash then
      match map_find h self.known_blocks_ with
      | none => none
      | some e =>
        if e.height > max_height then some ((e.hash cenv).1, e.height)
        else some (id_at_max_height, max_height)
    else some (id_at_max_height, max_height)

/-- Method `chain_sync_state::get_top_checkpoint`: the hash and the height of the checkpoint
returned. -/
def get_top_checkpoint (cenv : chain_environment) (self : chain_sync_state) :
    Option (hash_digest × Nat) :=
  match self.get_last_known_block_hash with
  | none => none
  | some top => top.foldl (top_checkpoint_step cenv self) (some (null_hash, 0))

end chain_sync_state

/-! ## Header-sync protocol (`src/protocol_lite_header_sync.cpp`)

The handlers are functions of the tracker `chain_state_` and of the message; what they send
on the channel is part of their result. -/

/-- Library constant `max_get_headers`. -/
def max_get_headers : Nat := 2000

/-- Library message `get_headers`. -/
structure get_headers where
  start_hashes : List hash_digest
  stop_hash : hash_digest
deriving DecidableEq, Repr

namespace protocol_lite_header_sync

/-- The loop of `request_missing_headers` over the top set: the value returned and the
requests sent. -/
def request_loop (last : hash_digest) : List hash_digest → Bool × List get_headers
  | [] => (true, [])
  | first :: rest =>
    if first ≠ last then
      let (result, sent) := request_loop last rest
      (result, ⟨[first], last⟩ :: sent)
    else (false, [])

/-- Method `request_missing_headers`; `none` when `get_last_known_block_hash` has no
result. -/
def request_missing_headers (chain_state : chain_sync_state) (last : hash_digest) :
    Option (Bool × List get_headers) :=
  match chain_state.get_last_known_block_hash with
  | none => none
  | some known_headers => some (request_loop last known_headers)

/-- The loop of `handle_receive_get_headers` that replaces an unknown `stop` by the first
member of the top set that is not the null hash. -/
def first_not_null (stop : hash_digest) : List hash_digest → hash_digest
  | [] => stop
  | h :: rest => if h ≠ null_hash then h else first_not_null stop rest

/-- The body of the loop over `start_list`, on the variables `lh`, `max_height` and
`known_start`: `get_header_by_id` assigns the header found to `lh`, whose `hash()` is taken
when its height is above `max_height`. -/
def known_start_step (cenv : chain_environment) (chain_state : chain_sync_state)
    (vars : lite_header × Nat × hash_digest) (start : hash_digest) :
    lite_header × Nat × hash_digest :=
  match chain_state.get_header_by_id start with
  | none => vars
  | some found =>
    let lh := vars.1.assign found
    if lh.height > vars.2.1 then
      let (id, lh) := lh.hash cenv
      (lh, lh.height, id)
    else (lh, vars.2.1, vars.2.2)

/-- The loop `while (missing_headers.front() != known_start)`, on the list split into its
front and the rest: `some (some ids)` is the list it ends with, `some none` the return after
a failed `get_prev_hash_by_id`, and `none` stands for no end within the given number of
rounds. -/
def walk_back (chain_state : chain_sync_state) (known_start : hash_digest) :
    Nat → hash_digest → List hash_digest → Option (Option (List hash_digest))
  | 0, _, _ => none
  | fuel + 1, front, rest =>
    if front ≠ known_start then
      match chain_state.get_prev_hash_by_id front with
      | none => some none
      | some prev =>
        if prev = known_start then some (some (front :: rest))
        else walk_back chain_state known_start fuel prev (front :: rest)
    else some (some (front :: rest))

/-- The loop that fills `new_msg.elements()`; `none` is the return after a failed
`get_header_by_id`. -/
def collect_headers (chain_state : chain_sync_state) :
    List hash_digest → List header → Option (List header)
  | [], elements => some elements
  | id :: rest, elements =>
    match chain_state.get_header_by_id id with
    | none => none
    | some found =>
      let lh := lite_header.default.assign found
      let elements := elements ++ [header.factory_from_data (lh.to_data true)]
      if elements.length = max_get_headers then some elements
      else collect_headers chain_state rest elements

/-- The part of `handle_receive_get_headers` after `stop` is settled: the `headers` messages
sent, `none` when the walk back from `stop` does not end. The walk is given one round more
than `known_blocks_` has entries: every round but the last finds another key. -/
def answer_from (cenv : chain_environment) (chain_state : chain_sync_state)
    (start_list : List hash_digest) (lh : lite_header) (stop : hash_digest) :
    Option (List (List header)) :=
  let (_, _, known_start) :=
    start_list.foldl (known_start_step cenv chain_state) (lh, 0, null_hash)
  if known_start = null_hash then some []
  else
    match walk_back chain_state known_start (chain_state.known_blocks_.length + 1) stop [] with
    | none => none
    | some none => some []
    | some (some missing_headers) =>
      match collect_headers chain_state missing_headers [] with
      | none => some []
      | some elements => if elements ≠ [] then some [elements] else some []

/-- Method `handle_receive_get_headers` on a channel that is not stopped: the `headers`
messages sent; `none` when a loop has no result. -/
def handle_receive_get_headers (cenv : chain_environment) (chain_state : chain_sync_state)
    (message : get_headers) : Option (List (List header)) :=
  match chain_state.get_header_by_id message.stop_hash with
  | some found =>
    answer_from cenv chain_state message.start_hashes (lite_header.default.assign found)
      message.stop_hash
  | none =>
    match chain_state.get_last_known_block_hash with
    | none => none
    | some top =>
      let stop := first_not_null message.stop_hash top
      if stop = null_hash then some []
      else answer_from cenv chain_state message.start_hashes lite_header.default stop

end protocol_lite_header_sync

/-- Library conversion `std::error_code::operator bool`: true when the code is not
`success`. -/
def code.to_bool (ec : code) : Bool := decide (ec ≠ code.success)

/-- What one call of `protocol_lite_header_sync::handle_receive_headers` does: the tracker
afterwards, the inventories handed to the broadcaster by `merge`, the codes passed to
`complete` and the requests sent. -/
structure headers_result where
  state : chain_sync_state
  broadcast : List inventory
  completed : List code
  sent : List get_headers
deriving DecidableEq, Repr

/-- Method `protocol_lite_header_sync::handle_receive_headers` on a channel that is not
stopped, with the wall clock as argument; `none` when `merge` or `request_missing_headers`
has no result. -/
def protocol_lite_header_sync.handle_receive_headers (cenv : chain_environment) (time : Nat)
    (chain_state : chain_sync_state) (message : List header) : Option headers_result :=
  let merged := chain_state.merge cenv time message
  match merged.ec with
  | none => none
  | some ec =>
    let completed := if !ec.to_bool then [code.invalid_previous_block] else []
    if message.length = max_get_headers then
      match protocol_lite_header_sync.request_missing_headers merged.state null_hash with
      | none => none
      | some (_, sent) => some ⟨merged.state, merged.broadcast, completed, sent⟩
    else some ⟨merged.state, merged.broadcast, completed ++ [code.success], []⟩

/-! ## Pin-sync protocol (`src/protocol_pinboard_sync.cpp`) -/

/-- The body of the loops of `pinboard::for_each`: the payload handed to `handler`, `none`
when the id is not found, where the code dereferences `end()`. -/
def pinboard.for_each_step (self : pinboard) (visited : Option (List object_payload))
    (id : hash_digest) : Option (List object_payload) :=
  match visited with
  | none => none
  | some ops =>
    match map_find id self.objects_ with
    | none => none
    | some details => some (ops ++ [details.object_])

/-- Method `pinboard::for_each`: the payloads handed to `handler`, bucket by bucket. -/
def pinboard.for_each (self : pinboard) : Option (List object_payload) :=
  self.buckets_.foldl (fun visited bucket => bucket.2.foldl self.for_each_step visited)
    (some [])

namespace protocol_pinboard_sync

/-- The loop `for (size_t i = ...; i >= 0; i--)` of `handle_receive_inventory` from the index
`i` downwards: the first entry of type block; `none` when the index leaves the list, as it
does when it wraps below zero. -/
def scan_tail (inventories : List inventory_vector) : Nat → Option inventory_vector
  | 0 =>
    match inventories[0]? with
    | none => none
    | some entry => if entry.type = inventory_type_id.block then some entry else none
  | i + 1 =>
    match inventories[i + 1]? with
    | none => none
    | some entry =>
      if entry.type = inventory_type_id.block then some entry else scan_tail inventories i

/-- The body of the loop over `oldest_known_hashes` on the variable `max_old_height`. -/
def max_old_height_step (chain_state : chain_sync_state) (max_old_height : Nat)
    (h : hash_digest) : Nat :=
  if h = null_hash then max_old_height
  else
    match chain_state.get_height_by_id h with
    | none => max_old_height
    | some height => if height > max_old_height then height else max_old_height

/-- The handler passed to `for_each`: whether the payload is sent. -/
def in_window (chain_state : chain_sync_state) (max_old_height new_height : Nat)
    (op : object_payload) : Bool :=
  match chain_state.get_height_by_id op.get_anchor with
  | none => false
  | some anchor_height => decide (anchor_height > max_old_height ∧ anchor_height ≤ new_height)

/-- What one call of `handle_receive_inventory` does: the member `oldest_known_hashes`
afterwards and the objects sent. -/
structure inventory_result where
  oldest_known_hashes : List hash_digest
  sent : List object
deriving DecidableEq, Repr

/-- Method `protocol_pinboard_sync::handle_receive_inventory` on a channel that is not
stopped; `none` when a loop has no result. The call `oldest_known_hashes.empty()` is a query
and leaves the set as it is. -/
def handle_receive_inventory (chain_state : chain_sync_state) (store : pinboard)
    (oldest_known_hashes : List hash_digest) (inventories : List inventory_vector) :
    Option inventory_result :=
  if inventories = [] then some ⟨oldest_known_hashes, []⟩
  else
    match scan_tail inventories (inventories.length - 1) with
    | none => none
    | some entry =>
      let max_old_height :=
        oldest_known_hashes.foldl (max_old_height_step chain_state) 0
      let new_hash := entry.hash
      match chain_state.get_height_by_id new_hash with
      | none => some ⟨oldest_known_hashes, []⟩
      | some new_height =>
        if new_height > max_old_height then
          let oldest := set_insert hash_lt new_hash oldest_known_hashes
          match store.for_each with
          | none => none
          | some ops =>
            some ⟨oldest,
              (ops.filter (in_window chain_state max_old_height new_height)).map
                fun op => ⟨op.copy⟩⟩
        else some ⟨oldest_known_hashes, []⟩

end protocol_pinboard_sync

namespace protocol_pinboard_sync

/-- What one call of `send_object` does: the value returned, the member
`oldest_known_hashes` afterwards, the `headers` messages and the objects sent. -/
structure send_result where
  result : Bool
  oldest_known_hashes : List hash_digest
  sent_headers : List (List header)
  sent_objects : List object
deriving DecidableEq, Repr

/-- The loop `while (oldest_known_hashes.find(h) == end)` of `send_object`, on `h` and the
list `missing_headers` (front first): `some (some ids)` is the list it ends with, `some none`
the return after a failed `get_prev_hash_by_id`, and `none` stands for no end within the
given number of rounds. -/
def collect_missing (chain_state : chain_sync_state) (oldest_known_hashes : List hash_digest) :
    Nat → hash_digest → List hash_digest → Option (Option (List hash_digest))
  | 0, _, _ => none
  | fuel + 1, h, missing_headers =>
    if h ∉ oldest_known_hashes then
      match chain_state.get_prev_hash_by_id h with
      | none => some none
      | some prev => collect_missing chain_state oldest_known_hashes fuel prev
          (h :: missing_headers)
    else some (some missing_headers)

/-- The two nested loops of `send_object` that empty `missing_headers` from its back; the
list is given back first. A message is sent when it holds 2000 headers, and
`oldest_known_hashes` becomes the set of the id just popped; the rest is sent after the
loop, and `oldest_known_hashes` becomes the set of the hash of the last header of the
message. The result tells whether every `get_header_by_id` succeeded. -/
def send_headers (cenv : chain_environment) (chain_state : chain_sync_state) :
    List hash_digest → List header → List hash_digest → List (List header) →
    Bool × List hash_digest × List (List header)
  | [], elements, oldest_known_hashes, sent =>
    match elements.getLast? with
    | none => (true, oldest_known_hashes, sent)
    | some last => (true, [cenv.bitcoin_hash last.to_data], sent ++ [elements])
  | id :: rest, elements, oldest_known_hashes, sent =>
    match chain_state.get_header_by_id id with
    | none => (false, oldest_known_hashes, sent)
    | some found =>
      let lh := lite_header.default.assign found
      let elements := elements ++ [header.factory_from_data (lh.to_data true)]
      if elements.length = 2000 then
        send_headers cenv chain_state rest [] [id] (sent ++ [elements])
      else send_headers cenv chain_state rest elements oldest_known_hashes sent

/-- Method `protocol_pinboard_sync::send_object`; `none` when the walk back from the anchor
does not end. The walk is given two rounds more than `known_blocks_` has entries: every
round but the last two finds another key. -/
def send_object (cenv : chain_environment) (chain_state : chain_sync_state)
    (oldest_known_hashes : List hash_digest) (op : object_payload) : Option send_result :=
  let anchor := op.get_anchor
  match chain_state.get_height_by_id anchor with
  | none => some ⟨false, oldest_known_hashes, [], []⟩
  | some _ =>
    match collect_missing chain_state oldest_known_hashes
        (chain_state.known_blocks_.length + 2) anchor [] with
    | none => none
    | some none => some ⟨false, oldest_known_hashes, [], []⟩
    | some (some missing_headers) =>
      match send_headers cenv chain_state missing_headers.reverse [] oldest_known_hashes [] with
      | (false, oldest, sent) => some ⟨false, oldest, sent, []⟩
      | (true, oldest, sent) => some ⟨true, oldest, sent, [⟨op.copy⟩]⟩

/-- The statements of `protocol_pinboard_sync::start` on `oldest_known_hashes`, for a peer
with the pinboard service bit, with `peer_version()->start_height()` as argument: the set
afterwards; `none` when `get_known_block_hashes` has no result. -/
def start (chain_state : chain_sync_state) (peer_start_height : Nat)
    (oldest_known_hashes : List hash_digest) : Option (List hash_digest) :=
  match chain_state.get_known_block_hashes peer_start_height with
  | none => none
  | some hashes =>
    match hashes with
    | [] => some oldest_known_hashes
    | first :: _ => if first ≠ null_hash then some hashes else some oldest_known_hashes

end protocol_pinboard_sync

/-! ## Miner (`src/miner.cpp`), for the instance `miner<default_pow>` that `main` uses -/

namespace miner

/-- The loop `for (nonce = start_nonce; nonce < max; nonce++)` of `start_mining`, where
`nonce` is the member `pow_.nonce_` of the payload: `rounds` is the number of nonces left
below `numeric_limits<uint64_t>::max()`. The result is the code handed to `handler` and the
payload; `none` when `get_last_known_block_hash` has no result. -/
def mine (env : environment) (chain_state : chain_sync_state) (target : Nat) :
    Nat → object_payload → Option (code × object_payload)
  | 0, obj => some (code.success, obj)
  | rounds + 1, obj =>
    match chain_state.get_last_known_block_hash with
    | none => none
    | some [] => some (code.unknown, obj)
    | some (first :: _) =>
      let obj := { obj with pow_ := { obj.pow_ with anchor_ := first } }
      let (data, obj) := obj.serialize_id_and_pow env
      let h := env.scrypt data
      if to_uint256 h < target then some (code.success, obj)
      else mine env chain_state target rounds
        { obj with pow_ := { obj.pow_ with nonce_ := obj.pow_.nonce_ + 1 } }

/-- Method `miner::start_mining`, with the random `start_nonce` as argument: the code and the
payload handed to `handler`; `none` when the division of the work estimate raises or a loop
has no result. -/
def start_mining (env : environment) (chain_state : chain_sync_state) (target : Nat)
    (start_nonce : Nat) (obj : object_payload) : Option (code × object_payload) :=
  let obj := { obj with pow_ :=
    { obj.pow_ with type_ := default_pow.type, tag_ := chain_tag.litecoin_main } }
  match work_done_of target with
  | none => none
  | some _ =>
    mine env chain_state target (2 ^ 64 - 1 - start_nonce)
      { obj with pow_ := { obj.pow_ with nonce_ := start_nonce } }

end miner

/-! ## Address cache of the node (`src/lite_node.cpp`) -/

/-- Library class `network_address`, as far as `lite_node::store` reads it. -/
structure network_address where
  ip : data_chunk
  port : Nat
  services : Nat
deriving DecidableEq, Repr

/-- The member `peers_`, a `boost::circular_buffer`: its capacity and its elements, oldest
first. -/
structure circular_buffer where
  capacity : Nat
  items : List network_address
deriving DecidableEq, Repr

/-- Method `circular_buffer::push_back`: when the buffer is full the oldest element is
overwritten, and a buffer of capacity zero stays empty. -/
def circular_buffer.push_back (self : circular_buffer) (x : network_address) :
    circular_buffer :=
  if self.items.length < self.capacity then { self with items := self.items ++ [x] }
  else if self.capacity = 0 then self
  else { self with items := self.items.tail ++ [x] }

/-- Library function `ceiling_add` on `size_t`: the sum, or the largest value when the sum
overflows. -/
def ceiling_add (a b : Nat) : Nat := if a + b < 2 ^ 64 then a + b else 2 ^ 64 - 1

namespace lite_node

/-- The function `find` of `lite_node.cpp`: whether an entry with the port and the ip of
`host` is in the list. -/
def find (list : List network_address) (host : network_address) : Bool :=
  list.any fun entry => decide (entry.port = host.port) && decide (entry.ip = host.ip)

/-- What the loop of `lite_node::store` has done: the buffer `peers_`, the counter
`accepted` and the indices it visited, in order. -/
structure store_result where
  peers : circular_buffer
  accepted : Nat
  visited : List Nat
deriving DecidableEq, Repr

/-- The loop `for (index = 0; index < usable; index = ceiling_add(index, step))` of
`lite_node::store` from the index `index`, given as many rounds as there are indices;
`is_valid` is the library method `network_address::is_valid`. -/
def store_loop (is_valid : network_address → Bool) (addresses : List network_address)
    (usable step : Nat) : Nat → Nat → store_result → store_result
  | 0, _, r => r
  | rounds + 1, index, r =>
    if index < usable then
      let r := { r with visited := r.visited ++ [index] }
      let r :=
        match addresses[index]? with
        | none => r
        | some host =>
          if !is_valid host then r
          else if !find r.peers.items host then
            { r with accepted := r.accepted + 1, peers := r.peers.push_back host }
          else r
      store_loop is_valid addresses usable step rounds (ceiling_add index step) r
    else r

/-- Method `lite_node::store` on a node that is not stopped, up to the call of the default
host store, with the value of `pseudo_random(1, usable)` as argument; `none` when the
division by `accept` is a division by zero. -/
def store (is_valid : network_address → Bool) (random : Nat) (peers : circular_buffer)
    (addresses : List network_address) : Option store_result :=
  let capacity := peers.capacity
  let usable := min addresses.length capacity
  let gap := capacity - peers.items.length
  let accept := max gap random
  if accept = 0 then none
  else
    let step := max (usable / accept) 1
    some (store_loop is_valid addresses usable step usable 0 ⟨peers, 0, []⟩)

end lite_node

/-! ## Value ranges and sample values -/

/-- The ranges that the C++ types give the fields of a payload: `size_t` lengths, a
`uint64_t` nonce and `uint32_t` enumerations. -/
def object_payload.in_range (p : object_payload) : Prop :=
  p.body_.length < 2 ^ 64 ∧ p.body_id_.digest_.length < 2 ^ 64 ∧ p.body_id_.fn_code_ < 2 ^ 32
    ∧ p.pow_.type_ < 2 ^ 32 ∧ p.pow_.tag_ < 2 ^ 32 ∧ p.pow_.nonce_ < 2 ^ 64

instance (p : object_payload) : Decidable p.in_range := by
  unfold object_payload.in_range; infer_instance

/-- The hash whose byte at index `k` is `b` and whose other bytes are zero. -/
def unit_hash (k : Fin 32) (b : byte) : hash_digest :=
  ⟨List.replicate k.val 0 ++ [b] ++ List.replicate (31 - k.val) 0, by
    simp only [List.length_append, List.length_replicate, List.length_singleton]; omega⟩

/-- The hash of 32 bytes `0xff`, the number `2 ^ 256 - 1`. -/
def ones_hash : hash_digest := ⟨List.replicate 32 0xff, by simp⟩

/-- A certificate of the default type anchored at `unit_hash 0 1`. -/
def sample_certificate : pow_certificate :=
  ⟨pow_type.scrypt_14_1_8, chain_tag.litecoin_main, unit_hash 0 1, 7⟩

/-- A valid payload that holds a body and a filled-in `body_id_` at once, as a payload with
a body does once `get_body_id` has run (here under `sample_environment`, whose `sha256_hash`
is constant). -/
def sample_payload : object_payload :=
  ⟨validation.default, [0x61], ⟨digest_type.sha2_256, (unit_hash 0 1).val⟩, sample_certificate⟩

/-- A valid payload without body, announced by its `body_id_` alone. -/
def sample_id_payload : object_payload :=
  ⟨validation.default, [], ⟨digest_type.sha2_256, [1, 2, 3]⟩, sample_certificate⟩

/-- An environment whose `scrypt` yields the hash `h` on every input and whose
`sha256_hash` yields `unit_hash 0 1`; `MIN_TARGET` is `2 ^ 250`. -/
def sample_environment (h : hash_digest) : environment :=
  ⟨fun _ => unit_hash 0 1, fun _ => h, 2 ^ 250⟩

/-! ## What admission computes for a payload -/

/-- The PoW value that `pinboard::process` obtains: `get_pow_value` on its copy of the payload. -/
def pow_value (env : environment) (p : object_payload) : Nat := (p.copy.get_pow_value env).1

/-- The work done that `pinboard::process` obtains: `get_work_done` on its copy of the payload. -/
def work_done (env : environment) (p : object_payload) : Option Nat :=
  (p.copy.get_work_done env).1

/-- The identifier that `pinboard::process` obtains: `get_id` on its copy of the payload. -/
def object_id (env : environment) (p : object_payload) : hash_digest := (p.copy.get_id env).1

/-- The time to live `calc_ttl(work_done(p), serialized_size(p))` of a payload. -/
def ttl (env : environment) (p : object_payload) : Option Nat :=
  (work_done env p).bind fun w => pinboard.calc_ttl w p.serialized_size

/-- The payload that `pinboard::process` moves into the store: the copy whose `body_id_` has
been filled in by `get_body_id`, its caches empty again after the move. -/
def stored_payload (env : environment) (p : object_payload) : object_payload :=
  (p.copy.get_body_id env).2.copy

/-- The pin stores that arise from the empty store through calls of `process` (on any object,
with any tracker and clock value) and of `cleanup` (at any clock value). -/
inductive reachable (env : environment) : pinboard → Prop
  | empty : reachable env pinboard.empty
  | process (chain_state : chain_sync_state) (time : Nat) (obj : object) (pb : pinboard) :
      reachable env pb → reachable env (pinboard.process env chain_state time pb obj).store
  | cleanup (time : Nat) (pb : pinboard) :
      reachable env pb → reachable env (pinboard.cleanup time pb)

/-- A header with the given timestamp. -/
def sample_header (timestamp : Nat) : lite_header :=
  ⟨1, null_hash, null_hash, timestamp, 0, 0, 0, 0, none, none⟩

/-- A tracker that knows one header, of the given timestamp, under the hash `unit_hash 0 1`,
the anchor of `sample_certificate`. -/
def sample_tracker (timestamp : Nat) : chain_sync_state :=
  ⟨0, [[unit_hash 0 1]], [(unit_hash 0 1, sample_header timestamp)]⟩

/-- An empty tracker. -/
def empty_tracker : chain_sync_state := ⟨0, [], []⟩

/-- The store after one pin of PoW value `2 ^ 128` (time to live 86400), anchored at a header
of timestamp 1000, has been accepted at clock value 2000. -/
def sample_store : pinboard :=
  (pinboard.process (sample_environment (unit_hash 16 1)) (sample_tracker 1000) 2000
    pinboard.empty ⟨sample_payload⟩).store

/-- The entry of `objects_` that `sample_store` holds. -/
def sample_entry : hash_digest × object_details :=
  (object_id (sample_environment (unit_hash 16 1)) sample_payload,
    ⟨stored_payload (sample_environment (unit_hash 16 1)) sample_payload, 87552, 1000, 86400⟩)

/-- The store after the same pin, anchored at a header of timestamp `2^32 - 86500`, has been
accepted at clock value `2^32 - 87296`: its expiry is `2^32 - 100`. -/
def late_store : pinboard :=
  (pinboard.process (sample_environment (unit_hash 16 1)) (sample_tracker 4294880796)
    4294880000 pinboard.empty ⟨sample_payload⟩).store

/-- The entry of `objects_` that `late_store` holds. -/
def late_entry : hash_digest × object_details :=
  (object_id (sample_environment (unit_hash 16 1)) sample_payload,
    ⟨stored_payload (sample_environment (unit_hash 16 1)) sample_payload, 0, 4294880796, 86400⟩)

/-! ## What `merge` computes for a header, and the trackers it builds -/

/-- The hash under which `merge` files a header of a `headers` message: `hash()` of the
`lite_header` built from it. -/
def header_hash (cenv : chain_environment) (h : header) : hash_digest :=
  ((lite_header.from_header h).hash cenv).1

/-- The previous-block hash that `merge` reads from a header of a `headers` message. -/
def header_prev (h : header) : hash_digest :=
  (lite_header.from_header h).previous_block_hash_

/-- Whether a header of a `headers` message passes `check` at the given wall clock. -/
def passes_check (cenv : chain_environment) (time : Nat) (h : header) : Prop :=
  ((lite_header.from_header h).check cenv time).1 = code.success

instance (cenv : chain_environment) (time : Nat) (h : header) :
    Decidable (passes_check cenv time h) := by
  unfold passes_check; infer_instance

/-- The headers form a line that starts at the hash `prev`: the first one names `prev` as its
previous block, each later one the hash of the one before. -/
def linked (cenv : chain_environment) : hash_digest → List header → Prop
  | _, [] => True
  | prev, h :: rest => header_prev h = prev ∧ linked cenv (header_hash cenv h) rest

instance (cenv : chain_environment) (prev : hash_digest) (hs : List header) :
    Decidable (linked cenv prev hs) := by
  induction hs generalizing prev with
  | nil => unfold linked; infer_instance
  | cons h rest ih => unfold linked; exact @instDecidableAnd _ _ _ (ih _)

/-- The hashes of the headers that one call of `merge` inserts into `known_blocks_`, in the
order of insertion. -/
def merge_inserted (cenv : chain_environment) (time : Nat) :
    chain_sync_state → List header → List hash_digest
  | _, [] => []
  | self, h :: rest =>
    match chain_sync_state.merge_step cenv time self h with
    | merge_step_result.rejected _ => []
    | merge_step_result.skipped => merge_inserted cenv time self rest
    | merge_step_result.inserted id state => id :: merge_inserted cenv time state rest
    | merge_step_result.wrapped => []

/-- The trackers that arise from the constructor on the checkpoint `cp` through calls of
`merge`, on any batch and at any wall clock. -/
inductive tracker_reachable (cenv : chain_environment) (cp : lite_header) :
    chain_sync_state → Prop
  | construct : tracker_reachable cenv cp (chain_sync_state.construct cenv cp)
  | merge (time : Nat) (elements : List header) (st : chain_sync_state) :
      tracker_reachable cenv cp st →
      tracker_reachable cenv cp (chain_sync_state.merge cenv time st elements).state

/-- The header that `merge` stores for a header of a `headers` message at the given height:
a default header to which `operator=` assigned the fields and `validation`. -/
def stored_header (h : header) (height : Nat) : lite_header :=
  lite_header.default.assign { lite_header.from_header h with height := height }

/-- A tracker on the checkpoint `cp` that holds, besides it, the headers `done` in one line:
one slot with one hash per height, the top header filed at the height of the checkpoint plus
the number of headers, and no other key in `known_blocks_`. -/
def linear_tracker (cenv : chain_environment) (cp : lite_header) (done : List header)
    (st : chain_sync_state) : Prop :=
  st.starting_height_ = cp.height ∧
  st.chain_ = [(cp.hash cenv).1] :: done.map (fun h => [header_hash cenv h]) ∧
  (∃ e, map_find ((done.map (header_hash cenv)).getLastD (cp.hash cenv).1) st.known_blocks_
      = some e ∧ e.height = cp.height + done.length) ∧
  (∀ k, (map_find k st.known_blocks_).isSome →
    k = (cp.hash cenv).1 ∨ k ∈ done.map (header_hash cenv)) ∧
  map_find (cp.hash cenv).1 st.known_blocks_ = some (lite_header.default.assign cp) ∧
  (∀ x ∈ done, ∃ ht, 0 < ht ∧
    map_find (header_hash cenv x) st.known_blocks_ = some (stored_header x ht)) ∧
  st.known_blocks_.length = done.length + 1

/-- The tracker `st` after the headers of a line were filed one after the other, the first
one at the height after `height`: one more slot with the hash and one more entry of
`known_blocks_` for each. -/
def line_from (cenv : chain_environment) : chain_sync_state → Nat → List header →
    chain_sync_state
  | st, _, [] => st
  | st, height, h :: rest =>
    line_from cenv
      ⟨st.starting_height_, st.chain_ ++ [[header_hash cenv h]],
        map_insert hash_lt (header_hash cenv h) (stored_header h (height + 1))
          st.known_blocks_⟩
      (height + 1) rest

/-- The tracker `b` after it merged, one after the other, the given `headers` messages;
`none` when a `merge` has no result. -/
def merge_all (cenv : chain_environment) (time : Nat) :
    chain_sync_state → List (List header) → Option chain_sync_state
  | b, [] => some b
  | b, message :: rest =>
    match (chain_sync_state.merge cenv time b message).ec with
    | none => none
    | some _ => merge_all cenv time (chain_sync_state.merge cenv time b message).state rest

/-- The requests of `b` answered by `a`, each answer merged by `b` before the next request is
answered. -/
def answer_all (cenv : chain_environment) (time : Nat) (a : chain_sync_state) :
    chain_sync_state → List get_headers → Option chain_sync_state
  | b, [] => some b
  | b, request :: rest =>
    match protocol_lite_header_sync.handle_receive_get_headers cenv a request with
    | none => none
    | some sent =>
      match merge_all cenv time b sent with
      | none => none
      | some b2 => answer_all cenv time a b2 rest

/-- One round of header sync between the tracker `a` of the peer and the tracker `b`:
`request_missing_headers(null_hash)` on `b`, `handle_receive_get_headers` on `a` for every
request sent, `merge` on `b` for every answer, at the wall clock `time` of `b`. -/
def sync_round (cenv : chain_environment) (time : Nat) (a b : chain_sync_state) :
    Option chain_sync_state :=
  match protocol_lite_header_sync.request_missing_headers b null_hash with
  | none => none
  | some (_, requests) => answer_all cenv time a b requests

/-- Rounds of header sync repeated until `b` stops changing, `none` when that takes more than
the given number of rounds or a round has no result. -/
def sync (cenv : chain_environment) (time : Nat) (a : chain_sync_state) :
    Nat → chain_sync_state → Option chain_sync_state
  | 0, _ => none
  | rounds + 1, b =>
    match sync_round cenv time a b with
    | none => none
    | some b2 => if b2 = b then some b else sync cenv time a rounds b2

/-! ## Trackers built from chosen headers, paths and served headers -/

/-- The trackers that arise from the constructor on the checkpoint `cp` through calls of
`merge` on batches of headers that all have the property `P`. -/
inductive tracker_reachable_by (cenv : chain_environment) (cp : lite_header)
    (P : header → Prop) : chain_sync_state → Prop
  | construct : tracker_reachable_by cenv cp P (chain_sync_state.construct cenv cp)
  | merge (time : Nat) (elements : List header) (st : chain_sync_state) :
      (∀ h ∈ elements, P h) → tracker_reachable_by cenv cp P st →
      tracker_reachable_by cenv cp P (chain_sync_state.merge cenv time st elements).state

/-- The hashes `path` follow one another along the previous-block hashes of the tracker,
starting after `k`: `k` is the previous hash of the first one, each one the previous hash of
the next. -/
def prev_path (st : chain_sync_state) : hash_digest → List hash_digest → Prop
  | _, [] => True
  | k, p :: rest => st.get_prev_hash_by_id p = some k ∧ prev_path st p rest

instance (st : chain_sync_state) (k : hash_digest) (path : List hash_digest) :
    Decidable (prev_path st k path) := by
  induction path generalizing k with
  | nil => unfold prev_path; infer_instance
  | cons p rest ih => unfold prev_path; exact @instDecidableAnd _ _ _ (ih _)

/-- The header that the handlers put into a `headers` message for a stored header: the local
`lite_header` assigned from it, serialized and read back as a `chain::header`. -/
def wire_header (e : lite_header) : header :=
  header.factory_from_data ((lite_header.default.assign e).to_data true)
/-! ## Payloads that the interface of `object_payload` produces -/

/-- Constructor `object_payload(const std::string&)`: the bytes of the string become the
body. -/
def object_payload.from_string (str : data_chunk) : object_payload :=
  ⟨validation.default, str, multihash.default, pow_certificate.default⟩

/-- The payloads that arise through the interface of the class: `body_`, `body_id_` and
`pow_` are private, written by the constructors, `reset`, `from_data`, move assignment and
`get_body_id` only, and by the miner, a friend, which writes fields of `pow_`;
`validation` is a public mutable member. -/
inductive constructible (env : environment) : object_payload → Prop
  | default : constructible env object_payload.default
  | from_string (str : data_chunk) : constructible env (object_payload.from_string str)
  | copy (p : object_payload) : constructible env p → constructible env p.copy
  | reset (p : object_payload) : constructible env p → constructible env p.reset
  | from_data (p : object_payload) (source : reader) :
      constructible env p → constructible env (p.from_data source).2.1
  | get_body_id (p : object_payload) :
      constructible env p → constructible env (p.get_body_id env).2
  | set_pow (p : object_payload) (c : pow_certificate) :
      constructible env p → constructible env { p with pow_ := c }
  | set_validation (p : object_payload) (v : validation) :
      constructible env p → constructible env { p with validation := v }

/-! ## Pin store: the ids visited and the branch `isn't found` of `cleanup` -/

/-- The ids that the loops of `pinboard::for_each` go through: those of the buckets, in the
order of the buckets. -/
def pinboard.visited_ids (pb : pinboard) : List hash_digest :=
  pb.buckets_.flatMap fun bucket => bucket.2

/-- The ids for which the inner loop of `pinboard::cleanup` takes its branch `isn't found`,
on the objects as the loop has them. -/
def pinboard.erase_ids_missed :
    List hash_digest → List (hash_digest × object_details) → List hash_digest
  | [], _ => []
  | id :: rest, objects =>
    match map_find id objects with
    | some _ => pinboard.erase_ids_missed rest (map_erase id objects)
    | none => id :: pinboard.erase_ids_missed rest objects

/-- The ids for which the first loop of `pinboard::cleanup` takes its branch `isn't found`. -/
def pinboard.sweep_missed (now : Nat) :
    List (Nat × List hash_digest) → List (hash_digest × object_details) → List hash_digest
  | [], _ => []
  | bucket :: rest, objects =>
    if bucket.1 > now then pinboard.sweep_missed now rest objects
    else pinboard.erase_ids_missed bucket.2 objects
      ++ pinboard.sweep_missed now rest (pinboard.erase_ids bucket.2 objects)

/-- The ids for which `pinboard::cleanup` logs `isn't found`, with the value `time(nullptr)`
as argument. -/
def pinboard.cleanup_missed (time : Nat) (pb : pinboard) : List hash_digest :=
  pinboard.sweep_missed (time % 2 ^ 32) pb.buckets_ pb.objects_

/-- The agreement of the two maps of the pin store: every id listed in a bucket is a key of
`objects_` that records the key of the bucket, every key of `objects_` is listed in the
bucket it records, the keys of the buckets ascend, no bucket is empty or lists an id twice,
and no key of `objects_` occurs twice. -/
structure store_agrees (pb : pinboard) : Prop where
  listed_is_stored : ∀ b ∈ pb.buckets_, ∀ id ∈ b.2,
    ∃ d, map_find id pb.objects_ = some d ∧ d.bucket_id_ = b.1
  stored_is_listed : ∀ e ∈ pb.objects_, ∃ b ∈ pb.buckets_, b.1 = e.2.bucket_id_ ∧ e.1 ∈ b.2
  buckets_ascending : pb.buckets_.Pairwise fun a b => a.1 < b.1
  bucket_is_set : ∀ b ∈ pb.buckets_, b.2.Nodup ∧ b.2 ≠ []
  objects_is_map : (pb.objects_.map Prod.fst).Nodup

/-! ## The tracker and the set `oldest_known_hashes` of a channel -/

/-- The pairs of a tracker and the member `oldest_known_hashes` of a pin-sync protocol that
arise together: the tracker from the constructor on the checkpoint `cp` by merges, the set,
empty when the protocol is constructed, by `start`, `handle_receive_inventory` (on any pin
store) and `send_object`, the only writers of the private member. -/
inductive peer_reachable (cenv : chain_environment) (cp : lite_header) :
    chain_sync_state → List hash_digest → Prop
  | construct (st : chain_sync_state) :
      tracker_reachable cenv cp st → peer_reachable cenv cp st []
  | merge (time : Nat) (elements : List header) (st : chain_sync_state)
      (oldest : List hash_digest) :
      peer_reachable cenv cp st oldest →
      peer_reachable cenv cp (chain_sync_state.merge cenv time st elements).state oldest
  | start (peer_start_height : Nat) (st : chain_sync_state) (oldest hashes : List hash_digest) :
      peer_reachable cenv cp st oldest →
      protocol_pinboard_sync.start st peer_start_height oldest = some hashes →
      peer_reachable cenv cp st hashes
  | inventory (store : pinboard) (inventories : List inventory_vector)
      (st : chain_sync_state) (oldest : List hash_digest)
      (r : protocol_pinboard_sync.inventory_result) :
      peer_reachable cenv cp st oldest →
      protocol_pinboard_sync.handle_receive_inventory st store oldest inventories = some r →
      peer_reachable cenv cp st r.oldest_known_hashes
  | send (op : object_payload) (st : chain_sync_state) (oldest : List hash_digest)
      (r : protocol_pinboard_sync.send_result) :
      peer_reachable cenv cp st oldest →
      protocol_pinboard_sync.send_object cenv st oldest op = some r →
      peer_reachable cenv cp st r.oldest_known_hashes

/-! ## Value ranges and sample values for headers -/

/-- The ranges that `uint32_t` gives the four integer fields of a header. -/
def lite_header.in_range (h : lite_header) : Prop :=
  h.version_ < 2 ^ 32 ∧ h.timestamp_ < 2 ^ 32 ∧ h.bits_ < 2 ^ 32 ∧ h.nonce_ < 2 ^ 32

instance (h : lite_header) : Decidable h.in_range := by
  unfold lite_header.in_range; infer_instance

/-- The 32 bytes found at the given offset of a chunk, zeros past its end. -/
def field_hash (offset : Nat) (data : data_chunk) : hash_digest :=
  ⟨((data.drop offset) ++ List.replicate 32 0).take 32, by
    simp only [List.length_take, List.length_append, List.length_replicate]; omega⟩

/-- A stand-in for the library: the double SHA-256 of a serialized header is its merkle field
(offset 36), its scrypt hash the 12 bytes after it; every compact `bits` decodes to the target
`2^256 - 1`, which is also `pow_limit`. -/
def sample_chain_environment : chain_environment :=
  ⟨field_hash 36, field_hash 68, fun _ => some (2 ^ 256 - 1), 2 ^ 256 - 1⟩

/-- A header whose merkle field, hence whose hash under `sample_chain_environment`, is
`unit_hash 0 b`. -/
def sample_lite_header (b : byte) : lite_header :=
  lite_header.construct 1 null_hash (unit_hash 0 b) 1000 0 0

/-- A payload with a body whose certificate carries the type value 3, `max_pow_type`. -/
def bad_type_payload : object_payload :=
  ⟨validation.default, [0x61], multihash.default,
    ⟨pow_type.max_pow_type, chain_tag.litecoin_main, unit_hash 0 1, 7⟩⟩

/-- The header message element with the given previous hash whose merkle field, hence whose
hash under `sample_chain_environment`, is `unit_hash 0 b`. -/
def sample_message_header (prev : hash_digest) (b : byte) : header :=
  ⟨1, prev, unit_hash 0 b, 1000, 0, 0⟩

/-- A checkpoint of height 10 and hash `unit_hash 0 1`. -/
def sample_checkpoint : lite_header :=
  { sample_lite_header 1 with height := 10 }

/-- The tracker on `sample_checkpoint` after a merge of two headers in line: hashes
`unit_hash 0 2` (height 11) and `unit_hash 0 3` (height 12). -/
def sample_chain_state : chain_sync_state :=
  (chain_sync_state.merge sample_chain_environment 2000
    (chain_sync_state.construct sample_chain_environment sample_checkpoint)
    [sample_message_header (unit_hash 0 1) 2, sample_message_header (unit_hash 0 2) 3]).state

/-- A header message element like `sample_message_header` with the timestamp 10000, which is
more than two hours past the wall clock 2000. -/
def future_message_header (prev : hash_digest) (b : byte) : header :=
  ⟨1, prev, unit_hash 0 b, 10000, 0, 0⟩

/-- The tracker on `sample_checkpoint` after a merge of two headers on top of the checkpoint:
hashes `unit_hash 0 2` and `unit_hash 0 3`, both at height 11. -/
def sample_fork_state : chain_sync_state :=
  (chain_sync_state.merge sample_chain_environment 2000
    (chain_sync_state.construct sample_chain_environment sample_checkpoint)
    [sample_message_header (unit_hash 0 1) 2, sample_message_header (unit_hash 0 1) 3]).state

/-- The tracker on `sample_checkpoint` after a merge of three headers in line: hashes
`unit_hash 0 2` (height 11), `unit_hash 0 3` (height 12) and `unit_hash 0 4` (height 13). -/
def sample_long_state : chain_sync_state :=
  (chain_sync_state.merge sample_chain_environment 2000
    (chain_sync_state.construct sample_chain_environment sample_checkpoint)
    [sample_message_header (unit_hash 0 1) 2, sample_message_header (unit_hash 0 2) 3,
      sample_message_header (unit_hash 0 3) 4]).state

/-- A checkpoint object with the fields of `sample_checkpoint` that was assigned to a header
on which `hash()` had been called: its `hash()` is still `unit_hash 0 9`, while its bytes
hash to `unit_hash 0 1`. -/
def stale_checkpoint : lite_header :=
  ((sample_lite_header 9).hash sample_chain_environment).2.assign sample_checkpoint

/-- The tracker on `stale_checkpoint` after a merge of one header on top of it, with the
hash `unit_hash 0 2`. -/
def stale_chain_state : chain_sync_state :=
  (chain_sync_state.merge sample_chain_environment 2000
    (chain_sync_state.construct sample_chain_environment stale_checkpoint)
    [sample_message_header (unit_hash 0 9) 2]).state
/-! ## Sample values for the sender of pins, the miner and the address ring -/

/-- The payload `sample_payload` anchored at `unit_hash 0 b`. -/
def anchored_payload (b : byte) : object_payload :=
  { sample_payload with pow_ := { sample_payload.pow_ with anchor_ := unit_hash 0 b } }

/-- The address with the ip `[n]` and the port 8333. -/
def sample_address (n : byte) : network_address := ⟨[n], 8333, 0⟩

/-- A ring of capacity 10 that holds 8 addresses. -/
def sample_ring : circular_buffer :=
  ⟨10, [sample_address 100, sample_address 101, sample_address 102, sample_address 103,
    sample_address 104, sample_address 105, sample_address 106, sample_address 107]⟩

/-- Twelve incoming addresses, the one at index 3 already in `sample_ring`. -/
def sample_addresses : List network_address :=
  [sample_address 0, sample_address 1, sample_address 2, sample_address 100,
    sample_address 4, sample_address 5, sample_address 6, sample_address 7,
    sample_address 8, sample_address 9, sample_address 10, sample_address 11]

/-- An environment whose `sha256_hash` yields the first 32 bytes of its input, so that
payloads with different anchors have different ids, and whose `scrypt` yields
`unit_hash 16 1`, the number `2 ^ 128`; `MIN_TARGET` is `2 ^ 250`. -/
def wide_environment : environment :=
  ⟨field_hash 0, fun _ => unit_hash 16 1, 2 ^ 250⟩

/-- The store after the pins `anchored_payload 2` and `anchored_payload 3` have been
accepted at clock value 2000 with the tracker `sample_chain_state`, whose headers have the
timestamp 1000. -/
def two_pin_store : pinboard :=
  (pinboard.process wide_environment sample_chain_state 2000
    (pinboard.process wide_environment sample_chain_state 2000 pinboard.empty
      ⟨anchored_payload 2⟩).store ⟨anchored_payload 3⟩).store

/-! # Properties -/

theorem length_to_little_endian (n v : Nat) : (to_little_endian n v).length = n := by
  induction n generalizing v with
  | zero => rfl
  | succ n ih => simp [to_little_endian, ih]

theorem from_to_little_endian (n v : Nat) :
    from_little_endian (to_little_endian n v) = v % 256 ^ n := by
  induction n generalizing v with
  | zero => simp [to_little_endian, from_little_endian, Nat.mod_one]
  | succ n ih =>
    simp only [to_little_endian, from_little_endian, ih]
    rw [pow_succ, Nat.mul_comm (256 ^ n) 256, Nat.mod_mul]

theorem read_little_endian_append (n v : Nat) (rest : data_chunk) :
    reader.read_little_endian n ⟨to_little_endian n v ++ rest, true⟩
      = (v % 256 ^ n, ⟨rest, true⟩) := by
  have hl := length_to_little_endian n v
  simp [reader.read_little_endian, hl, List.take_append_of_le_length, List.drop_append_of_le_length,
    from_to_little_endian]

theorem read_size_write_size (v : Nat) (hv : v < 2 ^ 64) (rest : data_chunk) :
    reader.read_size_little_endian ⟨write_size_little_endian v ++ rest, true⟩
      = (v, ⟨rest, true⟩) := by
  have e253 : ((253 : byte) : Nat) = 253 := rfl
  have e254 : ((254 : byte) : Nat) = 254 := rfl
  have e255 : ((255 : byte) : Nat) = 255 := rfl
  unfold reader.read_size_little_endian reader.read_variable_little_endian write_size_little_endian
  by_cases h1 : v < 0xfd
  · have : v % 256 = v := Nat.mod_eq_of_lt (by omega)
    simp only [h1, to_little_endian, reader.read_byte, this, if_true, List.cons_append,
      List.nil_append]
    rw [if_neg (by omega), if_neg (by omega), if_neg (by omega)]
  · by_cases h2 : v ≤ 0xffff
    · simp only [h1, h2, reader.read_byte, if_true, if_false, List.cons_append, e253]
      rw [read_little_endian_append, Nat.mod_eq_of_lt (by omega), if_neg (by decide),
        if_neg (by decide)]
    · by_cases h3 : v ≤ 0xffffffff
      · simp only [h1, h2, h3, reader.read_byte, if_true, if_false, List.cons_append, e254]
        rw [read_little_endian_append, Nat.mod_eq_of_lt (by omega), if_neg (by decide)]
      · simp only [h1, h2, h3, reader.read_byte, if_true, if_false, List.cons_append, e255]
        rw [read_little_endian_append, Nat.mod_eq_of_lt (by omega)]

theorem read_bytes_append (l rest : data_chunk) :
    reader.read_bytes l.length ⟨l ++ rest, true⟩ = (l, ⟨rest, true⟩) := by
  unfold reader.read_bytes
  by_cases h : l.length = 0
  · have : l = [] := List.length_eq_zero.mp h
    subst this; simp
  · simp [h]

theorem read_hash_append (h : hash_digest) (rest : data_chunk) :
    reader.read_hash ⟨h.val ++ rest, true⟩ = (h, ⟨rest, true⟩) := by
  obtain ⟨l, hl⟩ := h
  unfold reader.read_hash
  have h32 : 32 ≤ (l ++ rest).length := by simp [hl]
  simp only [h32, and_self, dite_true]
  have e1 : List.take 32 (l ++ rest) = l := by rw [← hl, List.take_left]
  have e2 : List.drop 32 (l ++ rest) = rest := by rw [← hl, List.drop_left]
  simp [e1, e2]

theorem multihash_from_data_to_data (m : multihash) (rest : data_chunk)
    (hc : m.fn_code_ < 2 ^ 32) (hd : m.digest_.length < 2 ^ 64) :
    multihash.from_data ⟨m.to_data ++ rest, true⟩ = (true, m, ⟨rest, true⟩) := by
  unfold multihash.from_data multihash.to_data
  simp only [List.append_assoc]
  rw [read_size_write_size _ (by omega)]
  simp only
  rw [read_size_write_size _ hd]
  simp only
  rw [read_bytes_append]
  have e : m.fn_code_ % 2 ^ 32 = m.fn_code_ := Nat.mod_eq_of_lt hc
  simp only [e, if_true]

theorem pow_certificate_from_data_to_data (c : pow_certificate) (rest : data_chunk)
    (ht : c.type_ < 2 ^ 32) (hg : c.tag_ < 2 ^ 32) (hn : c.nonce_ < 2 ^ 64) :
    pow_certificate.from_data ⟨c.to_data ++ rest, true⟩ = (true, c, ⟨rest, true⟩) := by
  unfold pow_certificate.from_data pow_certificate.to_data
  simp only [List.append_assoc]
  rw [read_size_write_size _ (by omega)]
  simp only
  rw [read_size_write_size _ (by omega)]
  simp only
  rw [read_hash_append]
  simp only
  rw [read_little_endian_append]
  have e1 : c.type_ % 2 ^ 32 = c.type_ := Nat.mod_eq_of_lt ht
  have e2 : c.tag_ % 2 ^ 32 = c.tag_ := Nat.mod_eq_of_lt hg
  have e3 : c.nonce_ % 256 ^ 8 = c.nonce_ := Nat.mod_eq_of_lt (by omega)
  simp only [e1, e2, e3, if_true]
theorem multihash_eq_iff (a b : multihash) : a.eq b = true ↔ a = b := by
  cases a; cases b; simp [multihash.eq]

theorem pow_certificate_eq_iff (a b : pow_certificate) : a.eq b = true ↔ a = b := by
  cases a; cases b; simp [pow_certificate.eq, and_assoc]

theorem object_payload_eq_iff (a b : object_payload) :
    a.eq b = true ↔ a.body_ = b.body_ ∧ a.body_id_ = b.body_id_ ∧ a.pow_ = b.pow_ := by
  simp [object_payload.eq, multihash_eq_iff, pow_certificate_eq_iff, and_assoc]

theorem is_valid_iff (p : object_payload) :
    p.is_valid = true ↔
      (p.body_ ≠ [] ∨ p.body_id_.digest_ ≠ []) ∧ p.body_id_.fn_code_ < digest_type.max_digest_type
        ∧ p.pow_.type_ < pow_type.max_pow_type ∧ p.pow_.tag_ < chain_tag.max_chain_tag
        ∧ p.pow_.anchor_ ≠ null_hash := by
  simp only [object_payload.is_valid, multihash.empty, multihash.is_valid,
    pow_certificate.is_valid, Bool.and_eq_true, Bool.or_eq_true, Bool.not_eq_true',
    decide_eq_true_eq, List.isEmpty_eq_true, and_assoc]
  constructor
  · rintro ⟨h, rest⟩
    refine ⟨?_, rest⟩
    rcases h with ⟨_, h⟩ | h
    · right; intro e; simp [e] at h
    · left; intro e; simp [e] at h
  · rintro ⟨h, rest⟩
    refine ⟨?_, rest⟩
    by_cases hb : p.body_ = []
    · left; refine ⟨hb, ?_⟩
      rcases h with h | h
      · exact absurd hb h
      · cases hd : p.body_id_.digest_ with
        | nil => exact absurd hd h
        | cons _ _ => rfl
    · right
      cases hd : p.body_ with
      | nil => exact absurd hd hb
      | cons _ _ => rfl

theorem object_payload_from_data_to_data (self p : object_payload) (rest : data_chunk)
    (hr : p.in_range) :
    self.from_data ⟨p.to_data ++ rest, true⟩
      = (true,
          ⟨self.validation, p.body_,
            if p.body_.isEmpty then p.body_id_ else multihash.default, p.pow_⟩,
          ⟨rest, true⟩) := by
  obtain ⟨hb, hd, hc, ht, hg, hn⟩ := hr
  have e : p.to_data ++ rest = write_size_little_endian p.body_.length
      ++ ((if !p.body_.isEmpty then p.body_ else p.body_id_.to_data) ++ (p.pow_.to_data ++ rest)) := by
    unfold object_payload.to_data
    simp only [List.append_assoc]
  rw [e]
  unfold object_payload.from_data
  rw [read_size_write_size _ hb]
  cases hbody : p.body_ with
  | nil =>
    have h1 : multihash.from_data ⟨p.body_id_.to_data ++ (p.pow_.to_data ++ rest), true⟩ = _ :=
      multihash_from_data_to_data _ _ hc hd
    have h2 : pow_certificate.from_data ⟨p.pow_.to_data ++ rest, true⟩ = _ :=
      pow_certificate_from_data_to_data _ _ ht hg hn
    simp [h1, h2, object_payload.reset]
  | cons b bs =>
    have h1 : reader.read_bytes (b :: bs).length ⟨(b :: bs) ++ (p.pow_.to_data ++ rest), true⟩ = _ :=
      read_bytes_append _ _
    have h2 : pow_certificate.from_data ⟨p.pow_.to_data ++ rest, true⟩ = _ :=
      pow_certificate_from_data_to_data _ _ ht hg hn
    simp only [List.length_cons, List.cons_append] at h1
    simp [h1, h2, object_payload.reset]

/-- C1, as amended: for every payload `p` within the ranges of the C++ types, parsing
`to_data(p)` with `from_data` succeeds and yields the body and the PoW certificate of `p`;
the parsed `body_id_` is that of `p` when the body is empty and the default (empty) multihash
when the body is not, so the result equals `p` under `operator==` exactly when the body of `p`
is empty or the `body_id_` of `p` is the default multihash. -/
theorem object_payload_round_trip (self p : object_payload) (hr : p.in_range) :
    (self.from_data_chunk p.to_data).1 = true
      ∧ (self.from_data_chunk p.to_data).2.body_ = p.body_
      ∧ (self.from_data_chunk p.to_data).2.pow_ = p.pow_
      ∧ (self.from_data_chunk p.to_data).2.body_id_
          = (if p.body_.isEmpty then p.body_id_ else multihash.default)
      ∧ ((self.from_data_chunk p.to_data).2.eq p = true
          ↔ (p.body_ = [] ∨ p.body_id_ = multihash.default)) := by
  have h := object_payload_from_data_to_data self p [] hr
  rw [List.append_nil] at h
  have hc : self.from_data_chunk p.to_data
      = (true, ⟨self.validation, p.body_,
          if p.body_.isEmpty then p.body_id_ else multihash.default, p.pow_⟩) := by
    unfold object_payload.from_data_chunk reader.open
    rw [h]
  rw [hc]
  refine ⟨rfl, rfl, rfl, rfl, ?_⟩
  rw [object_payload_eq_iff]
  cases hb : p.body_ with
  | nil => simp
  | cons b bs =>
    simp only [List.isEmpty_cons, Bool.false_eq_true, if_false, true_and, and_true]
    constructor
    · intro e; exact Or.inr e.symm
    · rintro (e | e)
      · exact absurd e (by simp)
      · exact e.symm

/-- C1, witness: a valid payload without body is parsed back equal under `operator==`. -/
theorem object_payload_round_trip_witness :
    sample_id_payload.in_range ∧ sample_id_payload.is_valid = true
      ∧ (object_payload.default.from_data_chunk sample_id_payload.to_data).2.eq
          sample_id_payload = true :=
  ⟨by decide, by decide,
    (object_payload_round_trip object_payload.default sample_id_payload (by decide)).2.2.2.2.mpr
      (Or.inl rfl)⟩

/-- C1, counterexample: a valid payload that holds a body and a non-empty `body_id_` is
parsed back with the default `body_id_`, hence unequal under `operator==`. -/
theorem object_payload_round_trip_fails :
    sample_payload.is_valid = true ∧ sample_payload.in_range
      ∧ (object_payload.default.from_data_chunk sample_payload.to_data).1 = true
      ∧ (object_payload.default.from_data_chunk sample_payload.to_data).2.eq sample_payload
          = false := by
  decide

/-! ## Work done and time to live -/

theorem work_done_of_eq (v : Nat) (h : v < 2 ^ 256 - 1) :
    work_done_of v = some ((2 ^ 256 / (v + 1)) % 2 ^ 256) := by
  have hlt : v + 1 < 2 ^ 256 := by omega
  have hq : (2 ^ 256 - 1 - v) / (v + 1) + 1 = 2 ^ 256 / (v + 1) := by
    have e : 2 ^ 256 = (2 ^ 256 - 1 - v) + (v + 1) := by omega
    conv_rhs => rw [e]
    rw [Nat.add_div_right _ (Nat.succ_pos v)]
  unfold work_done_of uint256_div
  rw [Nat.mod_eq_of_lt hlt, if_neg (Nat.succ_ne_zero v)]
  simp only [Option.map_some']
  rw [hq]

theorem work_done_of_floor (v : Nat) (h1 : 1 ≤ v) (h2 : v < 2 ^ 256 - 1) :
    work_done_of v = some (2 ^ 256 / (v + 1)) := by
  rw [work_done_of_eq v h2]
  congr 1
  apply Nat.mod_eq_of_lt
  apply Nat.div_lt_self (by positivity) (by omega)

theorem work_done_of_none (v : Nat) (h : v = 2 ^ 256 - 1) : work_done_of v = none := by
  subst h
  decide

theorem get_pow_value_validation (env : environment) (p : object_payload) :
    (p.get_pow_value env).2.validation.pow_value = (p.get_pow_value env).1 := by
  unfold object_payload.get_pow_value
  split <;> rfl

theorem get_work_done_eq (env : environment) (p : object_payload)
    (h0 : p.validation.work_done = 0) :
    (p.get_work_done env).1 = work_done_of (p.get_pow_value env).1 := by
  unfold object_payload.get_work_done
  rw [if_pos h0, ← get_pow_value_validation]
  simp only
  split <;> simp_all

/-- C4, as amended: for every pow_value `v` with `1 <= v < 2^256 - 1`, the work done computed
by `object_payload::get_work_done` (on a payload whose work cache is empty) and by
`pow_certificate::calculate_work_done` is the floor of `2^256 / (v + 1)`. -/
theorem work_done_is_floor (env : environment) (p : object_payload) (c : pow_certificate)
    (chunk : data_chunk) (v : Nat) (h1 : 1 ≤ v) (h2 : v < 2 ^ 256 - 1) :
    (p.validation.work_done = 0 → (p.get_pow_value env).1 = v →
        (p.get_work_done env).1 = some (2 ^ 256 / (v + 1)))
      ∧ (to_uint256 (c.calculate_pow_hash env chunk) = v →
        c.calculate_work_done env chunk = some (2 ^ 256 / (v + 1))) := by
  constructor
  · intro h0 hv
    rw [get_work_done_eq env p h0, hv, work_done_of_floor v h1 h2]
  · intro hv
    unfold pow_certificate.calculate_work_done
    rw [hv, work_done_of_floor v h1 h2]

/-- C4, witness: with a PoW hash of value `2 ^ 128` the work done is `2^256 / (2^128 + 1)`. -/
theorem work_done_is_floor_witness :
    (sample_payload.get_work_done (sample_environment (unit_hash 16 1))).1
        = some (2 ^ 256 / (2 ^ 128 + 1))
      ∧ sample_certificate.calculate_work_done (sample_environment (unit_hash 16 1)) []
        = some (2 ^ 256 / (2 ^ 128 + 1)) :=
  ⟨(work_done_is_floor (sample_environment (unit_hash 16 1)) sample_payload sample_certificate
      [] (2 ^ 128) (by decide) (by decide)).1 (by decide) (by decide),
    (work_done_is_floor (sample_environment (unit_hash 16 1)) sample_payload sample_certificate
      [] (2 ^ 128) (by decide) (by decide)).2 (by decide)⟩

/-- C4, counterexample: at pow_value 2 the work done is `(2^256 - 1) / 3`, one less than the
ceiling of `2^256 / 3`, which is `(2^256 + 2) / 3`. -/
theorem work_done_not_ceiling :
    (sample_payload.get_pow_value (sample_environment (unit_hash 0 2))).1 = 2
      ∧ (sample_payload.get_work_done (sample_environment (unit_hash 0 2))).1
          = some ((2 ^ 256 - 1) / 3)
      ∧ sample_certificate.calculate_work_done (sample_environment (unit_hash 0 2)) []
          = some ((2 ^ 256 - 1) / 3)
      ∧ (2 ^ 256 - 1) / 3 + 1 = (2 ^ 256 + 2) / 3
      ∧ 3 * ((2 ^ 256 + 2) / 3 - 1) < 2 ^ 256 ∧ 2 ^ 256 ≤ 3 * ((2 ^ 256 + 2) / 3) := by
  decide

theorem calc_ttl_eq (w s : Nat) (hs : 1 ≤ s) (hw : default_pow.pow_mul * w < 2 ^ 256) :
    pinboard.calc_ttl w s = some (min 86400 (default_pow.pow_mul * w / s)) := by
  unfold pinboard.calc_ttl uint256_div
  rw [if_neg (by omega), Nat.mod_eq_of_lt hw]
  simp only [Option.map_some', Option.some.injEq]
  by_cases h : default_pow.pow_mul * w / s > 60 * 60 * 24
  · rw [if_pos h]; omega
  · rw [if_neg h, Nat.mod_eq_of_lt (by omega)]; omega

theorem calc_ttl_le (w s ttl : Nat) (h : pinboard.calc_ttl w s = some ttl) : ttl ≤ 86400 := by
  unfold pinboard.calc_ttl uint256_div at h
  by_cases hs : s = 0
  · simp [hs] at h
  · rw [if_neg hs] at h
    simp only [Option.map_some', Option.some.injEq] at h
    split at h
    · omega
    · rename_i hle
      rw [← h]
      exact le_trans (Nat.mod_le _ _) (by omega)

/-- C3, the failing input: for `work_done = 2^255` and `size = 44` the 256-bit product
`30 * work_done` wraps to 0, so `calc_ttl` yields 0, whereas over the unbounded integers
`min(86400, 30 * work_done / size)` is 86400. -/
theorem calc_ttl_wraps :
    pinboard.calc_ttl (2 ^ 255) 44 = some 0
      ∧ min 86400 (default_pow.pow_mul * 2 ^ 255 / 44) = 86400 := by
  decide

theorem hash_val_isEmpty (h : hash_digest) : h.val.isEmpty = false := by
  obtain ⟨l, hl⟩ := h
  cases l with
  | nil => simp at hl
  | cons _ _ => rfl

theorem body_of_valid_of_empty_id (val : validation) (body : data_chunk) (bid : multihash)
    (pow : pow_certificate) (hb : bid.empty = true)
    (hv : (object_payload.mk val body bid pow).is_valid = true) : body.isEmpty = false := by
  cases h : body.isEmpty
  · rfl
  · simp [object_payload.is_valid, hb, h] at hv

theorem get_work_done_fresh (env : environment) (ph id : hash_digest) (val : validation)
    (body : data_chunk) (bid : multihash) (pow : pow_certificate) :
    ((object_payload.mk ⟨0, 0, ph, id⟩ body bid pow).get_work_done env).1
        = work_done_of (pow_value env ⟨val, body, bid, pow⟩)
      ∧ ((((object_payload.mk ⟨0, 0, ph, id⟩ body bid pow).get_work_done env).2.get_pow_value
            env).1 = pow_value env ⟨val, body, bid, pow⟩)
      ∧ ((((object_payload.mk ⟨0, 0, ph, id⟩ body bid pow).get_work_done env).2.get_pow_value
            env).2.copy = stored_payload env ⟨val, body, bid, pow⟩)
      ∧ ((((object_payload.mk ⟨0, 0, ph, id⟩ body bid pow).get_work_done env).2.get_pow_value
            env).2.get_anchor = pow.anchor_)
      ∧ ((object_payload.mk val body bid pow).is_valid = true →
          ((object_payload.mk ⟨0, 0, ph, id⟩ body bid pow).get_work_done env).2.serialized_size
            = (object_payload.mk val body bid pow).serialized_size) := by
  by_cases hb : bid.empty = true
  · simp only [object_payload.copy, validation.default,
        object_payload.get_work_done, object_payload.get_pow_value, object_payload.get_body_id,
        pow_value, stored_payload, object_payload.get_anchor, if_true, hb]
    cases hw : work_done_of (to_uint256 (pow.calculate_pow_hash env
        (multihash.mk digest_type.sha2_256 (env.sha256_hash body).val).to_data))
    · simp only [multihash.empty, hash_val_isEmpty, Bool.false_eq_true, if_false, if_true,
        ite_self, true_and]
      intro hv
      have hne := body_of_valid_of_empty_id val body bid pow hb hv
      simp [object_payload.serialized_size, hne]
    · simp only [multihash.empty, hash_val_isEmpty, Bool.false_eq_true, if_false, if_true,
        ite_self, true_and]
      intro hv
      have hne := body_of_valid_of_empty_id val body bid pow hb hv
      simp [object_payload.serialized_size, hne]
  · simp only [object_payload.copy, validation.default,
        object_payload.get_work_done, object_payload.get_pow_value, object_payload.get_body_id,
        pow_value, stored_payload, object_payload.get_anchor, if_true, if_false, hb]
    cases hw : work_done_of (to_uint256 (pow.calculate_pow_hash env bid.to_data))
    · simp only [hw, hb, Bool.false_eq_true, if_false, if_true, ite_self, true_and]
      intro _; rfl
    · simp only [hw, hb, Bool.false_eq_true, if_false, if_true, ite_self, true_and]
      intro _; rfl

theorem process_spec (env : environment) (tr : chain_sync_state) (t : Nat) (pb : pinboard)
    (obj : object) :
    pinboard.process env tr t pb obj =
      if obj.payload.is_valid = false then ⟨some code.bad_stream, pb, [], []⟩
      else if obj.payload.pow_.type_ ≠ default_pow.type then
        ⟨some code.invalid_proof_of_work, pb, [], []⟩
      else
        match work_done_of (pow_value env obj.payload) with
        | none => ⟨none, pb, [], []⟩
        | some w =>
          if pow_value env obj.payload > env.MIN_TARGET then
            ⟨some code.invalid_proof_of_work, pb, [], []⟩
          else
            match tr.get_header_by_id obj.payload.pow_.anchor_ with
            | none => ⟨some code.unknown, pb, [], []⟩
            | some header =>
              match pinboard.calc_ttl w obj.payload.serialized_size with
              | none => ⟨none, pb, [], []⟩
              | some ttl =>
                if t % 2 ^ 32 ≥ (header.timestamp + ttl) % 2 ^ 32 then
                  ⟨some code.unknown, pb, [], []⟩
                else
                  match pb.store_object (object_id env obj.payload)
                      ⟨stored_payload env obj.payload,
                        pinboard.calc_bucket_id ((header.timestamp + ttl) % 2 ^ 32),
                        header.timestamp, ttl⟩ with
                  | (false, s) => ⟨some code.success, s, [], []⟩
                  | (true, s) => ⟨some code.success, s, [obj], [(code.success, obj)]⟩ := by
  unfold pinboard.process
  by_cases hv : obj.payload.is_valid = false
  · have : obj.payload.copy.is_valid = false := hv
    simp [this, hv]
  · have hv1 : obj.payload.is_valid = true := by simpa using hv
    have hv' : obj.payload.copy.is_valid = true := hv1
    simp only [hv', hv1, Bool.not_true, Bool.false_eq_true, Bool.true_eq_false, if_false]
    obtain ⟨⟨val, body, bid, pow⟩⟩ := obj
    have hq : (object_payload.get_id env (object.mk ⟨val, body, bid, pow⟩).payload.copy)
        = (object_id env ⟨val, body, bid, pow⟩,
            ⟨⟨0, 0, null_hash, object_id env ⟨val, body, bid, pow⟩⟩, body, bid, pow⟩) := by
      simp [object.payload, object_payload.get_id, object_payload.copy, validation.default,
        object_id]
    rw [hq]
    simp only [object.payload, object_payload.get_pow_type]
    by_cases hty : pow.type_ ≠ default_pow.type
    · simp only [hty, if_true, ne_eq, not_false_eq_true]
    · simp only [hty, if_false]
      obtain ⟨h1, h2, h3, h4, h5⟩ := get_work_done_fresh env null_hash
        (object_id env ⟨val, body, bid, pow⟩) val body bid pow
      have h5 := h5 hv1
      rcases hwd : object_payload.get_work_done env
          ⟨⟨0, 0, null_hash, object_id env ⟨val, body, bid, pow⟩⟩, body, bid, pow⟩
        with ⟨_ | w, op⟩
      · rw [hwd] at h1
        simp only at h1
        rw [← h1]
      · rw [hwd] at h1 h2 h3 h4 h5
        simp only at h1 h2 h3 h4 h5
        rw [← h1]
        simp only [h2, h3, h4, h5]

/-! ## Ordered containers -/

theorem map_find_some_mem {K V : Type} [DecidableEq K] (k : K) (v : V) (m : List (K × V))
    (h : map_find k m = some v) : (k, v) ∈ m := by
  induction m with
  | nil => simp [map_find] at h
  | cons e rest ih =>
    unfold map_find at h
    by_cases he : e.1 = k
    · rw [if_pos he] at h
      have : e = (k, v) := by
        cases e; simp only [Option.some.injEq] at h; simp_all
      rw [this]; exact List.mem_cons_self _ _
    · rw [if_neg he] at h
      exact List.mem_cons_of_mem _ (ih h)

theorem map_find_none_iff {K V : Type} [DecidableEq K] (k : K) (m : List (K × V)) :
    map_find k m = none ↔ ∀ e ∈ m, e.1 ≠ k := by
  induction m with
  | nil => simp [map_find]
  | cons e rest ih =>
    unfold map_find
    by_cases he : e.1 = k
    · simp [he]
    · simp [he, ih]

theorem map_find_isSome_of_mem {K V : Type} [DecidableEq K] (k : K) (v : V) (m : List (K × V))
    (h : (k, v) ∈ m) : ∃ v', map_find k m = some v' := by
  cases hf : map_find k m with
  | some v' => exact ⟨v', rfl⟩
  | none => exact absurd rfl ((map_find_none_iff k m).mp hf _ h)

theorem mem_map_insert {K V : Type} (lt : K → K → Bool) (k : K) (v : V)
    (m : List (K × V)) (e : K × V) : e ∈ map_insert lt k v m ↔ e = (k, v) ∨ e ∈ m := by
  induction m with
  | nil => simp [map_insert]
  | cons a rest ih =>
    unfold map_insert
    by_cases hl : lt k a.1 = true
    · rw [if_pos hl]; simp
    · rw [if_neg hl]
      simp only [List.mem_cons, ih]
      tauto

theorem mem_map_emplace {K V : Type} [DecidableEq K] (lt : K → K → Bool) (k : K) (v : V)
    (m : List (K × V)) (e : K × V) (h : e ∈ map_emplace lt k v m) : e ∈ m ∨ e = (k, v) := by
  unfold map_emplace at h
  split at h
  · exact Or.inl h
  · exact ((mem_map_insert lt k v m e).mp h).symm

theorem mem_map_emplace_of_mem {K V : Type} [DecidableEq K] (lt : K → K → Bool) (k : K) (v : V)
    (m : List (K × V)) (e : K × V) (h : e ∈ m) : e ∈ map_emplace lt k v m := by
  unfold map_emplace
  split
  · exact h
  · exact (mem_map_insert lt k v m e).mpr (Or.inr h)

theorem mem_map_emplace_new {K V : Type} [DecidableEq K] (lt : K → K → Bool) (k : K) (v : V)
    (m : List (K × V)) (h : map_find k m = none) : (k, v) ∈ map_emplace lt k v m := by
  unfold map_emplace
  rw [h]
  exact (mem_map_insert lt k v m _).mpr (Or.inl rfl)

theorem map_emplace_of_found {K V : Type} [DecidableEq K] (lt : K → K → Bool) (k : K) (v v' : V)
    (m : List (K × V)) (h : map_find k m = some v') : map_emplace lt k v m = m := by
  unfold map_emplace
  rw [h]

theorem map_find_map_emplace {K V : Type} [DecidableEq K] (lt : K → K → Bool) (k : K) (v : V)
    (m : List (K × V)) : ∃ v', map_find k (map_emplace lt k v m) = some v' := by
  cases h : map_find k m with
  | some v' => exact ⟨v', by rw [map_emplace_of_found lt k v v' m h, h]⟩
  | none => exact map_find_isSome_of_mem k v _ (mem_map_emplace_new lt k v m h)

theorem mem_set_insert {K : Type} [DecidableEq K] (lt : K → K → Bool) (x y : K) (s : List K) :
    y ∈ set_insert lt x s ↔ y = x ∨ y ∈ s := by
  have hins : ∀ s : List K, y ∈ ordered_insert lt x s ↔ y = x ∨ y ∈ s := by
    intro s
    induction s with
    | nil => simp [ordered_insert]
    | cons a rest ih =>
      unfold ordered_insert
      by_cases hl : lt x a = true
      · rw [if_pos hl]; simp
      · rw [if_neg hl]
        simp only [List.mem_cons, ih]
        tauto
  unfold set_insert
  by_cases hx : x ∈ s
  · rw [if_pos hx]
    constructor
    · exact Or.inr
    · rintro (h | h)
      · exact h ▸ hx
      · exact h
  · rw [if_neg hx]; exact hins s

theorem mem_map_modify {K V : Type} [DecidableEq K] (k : K) (f : V → V) (m : List (K × V))
    (e : K × V) : e ∈ map_modify k f m ↔
      ∃ a ∈ m, e = (if a.1 = k then (a.1, f a.2) else a) := by
  unfold map_modify
  simp only [List.mem_map]
  constructor
  · rintro ⟨a, ha, he⟩; exact ⟨a, ha, he.symm⟩
  · rintro ⟨a, ha, he⟩; exact ⟨a, ha, he.symm⟩

/-! ## Eviction -/

theorem erase_found_eq (id : hash_digest) (objects : List (hash_digest × object_details)) :
    pinboard.erase_found id objects = objects.filter fun e => decide (e.1 ≠ id) := by
  unfold pinboard.erase_found
  cases h : map_find id objects with
  | some v => rfl
  | none =>
    simp only
    symm
    rw [List.filter_eq_self]
    intro e he
    simpa using (map_find_none_iff id objects).mp h e he

theorem erase_ids_eq (ids : List hash_digest) (objects : List (hash_digest × object_details)) :
    pinboard.erase_ids ids objects = objects.filter fun e => decide (e.1 ∉ ids) := by
  induction ids generalizing objects with
  | nil => simp [pinboard.erase_ids]
  | cons id ids ih =>
    have hstep : pinboard.erase_ids (id :: ids) objects
        = pinboard.erase_ids ids (objects.filter fun e => decide (e.1 ≠ id)) := by
      unfold pinboard.erase_ids
      rw [List.foldl_cons, erase_found_eq]
    rw [hstep, ih, List.filter_filter]
    apply List.filter_congr
    intro e _
    by_cases h1 : e.1 = id <;> by_cases h2 : e.1 ∈ ids <;> simp [h1, h2]

theorem sweep_eq (now : Nat) (buckets : List (Nat × List hash_digest))
    (objects : List (hash_digest × object_details)) (removed : List Nat) :
    buckets.foldl
        (fun acc bucket =>
          if bucket.1 > now then acc
          else (pinboard.erase_ids bucket.2 acc.1, acc.2 ++ [bucket.1]))
        (objects, removed)
      = (objects.filter fun e =>
            !(buckets.any fun b => decide (b.1 ≤ now) && decide (e.1 ∈ b.2)),
          removed ++ (buckets.filter fun b => decide (b.1 ≤ now)).map Prod.fst) := by
  induction buckets generalizing objects removed with
  | nil => simp
  | cons b rest ih =>
    rw [List.foldl_cons]
    by_cases hb : b.1 > now
    · rw [if_pos hb, ih]
      have hle : ¬ b.1 ≤ now := by omega
      simp [hle]
    · rw [if_neg hb, ih, erase_ids_eq, List.filter_filter]
      have hle : b.1 ≤ now := by omega
      simp only [hle, decide_True, List.filter_cons_of_pos, List.map_cons, List.append_assoc,
        List.singleton_append, List.any_cons, Bool.true_and, Bool.not_or, Prod.mk.injEq, and_true]
      apply List.filter_congr
      intro e _
      simp [Bool.and_comm]

theorem foldl_map_erase_eq {K V : Type} [DecidableEq K] (keys : List K) (m : List (K × V)) :
    keys.foldl (fun b k => map_erase k b) m = m.filter fun e => decide (e.1 ∉ keys) := by
  induction keys generalizing m with
  | nil => simp
  | cons k keys ih =>
    rw [List.foldl_cons, ih]
    unfold map_erase
    rw [List.filter_filter]
    apply List.filter_congr
    intro e _
    by_cases h1 : e.1 = k <;> by_cases h2 : e.1 ∈ keys <;> simp [h1, h2]

theorem cleanup_eq (time : Nat) (pb : pinboard) :
    (pinboard.cleanup time pb).buckets_
        = pb.buckets_.filter (fun b => decide (b.1 > time % 2 ^ 32))
      ∧ (pinboard.cleanup time pb).objects_
        = pb.objects_.filter (fun e =>
            !(pb.buckets_.any fun b => decide (b.1 ≤ time % 2 ^ 32) && decide (e.1 ∈ b.2))) := by
  have hs := sweep_eq (time % 2 ^ 32) pb.buckets_ pb.objects_ []
  unfold pinboard.cleanup pinboard.sweep
  simp only [hs, List.nil_append, and_true]
  rw [foldl_map_erase_eq]
  apply List.filter_congr
  intro e he
  simp only [List.mem_map, List.mem_filter, decide_eq_true_eq, decide_eq_decide, not_exists,
    not_and, and_imp]
  constructor
  · intro h
    by_contra hgt
    exact h e he (by omega) rfl
  · intro h a _ ha hea
    rw [hea] at ha
    omega

/-- C9: after `pinboard::cleanup` at clock value `now = time mod 2^32`, the bucket map is
exactly the prior buckets whose key is `> now`, in their order and with their contents, and
`objects_` is exactly the prior `objects_` without the entries whose id is listed in a bucket of
key `<= now`; so every entry left was there before, unaltered, and every prior entry whose id
no removed bucket lists is still there. -/
theorem cleanup_spec (time : Nat) (pb : pinboard) :
    (pinboard.cleanup time pb).buckets_
        = pb.buckets_.filter (fun b => decide (b.1 > time % 2 ^ 32))
      ∧ (pinboard.cleanup time pb).objects_
        = pb.objects_.filter (fun e =>
            !(pb.buckets_.any fun b => decide (b.1 ≤ time % 2 ^ 32) && decide (e.1 ∈ b.2)))
      ∧ (∀ e ∈ (pinboard.cleanup time pb).objects_, e ∈ pb.objects_)
      ∧ (∀ e ∈ pb.objects_, (∀ b ∈ pb.buckets_, b.1 ≤ time % 2 ^ 32 → e.1 ∉ b.2) →
          e ∈ (pinboard.cleanup time pb).objects_) := by
  obtain ⟨hb, ho⟩ := cleanup_eq time pb
  refine ⟨hb, ho, ?_, ?_⟩
  · intro e he
    rw [ho] at he
    exact (List.mem_filter.mp he).1
  · intro e he hnot
    rw [ho]
    refine List.mem_filter.mpr ⟨he, ?_⟩
    simp only [Bool.not_eq_true', List.any_eq_false, Bool.and_eq_true, decide_eq_true_eq,
      not_and]
    exact hnot

/-! ## Admission -/

theorem from_little_endian_lt (l : data_chunk) : from_little_endian l < 256 ^ l.length := by
  induction l with
  | nil => simp [from_little_endian]
  | cons b bs ih =>
    simp only [from_little_endian, List.length_cons, pow_succ]
    have := b.isLt
    omega

theorem to_uint256_lt (h : hash_digest) : to_uint256 h < 2 ^ 256 := by
  have := from_little_endian_lt h.val
  rw [h.property] at this
  exact this

theorem pow_value_lt (env : environment) (p : object_payload) : pow_value env p < 2 ^ 256 := by
  unfold pow_value object_payload.get_pow_value
  simp only [object_payload.copy, validation.default, if_true]
  exact to_uint256_lt _

theorem work_done_eq (env : environment) (p : object_payload) :
    work_done env p = work_done_of (pow_value env p) := by
  unfold work_done pow_value
  exact get_work_done_eq env p.copy rfl

theorem serialized_size_pos (p : object_payload) : 1 ≤ p.serialized_size := by
  unfold object_payload.serialized_size pow_certificate.serialized_size
  omega

theorem calc_ttl_isSome (w s : Nat) (hs : 1 ≤ s) : ∃ ttl, pinboard.calc_ttl w s = some ttl := by
  unfold pinboard.calc_ttl uint256_div
  rw [if_neg (by omega)]
  exact ⟨_, rfl⟩

/-- C2: whenever `pinboard::process` returns success at clock value `now = time mod 2^32`, the
pow_value of the pin is `<= MIN_TARGET`, its anchor is a key of the tracker's known map, and
`now < anchor.timestamp + ttl(p)` over the integers, where
`ttl(p) = calc_ttl(work_done(p), serialized_size(p))`. -/
theorem process_success_sound (env : environment) (tr : chain_sync_state) (time : Nat)
    (pb : pinboard) (obj : object)
    (h : (pinboard.process env tr time pb obj).ec = some code.success) :
    pow_value env obj.payload ≤ env.MIN_TARGET
      ∧ ∃ header, (obj.payload.get_anchor, header) ∈ tr.known_blocks_
          ∧ tr.get_header_by_id obj.payload.get_anchor = some header
          ∧ ∃ t, ttl env obj.payload = some t ∧ time % 2 ^ 32 < header.timestamp + t := by
  rw [process_spec] at h
  unfold ttl
  rw [work_done_eq]
  unfold object_payload.get_anchor
  split at h
  · cases h
  split at h
  · cases h
  split at h
  · cases h
  rename_i w hw
  split at h
  · cases h
  rename_i hmin
  split at h
  · cases h
  rename_i header hh
  split at h
  · cases h
  rename_i t ht
  split at h
  · cases h
  rename_i hnow
  refine ⟨by omega, header, map_find_some_mem _ _ _ hh, hh, t, ?_, ?_⟩
  · rw [hw]; exact ht
  · have := Nat.mod_le (header.timestamp + t) (2 ^ 32)
    omega
/-- C2, witness: a pin of PoW value `2 ^ 128` anchored at a header of timestamp 1000 is
accepted at clock value 2000. -/
theorem process_success_sound_witness :
    (pinboard.process (sample_environment (unit_hash 16 1)) (sample_tracker 1000) 2000
        pinboard.empty ⟨sample_payload⟩).ec = some code.success
      ∧ pow_value (sample_environment (unit_hash 16 1)) sample_payload
          ≤ (sample_environment (unit_hash 16 1)).MIN_TARGET :=
  ⟨by decide,
    (process_success_sound (sample_environment (unit_hash 16 1)) (sample_tracker 1000) 2000
      pinboard.empty ⟨sample_payload⟩ (by decide)).1⟩

theorem store_object_idem (pb : pinboard) (id : hash_digest) (d : object_details) :
    (pb.store_object id d).2.store_object id d = (false, (pb.store_object id d).2) := by
  unfold pinboard.store_object
  cases h : map_find id pb.objects_ with
  | some v => simp only [h]
  | none =>
    simp only
    obtain ⟨v', hv'⟩ := map_find_map_emplace hash_lt id d pb.objects_
    rw [hv']

theorem process_either (env : environment) (tr : chain_sync_state) (time : Nat)
    (obj : object) :
    (∃ c, ∀ pb, pinboard.process env tr time pb obj = ⟨c, pb, [], []⟩)
      ∨ ∃ id d,
          d.bucket_id_ = pinboard.calc_bucket_id ((d.anchor_timestamp_ + d.ttl_) % 2 ^ 32)
          ∧ ∀ pb, pinboard.process env tr time pb obj =
          match pinboard.store_object pb id d with
          | (false, s) => ⟨some code.success, s, [], []⟩
          | (true, s) => ⟨some code.success, s, [obj], [(code.success, obj)]⟩ := by
  by_cases hv : obj.payload.is_valid = false
  · exact Or.inl ⟨_, fun pb => by rw [process_spec, if_pos hv]⟩
  by_cases hty : obj.payload.pow_.type_ ≠ default_pow.type
  · exact Or.inl ⟨_, fun pb => by rw [process_spec, if_neg hv, if_pos hty]⟩
  cases hw : work_done_of (pow_value env obj.payload) with
  | none => exact Or.inl ⟨_, fun pb => by rw [process_spec, if_neg hv, if_neg hty, hw]⟩
  | some w =>
    by_cases hmin : pow_value env obj.payload > env.MIN_TARGET
    · exact Or.inl ⟨_, fun pb => by rw [process_spec, if_neg hv, if_neg hty, hw]; simp only [if_pos hmin]; rfl⟩
    cases hh : tr.get_header_by_id obj.payload.pow_.anchor_ with
    | none =>
      exact Or.inl ⟨_, fun pb => by
        rw [process_spec, if_neg hv, if_neg hty, hw]; simp only [if_neg hmin, hh]; rfl⟩
    | some header =>
      cases ht : pinboard.calc_ttl w obj.payload.serialized_size with
      | none =>
        exact Or.inl ⟨_, fun pb => by
          rw [process_spec, if_neg hv, if_neg hty, hw]; simp only [if_neg hmin, hh, ht]; rfl⟩
      | some t =>
        by_cases hnow : time % 2 ^ 32 ≥ (header.timestamp + t) % 2 ^ 32
        · exact Or.inl ⟨_, fun pb => by
            rw [process_spec, if_neg hv, if_neg hty, hw]
            simp only [if_neg hmin, hh, ht, if_pos hnow]
            rfl⟩
        · exact Or.inr ⟨object_id env obj.payload,
            ⟨stored_payload env obj.payload,
              pinboard.calc_bucket_id ((header.timestamp + t) % 2 ^ 32), header.timestamp, t⟩,
            rfl, fun pb => by
            rw [process_spec, if_neg hv, if_neg hty, hw]
            simp only [if_neg hmin, hh, ht, if_neg hnow]⟩

/-- C6, as amended: for every pin, tracker state and clock value, a second call of `process`
leaves `objects_` and `buckets_` exactly as after the first call, hands nothing to the
broadcaster, does not invoke the result handler and returns the code of the first call; so
it returns success whenever the first call did. -/
theorem process_twice (env : environment) (tr : chain_sync_state) (time : Nat) (pb : pinboard)
    (obj : object) :
    (pinboard.process env tr time (pinboard.process env tr time pb obj).store obj).store
        = (pinboard.process env tr time pb obj).store
      ∧ (pinboard.process env tr time (pinboard.process env tr time pb obj).store obj).broadcast
        = []
      ∧ (pinboard.process env tr time (pinboard.process env tr time pb obj).store obj).handled
        = []
      ∧ (pinboard.process env tr time (pinboard.process env tr time pb obj).store obj).ec
        = (pinboard.process env tr time pb obj).ec
      ∧ ((pinboard.process env tr time pb obj).ec = some code.success →
        (pinboard.process env tr time (pinboard.process env tr time pb obj).store obj).ec
          = some code.success) := by
  suffices h :
      (pinboard.process env tr time (pinboard.process env tr time pb obj).store obj).store
          = (pinboard.process env tr time pb obj).store
        ∧ (pinboard.process env tr time (pinboard.process env tr time pb obj).store
            obj).broadcast = []
        ∧ (pinboard.process env tr time (pinboard.process env tr time pb obj).store
            obj).handled = []
        ∧ (pinboard.process env tr time (pinboard.process env tr time pb obj).store obj).ec
          = (pinboard.process env tr time pb obj).ec by
    obtain ⟨h1, h2, h3, h4⟩ := h
    exact ⟨h1, h2, h3, h4, fun h5 => h4.trans h5⟩
  rcases process_either env tr time obj with ⟨c, hc⟩ | ⟨id, d, _, hsd⟩
  · rw [hc (pinboard.process env tr time pb obj).store, hc pb]
    exact ⟨rfl, rfl, rfl, rfl⟩
  · have hidem := store_object_idem pb id d
    rw [hsd (pinboard.process env tr time pb obj).store, hsd pb]
    rcases hs : pb.store_object id d with ⟨_ | _, s⟩
    · rw [hs] at hidem
      simp only at hidem ⊢
      rw [hidem]
      exact ⟨rfl, rfl, rfl, rfl⟩
    · rw [hs] at hidem
      simp only at hidem ⊢
      rw [hidem]
      exact ⟨rfl, rfl, rfl, rfl⟩

/-- C6, witness: the pin that `sample_store` holds is accepted again by a second call, which
returns success, hands nothing to the broadcaster and leaves the store as it was. -/
theorem process_twice_witness :
    (pinboard.process (sample_environment (unit_hash 16 1)) (sample_tracker 1000) 2000
        pinboard.empty ⟨sample_payload⟩).ec = some code.success
      ∧ (pinboard.process (sample_environment (unit_hash 16 1)) (sample_tracker 1000) 2000
          (pinboard.process (sample_environment (unit_hash 16 1)) (sample_tracker 1000) 2000
            pinboard.empty ⟨sample_payload⟩).store ⟨sample_payload⟩).ec = some code.success
      ∧ (pinboard.process (sample_environment (unit_hash 16 1)) (sample_tracker 1000) 2000
          (pinboard.process (sample_environment (unit_hash 16 1)) (sample_tracker 1000) 2000
            pinboard.empty ⟨sample_payload⟩).store ⟨sample_payload⟩).broadcast = [] :=
  ⟨by decide,
    (process_twice (sample_environment (unit_hash 16 1)) (sample_tracker 1000) 2000
      pinboard.empty ⟨sample_payload⟩).2.2.2.2 (by decide),
    (process_twice (sample_environment (unit_hash 16 1)) (sample_tracker 1000) 2000
      pinboard.empty ⟨sample_payload⟩).2.1⟩

/-- C6, counterexample: for a valid pin of the default PoW type with enough work whose anchor
the tracker does not know, the second call of `process` returns `unknown` as the first did,
not success. -/
theorem process_twice_rejected :
    sample_payload.is_valid = true
      ∧ (pinboard.process (sample_environment (unit_hash 16 1)) empty_tracker 2000
          pinboard.empty ⟨sample_payload⟩).ec = some code.unknown
      ∧ (pinboard.process (sample_environment (unit_hash 16 1)) empty_tracker 2000
          (pinboard.process (sample_environment (unit_hash 16 1)) empty_tracker 2000
            pinboard.empty ⟨sample_payload⟩).store ⟨sample_payload⟩).ec
        = some code.unknown := by
  decide

/-! ## Rejection -/

theorem work_done_of_isSome (v : Nat) (h : v < 2 ^ 256 - 1) : ∃ w, work_done_of v = some w :=
  ⟨_, work_done_of_eq v h⟩

theorem process_bad_stream_iff (env : environment) (tr : chain_sync_state) (time : Nat)
    (pb : pinboard) (obj : object) :
    (pinboard.process env tr time pb obj).ec = some code.bad_stream
      ↔ obj.payload.is_valid = false := by
  rw [process_spec]
  constructor
  · intro h
    by_contra hv
    rw [if_neg hv] at h
    repeat' split at h
    all_goals cases h
  · intro hv
    rw [if_pos hv]

theorem process_invalid_proof_of_work_iff (env : environment) (tr : chain_sync_state)
    (time : Nat) (pb : pinboard) (obj : object)
    (hne : obj.payload.pow_.type_ ≠ default_pow.type ∨ pow_value env obj.payload ≠ 2 ^ 256 - 1) :
    (pinboard.process env tr time pb obj).ec = some code.invalid_proof_of_work
      ↔ obj.payload.is_valid = true
          ∧ (obj.payload.pow_.type_ ≠ default_pow.type
            ∨ pow_value env obj.payload > env.MIN_TARGET) := by
  rw [process_spec]
  by_cases hv : obj.payload.is_valid = false
  · rw [if_pos hv]; simp [hv]
  rw [if_neg hv]
  have hv1 : obj.payload.is_valid = true := by simpa using hv
  by_cases hty : obj.payload.pow_.type_ ≠ default_pow.type
  · rw [if_pos hty]; simp [hv1, hty]
  rw [if_neg hty]
  have hlt : pow_value env obj.payload < 2 ^ 256 - 1 := by
    have := pow_value_lt env obj.payload
    rcases hne with h | h
    · exact absurd h hty
    · omega
  obtain ⟨w, hw⟩ := work_done_of_isSome _ hlt
  rw [hw]
  simp only
  by_cases hmin : pow_value env obj.payload > env.MIN_TARGET
  · rw [if_pos hmin]; simp [hv1, hmin]
  rw [if_neg hmin]
  constructor
  · intro h
    repeat' split at h
    all_goals cases h
  · rintro ⟨_, h | h⟩
    · exact absurd h hty
    · exact absurd h hmin

theorem process_not_success (env : environment) (tr : chain_sync_state) (time : Nat)
    (pb : pinboard) (obj : object)
    (h : (pinboard.process env tr time pb obj).ec ≠ some code.success) :
    (pinboard.process env tr time pb obj).store = pb
      ∧ (pinboard.process env tr time pb obj).broadcast = []
      ∧ (pinboard.process env tr time pb obj).handled = [] := by
  rcases process_either env tr time obj with ⟨c, hc⟩ | ⟨id, d, _, hsd⟩
  · rw [hc pb]; exact ⟨rfl, rfl, rfl⟩
  · rw [hsd pb] at h
    rcases hs : pb.store_object id d with ⟨_ | _, s⟩
    · rw [hs] at h; exact absurd rfl h
    · rw [hs] at h; exact absurd rfl h

/-- C7, the failing input: the payload is valid, of the default PoW type, and its pow_value
`2^256 - 1` exceeds `MIN_TARGET`; the division by `pow_value + 1 = 0` in `get_work_done`, which
`process` runs before it compares with `MIN_TARGET`, raises, and `process` returns no code. -/
theorem process_raises_at_largest_pow_value :
    sample_payload.is_valid = true
      ∧ sample_payload.get_pow_type = default_pow.type
      ∧ pow_value (sample_environment ones_hash) sample_payload = 2 ^ 256 - 1
      ∧ pow_value (sample_environment ones_hash) sample_payload
          > (sample_environment ones_hash).MIN_TARGET
      ∧ (pinboard.process (sample_environment ones_hash) (sample_tracker 1000) 2000
          pinboard.empty ⟨sample_payload⟩).ec = none := by
  decide

/-- C8: for every valid payload of the default PoW type with `pow_value <= MIN_TARGET` (the
constant being below `2^256 - 1`): when its anchor is not in the header tracker, or
`now >= anchor.timestamp + ttl` with `now = time mod 2^32`, `pinboard::process` returns
`unknown`, leaves `objects_` and `buckets_` as they were and broadcasts nothing. -/
theorem process_unknown (env : environment) (tr : chain_sync_state) (time : Nat)
    (pb : pinboard) (obj : object) (hv : obj.payload.is_valid = true)
    (hty : obj.payload.get_pow_type = default_pow.type)
    (hp : pow_value env obj.payload ≤ env.MIN_TARGET) (hmin : env.MIN_TARGET < 2 ^ 256 - 1)
    (h : tr.get_header_by_id obj.payload.get_anchor = none
      ∨ ∃ header t, tr.get_header_by_id obj.payload.get_anchor = some header
          ∧ ttl env obj.payload = some t ∧ time % 2 ^ 32 ≥ header.timestamp + t) :
    pinboard.process env tr time pb obj = ⟨some code.unknown, pb, [], []⟩ := by
  unfold object_payload.get_anchor at h
  unfold object_payload.get_pow_type at hty
  rw [process_spec, if_neg (by simp [hv]), if_neg (by simp [hty])]
  obtain ⟨w, hw⟩ := work_done_of_isSome (pow_value env obj.payload) (by omega)
  rw [hw]
  simp only [if_neg (not_lt.mpr hp)]
  rcases h with h | ⟨header, t, hh, ht, hnow⟩
  · rw [h]
  · rw [hh]
    unfold ttl at ht
    rw [work_done_eq, hw] at ht
    simp only [Option.some_bind] at ht
    rw [ht]
    have hlt : time % 2 ^ 32 < 2 ^ 32 := Nat.mod_lt _ (by positivity)
    have hmod : (header.timestamp + t) % 2 ^ 32 = header.timestamp + t :=
      Nat.mod_eq_of_lt (by omega)
    simp only [hmod]
    rw [if_pos hnow]

/-- C8, witness: a valid pin with enough work whose anchor is missing from the tracker, and the
same pin, its anchor known, at the clock value `anchor.timestamp + ttl = 1000 + 86400`. -/
theorem process_unknown_witness :
    pinboard.process (sample_environment (unit_hash 16 1)) empty_tracker 2000 pinboard.empty
        ⟨sample_payload⟩ = ⟨some code.unknown, pinboard.empty, [], []⟩
      ∧ pinboard.process (sample_environment (unit_hash 16 1)) (sample_tracker 1000) 87400
        pinboard.empty ⟨sample_payload⟩ = ⟨some code.unknown, pinboard.empty, [], []⟩ :=
  ⟨process_unknown (sample_environment (unit_hash 16 1)) empty_tracker 2000 pinboard.empty
      ⟨sample_payload⟩ (by decide) (by decide) (by decide) (by decide) (Or.inl (by decide)),
    process_unknown (sample_environment (unit_hash 16 1)) (sample_tracker 1000) 87400
      pinboard.empty ⟨sample_payload⟩ (by decide) (by decide) (by decide) (by decide)
      (Or.inr ⟨sample_header 1000, 86400, by decide, by decide, by decide⟩)⟩

/-! ## Buckets -/

theorem calc_bucket_id_eq (x : Nat) (h : x < 2 ^ 32 - 256) :
    pinboard.calc_bucket_id x = ((x >>> 8) + 1) <<< 8
      ∧ x < pinboard.calc_bucket_id x ∧ pinboard.calc_bucket_id x ≤ x + 256 := by
  unfold pinboard.calc_bucket_id
  simp only [Nat.shiftRight_eq_div_pow, Nat.shiftLeft_eq]
  have e : (2 : Nat) ^ 8 = 256 := by norm_num
  rw [e]
  have hlt : (x / 256 + 1) * 256 < 2 ^ 32 := by omega
  rw [Nat.mod_eq_of_lt hlt]
  omega

theorem store_object_invariant (pb : pinboard) (id : hash_digest) (d : object_details)
    (hd : d.bucket_id_ = pinboard.calc_bucket_id ((d.anchor_timestamp_ + d.ttl_) % 2 ^ 32))
    (ih : ∀ e ∈ pb.objects_,
      e.2.bucket_id_ = pinboard.calc_bucket_id ((e.2.anchor_timestamp_ + e.2.ttl_) % 2 ^ 32)
        ∧ ∃ b ∈ pb.buckets_, b.1 = e.2.bucket_id_ ∧ e.1 ∈ b.2) :
    ∀ e ∈ (pb.store_object id d).2.objects_,
      e.2.bucket_id_ = pinboard.calc_bucket_id ((e.2.anchor_timestamp_ + e.2.ttl_) % 2 ^ 32)
        ∧ ∃ b ∈ (pb.store_object id d).2.buckets_, b.1 = e.2.bucket_id_ ∧ e.1 ∈ b.2 := by
  unfold pinboard.store_object
  cases hf : map_find id pb.objects_ with
  | some v => exact ih
  | none =>
    simp only
    intro e he
    cases hbk : map_find d.bucket_id_ pb.buckets_ with
    | none =>
      simp only
      rcases mem_map_emplace _ _ _ _ _ he with he | he
      · obtain ⟨h1, b, hb, hk, hi⟩ := ih e he
        exact ⟨h1, b, mem_map_emplace_of_mem _ _ _ _ _ hb, hk, hi⟩
      · subst he
        exact ⟨hd, (d.bucket_id_, [id]), mem_map_emplace_new _ _ _ _ hbk, rfl,
          List.mem_singleton.mpr rfl⟩
    | some s =>
      simp only
      rw [map_emplace_of_found _ _ _ s _ hbk]
      rcases mem_map_emplace _ _ _ _ _ he with he | he
      · obtain ⟨h1, b, hb, hk, hi⟩ := ih e he
        refine ⟨h1, (if b.1 = d.bucket_id_ then (b.1, set_insert hash_lt id b.2) else b),
          (mem_map_modify _ _ _ _).mpr ⟨b, hb, rfl⟩, ?_, ?_⟩
        · split <;> exact hk
        · split
          · exact (mem_set_insert _ _ _ _).mpr (Or.inr hi)
          · exact hi
      · subst he
        refine ⟨hd, (d.bucket_id_, set_insert hash_lt id s),
          (mem_map_modify _ _ _ _).mpr ⟨(d.bucket_id_, s), map_find_some_mem _ _ _ hbk, ?_⟩,
          rfl, (mem_set_insert _ _ _ _).mpr (Or.inl rfl)⟩
        simp

/-- The invariant of the pin store: every stored pin records the bucket computed from its
expiry and is listed in the bucket of that key. -/
theorem store_invariant (env : environment) (pb : pinboard) (hr : reachable env pb) :
    ∀ e ∈ pb.objects_,
      e.2.bucket_id_ = pinboard.calc_bucket_id ((e.2.anchor_timestamp_ + e.2.ttl_) % 2 ^ 32)
        ∧ ∃ b ∈ pb.buckets_, b.1 = e.2.bucket_id_ ∧ e.1 ∈ b.2 := by
  induction hr with
  | empty => intro e he; cases he
  | process tr time obj pb _ ih =>
    rcases process_either env tr time obj with ⟨c, hc⟩ | ⟨id, d, hd, hsd⟩
    · rw [hc pb]; exact ih
    · have h := store_object_invariant pb id d hd ih
      rw [hsd pb]
      rcases hs : pb.store_object id d with ⟨_ | _, s⟩
      · rw [hs] at h; exact h
      · rw [hs] at h; exact h
  | cleanup time pb _ ih =>
    intro e he
    rw [(cleanup_eq time pb).2] at he
    rw [(cleanup_eq time pb).1]
    obtain ⟨he1, he2⟩ := List.mem_filter.mp he
    obtain ⟨hb, b, hbm, hbk, hbi⟩ := ih e he1
    refine ⟨hb, b, List.mem_filter.mpr ⟨hbm, ?_⟩, hbk, hbi⟩
    simp only [Bool.not_eq_true', List.any_eq_false, Bool.and_eq_true, decide_eq_true_eq,
      not_and] at he2
    have := he2 b hbm
    simp only [gt_iff_lt, decide_eq_true_eq]
    by_contra hle
    exact this (by omega) hbi

/-- C5: in every pin-store state reachable from the empty store by `process` and `cleanup`
calls, every stored pin whose expiry `anchor_ts + ttl` is below `2^32 - 256`, within the range
of the `uint32_t` clock, satisfies `bucket_id = (((anchor_ts + ttl) >> 8) + 1) << 8` and
`bucket_id > anchor_ts + ttl`. -/
theorem bucket_invariant (env : environment) (pb : pinboard) (hr : reachable env pb)
    (e : hash_digest × object_details) (he : e ∈ pb.objects_)
    (hlt : e.2.anchor_timestamp_ + e.2.ttl_ < 2 ^ 32 - 256) :
    e.2.bucket_id_ = (((e.2.anchor_timestamp_ + e.2.ttl_) >>> 8) + 1) <<< 8
      ∧ e.2.bucket_id_ > e.2.anchor_timestamp_ + e.2.ttl_ := by
  obtain ⟨h1, _⟩ := store_invariant env pb hr e he
  rw [Nat.mod_eq_of_lt (by omega)] at h1
  obtain ⟨e1, e2, _⟩ := calc_bucket_id_eq _ hlt
  rw [h1]
  exact ⟨e1, e2⟩

/-- C10: in every reachable pin-store state and for every clock value `now = time mod 2^32`,
after `cleanup` runs at `now` no pin with `anchor_ts + ttl + 256 <= now` remains in
`objects_`. -/
theorem cleanup_evicts (env : environment) (pb : pinboard) (hr : reachable env pb)
    (time : Nat) (e : hash_digest × object_details)
    (he : e ∈ (pinboard.cleanup time pb).objects_) :
    ¬ (e.2.anchor_timestamp_ + e.2.ttl_ + 256 ≤ time % 2 ^ 32) := by
  intro hle
  rw [(cleanup_eq time pb).2] at he
  obtain ⟨he1, he2⟩ := List.mem_filter.mp he
  obtain ⟨hb, b, hbm, hbk, hbi⟩ := store_invariant env pb hr e he1
  simp only [Bool.not_eq_true', List.any_eq_false, Bool.and_eq_true, decide_eq_true_eq,
    not_and] at he2
  have hlt : time % 2 ^ 32 < 2 ^ 32 := Nat.mod_lt _ (by positivity)
  have hx : e.2.anchor_timestamp_ + e.2.ttl_ < 2 ^ 32 - 256 := by omega
  rw [Nat.mod_eq_of_lt (by omega)] at hb
  obtain ⟨_, _, e3⟩ := calc_bucket_id_eq _ hx
  exact he2 b hbm (by omega) hbi
/-- C5, witness: the pin of `sample_store`, of expiry `1000 + 86400`, is held under the
bucket 87552. -/
theorem bucket_invariant_witness :
    sample_entry ∈ sample_store.objects_
      ∧ sample_entry.2.anchor_timestamp_ + sample_entry.2.ttl_ < 2 ^ 32 - 256
      ∧ sample_entry.2.bucket_id_ = 87552
      ∧ sample_entry.2.bucket_id_
          = (((sample_entry.2.anchor_timestamp_ + sample_entry.2.ttl_) >>> 8) + 1) <<< 8
      ∧ sample_entry.2.bucket_id_ > sample_entry.2.anchor_timestamp_ + sample_entry.2.ttl_ :=
  ⟨by decide, by decide, by decide,
    bucket_invariant (sample_environment (unit_hash 16 1)) sample_store
      (reachable.process _ _ _ _ reachable.empty) sample_entry (by decide) (by decide)⟩

/-- Past the range of the `uint32_t` clock: the store `late_store` holds a pin of expiry
`anchor_ts + ttl = 2^32 - 100`, a wall clock of the year 2106, whose `bucket_id` is 0, the
shift left wrapping in `uint32_t`; the bound on the expiry cannot be dropped. -/
theorem late_store_bucket_wraps :
    reachable (sample_environment (unit_hash 16 1)) late_store
      ∧ late_entry ∈ late_store.objects_
      ∧ late_entry.2.anchor_timestamp_ + late_entry.2.ttl_ = 2 ^ 32 - 100
      ∧ late_entry.2.bucket_id_ = 0
      ∧ (((late_entry.2.anchor_timestamp_ + late_entry.2.ttl_) >>> 8) + 1) <<< 8 = 2 ^ 32
      ∧ ¬ (late_entry.2.bucket_id_
            > late_entry.2.anchor_timestamp_ + late_entry.2.ttl_) :=
  ⟨reachable.process _ _ _ _ reachable.empty, by decide, by decide, by decide, by decide,
    by decide⟩

/-- C10, witness: the pin of `sample_store`, of expiry `1000 + 86400`, is still held after a
sweep at clock value 5000, and the store is empty after a sweep at `1000 + 86400 + 256`. -/
theorem cleanup_evicts_witness :
    sample_entry ∈ (pinboard.cleanup 5000 sample_store).objects_
      ∧ ¬ (sample_entry.2.anchor_timestamp_ + sample_entry.2.ttl_ + 256 ≤ 5000 % 2 ^ 32)
      ∧ (pinboard.cleanup 87656 sample_store).objects_ = [] :=
  ⟨by decide,
    cleanup_evicts (sample_environment (unit_hash 16 1)) sample_store
      (reachable.process _ _ _ _ reachable.empty) 5000 sample_entry (by decide),
    by decide⟩

/-! ## Lite header: codec and caches -/

theorem read_hash_ok (h : hash_digest) (rest : data_chunk) :
    reader.read_hash ⟨h.val ++ rest, true⟩ = (h, ⟨rest, true⟩) :=
  read_hash_append h rest

theorem lite_header_to_data_wire (h : lite_header) :
    h.to_data true
      = to_little_endian 4 h.version_ ++ h.previous_block_hash_.val ++ h.merkle_.val
        ++ to_little_endian 4 h.timestamp_ ++ to_little_endian 4 h.bits_
        ++ to_little_endian 4 h.nonce_ := by
  simp [lite_header.to_data]

theorem lite_header_to_data_length (h : lite_header) : (h.to_data true).length = 80 := by
  rw [lite_header_to_data_wire]
  simp only [List.length_append, length_to_little_endian, h.previous_block_hash_.property,
    h.merkle_.property]

theorem lite_header_from_data_to_data (self h : lite_header) (rest : data_chunk)
    (hr : h.in_range) :
    self.from_data ⟨h.to_data true ++ rest, true⟩ true
      = (true,
          ⟨h.version_, h.previous_block_hash_, h.merkle_, h.timestamp_, h.bits_, h.nonce_,
            self.height, self.median_time_past, self.hash_, self.pow_hash_⟩,
          ⟨rest, true⟩) := by
  obtain ⟨hv, ht, hb, hn⟩ := hr
  have e : h.to_data true ++ rest
      = to_little_endian 4 h.version_ ++ (h.previous_block_hash_.val ++ (h.merkle_.val
        ++ (to_little_endian 4 h.timestamp_ ++ (to_little_endian 4 h.bits_
        ++ (to_little_endian 4 h.nonce_ ++ rest))))) := by
    rw [lite_header_to_data_wire]
    simp only [List.append_assoc]
  rw [e]
  unfold lite_header.from_data
  rw [read_little_endian_append]
  simp only
  rw [read_hash_append]
  simp only
  rw [read_hash_append]
  simp only
  rw [read_little_endian_append]
  simp only
  rw [read_little_endian_append]
  simp only
  rw [read_little_endian_append]
  have e1 : h.version_ % 256 ^ 4 = h.version_ := Nat.mod_eq_of_lt (by omega)
  have e2 : h.timestamp_ % 256 ^ 4 = h.timestamp_ := Nat.mod_eq_of_lt (by omega)
  have e3 : h.bits_ % 256 ^ 4 = h.bits_ := Nat.mod_eq_of_lt (by omega)
  have e4 : h.nonce_ % 256 ^ 4 = h.nonce_ := Nat.mod_eq_of_lt (by omega)
  simp only [e1, e2, e3, e4, Bool.not_true, Bool.false_eq_true, if_false, if_true]

theorem lite_header_eq_iff (a b : lite_header) :
    a.eq b = true ↔ a.version_ = b.version_ ∧ a.previous_block_hash_ = b.previous_block_hash_
      ∧ a.merkle_ = b.merkle_ ∧ a.timestamp_ = b.timestamp_ ∧ a.bits_ = b.bits_
      ∧ a.nonce_ = b.nonce_ := by
  simp [lite_header.eq, and_assoc]

/-- C20: for every header `h` (its integer fields within `uint32_t`), `to_data(wire = true)` is
exactly 80 bytes, laid out as `version(4) | prev(32) | merkle(32) | timestamp(4) | bits(4) |
nonce(4)` with the integers little-endian, and `from_data` on those bytes succeeds and yields
a header equal to `h` under `operator==`. -/
theorem lite_header_round_trip (self h : lite_header) (hr : h.in_range) :
    (h.to_data true).length = 80
      ∧ lite_header.serialized_size true = 80
      ∧ h.to_data true
        = to_little_endian 4 h.version_ ++ h.previous_block_hash_.val ++ h.merkle_.val
          ++ to_little_endian 4 h.timestamp_ ++ to_little_endian 4 h.bits_
          ++ to_little_endian 4 h.nonce_
      ∧ from_little_endian (to_little_endian 4 h.version_) = h.version_
      ∧ from_little_endian (to_little_endian 4 h.timestamp_) = h.timestamp_
      ∧ from_little_endian (to_little_endian 4 h.bits_) = h.bits_
      ∧ from_little_endian (to_little_endian 4 h.nonce_) = h.nonce_
      ∧ (self.from_data_chunk (h.to_data true) true).1 = true
      ∧ (self.from_data_chunk (h.to_data true) true).2.eq h = true := by
  have hfd := lite_header_from_data_to_data self h [] hr
  rw [List.append_nil] at hfd
  obtain ⟨hv, ht, hb, hn⟩ := hr
  refine ⟨lite_header_to_data_length h, rfl, lite_header_to_data_wire h, ?_, ?_, ?_, ?_, ?_, ?_⟩
  · rw [from_to_little_endian]; exact Nat.mod_eq_of_lt (by omega)
  · rw [from_to_little_endian]; exact Nat.mod_eq_of_lt (by omega)
  · rw [from_to_little_endian]; exact Nat.mod_eq_of_lt (by omega)
  · rw [from_to_little_endian]; exact Nat.mod_eq_of_lt (by omega)
  · unfold lite_header.from_data_chunk reader.open
    rw [hfd]
  · unfold lite_header.from_data_chunk reader.open
    rw [hfd, lite_header_eq_iff]
    exact ⟨rfl, rfl, rfl, rfl, rfl, rfl⟩

/-- C20, witness: a header of version 1 and timestamp 1000 serializes to 80 bytes and is read
back equal. -/
theorem lite_header_round_trip_witness :
    (sample_lite_header 5).in_range
      ∧ ((sample_lite_header 5).to_data true).length = 80
      ∧ (lite_header.default.from_data_chunk ((sample_lite_header 5).to_data true) true).2.eq
          (sample_lite_header 5) = true :=
  ⟨by decide,
    (lite_header_round_trip lite_header.default (sample_lite_header 5) (by decide)).1,
    (lite_header_round_trip lite_header.default (sample_lite_header 5)
      (by decide)).2.2.2.2.2.2.2.2⟩

theorem hash_of_uncached (cenv : chain_environment) (h : lite_header) (hc : h.hash_ = none) :
    (h.hash cenv).1 = cenv.bitcoin_hash (h.to_data true) := by
  unfold lite_header.hash
  rw [hc]

theorem hash_after_invalidate (cenv : chain_environment) (h : lite_header) :
    (h.invalidate_cache.hash cenv).1 = cenv.bitcoin_hash (h.invalidate_cache.to_data true) :=
  hash_of_uncached cenv _ rfl

/-- C16, the failing input: a default header on which `hash()` has been called keeps that
hash after `operator=` from another header, and after a successful `from_data` on the bytes
of another header, although its wire serialization, and the double SHA-256 of it, changed. -/
theorem hash_stale_after_assignment :
    ((lite_header.default.hash sample_chain_environment).2.assign
        (sample_lite_header 5)).to_data true = (sample_lite_header 5).to_data true
      ∧ sample_chain_environment.bitcoin_hash ((sample_lite_header 5).to_data true)
        = unit_hash 0 5
      ∧ (((lite_header.default.hash sample_chain_environment).2.assign
          (sample_lite_header 5)).hash sample_chain_environment).1 = null_hash
      ∧ ((lite_header.default.hash sample_chain_environment).2.from_data_chunk
          ((sample_lite_header 5).to_data true) true).1 = true
      ∧ ((((lite_header.default.hash sample_chain_environment).2.from_data_chunk
          ((sample_lite_header 5).to_data true) true).2).hash sample_chain_environment).1
        = null_hash
      ∧ unit_hash 0 5 ≠ null_hash := by
  decide

/-- C17, the failing input: a header on which `pow_hash()` has been called keeps that hash
after `set_nonce`, although the scrypt hash of its new wire serialization differs. -/
theorem pow_hash_stale_after_setter :
    ((((sample_lite_header 5).pow_hash sample_chain_environment).2.set_nonce 7).pow_hash
        sample_chain_environment).1
        = sample_chain_environment.scrypt ((sample_lite_header 5).to_data true)
      ∧ sample_chain_environment.scrypt
          ((((sample_lite_header 5).pow_hash sample_chain_environment).2.set_nonce 7).to_data
            true)
        ≠ sample_chain_environment.scrypt ((sample_lite_header 5).to_data true)
      ∧ ((((sample_lite_header 5).pow_hash sample_chain_environment).2.set_nonce 7).hash_
        = none) := by
  decide

theorem object_payload_from_data_failure (self : object_payload) (source : reader)
    (h : (self.from_data source).1 = false) :
    (self.from_data source).2.1 = self.reset := by
  unfold object_payload.from_data at h ⊢
  generalize source.read_size_little_endian = r1 at h ⊢
  obtain ⟨body_size, s1⟩ := r1
  dsimp only at h ⊢
  by_cases hb : body_size > 0
  · rw [if_pos hb] at h ⊢
    generalize s1.read_bytes body_size = r2 at h ⊢
    obtain ⟨body, s2⟩ := r2
    dsimp only at h ⊢
    generalize pow_certificate.from_data s2 = r3 at h ⊢
    obtain ⟨ok, pow, s3⟩ := r3
    dsimp only at h ⊢
    by_cases hv : s3.valid = true
    · rw [if_pos hv] at h; cases h
    · rw [if_neg hv]; rfl
  · rw [if_neg hb] at h ⊢
    generalize multihash.from_data s1 = r2 at h ⊢
    obtain ⟨ok2, id, s2⟩ := r2
    dsimp only at h ⊢
    generalize pow_certificate.from_data s2 = r3 at h ⊢
    obtain ⟨ok, pow, s3⟩ := r3
    dsimp only at h ⊢
    by_cases hv : s3.valid = true
    · rw [if_pos hv] at h; cases h
    · rw [if_neg hv]; rfl

/-- C19: for every byte string on which `object_payload::from_data` reports failure, the
payload afterwards has an empty body, the identity multihash with empty digest and the
certificate {type plain, tag unknown, null anchor, nonce 0}: it equals the default payload
under `operator==`. -/
theorem from_data_failure_resets (self : object_payload) (data : data_chunk)
    (h : (self.from_data_chunk data).1 = false) :
    (self.from_data_chunk data).2.body_ = []
      ∧ (self.from_data_chunk data).2.body_id_ = ⟨digest_type.identity, []⟩
      ∧ (self.from_data_chunk data).2.pow_
        = ⟨pow_type.plain, chain_tag.unknown, null_hash, 0⟩
      ∧ (self.from_data_chunk data).2.eq object_payload.default = true := by
  unfold object_payload.from_data_chunk at h ⊢
  simp only at h ⊢
  rw [object_payload_from_data_failure self (reader.open data) h]
  refine ⟨rfl, rfl, rfl, ?_⟩
  rw [object_payload_eq_iff]
  exact ⟨rfl, rfl, rfl⟩

/-- C19, witness: the serialization of `sample_payload` cut after 20 bytes, and the empty
input, make `from_data` fail and leave the default fields. -/
theorem from_data_failure_resets_witness :
    (sample_payload.from_data_chunk (sample_payload.to_data.take 20)).1 = false
      ∧ (sample_payload.from_data_chunk []).1 = false
      ∧ (sample_payload.from_data_chunk (sample_payload.to_data.take 20)).2.eq
          object_payload.default = true :=
  ⟨by decide, by decide,
    (from_data_failure_resets sample_payload (sample_payload.to_data.take 20)
      (by decide)).2.2.2⟩

/-- C18, as amended: an object payload is valid if and only if (its body is non-empty or its
`body_id` digest is non-empty) and `body_id.fn_code < max_digest_type` and the certificate's
type is `< max_pow_type`, its tag is `< max_chain_tag` and its anchor is not the null hash. -/
theorem object_payload_is_valid_iff (p : object_payload) :
    p.is_valid = true ↔
      (p.body_ ≠ [] ∨ p.body_id_.digest_ ≠ []) ∧ p.body_id_.fn_code_ < digest_type.max_digest_type
        ∧ p.pow_.type_ < pow_type.max_pow_type ∧ p.pow_.tag_ < chain_tag.max_chain_tag
        ∧ p.pow_.anchor_ ≠ null_hash :=
  is_valid_iff p

/-- C18, counterexample: a payload with a body, the default `body_id` and a non-null anchor
whose certificate type is `max_pow_type` (3, a value that `from_data` accepts from the wire)
is not valid. -/
theorem object_payload_is_valid_iff_fails :
    bad_type_payload.body_ ≠ []
      ∧ bad_type_payload.body_id_.fn_code_ < digest_type.max_digest_type
      ∧ bad_type_payload.pow_.anchor_ ≠ null_hash
      ∧ bad_type_payload.is_valid = false
      ∧ (object_payload.default.from_data_chunk bad_type_payload.to_data)
        = (true, bad_type_payload) := by
  decide

/-! ## Header tracker: one step of `merge` -/

theorem pow_hash_fields (cenv : chain_environment) (lh : lite_header) :
    (lh.pow_hash cenv).2 = { lh with pow_hash_ := some (lh.pow_hash cenv).1 } := by
  unfold lite_header.pow_hash
  cases h : lh.pow_hash_ with
  | none => rfl
  | some p =>
    simp only
    cases lh
    simp_all

theorem is_valid_proof_of_work_fields (cenv : chain_environment) (lh : lite_header) :
    ∃ p, (lh.is_valid_proof_of_work cenv).2 = { lh with pow_hash_ := p } := by
  unfold lite_header.is_valid_proof_of_work
  cases hc : cenv.compact_target lh.bits_ with
  | none => exact ⟨lh.pow_hash_, rfl⟩
  | some target =>
    by_cases ht : target < 1 ∨ target > cenv.pow_limit
    · refine ⟨lh.pow_hash_, ?_⟩
      simp only [if_pos ht]
    · refine ⟨some (lh.pow_hash cenv).1, ?_⟩
      simp only [if_neg ht]
      exact pow_hash_fields cenv lh

theorem check_snd (cenv : chain_environment) (time : Nat) (lh : lite_header) :
    (lh.check cenv time).2 = (lh.is_valid_proof_of_work cenv).2 := by
  unfold lite_header.check
  generalize lh.is_valid_proof_of_work cenv = r
  obtain ⟨ok, lh2⟩ := r
  dsimp only
  split
  · rfl
  · split <;> rfl

theorem check_fields (cenv : chain_environment) (time : Nat) (lh : lite_header) :
    ∃ p, (lh.check cenv time).2 = { lh with pow_hash_ := p } := by
  rw [check_snd]
  exact is_valid_proof_of_work_fields cenv lh

theorem from_header_hash_none (h : header) : (lite_header.from_header h).hash_ = none := by
  unfold lite_header.from_header lite_header.from_data_chunk lite_header.from_data
  simp only [Bool.not_true, Bool.false_eq_true, if_false]
  split <;> rfl

theorem checked_hash (cenv : chain_environment) (time : Nat) (h : header) :
    (((lite_header.from_header h).check cenv time).2.hash cenv).1 = header_hash cenv h := by
  obtain ⟨p, hp⟩ := check_fields cenv time (lite_header.from_header h)
  rw [hp]
  unfold header_hash lite_header.hash
  simp only [from_header_hash_none]
  rfl
theorem map_modify_of_not_mem {K V : Type} [DecidableEq K] (k : K) (f : V → V)
    (m : List (K × V)) (h : map_find k m = none) : map_modify k f m = m := by
  unfold map_modify
  have hk := (map_find_none_iff k m).mp h
  conv_rhs => rw [← List.map_id m]
  apply List.map_congr_left
  intro e he
  simp [hk e he]

theorem map_modify_map_insert {K V : Type} [DecidableEq K] (lt : K → K → Bool) (k : K)
    (f : V → V) (v : V) (m : List (K × V)) (h : map_find k m = none) :
    map_modify k f (map_insert lt k v m) = map_insert lt k (f v) m := by
  induction m with
  | nil => simp [map_insert, map_modify]
  | cons a rest ih =>
    unfold map_find at h
    by_cases ha : a.1 = k
    · rw [if_pos ha] at h; cases h
    · rw [if_neg ha] at h
      unfold map_insert
      by_cases hl : lt k a.1 = true
      · rw [if_pos hl, if_pos hl]
        have := map_modify_of_not_mem k f (a :: rest) (by unfold map_find; rw [if_neg ha]; exact h)
        unfold map_modify at this ⊢
        simp only [List.map_cons, if_true] at this ⊢
        rw [this]
      · rw [if_neg hl, if_neg hl]
        have := ih h
        unfold map_modify at this ⊢
        simp only [List.map_cons, if_neg ha]
        rw [this]

theorem map_assign_new (k : hash_digest) (v : lite_header) (m : List (hash_digest × lite_header))
    (h : map_find k m = none) :
    map_assign k v m = map_insert hash_lt k (lite_header.default.assign v) m := by
  unfold map_assign map_emplace
  rw [h]
  exact map_modify_map_insert hash_lt k _ _ m h

theorem hash_fields (cenv : chain_environment) (lh : lite_header) :
    (lh.hash cenv).2 = { lh with hash_ := some (lh.hash cenv).1 } := by
  unfold lite_header.hash
  cases h : lh.hash_ with
  | none => rfl
  | some p =>
    simp only
    cases lh
    simp_all

theorem merge_step_eq (cenv : chain_environment) (time : Nat) (st : chain_sync_state)
    (h : header) :
    chain_sync_state.merge_step cenv time st h =
      if ((lite_header.from_header h).check cenv time).1 ≠ code.success then
        merge_step_result.rejected ((lite_header.from_header h).check cenv time).1
      else
        match map_find (header_hash cenv h) st.known_blocks_ with
        | some _ => merge_step_result.skipped
        | none =>
          match map_find (header_prev h) st.known_blocks_ with
          | none => merge_step_result.skipped
          | some parent =>
            if parent.height + 1 < st.starting_height_ then merge_step_result.wrapped
            else
              merge_step_result.inserted (header_hash cenv h)
                ⟨st.starting_height_,
                  modify_at (set_insert hash_lt (header_hash cenv h))
                    (parent.height + 1 - st.starting_height_)
                    (if st.chain_.length ≤ parent.height + 1 then
                      vector_resize (parent.height + 1 - st.starting_height_ + 1) [] st.chain_
                    else st.chain_),
                  map_insert hash_lt (header_hash cenv h) (stored_header h (parent.height + 1))
                    st.known_blocks_⟩ := by
  unfold chain_sync_state.merge_step
  have hid := checked_hash cenv time h
  obtain ⟨p, hp⟩ := check_fields cenv time (lite_header.from_header h)
  rcases hck : (lite_header.from_header h).check cenv time with ⟨ec, lh⟩
  rw [hck] at hid hp
  dsimp only at hid hp ⊢
  rw [hck]
  dsimp only
  by_cases hec : ec = code.success
  · simp only [hec, ne_eq, not_true_eq_false, if_false]
    have hq := hash_fields cenv lh
    rcases hhh : lh.hash cenv with ⟨id, lh2⟩
    rw [hhh] at hid hq
    dsimp only at hid hq ⊢
    subst hid
    cases hf : map_find (header_hash cenv h) st.known_blocks_ with
    | some v => rfl
    | none =>
      dsimp only
      have hprev : lh2.previous_block_hash_ = header_prev h := by rw [hq, hp]; rfl
      rw [hprev]
      cases hpar : map_find (header_prev h) st.known_blocks_ with
      | none => rfl
      | some parent =>
        dsimp only
        by_cases hw : parent.height + 1 < st.starting_height_
        · rw [if_pos hw, if_pos hw]
        · rw [if_neg hw, if_neg hw, map_assign_new _ _ _ hf]
          congr 3
          rw [hq, hp]
          rfl
  · simp only [hec, ne_eq, not_false_eq_true, if_true]
theorem length_map_insert {K V : Type} (lt : K → K → Bool) (k : K) (v : V)
    (m : List (K × V)) : (map_insert lt k v m).length = m.length + 1 := by
  induction m with
  | nil => rfl
  | cons a rest ih =>
    unfold map_insert
    split
    · rfl
    · simp [ih]

theorem map_find_map_insert {K V : Type} [DecidableEq K] (lt : K → K → Bool) (id k : K) (v : V)
    (m : List (K × V)) (h : map_find id m = none) :
    map_find k (map_insert lt id v m) = if k = id then some v else map_find k m := by
  induction m with
  | nil =>
    unfold map_insert map_find
    by_cases hk : k = id
    · rw [if_pos hk.symm, if_pos hk]
    · rw [if_neg (fun e => hk e.symm), if_neg hk]; rfl
  | cons a rest ih =>
    unfold map_find at h
    by_cases ha : a.1 = id
    · rw [if_pos ha] at h; cases h
    · rw [if_neg ha] at h
      unfold map_insert
      by_cases hl : lt id a.1 = true
      · rw [if_pos hl]
        by_cases hk : k = id
        · rw [if_pos hk]; unfold map_find; rw [if_pos hk.symm]
        · rw [if_neg hk]
          conv_lhs => unfold map_find
          rw [if_neg (fun e => hk e.symm)]
      · rw [if_neg hl]
        unfold map_find
        by_cases hak : a.1 = k
        · rw [if_pos hak, if_pos hak, if_neg (fun e => ha (hak.trans e))]
        · rw [if_neg hak, if_neg hak]; exact ih h

/-- What an inserting step of `merge` has found and done. -/
theorem merge_step_inserted (cenv : chain_environment) (time : Nat) (st st2 : chain_sync_state)
    (h : header) (id : hash_digest)
    (hs : chain_sync_state.merge_step cenv time st h = merge_step_result.inserted id st2) :
    passes_check cenv time h ∧ id = header_hash cenv h ∧
    map_find id st.known_blocks_ = none ∧
    ∃ parent, map_find (header_prev h) st.known_blocks_ = some parent ∧
      st.starting_height_ ≤ parent.height + 1 ∧
      st2 = ⟨st.starting_height_,
        modify_at (set_insert hash_lt id) (parent.height + 1 - st.starting_height_)
          (if st.chain_.length ≤ parent.height + 1 then
            vector_resize (parent.height + 1 - st.starting_height_ + 1) [] st.chain_
          else st.chain_),
        map_insert hash_lt id (stored_header h (parent.height + 1)) st.known_blocks_⟩ := by
  rw [merge_step_eq] at hs
  by_cases hc : ((lite_header.from_header h).check cenv time).1 ≠ code.success
  · rw [if_pos hc] at hs; cases hs
  · rw [if_neg hc] at hs
    cases hf : map_find (header_hash cenv h) st.known_blocks_ with
    | some v => rw [hf] at hs; cases hs
    | none =>
      rw [hf] at hs
      dsimp only at hs
      cases hp : map_find (header_prev h) st.known_blocks_ with
      | none => rw [hp] at hs; cases hs
      | some parent =>
        rw [hp] at hs
        dsimp only at hs
        by_cases hw : parent.height + 1 < st.starting_height_
        · rw [if_pos hw] at hs; cases hs
        · rw [if_neg hw] at hs
          injection hs with h1 h2
          subst h1
          exact ⟨not_not.mp hc, rfl, hf, parent, rfl, not_lt.mp hw, h2.symm⟩

/-- A property of trackers that every inserting step keeps holds after the loop of `merge`. -/
theorem merge_from_induct (cenv : chain_environment) (time : Nat)
    (P : chain_sync_state → Prop)
    (hstep : ∀ st h id st2, P st →
      chain_sync_state.merge_step cenv time st h = merge_step_result.inserted id st2 → P st2)
    (elements : List header) :
    ∀ (st : chain_sync_state) (count : Nat) (latest : hash_digest), P st →
      P (chain_sync_state.merge_from cenv time st count latest elements).state := by
  induction elements with
  | nil =>
    intro st count latest hP
    unfold chain_sync_state.merge_from
    split <;> exact hP
  | cons h rest ih =>
    intro st count latest hP
    unfold chain_sync_state.merge_from
    cases hs : chain_sync_state.merge_step cenv time st h with
    | rejected ec => exact hP
    | skipped => exact ih st count latest hP
    | inserted id st2 => exact ih st2 (count + 1) id (hstep st h id st2 hP hs)
    | wrapped => exact hP

theorem stored_header_prev (h : header) (height : Nat) :
    (stored_header h height).previous_block_hash_ = header_prev h := rfl

theorem stored_header_height (h : header) (height : Nat) :
    (stored_header h height).height = height := rfl
/-- Sample states are reachable. -/
theorem sample_chain_state_reachable :
    tracker_reachable sample_chain_environment sample_checkpoint sample_chain_state :=
  tracker_reachable.merge 2000 _ _ tracker_reachable.construct

theorem merge_keeps_entries (cenv : chain_environment) (time : Nat) (st : chain_sync_state)
    (elements : List header) (k : hash_digest) (e : lite_header)
    (h : map_find k st.known_blocks_ = some e) :
    map_find k (chain_sync_state.merge cenv time st elements).state.known_blocks_ = some e := by
  unfold chain_sync_state.merge
  refine merge_from_induct cenv time (fun s => map_find k s.known_blocks_ = some e) ?_
    elements st 0 null_hash h
  intro s hd id s2 hP hs
  obtain ⟨_, _, hnone, parent, _, _, rfl⟩ := merge_step_inserted cenv time s s2 hd id hs
  dsimp only
  rw [map_find_map_insert hash_lt id k _ _ hnone]
  have hk : k ≠ id := by
    intro hk; rw [hk, hnone] at hP; cases hP
  rw [if_neg hk]; exact hP

theorem construct_known (cenv : chain_environment) (cp : lite_header) :
    (chain_sync_state.construct cenv cp).known_blocks_ =
      [((cp.hash cenv).1, lite_header.default.assign cp)] := by
  unfold chain_sync_state.construct
  dsimp only
  rw [map_assign_new (cp.hash cenv).1 cp [] rfl]
  rfl

theorem reachable_invariant (cenv : chain_environment) (cp : lite_header)
    (st : chain_sync_state) (hr : tracker_reachable cenv cp st) :
    st.starting_height_ = cp.height ∧
    (∀ k e, map_find k st.known_blocks_ = some e → cp.height ≤ e.height) ∧
    (∀ k e, map_find k st.known_blocks_ = some e → k ≠ (cp.hash cenv).1 →
      ∃ parent, map_find e.previous_block_hash_ st.known_blocks_ = some parent ∧
        e.height = parent.height + 1) := by
  induction hr with
  | construct =>
    refine ⟨rfl, ?_, ?_⟩
    · intro k e hf
      rw [construct_known] at hf
      unfold map_find at hf
      split at hf
      · cases hf; exact Nat.le_refl _
      · cases hf
    · intro k e hf hk
      rw [construct_known] at hf
      unfold map_find at hf
      split at hf
      · rename_i hh; exact absurd hh.symm hk
      · cases hf
  | merge time elements st _ ih =>
    unfold chain_sync_state.merge
    refine merge_from_induct cenv time (fun s => s.starting_height_ = cp.height ∧
      (∀ k e, map_find k s.known_blocks_ = some e → cp.height ≤ e.height) ∧
      (∀ k e, map_find k s.known_blocks_ = some e → k ≠ (cp.hash cenv).1 →
        ∃ parent, map_find e.previous_block_hash_ s.known_blocks_ = some parent ∧
          e.height = parent.height + 1)) ?_ elements st 0 null_hash ih
    intro s hd id s2 ⟨h1, h2, h3⟩ hs
    obtain ⟨_, _, hnone, parent, hpar, _, rfl⟩ := merge_step_inserted cenv time s s2 hd id hs
    dsimp only
    have hne : ∀ k e, map_find k s.known_blocks_ = some e → k ≠ id := by
      intro k e hf hk; rw [hk, hnone] at hf; cases hf
    refine ⟨h1, ?_, ?_⟩
    · intro k e hf
      rw [map_find_map_insert hash_lt id k _ _ hnone] at hf
      by_cases hk : k = id
      · rw [if_pos hk] at hf; cases hf
        rw [stored_header_height]
        exact Nat.le_succ_of_le (h2 _ _ hpar)
      · rw [if_neg hk] at hf; exact h2 k e hf
    · intro k e hf hkc
      rw [map_find_map_insert hash_lt id k _ _ hnone] at hf
      by_cases hk : k = id
      · rw [if_pos hk] at hf; cases hf
        refine ⟨parent, ?_, rfl⟩
        rw [stored_header_prev, map_find_map_insert hash_lt id _ _ _ hnone,
          if_neg (hne _ _ hpar)]
        exact hpar
      · rw [if_neg hk] at hf
        obtain ⟨p, hp1, hp2⟩ := h3 k e hf hkc
        refine ⟨p, ?_, hp2⟩
        rw [map_find_map_insert hash_lt id _ _ _ hnone, if_neg (hne _ _ hp1)]
        exact hp1
/-- When no step wraps on the trackers with a property that every inserting step keeps, the
loop of `merge` returns a code. -/
theorem merge_from_returns (cenv : chain_environment) (time : Nat)
    (P : chain_sync_state → Prop)
    (hstep : ∀ st h id st2, P st →
      chain_sync_state.merge_step cenv time st h = merge_step_result.inserted id st2 → P st2)
    (hwrap : ∀ st h, P st →
      chain_sync_state.merge_step cenv time st h ≠ merge_step_result.wrapped)
    (elements : List header) :
    ∀ (st : chain_sync_state) (count : Nat) (latest : hash_digest), P st →
      (chain_sync_state.merge_from cenv time st count latest elements).ec ≠ none := by
  induction elements with
  | nil =>
    intro st count latest _
    unfold chain_sync_state.merge_from
    split <;> simp
  | cons h rest ih =>
    intro st count latest hP
    unfold chain_sync_state.merge_from
    cases hs : chain_sync_state.merge_step cenv time st h with
    | rejected ec => simp
    | skipped => exact ih st count latest hP
    | inserted id st2 => exact ih st2 (count + 1) id (hstep st h id st2 hP hs)
    | wrapped => exact absurd hs (hwrap st h hP)

theorem merge_step_not_wrapped (cenv : chain_environment) (time : Nat) (st : chain_sync_state)
    (h : header)
    (hh : ∀ k e, map_find k st.known_blocks_ = some e → st.starting_height_ ≤ e.height) :
    chain_sync_state.merge_step cenv time st h ≠ merge_step_result.wrapped := by
  rw [merge_step_eq]
  split
  · simp
  · split
    · simp
    · split
      · simp
      · rename_i parent hp
        rw [if_neg (by have := hh _ _ hp; omega)]
        simp

theorem merge_step_keeps_heights (cenv : chain_environment) (time : Nat)
    (st st2 : chain_sync_state) (h : header) (id : hash_digest)
    (hh : ∀ k e, map_find k st.known_blocks_ = some e → st.starting_height_ ≤ e.height)
    (hs : chain_sync_state.merge_step cenv time st h = merge_step_result.inserted id st2) :
    ∀ k e, map_find k st2.known_blocks_ = some e → st2.starting_height_ ≤ e.height := by
  obtain ⟨_, _, hnone, parent, hpar, _, rfl⟩ := merge_step_inserted cenv time st st2 h id hs
  intro k e hf
  dsimp only at hf ⊢
  rw [map_find_map_insert hash_lt id k _ _ hnone] at hf
  by_cases hk : k = id
  · rw [if_pos hk] at hf; cases hf
    rw [stored_header_height]
    exact Nat.le_succ_of_le (hh _ _ hpar)
  · rw [if_neg hk] at hf; exact hh k e hf

theorem reachable_merge_returns (cenv : chain_environment) (cp : lite_header)
    (st : chain_sync_state) (hr : tracker_reachable cenv cp st) (time : Nat)
    (elements : List header) :
    (chain_sync_state.merge cenv time st elements).ec ≠ none := by
  obtain ⟨h1, h2, _⟩ := reachable_invariant cenv cp st hr
  unfold chain_sync_state.merge
  refine merge_from_returns cenv time
    (fun s => ∀ k e, map_find k s.known_blocks_ = some e → s.starting_height_ ≤ e.height)
    (fun s h id s2 hP hs => merge_step_keeps_heights cenv time s s2 h id hP hs)
    (fun s h hP => merge_step_not_wrapped cenv time s h hP) elements st 0 null_hash ?_
  intro k e hf
  rw [h1]; exact h2 k e hf
/-- The loop of `merge` against the list of the hashes it inserts: the keys of `known_blocks_`
afterwards, and what is handed to the broadcaster. -/
theorem merge_from_spec (cenv : chain_environment) (time : Nat) (elements : List header) :
    ∀ (st : chain_sync_state) (count : Nat) (latest : hash_digest),
      (∀ k, (map_find k (chain_sync_state.merge_from cenv time st count latest
          elements).state.known_blocks_).isSome ↔
        (map_find k st.known_blocks_).isSome ∨ k ∈ merge_inserted cenv time st elements) ∧
      ((chain_sync_state.merge_from cenv time st count latest elements).ec
          ≠ some code.success →
        (chain_sync_state.merge_from cenv time st count latest elements).broadcast = []) ∧
      ((chain_sync_state.merge_from cenv time st count latest elements).ec
          = some code.success →
        (chain_sync_state.merge_from cenv time st count latest elements).broadcast =
          if count + (merge_inserted cenv time st elements).length > 0 then
            [[⟨inventory_type_id.block,
              (merge_inserted cenv time st elements).getLastD latest⟩]]
          else []) := by
  induction elements with
  | nil =>
    intro st count latest
    unfold chain_sync_state.merge_from merge_inserted
    by_cases hc : count > 0
    · simp [hc]
    · simp [hc]
  | cons h rest ih =>
    intro st count latest
    unfold chain_sync_state.merge_from merge_inserted
    cases hs : chain_sync_state.merge_step cenv time st h with
    | rejected ec =>
      dsimp only
      refine ⟨by simp, fun _ => rfl, ?_⟩
      intro he
      have hne := (merge_step_eq cenv time st h).symm.trans hs
      by_cases hc : ((lite_header.from_header h).check cenv time).1 ≠ code.success
      · rw [if_pos hc] at hne
        injection hne with h1
        rw [← h1] at he
        exact absurd (Option.some.inj he) hc
      · rw [if_neg hc] at hne
        revert hne
        split
        · simp
        · split
          · simp
          · split <;> simp
    | skipped => exact ih st count latest
    | wrapped =>
      dsimp only
      exact ⟨by simp, fun _ => rfl, fun he => by cases he⟩
    | inserted id st2 =>
      dsimp only
      obtain ⟨i1, i2, i3⟩ := ih st2 (count + 1) id
      obtain ⟨_, _, hnone, parent, _, _, hst⟩ := merge_step_inserted cenv time st st2 h id hs
      refine ⟨?_, i2, ?_⟩
      · intro k
        rw [i1 k, hst]
        dsimp only
        rw [map_find_map_insert hash_lt id k _ _ hnone]
        by_cases hk : k = id
        · simp [hk]
        · simp [hk]
      · intro he
        rw [i3 he, List.getLastD_cons, List.length_cons]
        have e1 : count + 1 + (merge_inserted cenv time st2 rest).length
            = count + ((merge_inserted cenv time st2 rest).length + 1) := by omega
        rw [e1]
theorem vector_resize_grow {α : Type} (fill : α) (v : List α) :
    vector_resize (v.length + 1) fill v = v ++ [fill] := by
  unfold vector_resize
  rw [List.take_of_length_le (Nat.le_succ _)]
  simp

theorem modify_at_append_last {α : Type} (f : α → α) (v : List α) (x : α) :
    modify_at f v.length (v ++ [x]) = v ++ [f x] := by
  induction v with
  | nil => rfl
  | cons a rest ih =>
    simp only [List.length_cons, List.cons_append]
    unfold modify_at
    rw [ih]

theorem construct_linear (cenv : chain_environment) (cp : lite_header) :
    linear_tracker cenv cp [] (chain_sync_state.construct cenv cp) := by
  refine ⟨rfl, rfl, ⟨lite_header.default.assign cp, ?_, rfl⟩, ?_, ?_, ?_, ?_⟩
  · rw [construct_known]
    simp [map_find]
  · intro k hk
    rw [construct_known] at hk
    left
    unfold map_find at hk
    split at hk
    · rename_i h; exact h.symm
    · simp [map_find] at hk
  · rw [construct_known]
    simp [map_find]
  · intro x hx; cases hx
  · rw [construct_known]; rfl

theorem merge_step_linear (cenv : chain_environment) (cp : lite_header) (time : Nat)
    (done : List header) (st : chain_sync_state) (h : header)
    (hl : linear_tracker cenv cp done st) (hc : passes_check cenv time h)
    (hp : header_prev h = (done.map (header_hash cenv)).getLastD (cp.hash cenv).1)
    (hcp : header_hash cenv h ≠ (cp.hash cenv).1)
    (hnew : header_hash cenv h ∉ done.map (header_hash cenv)) :
    ∃ st2, chain_sync_state.merge_step cenv time st h
        = merge_step_result.inserted (header_hash cenv h) st2 ∧
      linear_tracker cenv cp (done ++ [h]) st2 ∧
      st2 = ⟨st.starting_height_, st.chain_ ++ [[header_hash cenv h]],
        map_insert hash_lt (header_hash cenv h)
          (stored_header h (cp.height + done.length + 1)) st.known_blocks_⟩ := by
  obtain ⟨h1, h2, ⟨e, he1, he2⟩, h4, h5, h6, h7⟩ := hl
  have hnone : map_find (header_hash cenv h) st.known_blocks_ = none := by
    cases hf : map_find (header_hash cenv h) st.known_blocks_ with
    | none => rfl
    | some v =>
      have := h4 (header_hash cenv h) (by rw [hf]; rfl)
      rcases this with h5 | h5
      · exact absurd h5 hcp
      · exact absurd h5 hnew
  have hc2 : ¬ ((lite_header.from_header h).check cenv time).1 ≠ code.success :=
    not_not.mpr hc
  rw [merge_step_eq, if_neg hc2, hnone]
  dsimp only
  rw [hp, he1]
  dsimp only
  rw [if_neg (by omega)]
  have hlen : st.chain_.length = done.length + 1 := by rw [h2]; simp
  have hchain : modify_at (set_insert hash_lt (header_hash cenv h))
      (e.height + 1 - st.starting_height_)
      (if st.chain_.length ≤ e.height + 1 then
        vector_resize (e.height + 1 - st.starting_height_ + 1) [] st.chain_
      else st.chain_) = st.chain_ ++ [[header_hash cenv h]] := by
    rw [if_pos (by omega), h1, he2]
    have e1 : cp.height + done.length + 1 - cp.height + 1 = st.chain_.length + 1 := by omega
    have e2 : cp.height + done.length + 1 - cp.height = (st.chain_ ++ [[]]).length - 1 := by
      simp; omega
    rw [e1, vector_resize_grow, e2]
    have e3 : (st.chain_ ++ [([] : List hash_digest)]).length - 1 = st.chain_.length := by simp
    rw [e3, modify_at_append_last]
    simp [set_insert, ordered_insert]
  have hne : ∀ k v, map_find k st.known_blocks_ = some v → k ≠ header_hash cenv h := by
    intro k v hf hk; rw [hk, hnone] at hf; cases hf
  rw [hchain, he2]
  refine ⟨_, rfl, ⟨h1, ?_, ?_, ?_, ?_, ?_, ?_⟩, rfl⟩
  · dsimp only
    rw [h2]; simp
  · refine ⟨stored_header h (cp.height + done.length + 1), ?_, ?_⟩
    · dsimp only
      rw [List.map_append, List.map_singleton, List.getLastD_concat,
        map_find_map_insert hash_lt _ _ _ _ hnone, if_pos rfl]
    · rw [stored_header_height, List.length_append]; simp; omega
  · intro k hk
    dsimp only at hk
    rw [map_find_map_insert hash_lt _ _ _ _ hnone] at hk
    by_cases hkk : k = header_hash cenv h
    · right; simp [hkk]
    · rw [if_neg hkk] at hk
      rcases h4 k hk with h8 | h8
      · left; exact h8
      · right; simp only [List.map_append, List.mem_append]; left; exact h8
  · dsimp only
    rw [map_find_map_insert hash_lt _ _ _ _ hnone, if_neg (hne _ _ h5)]
    exact h5
  · intro x hx
    dsimp only
    rw [List.mem_append, List.mem_singleton] at hx
    rcases hx with hx | hx
    · obtain ⟨ht, hpos, hf⟩ := h6 x hx
      refine ⟨ht, hpos, ?_⟩
      rw [map_find_map_insert hash_lt _ _ _ _ hnone, if_neg (hne _ _ hf)]
      exact hf
    · subst hx
      refine ⟨cp.height + done.length + 1, by omega, ?_⟩
      rw [map_find_map_insert hash_lt _ _ _ _ hnone, if_pos rfl]
  · dsimp only
    rw [length_map_insert, h7, List.length_append, List.length_singleton]
theorem merge_from_linear (cenv : chain_environment) (cp : lite_header) (time : Nat)
    (rest : List header) :
    ∀ (done : List header) (st : chain_sync_state) (count : Nat) (latest : hash_digest),
      linear_tracker cenv cp done st →
      (∀ h ∈ rest, passes_check cenv time h) →
      linked cenv ((done.map (header_hash cenv)).getLastD (cp.hash cenv).1) rest →
      ((done ++ rest).map (header_hash cenv)).Nodup →
      (cp.hash cenv).1 ∉ rest.map (header_hash cenv) →
      (chain_sync_state.merge_from cenv time st count latest rest).ec = some code.success ∧
      linear_tracker cenv cp (done ++ rest)
        (chain_sync_state.merge_from cenv time st count latest rest).state ∧
      (chain_sync_state.merge_from cenv time st count latest rest).state
        = line_from cenv st (cp.height + done.length) rest := by
  induction rest with
  | nil =>
    intro done st count latest hl _ _ _ _
    unfold chain_sync_state.merge_from line_from
    rw [List.append_nil]
    split
    · exact ⟨rfl, hl, rfl⟩
    · exact ⟨rfl, hl, rfl⟩
  | cons h rest ih =>
    intro done st count latest hl hc hk hd hcp
    unfold linked at hk
    have hd2 : ((done ++ [h] ++ rest).map (header_hash cenv)).Nodup := by
      rw [List.append_assoc]; exact hd
    have hnew : header_hash cenv h ∉ done.map (header_hash cenv) := by
      intro hm
      rw [List.map_append, List.map_cons, List.nodup_append] at hd
      exact hd.2.2 hm (List.mem_cons_self _ _)
    have hcp1 : header_hash cenv h ≠ (cp.hash cenv).1 := by
      intro he; apply hcp; rw [List.map_cons, ← he]; exact List.mem_cons_self _ _
    obtain ⟨st2, hs, hl2, hst2⟩ := merge_step_linear cenv cp time done st h hl
      (hc h (List.mem_cons_self _ _)) hk.1 hcp1 hnew
    unfold chain_sync_state.merge_from line_from
    rw [hs]
    dsimp only
    rw [← hst2]
    have := ih (done ++ [h]) st2 (count + 1) (header_hash cenv h) hl2
      (fun x hx => hc x (List.mem_cons_of_mem _ hx))
      (by rw [List.map_append, List.map_singleton, List.getLastD_concat]; exact hk.2)
      hd2
      (fun hm => hcp (by rw [List.map_cons]; exact List.mem_cons_of_mem _ hm))
    rw [List.append_assoc, List.length_append, List.length_singleton, ← Nat.add_assoc] at this
    exact this

theorem scan_down_usable (chain : List (List hash_digest)) (i : Nat) (slot : List hash_digest)
    (h : chain[i]? = some slot) (hu : chain_sync_state.slot_usable slot = true) :
    chain_sync_state.scan_down chain i = some slot := by
  cases i with
  | zero => unfold chain_sync_state.scan_down; rw [h]; dsimp only; rw [if_pos hu]
  | succ n => unfold chain_sync_state.scan_down; rw [h]; dsimp only; rw [if_pos hu]

/-- The two queries on a tracker that holds a line of headers ending in `last`, whose hash is
not the null hash. -/
theorem linear_tracker_top (cenv : chain_environment) (cp : lite_header)
    (done : List header) (last : header) (st : chain_sync_state)
    (hl : linear_tracker cenv cp (done ++ [last]) st)
    (hn : header_hash cenv last ≠ null_hash) :
    st.get_last_known_block_hash = some [header_hash cenv last] ∧
    st.get_top_height = some (cp.height + (done.length + 1)) := by
  obtain ⟨_, h2, ⟨e, he1, he2⟩, _⟩ := hl
  have hlast : st.get_last_known_block_hash = some [header_hash cenv last] := by
    unfold chain_sync_state.get_last_known_block_hash
    apply scan_down_usable
    · rw [h2]; simp
    · unfold chain_sync_state.slot_usable; simp [hn]
  refine ⟨hlast, ?_⟩
  unfold chain_sync_state.get_top_height
  rw [hlast]
  rw [List.map_append, List.map_singleton, List.getLastD_concat] at he1
  rw [List.length_append, List.length_singleton] at he2
  simp only [List.foldl_cons, List.foldl_nil]
  unfold chain_sync_state.top_height_step
  simp only [ne_eq, hn, not_false_eq_true, if_true, he1]
  rw [if_pos (by omega), he2]

/-! ## Header tracker: the chain vector -/

/-- C11 (as the code behaves): on the tracker built on a checkpoint of height 10 that merged
two headers in line (heights 11 and 12, three slots), a merge of one more header on top of
the checkpoint (height 11) returns success and leaves the chain vector with two slots: the
test `chain_.size() <= height` compares a count of slots with an absolute height, and
`resize(height - starting_height_ + 1)` then cuts the vector. -/
theorem merge_shrinks_chain :
    tracker_reachable sample_chain_environment sample_checkpoint sample_chain_state ∧
    sample_chain_state.chain_.length = 3 ∧
    (chain_sync_state.merge sample_chain_environment 2000 sample_chain_state
      [sample_message_header (unit_hash 0 1) 4]).ec = some code.success ∧
    (chain_sync_state.merge sample_chain_environment 2000 sample_chain_state
      [sample_message_header (unit_hash 0 1) 4]).state.chain_.length = 2 ∧
    sample_chain_state.get_top_height = some 12 ∧
    (chain_sync_state.merge sample_chain_environment 2000 sample_chain_state
      [sample_message_header (unit_hash 0 1) 4]).state.get_top_height = some 11 := by
  refine ⟨?_, by decide, by decide, by decide, by decide, by decide⟩
  exact tracker_reachable.merge 2000 _ _ tracker_reachable.construct

/-! ## Header tracker: parents and heights -/

/-- C12: in a tracker reachable from the constructor on `cp` by calls of `merge`, every entry
of `known_blocks_` filed under another hash than the checkpoint's has its previous-block hash
in `known_blocks_`, with a height one above that parent's; a further `merge` returns a code
and leaves every entry in `known_blocks_` as it was. -/
theorem tracker_parents_known (cenv : chain_environment) (cp : lite_header)
    (st : chain_sync_state) (hr : tracker_reachable cenv cp st) :
    (∀ k e, map_find k st.known_blocks_ = some e → k ≠ (cp.hash cenv).1 →
      ∃ parent, map_find e.previous_block_hash_ st.known_blocks_ = some parent ∧
        e.height = parent.height + 1) ∧
    (∀ time elements, (chain_sync_state.merge cenv time st elements).ec ≠ none ∧
      ∀ k e, map_find k st.known_blocks_ = some e →
        map_find k (chain_sync_state.merge cenv time st elements).state.known_blocks_
          = some e) :=
  ⟨(reachable_invariant cenv cp st hr).2.2, fun time elements =>
    ⟨reachable_merge_returns cenv cp st hr time elements,
      fun k e h => merge_keeps_entries cenv time st elements k e h⟩⟩

/-- C12, witness: the tracker `sample_chain_state`, reached by one merge, files the header
of hash `unit_hash 0 3` at height 12, one above its parent. -/
theorem tracker_parents_known_witness :
    tracker_reachable sample_chain_environment sample_checkpoint sample_chain_state ∧
    map_find (unit_hash 0 3) sample_chain_state.known_blocks_
      = some (stored_header (sample_message_header (unit_hash 0 2) 3) 12) ∧
    ((∀ k e, map_find k sample_chain_state.known_blocks_ = some e →
        k ≠ (sample_checkpoint.hash sample_chain_environment).1 →
        ∃ parent, map_find e.previous_block_hash_ sample_chain_state.known_blocks_
            = some parent ∧ e.height = parent.height + 1) ∧
      (∀ time elements,
        (chain_sync_state.merge sample_chain_environment time sample_chain_state elements).ec
          ≠ none ∧
        ∀ k e, map_find k sample_chain_state.known_blocks_ = some e →
          map_find k (chain_sync_state.merge sample_chain_environment time sample_chain_state
            elements).state.known_blocks_ = some e)) :=
  ⟨sample_chain_state_reachable, by decide,
    tracker_parents_known sample_chain_environment sample_checkpoint sample_chain_state
      sample_chain_state_reachable⟩

/-! ## Header tracker: the inventory handed to the broadcaster -/

/-- C14 (amended): the hashes that a call of `merge` inserts are the new keys of
`known_blocks_`; a call that does not return success hands nothing to the broadcaster; a call
that returns success hands it nothing when it inserted no header, and otherwise exactly one
inventory with the single entry of type block that carries the hash inserted last. -/
theorem merge_broadcasts_last (cenv : chain_environment) (time : Nat) (st : chain_sync_state)
    (elements : List header) :
    (∀ k, (map_find k (chain_sync_state.merge cenv time st elements).state.known_blocks_).isSome
      ↔ (map_find k st.known_blocks_).isSome ∨ k ∈ merge_inserted cenv time st elements) ∧
    ((chain_sync_state.merge cenv time st elements).ec ≠ some code.success →
      (chain_sync_state.merge cenv time st elements).broadcast = []) ∧
    ((chain_sync_state.merge cenv time st elements).ec = some code.success →
      (merge_inserted cenv time st elements = [] →
        (chain_sync_state.merge cenv time st elements).broadcast = []) ∧
      (∀ ids last, merge_inserted cenv time st elements = ids ++ [last] →
        (chain_sync_state.merge cenv time st elements).broadcast
          = [[⟨inventory_type_id.block, last⟩]])) := by
  obtain ⟨h1, h2, h3⟩ := merge_from_spec cenv time elements st 0 null_hash
  refine ⟨h1, h2, fun he => ⟨?_, ?_⟩⟩
  · intro hn
    have := h3 he
    rw [hn] at this
    exact this
  · intro ids last hn
    have := h3 he
    rw [hn] at this
    rw [List.getLastD_concat] at this
    simpa using this

/-- C14, witness: the merge of two headers in line returns success, inserts both and hands
over one inventory with the hash of the second. -/
theorem merge_broadcasts_last_witness :
    (chain_sync_state.merge sample_chain_environment 2000
      (chain_sync_state.construct sample_chain_environment sample_checkpoint)
      [sample_message_header (unit_hash 0 1) 2, sample_message_header (unit_hash 0 2) 3]).ec
      = some code.success ∧
    merge_inserted sample_chain_environment 2000
      (chain_sync_state.construct sample_chain_environment sample_checkpoint)
      [sample_message_header (unit_hash 0 1) 2, sample_message_header (unit_hash 0 2) 3]
      = [unit_hash 0 2] ++ [unit_hash 0 3] ∧
    (chain_sync_state.merge sample_chain_environment 2000
      (chain_sync_state.construct sample_chain_environment sample_checkpoint)
      [sample_message_header (unit_hash 0 1) 2,
        sample_message_header (unit_hash 0 2) 3]).broadcast
      = [[⟨inventory_type_id.block, unit_hash 0 3⟩]] :=
  ⟨by decide, by decide,
    ((merge_broadcasts_last sample_chain_environment 2000
      (chain_sync_state.construct sample_chain_environment sample_checkpoint)
      [sample_message_header (unit_hash 0 1) 2,
        sample_message_header (unit_hash 0 2) 3]).2.2 (by decide)).2
      [unit_hash 0 2] (unit_hash 0 3) (by decide)⟩

/-- C14 (as stated) fails: a batch whose first header is inserted and whose second header
fails `check` makes `merge` return the error code of the second, with the first header in
`known_blocks_` and nothing handed to the broadcaster. -/
theorem merge_error_no_broadcast :
    merge_inserted sample_chain_environment 2000
      (chain_sync_state.construct sample_chain_environment sample_checkpoint)
      [sample_message_header (unit_hash 0 1) 2, future_message_header (unit_hash 0 2) 3]
      = [unit_hash 0 2] ∧
    map_find (unit_hash 0 2)
      (chain_sync_state.construct sample_chain_environment sample_checkpoint).known_blocks_
      = none ∧
    map_find (unit_hash 0 2) (chain_sync_state.merge sample_chain_environment 2000
      (chain_sync_state.construct sample_chain_environment sample_checkpoint)
      [sample_message_header (unit_hash 0 1) 2,
        future_message_header (unit_hash 0 2) 3]).state.known_blocks_
      = some (stored_header (sample_message_header (unit_hash 0 1) 2) 11) ∧
    (chain_sync_state.merge sample_chain_environment 2000
      (chain_sync_state.construct sample_chain_environment sample_checkpoint)
      [sample_message_header (unit_hash 0 1) 2,
        future_message_header (unit_hash 0 2) 3]).ec = some code.futuristic_timestamp ∧
    (chain_sync_state.merge sample_chain_environment 2000
      (chain_sync_state.construct sample_chain_environment sample_checkpoint)
      [sample_message_header (unit_hash 0 1) 2,
        future_message_header (unit_hash 0 2) 3]).broadcast = [] := by
  decide

/-! ## Header tracker: a line of headers on a fresh tracker -/

/-- C13: on a tracker freshly constructed on a checkpoint, a batch of headers ending in
`last` that all pass `check`, form a line from the checkpoint's hash and have pairwise
distinct hashes is merged with success; `get_top_height()` is then the checkpoint's height
plus the number of headers and `get_last_known_block_hash()` is the set of the last header's
hash alone. Two hypotheses concern the hash function of the library: no header of the line
hashes to the hash of the checkpoint, and the last header does not hash to the null hash. -/
theorem merge_linear_chain (cenv : chain_environment) (cp : lite_header) (time : Nat)
    (elements : List header) (last : header)
    (hlast : elements.getLast? = some last)
    (hcheck : ∀ h ∈ elements, passes_check cenv time h)
    (hlinked : linked cenv (cp.hash cenv).1 elements)
    (hdistinct : (elements.map (header_hash cenv)).Nodup)
    (hcp : (cp.hash cenv).1 ∉ elements.map (header_hash cenv))
    (hnull : header_hash cenv last ≠ null_hash) :
    (chain_sync_state.merge cenv time (chain_sync_state.construct cenv cp) elements).ec
      = some code.success ∧
    (chain_sync_state.merge cenv time (chain_sync_state.construct cenv cp)
      elements).state.get_top_height = some (cp.height + elements.length) ∧
    (chain_sync_state.merge cenv time (chain_sync_state.construct cenv cp)
      elements).state.get_last_known_block_hash = some [header_hash cenv last] := by
  have hsplit : elements.dropLast ++ [last] = elements :=
    List.dropLast_append_getLast? last (by rw [hlast]; rfl)
  obtain ⟨h1, h2, _⟩ := merge_from_linear cenv cp time elements [] _ 0 null_hash
    (construct_linear cenv cp) hcheck hlinked hdistinct hcp
  rw [List.nil_append] at h2
  unfold chain_sync_state.merge
  refine ⟨h1, ?_⟩
  rw [← hsplit] at h2
  obtain ⟨h3, h4⟩ := linear_tracker_top cenv cp elements.dropLast last _ h2 hnull
  rw [hsplit] at h3 h4
  refine ⟨?_, h3⟩
  rw [h4]
  congr 2
  conv_rhs => rw [← hsplit]
  simp

/-- C13, witness: two headers in line on the checkpoint of height 10 give the top height 12
and the top set of the second hash. -/
theorem merge_linear_chain_witness :
    (chain_sync_state.merge sample_chain_environment 2000
      (chain_sync_state.construct sample_chain_environment sample_checkpoint)
      [sample_message_header (unit_hash 0 1) 2, sample_message_header (unit_hash 0 2) 3]).ec
      = some code.success ∧
    (chain_sync_state.merge sample_chain_environment 2000
      (chain_sync_state.construct sample_chain_environment sample_checkpoint)
      [sample_message_header (unit_hash 0 1) 2,
        sample_message_header (unit_hash 0 2) 3]).state.get_top_height
      = some (sample_checkpoint.height
        + [sample_message_header (unit_hash 0 1) 2,
            sample_message_header (unit_hash 0 2) 3].length) ∧
    (chain_sync_state.merge sample_chain_environment 2000
      (chain_sync_state.construct sample_chain_environment sample_checkpoint)
      [sample_message_header (unit_hash 0 1) 2,
        sample_message_header (unit_hash 0 2) 3]).state.get_last_known_block_hash
      = some [header_hash sample_chain_environment
          (sample_message_header (unit_hash 0 2) 3)] :=
  merge_linear_chain sample_chain_environment sample_checkpoint 2000
    [sample_message_header (unit_hash 0 1) 2, sample_message_header (unit_hash 0 2) 3]
    (sample_message_header (unit_hash 0 2) 3) rfl (by decide) (by decide) (by decide)
    (by decide) (by decide)

/-- Under a hash function that gives a header the null hash, as the stand-in of
`sample_chain_environment` does for a zero merkle field: the header, on top of the checkpoint
of height 10, is inserted at height 11, and the two queries still answer with the checkpoint,
since the downward loop skips a slot whose first member is the null hash. -/
theorem merge_null_hash_header :
    passes_check sample_chain_environment 2000 (sample_message_header (unit_hash 0 1) 0) ∧
    linked sample_chain_environment (sample_checkpoint.hash sample_chain_environment).1
      [sample_message_header (unit_hash 0 1) 0] ∧
    header_hash sample_chain_environment (sample_message_header (unit_hash 0 1) 0)
      = null_hash ∧
    (sample_checkpoint.hash sample_chain_environment).1 = unit_hash 0 1 ∧
    sample_checkpoint.height = 10 ∧
    (chain_sync_state.merge sample_chain_environment 2000
      (chain_sync_state.construct sample_chain_environment sample_checkpoint)
      [sample_message_header (unit_hash 0 1) 0]).ec = some code.success ∧
    (chain_sync_state.merge sample_chain_environment 2000
      (chain_sync_state.construct sample_chain_environment sample_checkpoint)
      [sample_message_header (unit_hash 0 1) 0]).state.chain_
      = [[unit_hash 0 1], [null_hash]] ∧
    (chain_sync_state.merge sample_chain_environment 2000
      (chain_sync_state.construct sample_chain_environment sample_checkpoint)
      [sample_message_header (unit_hash 0 1) 0]).state.get_top_height = some 10 ∧
    (chain_sync_state.merge sample_chain_environment 2000
      (chain_sync_state.construct sample_chain_environment sample_checkpoint)
      [sample_message_header (unit_hash 0 1) 0]).state.get_last_known_block_hash
      = some [unit_hash 0 1] := by
  decide

/-! ## Header sync: the headers that are served -/

theorem to_little_endian_mod (n v : Nat) :
    to_little_endian n (v % 256 ^ n) = to_little_endian n v := by
  induction n generalizing v with
  | zero => rfl
  | succ n ih =>
    unfold to_little_endian
    have e1 : v % 256 ^ (n + 1) % 256 = v % 256 :=
      Nat.mod_mod_of_dvd v (Dvd.intro_left (256 ^ n) rfl)
    have e2 : v % 256 ^ (n + 1) / 256 = (v / 256) % 256 ^ n := by
      rw [pow_succ, Nat.mul_comm, Nat.mod_mul_right_div_self]
    simp only [e1, e2, ih]

/-- The headers that the bytes decide: equal bytes give equal `lite_header`s. -/
theorem from_header_congr (h1 h2 : header) (h : h1.to_data = h2.to_data) :
    lite_header.from_header h1 = lite_header.from_header h2 := by
  unfold lite_header.from_header
  rw [h]

theorem from_header_eq (h : header) :
    lite_header.from_header h
      = lite_header.construct (h.version % 256 ^ 4) h.previous_block_hash h.merkle
          (h.timestamp % 256 ^ 4) (h.bits % 256 ^ 4) (h.nonce % 256 ^ 4) := by
  unfold lite_header.from_header lite_header.from_data_chunk header.to_data reader.open
  have e : to_little_endian 4 h.version ++ h.previous_block_hash.val ++ h.merkle.val
        ++ to_little_endian 4 h.timestamp ++ to_little_endian 4 h.bits
        ++ to_little_endian 4 h.nonce
      = to_little_endian 4 h.version ++ (h.previous_block_hash.val ++ (h.merkle.val
        ++ (to_little_endian 4 h.timestamp ++ (to_little_endian 4 h.bits
        ++ (to_little_endian 4 h.nonce ++ []))))) := by
    simp only [List.append_assoc, List.append_nil]
  rw [e]
  unfold lite_header.from_data
  rw [read_little_endian_append]
  simp only
  rw [read_hash_append]
  simp only
  rw [read_hash_append]
  simp only
  rw [read_little_endian_append]
  simp only
  rw [read_little_endian_append]
  simp only
  rw [read_little_endian_append]
  rfl

theorem factory_from_data_to_data (h : lite_header) :
    header.factory_from_data (h.to_data true)
      = ⟨h.version_ % 256 ^ 4, h.previous_block_hash_, h.merkle_, h.timestamp_ % 256 ^ 4,
          h.bits_ % 256 ^ 4, h.nonce_ % 256 ^ 4⟩ := by
  have e : h.to_data true
      = to_little_endian 4 h.version_ ++ (h.previous_block_hash_.val ++ (h.merkle_.val
        ++ (to_little_endian 4 h.timestamp_ ++ (to_little_endian 4 h.bits_
        ++ (to_little_endian 4 h.nonce_ ++ []))))) := by
    rw [lite_header_to_data_wire]
    simp only [List.append_assoc, List.append_nil]
  rw [e]
  unfold header.factory_from_data reader.open
  dsimp only
  rw [read_little_endian_append]
  simp only
  rw [read_hash_append]
  simp only
  rw [read_hash_append]
  simp only
  rw [read_little_endian_append]
  simp only
  rw [read_little_endian_append]
  simp only
  rw [read_little_endian_append]
  simp

/-- The header served for a stored header has the bytes of the stored header. -/
theorem served_to_data (h : lite_header) :
    (header.factory_from_data (h.to_data true)).to_data = h.to_data true := by
  rw [factory_from_data_to_data, lite_header_to_data_wire]
  unfold header.to_data
  simp only [to_little_endian_mod]

theorem from_header_to_data (h : header) :
    (lite_header.from_header h).to_data true = h.to_data := by
  rw [from_header_eq, lite_header_to_data_wire]
  unfold header.to_data lite_header.construct
  simp only [to_little_endian_mod]

theorem assign_to_data (a b : lite_header) : (a.assign b).to_data true = b.to_data true := by
  rw [lite_header_to_data_wire, lite_header_to_data_wire]
  rfl

theorem with_height_to_data (a : lite_header) (height : Nat) :
    ({ a with height := height } : lite_header).to_data true = a.to_data true := by
  rw [lite_header_to_data_wire, lite_header_to_data_wire]

theorem stored_header_to_data (h : header) (height : Nat) :
    (stored_header h height).to_data true = h.to_data := by
  unfold stored_header
  rw [assign_to_data, with_height_to_data, from_header_to_data]

/-- The header served for the entry that `merge` stored for `h` is read by `merge` as `h`
is. -/
theorem served_from_header (h : header) (height : Nat) :
    lite_header.from_header (header.factory_from_data
      ((lite_header.default.assign (stored_header h height)).to_data true))
      = lite_header.from_header h := by
  apply from_header_congr
  rw [served_to_data, assign_to_data, stored_header_to_data]

theorem header_hash_eq (cenv : chain_environment) (h : header) :
    header_hash cenv h = cenv.bitcoin_hash h.to_data := by
  have e := hash_of_uncached cenv (lite_header.from_header h) (from_header_hash_none h)
  rw [from_header_to_data] at e
  exact e

/-! ## Header sync: merging what was served -/

theorem merge_step_congr (cenv : chain_environment) (time : Nat) (st : chain_sync_state)
    (h1 h2 : header) (h : lite_header.from_header h1 = lite_header.from_header h2) :
    chain_sync_state.merge_step cenv time st h1 = chain_sync_state.merge_step cenv time st h2 := by
  unfold chain_sync_state.merge_step
  rw [h]

theorem merge_from_congr (cenv : chain_environment) (time : Nat) (xs : List header) :
    ∀ (ys : List header) (st : chain_sync_state) (count : Nat) (latest : hash_digest),
      xs.map lite_header.from_header = ys.map lite_header.from_header →
      chain_sync_state.merge_from cenv time st count latest xs
        = chain_sync_state.merge_from cenv time st count latest ys := by
  induction xs with
  | nil =>
    intro ys st count latest h
    cases ys with
    | nil => rfl
    | cons y ys => simp at h
  | cons x xs ih =>
    intro ys st count latest h
    cases ys with
    | nil => simp at h
    | cons y ys =>
      simp only [List.map_cons, List.cons.injEq] at h
      unfold chain_sync_state.merge_from
      rw [merge_step_congr cenv time st x y h.1]
      cases chain_sync_state.merge_step cenv time st y with
      | rejected ec => rfl
      | skipped => exact ih ys st count latest h.2
      | inserted id st2 => exact ih ys st2 (count + 1) id h.2
      | wrapped => rfl

/-- A batch of one header whose hash is known leaves the tracker as it is. -/
theorem merge_known_unchanged (cenv : chain_environment) (time : Nat) (st : chain_sync_state)
    (x : header) (v : lite_header)
    (h : map_find (header_hash cenv x) st.known_blocks_ = some v) :
    (chain_sync_state.merge cenv time st [x]).ec ≠ none ∧
    (chain_sync_state.merge cenv time st [x]).state = st := by
  unfold chain_sync_state.merge chain_sync_state.merge_from
  rw [merge_step_eq, h]
  by_cases hc : ((lite_header.from_header x).check cenv time).1 ≠ code.success
  · rw [if_pos hc]
    exact ⟨by simp, rfl⟩
  · rw [if_neg hc]
    dsimp only
    unfold chain_sync_state.merge_from
    exact ⟨by simp, rfl⟩

theorem linked_cons (cenv : chain_environment) (p : hash_digest) (h : header)
    (rest : List header) :
    linked cenv p (h :: rest) ↔ header_prev h = p ∧ linked cenv (header_hash cenv h) rest :=
  Iff.rfl

theorem line_from_cons (cenv : chain_environment) (st : chain_sync_state) (height : Nat)
    (h : header) (rest : List header) :
    line_from cenv st height (h :: rest)
      = line_from cenv
          ⟨st.starting_height_, st.chain_ ++ [[header_hash cenv h]],
            map_insert hash_lt (header_hash cenv h) (stored_header h (height + 1))
              st.known_blocks_⟩
          (height + 1) rest := rfl

theorem linked_append (cenv : chain_environment) (xs ys : List header) :
    ∀ p, linked cenv p (xs ++ ys) ↔
      linked cenv p xs ∧ linked cenv ((xs.map (header_hash cenv)).getLastD p) ys := by
  induction xs with
  | nil => intro p; simp [linked]
  | cons x xs ih =>
    intro p
    rw [List.cons_append, linked_cons, linked_cons, ih, List.map_cons, List.getLastD_cons,
      and_assoc]

theorem line_from_append (cenv : chain_environment) (xs ys : List header) :
    ∀ (st : chain_sync_state) (height : Nat),
      line_from cenv st height (xs ++ ys)
        = line_from cenv (line_from cenv st height xs) (height + xs.length) ys := by
  induction xs with
  | nil => intro st height; rfl
  | cons x xs ih =>
    intro st height
    rw [List.cons_append, line_from_cons, line_from_cons, ih, List.length_cons,
      Nat.add_assoc, Nat.add_comm 1 xs.length]

/-- The top set of a tracker that holds a line of headers is the hash of the last one (the
checkpoint's hash when there is none), unless that is the null hash. -/
theorem linear_tracker_last (cenv : chain_environment) (cp : lite_header)
    (done : List header) (st : chain_sync_state) (hl : linear_tracker cenv cp done st)
    (hn : (done.map (header_hash cenv)).getLastD (cp.hash cenv).1 ≠ null_hash) :
    st.get_last_known_block_hash
      = some [(done.map (header_hash cenv)).getLastD (cp.hash cenv).1] := by
  rcases List.eq_nil_or_concat done with hd | ⟨d, last, hd⟩
  · subst hd
    obtain ⟨_, h2, _⟩ := hl
    unfold chain_sync_state.get_last_known_block_hash
    apply scan_down_usable
    · rw [h2]; rfl
    · unfold chain_sync_state.slot_usable
      simpa using hn
  · subst hd
    rw [List.concat_eq_append] at hl hn ⊢
    rw [List.map_append, List.map_singleton, List.getLastD_concat] at hn ⊢
    exact (linear_tracker_top cenv cp d last st hl hn).1

theorem request_missing_headers_line (cenv : chain_environment) (cp : lite_header)
    (done : List header) (st : chain_sync_state) (hl : linear_tracker cenv cp done st)
    (hn : (done.map (header_hash cenv)).getLastD (cp.hash cenv).1 ≠ null_hash) :
    protocol_lite_header_sync.request_missing_headers st null_hash
      = some (true, [⟨[(done.map (header_hash cenv)).getLastD (cp.hash cenv).1], null_hash⟩]) := by
  unfold protocol_lite_header_sync.request_missing_headers
  rw [linear_tracker_last cenv cp done st hl hn]
  dsimp only
  unfold protocol_lite_header_sync.request_loop
  rw [if_pos hn]
  rfl

/-! ## Header sync: the answer to a request -/

/-- The walk back from the last header of a line `mid ++ [x]` that starts after the header
with the hash `known_start` collects the hashes of the line. -/
theorem walk_back_line (cenv : chain_environment) (a : chain_sync_state)
    (known_start : hash_digest) (mid : List header) :
    ∀ (x : header) (rest : List hash_digest) (fuel : Nat), mid.length < fuel →
      (∀ y ∈ mid ++ [x], a.get_prev_hash_by_id (header_hash cenv y) = some (header_prev y)) →
      linked cenv known_start (mid ++ [x]) →
      (∀ y ∈ mid ++ [x], header_hash cenv y ≠ known_start) →
      protocol_lite_header_sync.walk_back a known_start fuel (header_hash cenv x) rest
        = some (some ((mid ++ [x]).map (header_hash cenv) ++ rest)) := by
  induction mid using List.reverseRecOn with
  | nil =>
    intro x rest fuel hf hp hk hne
    cases fuel with
    | zero => omega
    | succ fuel =>
      unfold protocol_lite_header_sync.walk_back
      rw [if_pos (hne x (by simp)), hp x (by simp)]
      dsimp only
      rw [List.nil_append, linked_cons] at hk
      rw [if_pos hk.1]
      rfl
  | append_singleton m y ih =>
    intro x rest fuel hf hp hk hne
    cases fuel with
    | zero => omega
    | succ fuel =>
      unfold protocol_lite_header_sync.walk_back
      rw [if_pos (hne x (by simp)), hp x (by simp)]
      dsimp only
      rw [linked_append, linked_cons, List.map_append, List.map_singleton,
        List.getLastD_concat] at hk
      rw [hk.2.1, if_neg (hne y (by simp))]
      rw [ih y (header_hash cenv x :: rest) fuel
        (by rw [List.length_append, List.length_singleton] at hf; omega)
        (fun z hz => hp z (List.mem_append_left _ hz)) hk.1
        (fun z hz => hne z (List.mem_append_left _ hz))]
      simp

/-- The loop that fills the answer serves, for the hashes of stored headers, headers that
`merge` reads as it read those, up to `max_get_headers` elements. -/
theorem collect_headers_line (cenv : chain_environment) (a : chain_sync_state)
    (xs : List header) :
    ∀ (elements : List header), elements.length < max_get_headers →
      (∀ x ∈ xs, ∃ ht, a.get_header_by_id (header_hash cenv x) = some (stored_header x ht)) →
      ∃ result, protocol_lite_header_sync.collect_headers a (xs.map (header_hash cenv))
          elements = some result ∧
        result.map lite_header.from_header
          = elements.map lite_header.from_header
            ++ (xs.take (max_get_headers - elements.length)).map lite_header.from_header := by
  induction xs with
  | nil =>
    intro elements _ _
    exact ⟨elements, rfl, by simp⟩
  | cons x xs ih =>
    intro elements hlen hf
    obtain ⟨ht, hx⟩ := hf x (List.mem_cons_self _ _)
    rw [List.map_cons]
    unfold protocol_lite_header_sync.collect_headers
    rw [hx]
    dsimp only
    have hpos : max_get_headers - elements.length
        = (max_get_headers - elements.length - 1) + 1 := by omega
    by_cases hfull : (elements ++ [header.factory_from_data
        ((lite_header.default.assign (stored_header x ht)).to_data true)]).length
        = max_get_headers
    · rw [if_pos hfull]
      refine ⟨_, rfl, ?_⟩
      rw [List.length_append, List.length_singleton] at hfull
      have h1 : max_get_headers - elements.length = 1 := by omega
      rw [h1, List.map_append, List.map_singleton, served_from_header]
      simp
    · rw [if_neg hfull]
      rw [List.length_append, List.length_singleton] at hfull
      obtain ⟨result, hr1, hr2⟩ := ih (elements ++ [header.factory_from_data
        ((lite_header.default.assign (stored_header x ht)).to_data true)])
        (by rw [List.length_append, List.length_singleton]; omega)
        (fun z hz => hf z (List.mem_cons_of_mem _ hz))
      refine ⟨result, hr1, ?_⟩
      rw [hr2, hpos, List.take_succ_cons, List.map_append, List.map_singleton,
        served_from_header, List.map_cons, List.length_append, List.length_singleton]
      have h2 : max_get_headers - (elements.length + 1)
          = max_get_headers - elements.length - 1 := by omega
      rw [h2]
      simp

theorem known_start_found (cenv : chain_environment) (a : chain_sync_state)
    (tip : hash_digest) (found : lite_header)
    (hf : a.get_header_by_id tip = some found) (hh : 0 < found.height)
    (hb : cenv.bitcoin_hash (found.to_data true) = tip) :
    ∃ lh m, [tip].foldl (protocol_lite_header_sync.known_start_step cenv a)
      (lite_header.default, 0, null_hash) = (lh, m, tip) := by
  simp only [List.foldl_cons, List.foldl_nil]
  unfold protocol_lite_header_sync.known_start_step
  rw [hf]
  dsimp only
  have e1 : (lite_header.default.assign found).height = found.height := rfl
  rw [e1, if_pos hh]
  have e2 : ((lite_header.default.assign found).hash cenv).1 = tip := by
    rw [hash_of_uncached cenv _ rfl, assign_to_data, hb]
  exact ⟨_, _, by rw [← e2]⟩

/-- The entry of a tracker that holds a line of headers for the last header of a part of the
line (for the checkpoint when the part is empty). -/
theorem linear_tracker_tip (cenv : chain_environment) (cp : lite_header)
    (pre mid : List header) (a : chain_sync_state)
    (hl : linear_tracker cenv cp (pre ++ mid) a) (hH : 0 < cp.height)
    (hcph : cenv.bitcoin_hash (cp.to_data true) = (cp.hash cenv).1) :
    ∃ found, a.get_header_by_id ((pre.map (header_hash cenv)).getLastD (cp.hash cenv).1)
        = some found ∧ 0 < found.height ∧
      cenv.bitcoin_hash (found.to_data true)
        = (pre.map (header_hash cenv)).getLastD (cp.hash cenv).1 := by
  obtain ⟨_, _, _, _, h5, h6, _⟩ := hl
  rcases List.eq_nil_or_concat pre with hd | ⟨d, y, hd⟩
  · subst hd
    refine ⟨lite_header.default.assign cp, h5, hH, ?_⟩
    rw [assign_to_data]
    exact hcph
  · subst hd
    rw [List.concat_eq_append] at h6 ⊢
    obtain ⟨ht, hpos, hf⟩ := h6 y (by simp)
    rw [List.map_append, List.map_singleton, List.getLastD_concat]
    refine ⟨stored_header y ht, hf, hpos, ?_⟩
    rw [stored_header_to_data, header_hash_eq]

theorem tip_ne_of_nodup (cenv : chain_environment) (cp : lite_header)
    (pre mid : List header)
    (hd : ((pre ++ mid).map (header_hash cenv)).Nodup)
    (hcp : (cp.hash cenv).1 ∉ (pre ++ mid).map (header_hash cenv)) :
    ∀ y ∈ mid, header_hash cenv y ≠ (pre.map (header_hash cenv)).getLastD (cp.hash cenv).1 := by
  intro y hy he
  have hm := List.getLastD_mem_cons (pre.map (header_hash cenv)) (cp.hash cenv).1
  rw [← he, List.mem_cons] at hm
  rcases hm with hm | hm
  · apply hcp
    rw [← hm, List.map_append, List.mem_append]
    right
    exact List.mem_map_of_mem _ hy
  · rw [List.map_append, List.nodup_append] at hd
    exact hd.2.2 hm (List.mem_map_of_mem _ hy)

theorem linear_tracker_null_unknown (cenv : chain_environment) (cp : lite_header)
    (hs : List header) (a : chain_sync_state) (hl : linear_tracker cenv cp hs a)
    (hcpn : (cp.hash cenv).1 ≠ null_hash)
    (hnn : ∀ x ∈ hs, header_hash cenv x ≠ null_hash) :
    a.get_header_by_id null_hash = none := by
  obtain ⟨_, _, _, h4, _⟩ := hl
  unfold chain_sync_state.get_header_by_id
  cases hf : map_find null_hash a.known_blocks_ with
  | none => rfl
  | some v =>
    rcases h4 null_hash (by rw [hf]; rfl) with h | h
    · exact absurd h.symm hcpn
    · obtain ⟨x, hx, he⟩ := List.mem_map.mp h
      exact absurd he (hnn x hx)

theorem tip_ne_null (cenv : chain_environment) (cp : lite_header) (hs : List header)
    (hcpn : (cp.hash cenv).1 ≠ null_hash)
    (hnn : ∀ x ∈ hs, header_hash cenv x ≠ null_hash) :
    (hs.map (header_hash cenv)).getLastD (cp.hash cenv).1 ≠ null_hash := by
  intro he
  have hm := List.getLastD_mem_cons (hs.map (header_hash cenv)) (cp.hash cenv).1
  rw [he, List.mem_cons] at hm
  rcases hm with hm | hm
  · exact hcpn hm.symm
  · obtain ⟨x, hx, hxe⟩ := List.mem_map.mp hm
    exact hnn x hx hxe

/-- The answer of a tracker that holds the line `pre ++ mid ++ [last]` to the request that
starts at the end of `pre` and has the null hash as stop: headers that `merge` reads as the
first `max_get_headers` of `mid ++ [last]`. -/
theorem handle_receive_get_headers_line (cenv : chain_environment) (cp : lite_header)
    (pre mid : List header) (last : header) (a : chain_sync_state)
    (hl : linear_tracker cenv cp (pre ++ (mid ++ [last])) a)
    (hH : 0 < cp.height)
    (hcph : cenv.bitcoin_hash (cp.to_data true) = (cp.hash cenv).1)
    (hcpn : (cp.hash cenv).1 ≠ null_hash)
    (hnn : ∀ x ∈ pre ++ (mid ++ [last]), header_hash cenv x ≠ null_hash)
    (hk : linked cenv (cp.hash cenv).1 (pre ++ (mid ++ [last])))
    (hd : ((pre ++ (mid ++ [last])).map (header_hash cenv)).Nodup)
    (hcp : (cp.hash cenv).1 ∉ (pre ++ (mid ++ [last])).map (header_hash cenv)) :
    ∃ elements, protocol_lite_header_sync.handle_receive_get_headers cenv a
        ⟨[(pre.map (header_hash cenv)).getLastD (cp.hash cenv).1], null_hash⟩
        = some [elements] ∧
      elements.map lite_header.from_header
        = ((mid ++ [last]).take max_get_headers).map lite_header.from_header := by
  have hlast : a.get_last_known_block_hash = some [header_hash cenv last] := by
    have := linear_tracker_last cenv cp _ a hl (tip_ne_null cenv cp _ hcpn hnn)
    rw [← List.append_assoc, List.map_append, List.map_singleton, List.getLastD_concat] at this
    exact this
  have hln : header_hash cenv last ≠ null_hash := hnn last (by simp)
  obtain ⟨found, hf1, hf2, hf3⟩ := linear_tracker_tip cenv cp pre _ a hl hH hcph
  obtain ⟨lh, m, hfold⟩ := known_start_found cenv a _ found hf1 hf2 hf3
  have htn : (pre.map (header_hash cenv)).getLastD (cp.hash cenv).1 ≠ null_hash :=
    tip_ne_null cenv cp pre hcpn (fun x hx => hnn x (List.mem_append_left _ hx))
  have hnull := linear_tracker_null_unknown cenv cp _ a hl hcpn hnn
  obtain ⟨_, _, _, _, _, h6, h7⟩ := hl
  have hwalk := walk_back_line cenv a
    ((pre.map (header_hash cenv)).getLastD (cp.hash cenv).1) mid last []
    (a.known_blocks_.length + 1)
    (by rw [h7]; simp only [List.length_append, List.length_singleton]; omega)
    (fun y hy => by
      obtain ⟨ht, _, hf⟩ := h6 y (List.mem_append_right _ hy)
      unfold chain_sync_state.get_prev_hash_by_id
      rw [hf]; rfl)
    ((linked_append cenv pre _ _).mp hk).2
    (tip_ne_of_nodup cenv cp pre _ hd hcp)
  obtain ⟨result, hr1, hr2⟩ := collect_headers_line cenv a (mid ++ [last]) []
    (by unfold max_get_headers; simp)
    (fun x hx => by
      obtain ⟨ht, _, hf⟩ := h6 x (List.mem_append_right _ hx)
      exact ⟨ht, hf⟩)
  refine ⟨result, ?_, by simpa using hr2⟩
  unfold protocol_lite_header_sync.handle_receive_get_headers
  dsimp only
  rw [hnull, hlast]
  dsimp only
  unfold protocol_lite_header_sync.first_not_null
  rw [if_pos hln, if_neg hln]
  unfold protocol_lite_header_sync.answer_from
  rw [hfold]
  dsimp only
  rw [if_neg htn, hwalk]
  dsimp only
  rw [List.append_nil, hr1]
  dsimp only
  have hne : result ≠ [] := by
    intro he
    rw [he] at hr2
    have hl0 := congrArg List.length hr2
    simp [max_get_headers] at hl0
    omega
  rw [if_pos hne]

/-- The answer of a tracker that holds a line of headers to the request that starts at the
end of the line: one header, with the hash of the last one. -/
theorem handle_receive_get_headers_top (cenv : chain_environment) (cp : lite_header)
    (hs : List header) (a : chain_sync_state)
    (hl : linear_tracker cenv cp hs a)
    (hH : 0 < cp.height)
    (hcph : cenv.bitcoin_hash (cp.to_data true) = (cp.hash cenv).1)
    (hcpn : (cp.hash cenv).1 ≠ null_hash)
    (hnn : ∀ x ∈ hs, header_hash cenv x ≠ null_hash) :
    ∃ x, protocol_lite_header_sync.handle_receive_get_headers cenv a
        ⟨[(hs.map (header_hash cenv)).getLastD (cp.hash cenv).1], null_hash⟩
        = some [[x]] ∧
      header_hash cenv x = (hs.map (header_hash cenv)).getLastD (cp.hash cenv).1 := by
  have htn := tip_ne_null cenv cp hs hcpn hnn
  have hlast := linear_tracker_last cenv cp hs a hl htn
  have hnull := linear_tracker_null_unknown cenv cp hs a hl hcpn hnn
  have hl2 : linear_tracker cenv cp (hs ++ []) a := by rw [List.append_nil]; exact hl
  obtain ⟨found, hf1, hf2, hf3⟩ := linear_tracker_tip cenv cp hs [] a hl2 hH hcph
  obtain ⟨lh, m, hfold⟩ := known_start_found cenv a _ found hf1 hf2 hf3
  refine ⟨header.factory_from_data ((lite_header.default.assign found).to_data true), ?_, ?_⟩
  · unfold protocol_lite_header_sync.handle_receive_get_headers
    dsimp only
    rw [hnull, hlast]
    dsimp only
    unfold protocol_lite_header_sync.first_not_null
    rw [if_pos htn, if_neg htn]
    unfold protocol_lite_header_sync.answer_from
    rw [hfold]
    dsimp only
    rw [if_neg htn]
    unfold protocol_lite_header_sync.walk_back
    rw [if_neg (by simp)]
    dsimp only
    unfold protocol_lite_header_sync.collect_headers
    rw [hf1]
    dsimp only
    rw [if_neg (by unfold max_get_headers; simp)]
    unfold protocol_lite_header_sync.collect_headers
    dsimp only
    rw [if_pos (by simp)]
    rfl
  · rw [header_hash_eq, served_to_data, assign_to_data, hf3]

/-! ## Header sync: rounds -/

theorem linked_take (cenv : chain_environment) (p : hash_digest) (k : Nat) (l : List header)
    (h : linked cenv p l) : linked cenv p (l.take k) := by
  rw [← List.take_append_drop k l] at h
  exact ((linked_append cenv _ _ p).mp h).1

/-- A line of headers filed on the fresh tracker gives a tracker that holds the line. -/
theorem line_from_linear (cenv : chain_environment) (cp : lite_header) (time : Nat)
    (pre post : List header)
    (hc : ∀ h ∈ pre ++ post, passes_check cenv time h)
    (hk : linked cenv (cp.hash cenv).1 (pre ++ post))
    (hd : ((pre ++ post).map (header_hash cenv)).Nodup)
    (hcp : (cp.hash cenv).1 ∉ (pre ++ post).map (header_hash cenv)) :
    linear_tracker cenv cp pre
      (line_from cenv (chain_sync_state.construct cenv cp) cp.height pre) := by
  have hd2 : (([] ++ pre).map (header_hash cenv)).Nodup := by
    rw [List.nil_append]
    rw [List.map_append] at hd
    exact (List.nodup_append.mp hd).1
  obtain ⟨_, h2, h3⟩ := merge_from_linear cenv cp time pre [] _ 0 null_hash
    (construct_linear cenv cp)
    (fun h hh => hc h (List.mem_append_left _ hh))
    ((linked_append cenv pre post _).mp hk).1 hd2
    (fun hm => hcp (by rw [List.map_append, List.mem_append]; exact Or.inl hm))
  rw [h3, List.nil_append] at h2
  exact h2

theorem sync_round_progress (cenv : chain_environment) (cp : lite_header) (time : Nat)
    (pre mid : List header) (last : header) (a b : chain_sync_state)
    (hla : linear_tracker cenv cp (pre ++ (mid ++ [last])) a)
    (hlb : linear_tracker cenv cp pre b)
    (hH : 0 < cp.height)
    (hcph : cenv.bitcoin_hash (cp.to_data true) = (cp.hash cenv).1)
    (hcpn : (cp.hash cenv).1 ≠ null_hash)
    (hnn : ∀ x ∈ pre ++ (mid ++ [last]), header_hash cenv x ≠ null_hash)
    (hc : ∀ h ∈ pre ++ (mid ++ [last]), passes_check cenv time h)
    (hk : linked cenv (cp.hash cenv).1 (pre ++ (mid ++ [last])))
    (hd : ((pre ++ (mid ++ [last])).map (header_hash cenv)).Nodup)
    (hcp : (cp.hash cenv).1 ∉ (pre ++ (mid ++ [last])).map (header_hash cenv)) :
    sync_round cenv time a b
      = some (line_from cenv b (cp.height + pre.length)
          ((mid ++ [last]).take max_get_headers)) := by
  have htn : (pre.map (header_hash cenv)).getLastD (cp.hash cenv).1 ≠ null_hash :=
    tip_ne_null cenv cp pre hcpn (fun x hx => hnn x (List.mem_append_left _ hx))
  obtain ⟨elements, he1, he2⟩ := handle_receive_get_headers_line cenv cp pre mid last a hla hH
    hcph hcpn hnn hk hd hcp
  have hsub : (pre ++ (mid ++ [last]).take max_get_headers).Sublist (pre ++ (mid ++ [last])) :=
    List.Sublist.append_left (List.take_sublist _ _) pre
  obtain ⟨m1, _, m3⟩ := merge_from_linear cenv cp time
    ((mid ++ [last]).take max_get_headers) pre b 0 null_hash hlb
    (fun h hh => hc h (List.mem_append_right _ (List.mem_of_mem_take hh)))
    (linked_take cenv _ _ _ ((linked_append cenv pre _ _).mp hk).2)
    (List.Nodup.sublist (List.Sublist.map _ hsub) hd)
    (fun hm => hcp (by
      rw [List.map_append, List.mem_append]; right
      obtain ⟨x, hx, hxe⟩ := List.mem_map.mp hm
      exact List.mem_map.mpr ⟨x, List.mem_of_mem_take hx, hxe⟩))
  unfold sync_round
  rw [request_missing_headers_line cenv cp pre b hlb htn]
  dsimp only
  unfold answer_all
  rw [he1]
  dsimp only
  unfold merge_all
  have hm : chain_sync_state.merge cenv time b elements
      = chain_sync_state.merge cenv time b ((mid ++ [last]).take max_get_headers) := by
    unfold chain_sync_state.merge
    exact merge_from_congr cenv time _ _ b 0 null_hash he2
  rw [hm]
  unfold chain_sync_state.merge
  rw [m1, m3]
  dsimp only
  unfold merge_all answer_all
  rfl

theorem sync_round_fixed (cenv : chain_environment) (cp : lite_header) (time : Nat)
    (hs : List header) (a b : chain_sync_state)
    (hla : linear_tracker cenv cp hs a)
    (hlb : linear_tracker cenv cp hs b)
    (hH : 0 < cp.height)
    (hcph : cenv.bitcoin_hash (cp.to_data true) = (cp.hash cenv).1)
    (hcpn : (cp.hash cenv).1 ≠ null_hash)
    (hnn : ∀ x ∈ hs, header_hash cenv x ≠ null_hash) :
    sync_round cenv time a b = some b := by
  have htn := tip_ne_null cenv cp hs hcpn hnn
  obtain ⟨x, hx1, hx2⟩ := handle_receive_get_headers_top cenv cp hs a hla hH hcph hcpn hnn
  have hreq := request_missing_headers_line cenv cp hs b hlb htn
  obtain ⟨_, _, ⟨e, he, _⟩, _⟩ := hlb
  rw [← hx2] at he
  obtain ⟨u1, u2⟩ := merge_known_unchanged cenv time b x e he
  unfold sync_round
  rw [hreq]
  dsimp only
  unfold answer_all
  rw [hx1]
  dsimp only
  unfold merge_all
  cases hec : (chain_sync_state.merge cenv time b [x]).ec with
  | none => exact absurd hec u1
  | some ec =>
    dsimp only
    rw [u2]
    unfold merge_all answer_all
    rfl

/-- Rounds of header sync from a tracker that holds the first part of the line of the peer
end with the whole line. -/
theorem sync_line (cenv : chain_environment) (cp : lite_header) (time : Nat)
    (a : chain_sync_state)
    (hH : 0 < cp.height)
    (hcph : cenv.bitcoin_hash (cp.to_data true) = (cp.hash cenv).1)
    (hcpn : (cp.hash cenv).1 ≠ null_hash) :
    ∀ (fuel : Nat) (pre post : List header), post.length < fuel →
      linear_tracker cenv cp (pre ++ post) a →
      (∀ x ∈ pre ++ post, header_hash cenv x ≠ null_hash) →
      (∀ h ∈ pre ++ post, passes_check cenv time h) →
      linked cenv (cp.hash cenv).1 (pre ++ post) →
      ((pre ++ post).map (header_hash cenv)).Nodup →
      (cp.hash cenv).1 ∉ (pre ++ post).map (header_hash cenv) →
      sync cenv time a fuel (line_from cenv (chain_sync_state.construct cenv cp) cp.height pre)
        = some (line_from cenv (chain_sync_state.construct cenv cp) cp.height
            (pre ++ post)) := by
  intro fuel
  induction fuel with
  | zero => intro pre post hf; omega
  | succ fuel ih =>
    intro pre post hf hla hnn hc hk hd hcp
    have hlb := line_from_linear cenv cp time pre post hc hk hd hcp
    unfold sync
    rcases List.eq_nil_or_concat post with hp | ⟨mid, last, hp⟩
    · subst hp
      rw [List.append_nil] at hla hnn ⊢
      rw [sync_round_fixed cenv cp time pre a _ hla hlb hH hcph hcpn hnn]
      dsimp only
      rw [if_pos rfl]
    · rw [List.concat_eq_append] at hp
      subst hp
      rw [sync_round_progress cenv cp time pre mid last a _ hla hlb hH hcph hcpn hnn hc hk
        hd hcp]
      dsimp only
      have hlen : (line_from cenv (chain_sync_state.construct cenv cp) cp.height pre).chain_.length
          = pre.length + 1 := by
        obtain ⟨_, h2, _⟩ := hlb
        rw [h2]; simp
      rw [← line_from_append]
      have hsplit : pre ++ (mid ++ [last]).take max_get_headers
          ++ (mid ++ [last]).drop max_get_headers = pre ++ (mid ++ [last]) := by
        rw [List.append_assoc, List.take_append_drop]
      have hlb2 := line_from_linear cenv cp time
        (pre ++ (mid ++ [last]).take max_get_headers)
        ((mid ++ [last]).drop max_get_headers)
        (by rw [hsplit]; exact hc) (by rw [hsplit]; exact hk) (by rw [hsplit]; exact hd)
        (by rw [hsplit]; exact hcp)
      have hne : line_from cenv (chain_sync_state.construct cenv cp) cp.height
          (pre ++ (mid ++ [last]).take max_get_headers)
          ≠ line_from cenv (chain_sync_state.construct cenv cp) cp.height pre := by
        intro he
        have h1 := congrArg (fun s => s.chain_.length) he
        dsimp only at h1
        rw [hlen] at h1
        obtain ⟨_, h2, _⟩ := hlb2
        rw [h2] at h1
        simp [max_get_headers] at h1
      rw [if_neg hne]
      have := ih (pre ++ (mid ++ [last]).take max_get_headers)
        ((mid ++ [last]).drop max_get_headers)
        (by
          rw [List.length_drop]
          rw [List.length_append, List.length_singleton] at hf ⊢
          unfold max_get_headers; omega)
        (by rw [hsplit]; exact hla) (by rw [hsplit]; exact hnn) (by rw [hsplit]; exact hc)
        (by rw [hsplit]; exact hk) (by rw [hsplit]; exact hd) (by rw [hsplit]; exact hcp)
      rw [hsplit] at this
      exact this

/-! ## Header sync between two trackers -/

/-- C15 (amended): let the checkpoint have a height above zero and a hash that is not the null
hash and is the hash of its serialization; let the tracker `a` be the fresh tracker after a
merge of a line of headers from the checkpoint whose hashes are pairwise distinct, differ
from the checkpoint's hash and are not the null hash, and which pass `check` at the clocks of
both sides. Then rounds of header sync (request of `b`, answer of `a`, merge by `b`) from
the fresh tracker `b`, repeated until `b` stops changing, end within one round more than
there are headers, and `b` is then equal to `a`: the two hold the same hashes. -/
theorem header_sync_line (cenv : chain_environment) (cp : lite_header) (time_a time_b : Nat)
    (hs : List header) (rounds : Nat)
    (hH : 0 < cp.height)
    (hcph : cenv.bitcoin_hash (cp.to_data true) = (cp.hash cenv).1)
    (hcpn : (cp.hash cenv).1 ≠ null_hash)
    (hnn : ∀ x ∈ hs, header_hash cenv x ≠ null_hash)
    (hca : ∀ h ∈ hs, passes_check cenv time_a h)
    (hcb : ∀ h ∈ hs, passes_check cenv time_b h)
    (hk : linked cenv (cp.hash cenv).1 hs)
    (hd : (hs.map (header_hash cenv)).Nodup)
    (hcp : (cp.hash cenv).1 ∉ hs.map (header_hash cenv))
    (hr : hs.length < rounds) :
    (chain_sync_state.merge cenv time_a (chain_sync_state.construct cenv cp) hs).ec
      = some code.success ∧
    sync cenv time_b
        (chain_sync_state.merge cenv time_a (chain_sync_state.construct cenv cp) hs).state
        rounds (chain_sync_state.construct cenv cp)
      = some (chain_sync_state.merge cenv time_a (chain_sync_state.construct cenv cp)
          hs).state := by
  obtain ⟨h1, h2, h3⟩ := merge_from_linear cenv cp time_a hs [] _ 0 null_hash
    (construct_linear cenv cp) hca hk hd hcp
  refine ⟨h1, ?_⟩
  unfold chain_sync_state.merge
  have := sync_line cenv cp time_b
    (chain_sync_state.merge_from cenv time_a (chain_sync_state.construct cenv cp) 0 null_hash
      hs).state hH hcph hcpn rounds [] hs hr h2 hnn hcb hk hd hcp
  rw [List.nil_append] at this
  rw [List.length_nil, Nat.add_zero] at h3
  rw [← h3] at this
  exact this

/-- C15, witness: header sync from the fresh tracker towards `sample_chain_state`, which
holds two headers in line, ends with `sample_chain_state`. -/
theorem header_sync_line_witness :
    sync sample_chain_environment 2000 sample_chain_state 3
      (chain_sync_state.construct sample_chain_environment sample_checkpoint)
      = some sample_chain_state :=
  (header_sync_line sample_chain_environment sample_checkpoint 2000 2000
    [sample_message_header (unit_hash 0 1) 2, sample_message_header (unit_hash 0 2) 3] 3
    (by decide) (by decide) (by decide) (by decide) (by decide) (by decide) (by decide)
    (by decide) (by decide) (by decide)).2

/-- C15 (as stated) fails: the tracker `sample_fork_state`, reached by a merge of two headers
that both follow the checkpoint, answers with the branch of the first hash of its top set
only; header sync from the fresh tracker ends, after two rounds, with a tracker that does
not know the hash `unit_hash 0 3` of the other branch. -/
theorem header_sync_fork :
    tracker_reachable sample_chain_environment sample_checkpoint sample_fork_state ∧
    (map_find (unit_hash 0 3) sample_fork_state.known_blocks_).isSome = true ∧
    sync sample_chain_environment 2000 sample_fork_state 2
      (chain_sync_state.construct sample_chain_environment sample_checkpoint)
      = some (chain_sync_state.merge sample_chain_environment 2000
          (chain_sync_state.construct sample_chain_environment sample_checkpoint)
          [sample_message_header (unit_hash 0 1) 2]).state ∧
    map_find (unit_hash 0 3) (chain_sync_state.merge sample_chain_environment 2000
      (chain_sync_state.construct sample_chain_environment sample_checkpoint)
      [sample_message_header (unit_hash 0 1) 2]).state.known_blocks_ = none := by
  refine ⟨tracker_reachable.merge 2000 _ _ tracker_reachable.construct, by decide, by decide,
    by decide⟩

/-! ## Header tracker: the downward loops -/

/-- The downward loop from the index `i` yields a slot exactly when that slot is the first
usable one at or below `i` and every slot passed on the way is inside the vector. -/
theorem scan_down_spec (chain : List (List hash_digest)) (i : Nat) (slot : List hash_digest) :
    chain_sync_state.scan_down chain i = some slot ↔
      ∃ j, j ≤ i ∧ chain[j]? = some slot ∧ chain_sync_state.slot_usable slot = true ∧
        ∀ k, j < k → k ≤ i → ∃ s, chain[k]? = some s ∧ chain_sync_state.slot_usable s = false := by
  induction i with
  | zero =>
    unfold chain_sync_state.scan_down
    constructor
    · intro h
      cases hc : chain[0]? with
      | none => rw [hc] at h; cases h
      | some s =>
        rw [hc] at h
        dsimp only at h
        by_cases hu : chain_sync_state.slot_usable s = true
        · rw [if_pos hu] at h
          cases h
          exact ⟨0, Nat.le_refl _, hc, hu, fun k h1 h2 => by omega⟩
        · rw [if_neg hu] at h; cases h
    · rintro ⟨j, hj, hc, hu, _⟩
      have : j = 0 := by omega
      subst this
      rw [hc]
      dsimp only
      rw [if_pos hu]
  | succ i ih =>
    unfold chain_sync_state.scan_down
    constructor
    · intro h
      cases hc : chain[i + 1]? with
      | none => rw [hc] at h; cases h
      | some s =>
        rw [hc] at h
        dsimp only at h
        by_cases hu : chain_sync_state.slot_usable s = true
        · rw [if_pos hu] at h
          cases h
          exact ⟨i + 1, Nat.le_refl _, hc, hu, fun k h1 h2 => by omega⟩
        · rw [if_neg hu] at h
          obtain ⟨j, hj, hcj, huj, hall⟩ := ih.mp h
          refine ⟨j, by omega, hcj, huj, ?_⟩
          intro k h1 h2
          by_cases hk : k = i + 1
          · subst hk; exact ⟨s, hc, by simpa using hu⟩
          · exact hall k h1 (by omega)
    · rintro ⟨j, hj, hcj, huj, hall⟩
      by_cases hji : j = i + 1
      · subst hji
        rw [hcj]
        dsimp only
        rw [if_pos huj]
      · obtain ⟨s, hs, hsu⟩ := hall (i + 1) (by omega) (Nat.le_refl _)
        rw [hs]
        dsimp only
        rw [if_neg (by rw [hsu]; simp)]
        exact ih.mpr ⟨j, by omega, hcj, huj, fun k h1 h2 => hall k h1 (by omega)⟩

theorem is_recent_iff (st : chain_sync_state) (now : Nat) (id : hash_digest) :
    st.is_recent now id = true ↔
      ∃ e, map_find id st.known_blocks_ = some e ∧ e.timestamp_ < now ∧
        (now + 2 ^ 32 - 600) % 2 ^ 32 < e.timestamp_ := by
  unfold chain_sync_state.is_recent
  cases h : map_find id st.known_blocks_ with
  | none => simp
  | some e => simp

theorem scan_synchronized_spec (st : chain_sync_state) (now pos : Nat) :
    st.scan_synchronized now pos = true ↔
      ∃ i slot, 1 ≤ i ∧ i ≤ pos ∧ st.chain_[i]? = some slot ∧ slot ≠ [] ∧
        (∀ k, i < k → k ≤ pos → st.chain_[k]? = some []) ∧
        ∃ id, id ∈ slot ∧ st.is_recent now id = true := by
  induction pos with
  | zero =>
    unfold chain_sync_state.scan_synchronized
    constructor
    · intro h; cases h
    · rintro ⟨i, slot, h1, h2, _⟩; omega
  | succ pos ih =>
    unfold chain_sync_state.scan_synchronized
    cases hc : st.chain_[pos + 1]? with
    | none =>
      constructor
      · intro h; cases h
      · rintro ⟨i, slot, h1, h2, h3, h4, h5, h6⟩
        by_cases hi : i = pos + 1
        · subst hi; rw [hc] at h3; cases h3
        · have := h5 (pos + 1) (by omega) (Nat.le_refl _)
          rw [hc] at this; cases this
    | some s =>
      dsimp only
      by_cases hs : s ≠ []
      · rw [if_pos hs, List.any_eq_true]
        constructor
        · rintro ⟨id, hid, hr⟩
          exact ⟨pos + 1, s, by omega, Nat.le_refl _, hc, hs, fun k h1 h2 => by omega,
            id, hid, hr⟩
        · rintro ⟨i, slot, h1, h2, h3, h4, h5, id, hid, hr⟩
          by_cases hi : i = pos + 1
          · subst hi
            rw [hc] at h3
            cases h3
            exact ⟨id, hid, hr⟩
          · have := h5 (pos + 1) (by omega) (Nat.le_refl _)
            rw [hc] at this
            cases this
            exact absurd rfl hs
      · rw [if_neg hs, ih]
        have hs2 : s = [] := not_not.mp hs
        subst hs2
        constructor
        · rintro ⟨i, slot, h1, h2, h3, h4, h5, h6⟩
          refine ⟨i, slot, h1, by omega, h3, h4, ?_, h6⟩
          intro k hk1 hk2
          by_cases hk : k = pos + 1
          · subst hk; exact hc
          · exact h5 k hk1 (by omega)
        · rintro ⟨i, slot, h1, h2, h3, h4, h5, h6⟩
          have hi : i ≠ pos + 1 := by
            intro hi; subst hi; rw [hc] at h3; cases h3; exact h4 rfl
          exact ⟨i, slot, h1, by omega, h3, h4, fun k hk1 hk2 => h5 k hk1 (by omega), h6⟩

/-- C22 (amended): `is_synchronized()` returns true if and only if the chain vector has a
non-empty slot at an index of at least 1 and, in the topmost such slot, some hash is a key of
`known_blocks_` whose header has a timestamp below `now` and above `now - 600`, the
difference taken in `uint32_t`; slot 0 is never looked at. -/
theorem is_synchronized_iff (st : chain_sync_state) (time : Nat) :
    st.is_synchronized time = true ↔
      ∃ i slot, 1 ≤ i ∧ st.chain_[i]? = some slot ∧ slot ≠ [] ∧
        (∀ k, i < k → k < st.chain_.length → st.chain_[k]? = some []) ∧
        ∃ id, id ∈ slot ∧ ∃ e, map_find id st.known_blocks_ = some e ∧
          e.timestamp_ < time % 2 ^ 32 ∧
          (time % 2 ^ 32 + 2 ^ 32 - 600) % 2 ^ 32 < e.timestamp_ := by
  unfold chain_sync_state.is_synchronized
  by_cases hl : st.chain_.length = 0
  · rw [if_pos hl]
    constructor
    · intro h; cases h
    · rintro ⟨i, slot, _, h3, _⟩
      have hn : st.chain_ = [] := List.length_eq_zero.mp hl
      rw [hn] at h3
      simp at h3
  · rw [if_neg hl, scan_synchronized_spec]
    constructor
    · rintro ⟨i, slot, h1, h2, h3, h4, h5, id, hid, hr⟩
      exact ⟨i, slot, h1, h3, h4, fun k hk1 hk2 => h5 k hk1 (by omega), id, hid,
        (is_recent_iff st _ id).mp hr⟩
    · rintro ⟨i, slot, h1, h3, h4, h5, id, hid, hr⟩
      have hi : i < st.chain_.length := by
        by_contra hcon
        rw [List.getElem?_eq_none (by omega)] at h3
        cases h3
      exact ⟨i, slot, h1, by omega, h3, h4, fun k hk1 hk2 => h5 k hk1 (by omega), id, hid,
        (is_recent_iff st _ id).mpr hr⟩

/-- C22 (as stated) fails: on the tracker just constructed on `sample_checkpoint`, whose
timestamp 1000 lies within the 600 seconds before the clock 1100, the topmost non-empty slot
is slot 0 and `is_synchronized()` returns false; with one more header of that timestamp on
top it returns true. -/
theorem is_synchronized_skips_slot_zero :
    (chain_sync_state.construct sample_chain_environment sample_checkpoint).chain_
      = [[unit_hash 0 1]] ∧
    ((chain_sync_state.construct sample_chain_environment sample_checkpoint).get_header_by_id
      (unit_hash 0 1)).map (fun e => e.timestamp_) = some 1000 ∧
    (chain_sync_state.construct sample_chain_environment sample_checkpoint).is_synchronized
      1100 = false ∧
    sample_chain_state.is_synchronized 1100 = true := by
  decide

/-! ## Header tracker: the top slot -/

theorem tracker_reachable_of_by (cenv : chain_environment) (cp : lite_header)
    (P : header → Prop) (st : chain_sync_state) (h : tracker_reachable_by cenv cp P st) :
    tracker_reachable cenv cp st := by
  induction h with
  | construct => exact tracker_reachable.construct
  | merge time elements st _ _ ih => exact tracker_reachable.merge time elements st ih

/-- A property of trackers that every inserting step for a header of the batch keeps holds
after the loop of `merge`. -/
theorem merge_from_induct_mem (cenv : chain_environment) (time : Nat)
    (P : chain_sync_state → Prop) (elements : List header)
    (hstep : ∀ st h id st2, h ∈ elements → P st →
      chain_sync_state.merge_step cenv time st h = merge_step_result.inserted id st2 → P st2) :
    ∀ (st : chain_sync_state) (count : Nat) (latest : hash_digest), P st →
      P (chain_sync_state.merge_from cenv time st count latest elements).state := by
  induction elements with
  | nil =>
    intro st count latest hP
    unfold chain_sync_state.merge_from
    split <;> exact hP
  | cons h rest ih =>
    intro st count latest hP
    have ih2 := ih (fun st h2 id st2 hm => hstep st h2 id st2 (List.mem_cons_of_mem _ hm))
    unfold chain_sync_state.merge_from
    cases hs : chain_sync_state.merge_step cenv time st h with
    | rejected ec => exact hP
    | skipped => exact ih2 st count latest hP
    | inserted id st2 =>
      exact ih2 st2 (count + 1) id (hstep st h id st2 (List.mem_cons_self _ _) hP hs)
    | wrapped => exact hP

theorem length_modify_at {α : Type} (f : α → α) (i : Nat) (l : List α) :
    (modify_at f i l).length = l.length := by
  induction l generalizing i with
  | nil => cases i <;> rfl
  | cons a rest ih =>
    cases i with
    | zero => rfl
    | succ i => simp [modify_at, ih]

theorem getElem?_modify_at {α : Type} (f : α → α) (i j : Nat) (l : List α) :
    (modify_at f i l)[j]? = if j = i then (l[j]?).map f else l[j]? := by
  induction l generalizing i j with
  | nil => cases i <;> simp [modify_at]
  | cons a rest ih =>
    cases i with
    | zero =>
      cases j with
      | zero => simp [modify_at]
      | succ j => simp [modify_at]
    | succ i =>
      cases j with
      | zero => simp [modify_at]
      | succ j => simp [modify_at, ih]

theorem length_vector_resize {α : Type} (n : Nat) (fill : α) (v : List α) :
    (vector_resize n fill v).length = n := by
  unfold vector_resize
  simp only [List.length_append, List.length_take, List.length_replicate]
  omega

theorem getElem?_vector_resize {α : Type} (n : Nat) (fill : α) (v : List α) (j : Nat)
    (hj : j < n) :
    (vector_resize n fill v)[j]? = if j < v.length then v[j]? else some fill := by
  unfold vector_resize
  by_cases h : j < v.length
  · rw [if_pos h, List.getElem?_append_left (by simp; omega), List.getElem?_take_of_lt hj]
  · rw [if_neg h, List.getElem?_append_right (by simp; omega),
      List.getElem?_replicate]
    simp only [List.length_take]
    rw [if_pos (by omega)]

theorem set_insert_ne_nil {K : Type} [DecidableEq K] (lt : K → K → Bool) (x : K)
    (s : List K) : set_insert lt x s ≠ [] := by
  intro h
  have := (mem_set_insert lt x x s).mpr (Or.inl rfl)
  rw [h] at this
  cases this

/-- One insertion of `merge` into the chain vector keeps the last slot non-empty and the
null hash out of the slots. -/
theorem chain_insert_top (chain chain1 : List (List hash_digest)) (id : hash_digest)
    (idx : Nat) (hid : id ≠ null_hash)
    (h1 : chain1 = vector_resize (idx + 1) [] chain ∨ (chain1 = chain ∧ idx < chain.length))
    (hlen : 0 < chain.length)
    (htop : ∃ slot, chain[chain.length - 1]? = some slot ∧ slot ≠ [])
    (hmem : ∀ (j : Nat) (slot : List hash_digest), chain[j]? = some slot → ∀ x ∈ slot, x ≠ null_hash) :
    0 < (modify_at (set_insert hash_lt id) idx chain1).length ∧
    (∃ slot, (modify_at (set_insert hash_lt id) idx chain1)[
        (modify_at (set_insert hash_lt id) idx chain1).length - 1]? = some slot ∧ slot ≠ []) ∧
    (∀ (j : Nat) (slot : List hash_digest), (modify_at (set_insert hash_lt id) idx chain1)[j]? = some slot →
      ∀ x ∈ slot, x ≠ null_hash) := by
  have hmem1 : ∀ (j : Nat) (slot : List hash_digest), chain1[j]? = some slot → ∀ x ∈ slot, x ≠ null_hash := by
    intro j slot hj
    rcases h1 with h1 | ⟨h1, _⟩
    · subst h1
      by_cases hji : j < idx + 1
      · rw [getElem?_vector_resize _ _ _ _ hji] at hj
        by_cases hjl : j < chain.length
        · rw [if_pos hjl] at hj; exact hmem j slot hj
        · rw [if_neg hjl] at hj
          cases hj
          intro x hx; cases hx
      · rw [List.getElem?_eq_none (by rw [length_vector_resize]; omega)] at hj
        cases hj
    · subst h1; exact hmem j slot hj
  have hlen1 : 0 < chain1.length ∧ idx < chain1.length := by
    rcases h1 with h1 | ⟨h1, h2⟩
    · subst h1; rw [length_vector_resize]; omega
    · subst h1; exact ⟨hlen, h2⟩
  have htop1 : chain1.length - 1 ≠ idx → ∃ slot, chain1[chain1.length - 1]? = some slot
      ∧ slot ≠ [] := by
    intro hne
    rcases h1 with h1 | ⟨h1, _⟩
    · subst h1; rw [length_vector_resize] at hne; omega
    · subst h1; exact htop
  refine ⟨by rw [length_modify_at]; exact hlen1.1, ?_, ?_⟩
  · rw [length_modify_at, getElem?_modify_at]
    by_cases hi : chain1.length - 1 = idx
    · rw [if_pos hi]
      obtain ⟨s, hs⟩ : ∃ s, chain1[chain1.length - 1]? = some s :=
        ⟨chain1[chain1.length - 1], List.getElem?_eq_getElem (by omega)⟩
      rw [hs]
      exact ⟨_, rfl, set_insert_ne_nil _ _ _⟩
    · rw [if_neg hi]; exact htop1 hi
  · intro j slot hj x hx
    rw [getElem?_modify_at] at hj
    by_cases hji : j = idx
    · rw [if_pos hji] at hj
      cases hs : chain1[j]? with
      | none => rw [hs] at hj; cases hj
      | some s =>
        rw [hs] at hj
        cases hj
        rcases (mem_set_insert hash_lt id x s).mp hx with hx | hx
        · rw [hx]; exact hid
        · exact hmem1 j s hs x hx
    · rw [if_neg hji] at hj
      exact hmem1 j slot hj x hx

theorem construct_chain (cenv : chain_environment) (cp : lite_header) :
    (chain_sync_state.construct cenv cp).chain_ = [[(cp.hash cenv).1]] := rfl

/-- In a tracker built on a checkpoint whose hash is not the null hash from headers whose
hashes are not the null hash, the chain vector is not empty, its last slot is not empty and
no slot holds the null hash. -/
theorem reachable_top_slot (cenv : chain_environment) (cp : lite_header)
    (st : chain_sync_state) (hcp : (cp.hash cenv).1 ≠ null_hash)
    (hr : tracker_reachable_by cenv cp (fun h => header_hash cenv h ≠ null_hash) st) :
    0 < st.chain_.length ∧
    (∃ slot, st.chain_[st.chain_.length - 1]? = some slot ∧ slot ≠ []) ∧
    (∀ (j : Nat) (slot : List hash_digest), st.chain_[j]? = some slot →
      ∀ x ∈ slot, x ≠ null_hash) := by
  induction hr with
  | construct =>
    rw [construct_chain]
    refine ⟨by simp, ⟨[(cp.hash cenv).1], rfl, by simp⟩, ?_⟩
    intro j slot hj x hx
    cases j with
    | zero =>
      simp only [List.getElem?_cons_zero, Option.some.injEq] at hj
      subst hj
      rw [List.mem_singleton] at hx
      rw [hx]; exact hcp
    | succ j => simp at hj
  | merge time elements st hel _ ih =>
    unfold chain_sync_state.merge
    refine merge_from_induct_mem cenv time (fun s => 0 < s.chain_.length ∧
      (∃ slot, s.chain_[s.chain_.length - 1]? = some slot ∧ slot ≠ []) ∧
      (∀ (j : Nat) (slot : List hash_digest), s.chain_[j]? = some slot →
        ∀ x ∈ slot, x ≠ null_hash)) elements ?_ st 0 null_hash ih
    intro s h id s2 hm ⟨i1, i2, i3⟩ hs
    obtain ⟨_, hid, _, parent, _, hstart, rfl⟩ := merge_step_inserted cenv time s s2 h id hs
    dsimp only
    have hidn : id ≠ null_hash := by rw [hid]; exact hel h hm
    apply chain_insert_top s.chain_ _ id _ hidn _ i1 i2 i3
    by_cases hl : s.chain_.length ≤ parent.height + 1
    · rw [if_pos hl]; exact Or.inl rfl
    · rw [if_neg hl]; exact Or.inr ⟨rfl, by omega⟩

theorem slot_usable_of_members (slot : List hash_digest) (hne : slot ≠ [])
    (hm : ∀ x ∈ slot, x ≠ null_hash) : chain_sync_state.slot_usable slot = true := by
  cases slot with
  | nil => exact absurd rfl hne
  | cons a rest =>
    unfold chain_sync_state.slot_usable
    simpa using hm a (List.mem_cons_self _ _)

/-- C23: in a tracker reachable from the constructor, on a checkpoint whose hash is not the
null hash, by merges of headers whose hashes are not the null hash, the chain vector is not
empty and `get_last_known_block_hash()` returns its last slot, which is not empty: the
downward loop ends at its first index `chain_.size() - 1` and never leaves the vector. -/
theorem get_last_known_block_hash_top (cenv : chain_environment) (cp : lite_header)
    (st : chain_sync_state) (hcp : (cp.hash cenv).1 ≠ null_hash)
    (hr : tracker_reachable_by cenv cp (fun h => header_hash cenv h ≠ null_hash) st) :
    0 < st.chain_.length ∧
    ∃ slot, st.get_last_known_block_hash = some slot ∧ slot ≠ [] ∧
      st.chain_[st.chain_.length - 1]? = some slot ∧
      (∀ j, st.chain_.length - 1 < j → st.chain_[j]? = none) := by
  obtain ⟨h1, ⟨slot, h2, h3⟩, h4⟩ := reachable_top_slot cenv cp st hcp hr
  refine ⟨h1, slot, ?_, h3, h2, fun j hj => List.getElem?_eq_none (by omega)⟩
  unfold chain_sync_state.get_last_known_block_hash
  exact scan_down_usable st.chain_ _ slot h2 (slot_usable_of_members slot h3 (h4 _ slot h2))

/-- C23, witness: `sample_chain_state` is built from two headers with the hashes
`unit_hash 0 2` and `unit_hash 0 3`; its top set is its last slot. -/
theorem get_last_known_block_hash_top_witness :
    sample_chain_state.get_last_known_block_hash = some [unit_hash 0 3] ∧
    0 < sample_chain_state.chain_.length ∧
    ∃ slot, sample_chain_state.get_last_known_block_hash = some slot ∧ slot ≠ [] ∧
      sample_chain_state.chain_[sample_chain_state.chain_.length - 1]? = some slot ∧
      (∀ j, sample_chain_state.chain_.length - 1 < j → sample_chain_state.chain_[j]? = none) :=
  ⟨by decide,
    get_last_known_block_hash_top sample_chain_environment sample_checkpoint sample_chain_state
      (by decide)
      (tracker_reachable_by.merge 2000 _ _ (by decide) tracker_reachable_by.construct)⟩

/-! ## Header sync: the handler of `headers` -/

/-- The code `invalid_previous_block` is passed to `complete` exactly when `merge` returned
`success`. -/
theorem handle_receive_headers_completed (cenv : chain_environment) (time : Nat)
    (st : chain_sync_state) (message : List header) (r : headers_result)
    (h : protocol_lite_header_sync.handle_receive_headers cenv time st message = some r) :
    (code.invalid_previous_block ∈ r.completed ↔
      (chain_sync_state.merge cenv time st message).ec = some code.success) := by
  unfold protocol_lite_header_sync.handle_receive_headers at h
  dsimp only at h
  cases hec : (chain_sync_state.merge cenv time st message).ec with
  | none => rw [hec] at h; cases h
  | some ec =>
    rw [hec] at h
    dsimp only at h
    by_cases hm : message.length = max_get_headers
    · rw [if_pos hm] at h
      cases hq : protocol_lite_header_sync.request_missing_headers
          (chain_sync_state.merge cenv time st message).state null_hash with
      | none => rw [hq] at h; cases h
      | some q =>
        rw [hq] at h
        obtain ⟨b, sent⟩ := q
        dsimp only at h
        cases h
        cases ec <;> simp [code.to_bool]
    · rw [if_neg hm] at h
      cases h
      cases ec <;> simp [code.to_bool]

/-- C24 (as the code behaves): a batch of two headers that `merge` accepts with `success`
makes `handle_receive_headers` pass `invalid_previous_block` and then `success` to
`complete`; a batch whose header fails `check`, for which `merge` returns
`futuristic_timestamp`, makes it pass `success` only. The test `!merge(...)` holds for the
code `success`. -/
theorem handle_receive_headers_inverted :
    (chain_sync_state.merge sample_chain_environment 2000
      (chain_sync_state.construct sample_chain_environment sample_checkpoint)
      [sample_message_header (unit_hash 0 1) 2, sample_message_header (unit_hash 0 2) 3]).ec
      = some code.success ∧
    (protocol_lite_header_sync.handle_receive_headers sample_chain_environment 2000
      (chain_sync_state.construct sample_chain_environment sample_checkpoint)
      [sample_message_header (unit_hash 0 1) 2,
        sample_message_header (unit_hash 0 2) 3]).map (fun r => r.completed)
      = some [code.invalid_previous_block, code.success] ∧
    (chain_sync_state.merge sample_chain_environment 2000
      (chain_sync_state.construct sample_chain_environment sample_checkpoint)
      [future_message_header (unit_hash 0 1) 2]).ec = some code.futuristic_timestamp ∧
    (protocol_lite_header_sync.handle_receive_headers sample_chain_environment 2000
      (chain_sync_state.construct sample_chain_environment sample_checkpoint)
      [future_message_header (unit_hash 0 1) 2]).map (fun r => r.completed)
      = some [code.success] := by
  decide

/-! ## Header tracker: a batch with a failing header -/

theorem merge_step_rejected (cenv : chain_environment) (time : Nat) (st : chain_sync_state)
    (h : header) (hh : ¬ passes_check cenv time h) :
    chain_sync_state.merge_step cenv time st h
      = merge_step_result.rejected ((lite_header.from_header h).check cenv time).1 := by
  have hc2 : ((lite_header.from_header h).check cenv time).1 ≠ code.success := hh
  rw [merge_step_eq, if_pos hc2]

theorem merge_step_not_rejected (cenv : chain_environment) (time : Nat)
    (st : chain_sync_state) (h : header) (hh : passes_check cenv time h) (ec : code) :
    chain_sync_state.merge_step cenv time st h ≠ merge_step_result.rejected ec := by
  have hc2 : ¬ ((lite_header.from_header h).check cenv time).1 ≠ code.success :=
    not_not.mpr hh
  rw [merge_step_eq, if_neg hc2]
  split
  · simp
  · split
    · simp
    · split <;> simp

/-- The loop of `merge` on a batch whose first failing header follows the headers `pre`. -/
theorem merge_from_first_failure (cenv : chain_environment) (time : Nat) (h : header)
    (post : List header) (hh : ¬ passes_check cenv time h) (pre : List header) :
    ∀ (st : chain_sync_state) (count : Nat) (latest : hash_digest),
      (∀ x ∈ pre, passes_check cenv time x) →
      (chain_sync_state.merge_from cenv time st count latest (pre ++ h :: post)).state
        = (chain_sync_state.merge_from cenv time st count latest pre).state ∧
      (chain_sync_state.merge_from cenv time st count latest (pre ++ h :: post)).broadcast
        = [] ∧
      ((chain_sync_state.merge_from cenv time st count latest pre).ec = some code.success →
        (chain_sync_state.merge_from cenv time st count latest (pre ++ h :: post)).ec
          = some ((lite_header.from_header h).check cenv time).1) := by
  induction pre with
  | nil =>
    intro st count latest _
    rw [List.nil_append]
    unfold chain_sync_state.merge_from
    rw [merge_step_rejected cenv time st h hh]
    dsimp only
    refine ⟨?_, rfl, fun _ => rfl⟩
    split <;> rfl
  | cons x pre ih =>
    intro st count latest hpre
    have hx := hpre x (List.mem_cons_self _ _)
    have hrest : ∀ y ∈ pre, passes_check cenv time y :=
      fun y hy => hpre y (List.mem_cons_of_mem _ hy)
    rw [List.cons_append]
    unfold chain_sync_state.merge_from
    cases hs : chain_sync_state.merge_step cenv time st x with
    | rejected ec => exact absurd hs (merge_step_not_rejected cenv time st x hx ec)
    | skipped => exact ih st count latest hrest
    | inserted id st2 => exact ih st2 (count + 1) id hrest
    | wrapped => exact ⟨rfl, rfl, fun he => by cases he⟩

/-- C25: if the header `h` is the first of a batch to fail `check`, the headers `pre` before
it all passing, the tracker after `merge` of the batch is the tracker after `merge` of `pre`
alone, nothing is handed to the broadcaster, and the code returned is the error of `h`
(whenever the merge of `pre` alone returns success); with no header before `h` the tracker,
hence `get_top_height()`, is unchanged. -/
theorem merge_first_failure (cenv : chain_environment) (time : Nat) (st : chain_sync_state)
    (pre : List header) (h : header) (post : List header)
    (hpre : ∀ x ∈ pre, passes_check cenv time x) (hh : ¬ passes_check cenv time h) :
    (chain_sync_state.merge cenv time st (pre ++ h :: post)).state
      = (chain_sync_state.merge cenv time st pre).state ∧
    (chain_sync_state.merge cenv time st (pre ++ h :: post)).broadcast = [] ∧
    ((chain_sync_state.merge cenv time st pre).ec = some code.success →
      (chain_sync_state.merge cenv time st (pre ++ h :: post)).ec
        = some ((lite_header.from_header h).check cenv time).1 ∧
      ((lite_header.from_header h).check cenv time).1 ≠ code.success) ∧
    (chain_sync_state.merge cenv time st (h :: post)).state = st ∧
    (chain_sync_state.merge cenv time st (h :: post)).state.get_top_height
      = st.get_top_height := by
  obtain ⟨h1, h2, h3⟩ := merge_from_first_failure cenv time h post hh pre st 0 null_hash hpre
  obtain ⟨h4, _, _⟩ := merge_from_first_failure cenv time h post hh [] st 0 null_hash
    (fun x hx => by cases hx)
  have h5 : (chain_sync_state.merge cenv time st (h :: post)).state = st := h4
  refine ⟨h1, h2, fun he => ⟨h3 he, hh⟩, h5, ?_⟩
  rw [h5]

/-- C25, witness: a batch of one header that is inserted, one whose timestamp is more than
two hours ahead and one more header leaves the tracker as the first header alone does, with
the top height 11, and returns `futuristic_timestamp`. -/
theorem merge_first_failure_witness :
    (chain_sync_state.merge sample_chain_environment 2000
      (chain_sync_state.construct sample_chain_environment sample_checkpoint)
      ([sample_message_header (unit_hash 0 1) 2] ++ future_message_header (unit_hash 0 2) 3
        :: [sample_message_header (unit_hash 0 2) 4])).state
      = (chain_sync_state.merge sample_chain_environment 2000
          (chain_sync_state.construct sample_chain_environment sample_checkpoint)
          [sample_message_header (unit_hash 0 1) 2]).state ∧
    (chain_sync_state.merge sample_chain_environment 2000
      (chain_sync_state.construct sample_chain_environment sample_checkpoint)
      [sample_message_header (unit_hash 0 1) 2]).state.get_top_height = some 11 ∧
    (chain_sync_state.merge sample_chain_environment 2000
      (chain_sync_state.construct sample_chain_environment sample_checkpoint)
      ([sample_message_header (unit_hash 0 1) 2] ++ future_message_header (unit_hash 0 2) 3
        :: [sample_message_header (unit_hash 0 2) 4])).ec
      = some code.futuristic_timestamp :=
  ⟨(merge_first_failure sample_chain_environment 2000
      (chain_sync_state.construct sample_chain_environment sample_checkpoint)
      [sample_message_header (unit_hash 0 1) 2] (future_message_header (unit_hash 0 2) 3)
      [sample_message_header (unit_hash 0 2) 4] (by decide) (by decide)).1,
    by decide, by decide⟩

/-! ## Header sync: the requests -/

theorem request_loop_eq (last : hash_digest) (known_headers : List hash_digest) :
    protocol_lite_header_sync.request_loop last known_headers
      = (decide (last ∉ known_headers),
          (known_headers.takeWhile (fun h => decide (h ≠ last))).map
            fun h => ⟨[h], last⟩) := by
  induction known_headers with
  | nil => simp [protocol_lite_header_sync.request_loop]
  | cons first rest ih =>
    unfold protocol_lite_header_sync.request_loop
    by_cases hf : first ≠ last
    · rw [if_pos hf, ih]
      have h1 : decide (first ≠ last) = true := by simpa using hf
      simp only [List.takeWhile_cons, h1, if_true, List.map_cons, List.mem_cons]
      have hf2 : ¬ last = first := fun e => hf e.symm
      simp [hf2]
    · rw [if_neg hf]
      have hf2 : first = last := not_not.mp hf
      have h1 : decide (first ≠ last) = false := by simpa using hf2
      simp only [List.takeWhile_cons, h1, List.map_nil, List.mem_cons]
      simp [hf2]

/-- C26 (amended): with `T` the top set of the tracker, in its order, `request_missing_headers
(last)` sends one `get_headers` with the start `[h]` and the stop `last` for each `h` of `T`
that comes before `last`, that is for every `h` of `T` when `last` is not in `T`, and no
other; it returns false exactly when `last` is in `T`. -/
theorem request_missing_headers_spec (st : chain_sync_state) (top : List hash_digest)
    (last : hash_digest) (h : st.get_last_known_block_hash = some top) :
    protocol_lite_header_sync.request_missing_headers st last
      = some (decide (last ∉ top),
          (top.takeWhile (fun h => decide (h ≠ last))).map fun h => ⟨[h], last⟩) ∧
    (last ∉ top →
      protocol_lite_header_sync.request_missing_headers st last
        = some (true, top.map fun h => ⟨[h], last⟩)) := by
  unfold protocol_lite_header_sync.request_missing_headers
  rw [h]
  dsimp only
  rw [request_loop_eq]
  refine ⟨rfl, fun hn => ?_⟩
  have : top.takeWhile (fun h => decide (h ≠ last)) = top := by
    rw [List.takeWhile_eq_self_iff]
    intro x hx
    have : x ≠ last := fun e => hn (e ▸ hx)
    simpa using this
  rw [this]
  simp [hn]

/-- C26, witness: the tracker `sample_fork_state`, whose top set holds `unit_hash 0 2` and
`unit_hash 0 3`, asked with the null hash as `last`, sends one request from each. -/
theorem request_missing_headers_spec_witness :
    sample_fork_state.get_last_known_block_hash = some [unit_hash 0 2, unit_hash 0 3] ∧
    protocol_lite_header_sync.request_missing_headers sample_fork_state null_hash
      = some (true, [⟨[unit_hash 0 2], null_hash⟩, ⟨[unit_hash 0 3], null_hash⟩]) :=
  ⟨by decide,
    (request_missing_headers_spec sample_fork_state [unit_hash 0 2, unit_hash 0 3] null_hash
      (by decide)).2 (by decide)⟩

/-- C26 (as stated) fails: on `sample_fork_state`, whose top set holds `unit_hash 0 2` and
`unit_hash 0 3`, the call with `last = unit_hash 0 2` returns false at the first member and
sends nothing, also not the request from `unit_hash 0 3`; with `last = unit_hash 0 3` the
request from `unit_hash 0 2` is sent. -/
theorem request_missing_headers_stops :
    sample_fork_state.get_last_known_block_hash = some [unit_hash 0 2, unit_hash 0 3] ∧
    unit_hash 0 3 ≠ unit_hash 0 2 ∧
    protocol_lite_header_sync.request_missing_headers sample_fork_state (unit_hash 0 2)
      = some (false, []) ∧
    protocol_lite_header_sync.request_missing_headers sample_fork_state (unit_hash 0 3)
      = some (false, [⟨[unit_hash 0 2], unit_hash 0 3⟩]) := by
  decide

/-- C27 (as the code behaves): on the tracker `sample_long_state`, which holds the hashes
`unit_hash 0 2` at height 11 and `unit_hash 0 3` at height 12, the loop over the locator
`[unit_hash 0 2, unit_hash 0 3]` ends with `known_start = unit_hash 0 2`, the entry of the
lower height, and the answer starts one header too early; over the locator in the other order
it ends with `unit_hash 0 3`. The local `lh` keeps the hash cached by its first `hash()`
through the later assignments. -/
theorem known_start_depends_on_order :
    sample_long_state.get_height_by_id (unit_hash 0 2) = some 11 ∧
    sample_long_state.get_height_by_id (unit_hash 0 3) = some 12 ∧
    ([unit_hash 0 2, unit_hash 0 3].foldl
      (protocol_lite_header_sync.known_start_step sample_chain_environment sample_long_state)
      (lite_header.default, 0, null_hash)).2 = (12, unit_hash 0 2) ∧
    ([unit_hash 0 3, unit_hash 0 2].foldl
      (protocol_lite_header_sync.known_start_step sample_chain_environment sample_long_state)
      (lite_header.default, 0, null_hash)).2 = (12, unit_hash 0 3) ∧
    protocol_lite_header_sync.handle_receive_get_headers sample_chain_environment
      sample_long_state ⟨[unit_hash 0 2, unit_hash 0 3], null_hash⟩
      = some [[sample_message_header (unit_hash 0 2) 3,
          sample_message_header (unit_hash 0 3) 4]] ∧
    protocol_lite_header_sync.handle_receive_get_headers sample_chain_environment
      sample_long_state ⟨[unit_hash 0 3, unit_hash 0 2], null_hash⟩
      = some [[sample_message_header (unit_hash 0 3) 4]] := by
  decide

/-! ## Header sync: the walk back from the stop hash -/

theorem reachable_checkpoint_entry (cenv : chain_environment) (cp : lite_header)
    (st : chain_sync_state) (hr : tracker_reachable cenv cp st) :
    map_find (cp.hash cenv).1 st.known_blocks_ = some (lite_header.default.assign cp) := by
  induction hr with
  | construct => rw [construct_known]; simp [map_find]
  | merge time elements st _ ih => exact merge_keeps_entries cenv time st elements _ _ ih

theorem get_prev_hash_by_id_eq (st : chain_sync_state) (id : hash_digest) (e : lite_header)
    (h : map_find id st.known_blocks_ = some e) :
    st.get_prev_hash_by_id id = some e.previous_block_hash_ := by
  unfold chain_sync_state.get_prev_hash_by_id
  rw [h]; rfl

theorem get_prev_hash_by_id_none (st : chain_sync_state) (id : hash_digest)
    (h : map_find id st.known_blocks_ = none) : st.get_prev_hash_by_id id = none := by
  unfold chain_sync_state.get_prev_hash_by_id
  rw [h]; rfl

/-- The walk back from a hash that is not held ends in its first round. -/
theorem walk_back_unknown (st : chain_sync_state) (known_start front : hash_digest)
    (rest : List hash_digest) (fuel : Nat)
    (h : map_find front st.known_blocks_ = none) :
    protocol_lite_header_sync.walk_back st known_start (fuel + 1) front rest ≠ none := by
  unfold protocol_lite_header_sync.walk_back
  by_cases hf : front ≠ known_start
  · rw [if_pos hf, get_prev_hash_by_id_none st front h]
    simp
  · rw [if_neg hf]; simp

/-- The walk back from a held hash at the height `cp.height + n` ends within `n + 2`
rounds, when the previous hash of the checkpoint is not held. -/
theorem walk_back_ends (cenv : chain_environment) (cp : lite_header)
    (st : chain_sync_state) (hr : tracker_reachable cenv cp st)
    (hprev : map_find cp.previous_block_hash_ st.known_blocks_ = none)
    (known_start : hash_digest) (n : Nat) :
    ∀ (front : hash_digest) (e : lite_header) (rest : List hash_digest),
      map_find front st.known_blocks_ = some e → e.height = cp.height + n →
      protocol_lite_header_sync.walk_back st known_start (n + 2) front rest ≠ none := by
  obtain ⟨_, _, h3⟩ := reachable_invariant cenv cp st hr
  have hcpe := reachable_checkpoint_entry cenv cp st hr
  induction n with
  | zero =>
    intro front e rest hf he
    unfold protocol_lite_header_sync.walk_back
    by_cases hk : front ≠ known_start
    · rw [if_pos hk, get_prev_hash_by_id_eq st front e hf]
      dsimp only
      by_cases hp : e.previous_block_hash_ = known_start
      · rw [if_pos hp]; simp
      · rw [if_neg hp]
        have hfc : front = (cp.hash cenv).1 := by
          by_contra hne
          obtain ⟨parent, hpar, hh⟩ := h3 front e hf hne
          have := (reachable_invariant cenv cp st hr).2.1 _ _ hpar
          omega
        rw [hfc, hcpe] at hf
        cases hf
        exact walk_back_unknown st known_start _ _ 0 hprev
    · rw [if_neg hk]; simp
  | succ n ih =>
    intro front e rest hf he
    unfold protocol_lite_header_sync.walk_back
    by_cases hk : front ≠ known_start
    · rw [if_pos hk, get_prev_hash_by_id_eq st front e hf]
      dsimp only
      by_cases hp : e.previous_block_hash_ = known_start
      · rw [if_pos hp]; simp
      · rw [if_neg hp]
        have hfc : front ≠ (cp.hash cenv).1 := by
          intro hfc
          rw [hfc, hcpe] at hf
          cases hf
          have : (lite_header.default.assign cp).height = cp.height := rfl
          omega
        obtain ⟨parent, hpar, hh⟩ := h3 front e hf hfc
        exact ih _ parent _ hpar (by omega)
    · rw [if_neg hk]; simp

/-- C29: in a tracker reachable from the constructor by merges in which the previous hash of
the checkpoint is not a key of `known_blocks_`, the walk back of
`handle_receive_get_headers` from a held stop hash ends, whatever `known_start` is, within
`height(stop) - starting_height_ + 2` rounds of its loop: it reaches `known_start` or returns
at a hash that is not held; from a stop hash that is not held it ends in the first round. -/
theorem walk_back_terminates (cenv : chain_environment) (cp : lite_header)
    (st : chain_sync_state) (hr : tracker_reachable cenv cp st)
    (hprev : map_find cp.previous_block_hash_ st.known_blocks_ = none)
    (known_start stop : hash_digest) :
    (∀ e, map_find stop st.known_blocks_ = some e →
      st.starting_height_ ≤ e.height ∧
      protocol_lite_header_sync.walk_back st known_start
        (e.height - st.starting_height_ + 2) stop [] ≠ none) ∧
    (map_find stop st.known_blocks_ = none →
      protocol_lite_header_sync.walk_back st known_start 1 stop [] ≠ none) := by
  obtain ⟨h1, h2, _⟩ := reachable_invariant cenv cp st hr
  refine ⟨fun e he => ?_, fun hn => walk_back_unknown st known_start stop [] 0 hn⟩
  have hge := h2 stop e he
  rw [h1]
  exact ⟨hge, walk_back_ends cenv cp st hr hprev known_start (e.height - cp.height) stop e []
    he (by omega)⟩

/-- C29, witness: on `sample_long_state` the walk back from `unit_hash 0 4` (height 13, the
checkpoint at height 10) towards a hash that is not held ends within 5 rounds, at the
previous hash of the checkpoint. -/
theorem walk_back_terminates_witness :
    sample_long_state.get_height_by_id (unit_hash 0 4) = some 13 ∧
    sample_long_state.starting_height_ = 10 ∧
    protocol_lite_header_sync.walk_back sample_long_state (unit_hash 0 9) 5 (unit_hash 0 4) []
      = some none ∧
    protocol_lite_header_sync.walk_back sample_long_state (unit_hash 0 9) 4 (unit_hash 0 4) []
      = none ∧
    ∀ e, map_find (unit_hash 0 4) sample_long_state.known_blocks_ = some e →
      sample_long_state.starting_height_ ≤ e.height ∧
      protocol_lite_header_sync.walk_back sample_long_state (unit_hash 0 9)
        (e.height - sample_long_state.starting_height_ + 2) (unit_hash 0 4) [] ≠ none :=
  ⟨by decide, by decide, by decide, by decide,
    (walk_back_terminates sample_chain_environment sample_checkpoint sample_long_state
      (tracker_reachable.merge 2000 _ _ tracker_reachable.construct) (by decide)
      (unit_hash 0 9) (unit_hash 0 4)).1⟩

/-! ## Header sync: the answer along a path -/

theorem prev_path_cons (st : chain_sync_state) (k p : hash_digest) (rest : List hash_digest) :
    prev_path st k (p :: rest) ↔ st.get_prev_hash_by_id p = some k ∧ prev_path st p rest :=
  Iff.rfl

theorem prev_path_append (st : chain_sync_state) (xs ys : List hash_digest) :
    ∀ k, prev_path st k (xs ++ ys) ↔ prev_path st k xs ∧ prev_path st (xs.getLastD k) ys := by
  induction xs with
  | nil => intro k; simp [prev_path]
  | cons x xs ih =>
    intro k
    rw [List.cons_append, prev_path_cons, prev_path_cons, ih, List.getLastD_cons, and_assoc]

/-- Every hash of a path has its previous hash held at the start or on the path. -/
theorem prev_path_mem (st : chain_sync_state) (path : List hash_digest) :
    ∀ k, prev_path st k path → ∀ x ∈ path,
      ∃ y, st.get_prev_hash_by_id x = some y ∧ (y = k ∨ y ∈ path) := by
  induction path with
  | nil => intro k _ x hx; cases hx
  | cons p rest ih =>
    intro k hp x hx
    rw [prev_path_cons] at hp
    rcases List.mem_cons.mp hx with hx | hx
    · subst hx; exact ⟨k, hp.1, Or.inl rfl⟩
    · obtain ⟨y, hy1, hy2⟩ := ih p hp.2 x hx
      refine ⟨y, hy1, Or.inr ?_⟩
      rcases hy2 with hy2 | hy2
      · rw [hy2]; exact List.mem_cons_self _ _
      · exact List.mem_cons_of_mem _ hy2

theorem prev_path_nodup (st : chain_sync_state) (path : List hash_digest) :
    ∀ k, prev_path st k path → k ∉ path → path.Nodup := by
  induction path with
  | nil => intro k _ _; exact List.nodup_nil
  | cons p rest ih =>
    intro k hp hk
    rw [prev_path_cons] at hp
    have hpn : p ∉ rest := by
      intro hm
      obtain ⟨y, hy1, hy2⟩ := prev_path_mem st rest p hp.2 p hm
      rw [hp.1] at hy1
      cases hy1
      apply hk
      rcases hy2 with hy2 | hy2
      · rw [hy2]; exact List.mem_cons_self _ _
      · exact List.mem_cons_of_mem _ hy2
    exact List.nodup_cons.mpr ⟨hpn, ih p hp.2 hpn⟩

theorem prev_path_held (st : chain_sync_state) (k : hash_digest) (path : List hash_digest)
    (hp : prev_path st k path) :
    ∀ x ∈ path, ∃ e, st.get_header_by_id x = some e := by
  intro x hx
  obtain ⟨y, hy, _⟩ := prev_path_mem st path k hp x hx
  unfold chain_sync_state.get_prev_hash_by_id at hy
  unfold chain_sync_state.get_header_by_id
  cases hf : map_find x st.known_blocks_ with
  | none => rw [hf] at hy; cases hy
  | some e => exact ⟨e, rfl⟩

/-- A list of distinct held hashes is not longer than `known_blocks_`. -/
theorem length_le_known (st : chain_sync_state) (l : List hash_digest) (hd : l.Nodup)
    (hh : ∀ x ∈ l, ∃ e, st.get_header_by_id x = some e) :
    l.length ≤ st.known_blocks_.length := by
  have hsub : l ⊆ st.known_blocks_.map Prod.fst := by
    intro x hx
    obtain ⟨e, he⟩ := hh x hx
    exact List.mem_map.mpr ⟨(x, e), map_find_some_mem x e _ he, rfl⟩
  have := (List.subperm_of_subset hd hsub).length_le
  rw [List.length_map] at this
  exact this

/-- The walk back from the last hash of a path that starts after `known_start` and does not
meet it collects the path. -/
theorem walk_back_path (st : chain_sync_state) (known_start : hash_digest)
    (init : List hash_digest) :
    ∀ (x : hash_digest) (rest : List hash_digest) (fuel : Nat), init.length < fuel →
      prev_path st known_start (init ++ [x]) → known_start ∉ init ++ [x] →
      protocol_lite_header_sync.walk_back st known_start fuel x rest
        = some (some (init ++ [x] ++ rest)) := by
  induction init using List.reverseRecOn with
  | nil =>
    intro x rest fuel hf hp hk
    cases fuel with
    | zero => omega
    | succ fuel =>
      rw [List.nil_append, prev_path_cons] at hp
      unfold protocol_lite_header_sync.walk_back
      rw [if_pos (fun e => hk (by rw [← e]; simp)), hp.1]
      dsimp only
      rw [if_pos rfl]
      rfl
  | append_singleton m y ih =>
    intro x rest fuel hf hp hk
    cases fuel with
    | zero => omega
    | succ fuel =>
      rw [prev_path_append, List.getLastD_concat, prev_path_cons] at hp
      unfold protocol_lite_header_sync.walk_back
      rw [if_pos (fun e => hk (by rw [← e]; simp)), hp.2.1]
      dsimp only
      rw [if_neg (fun e => hk (by rw [← e]; simp))]
      rw [ih y (x :: rest) fuel
        (by rw [List.length_append, List.length_singleton] at hf; omega) hp.1
        (fun hm => hk (List.mem_append_left _ hm))]
      simp

/-- The loop that fills the answer puts in the wire headers of the held hashes, in order, up
to `max_get_headers` elements. -/
theorem collect_headers_held (st : chain_sync_state) (ids : List hash_digest) :
    ∀ (elements : List header), elements.length < max_get_headers →
      (∀ id ∈ ids, ∃ e, st.get_header_by_id id = some e) →
      protocol_lite_header_sync.collect_headers st ids elements
        = some (elements ++ (ids.take (max_get_headers - elements.length)).filterMap
            fun id => (st.get_header_by_id id).map wire_header) := by
  induction ids with
  | nil =>
    intro elements _ _
    unfold protocol_lite_header_sync.collect_headers
    simp
  | cons id ids ih =>
    intro elements hlen hh
    obtain ⟨e, he⟩ := hh id (List.mem_cons_self _ _)
    unfold protocol_lite_header_sync.collect_headers
    rw [he]
    dsimp only
    have hpos : max_get_headers - elements.length
        = (max_get_headers - elements.length - 1) + 1 := by omega
    have hw : header.factory_from_data ((lite_header.default.assign e).to_data true)
        = wire_header e := rfl
    rw [hw]
    by_cases hfull : (elements ++ [wire_header e]).length = max_get_headers
    · rw [if_pos hfull]
      rw [List.length_append, List.length_singleton] at hfull
      have h1 : max_get_headers - elements.length = 1 := by omega
      rw [h1]
      simp [he]
    · rw [if_neg hfull]
      rw [List.length_append, List.length_singleton] at hfull
      rw [ih (elements ++ [wire_header e])
        (by rw [List.length_append, List.length_singleton]; omega)
        (fun z hz => hh z (List.mem_cons_of_mem _ hz))]
      rw [hpos, List.take_succ_cons, List.filterMap_cons, he]
      simp only [Option.map_some', List.length_append, List.length_singleton,
        List.append_assoc, List.singleton_append]
      have h2 : max_get_headers - (elements.length + 1)
          = max_get_headers - elements.length - 1 := by omega
      rw [h2]

/-- The loop over a locator whose only held hash is `k`, held with a height above zero and
with bytes that hash to `k`, ends with `known_start = k`. -/
theorem known_start_single (cenv : chain_environment) (st : chain_sync_state)
    (k : hash_digest) (ek : lite_header)
    (hek : st.get_header_by_id k = some ek) (hh : 0 < ek.height)
    (hb : cenv.bitcoin_hash (ek.to_data true) = k) (starts : List hash_digest)
    (hsingle : ∀ x ∈ starts, x ≠ k → st.get_header_by_id x = none) :
    ∀ (vars : lite_header × Nat × hash_digest),
      (vars.2 = (ek.height, k) →
        (starts.foldl (protocol_lite_header_sync.known_start_step cenv st) vars).2.2 = k) ∧
      (vars.1.hash_ = none → vars.2.1 = 0 → k ∈ starts →
        (starts.foldl (protocol_lite_header_sync.known_start_step cenv st) vars).2.2 = k) := by
  induction starts with
  | nil =>
    intro vars
    exact ⟨fun h => by rw [List.foldl_nil, h], fun _ _ hk => by cases hk⟩
  | cons x rest ih =>
    intro vars
    have hrest : ∀ y ∈ rest, y ≠ k → st.get_header_by_id y = none :=
      fun y hy => hsingle y (List.mem_cons_of_mem _ hy)
    rw [List.foldl_cons]
    by_cases hx : x = k
    · subst hx
      constructor
      · intro hv
        apply (ih hrest _).1
        unfold protocol_lite_header_sync.known_start_step
        rw [hek]
        dsimp only
        have e1 : (vars.1.assign ek).height = ek.height := rfl
        rw [e1, hv]
        dsimp only
        rw [if_neg (Nat.lt_irrefl _)]
      · intro hn hz _
        apply (ih hrest _).1
        unfold protocol_lite_header_sync.known_start_step
        rw [hek]
        dsimp only
        have e1 : (vars.1.assign ek).height = ek.height := rfl
        have e2 : (vars.1.assign ek).hash_ = none := hn
        rw [e1, hz, if_pos hh]
        have e3 : ((vars.1.assign ek).hash cenv) = (x, { vars.1.assign ek with hash_ := some x }) := by
          unfold lite_header.hash
          rw [e2]
          dsimp only
          rw [assign_to_data, hb]
        rw [e3]
        rfl
    · have hnone := hsingle x (List.mem_cons_self _ _) hx
      have hstep : protocol_lite_header_sync.known_start_step cenv st vars x = vars := by
        unfold protocol_lite_header_sync.known_start_step
        rw [hnone]
      rw [hstep]
      constructor
      · exact (ih hrest vars).1
      · intro hn hz hk
        rcases List.mem_cons.mp hk with hk | hk
        · exact absurd hk.symm hx
        · exact (ih hrest vars).2 hn hz hk

/-- In a tracker built on a checkpoint whose hash is the hash of its bytes, every entry of
`known_blocks_` is filed under the hash of its bytes. -/
theorem reachable_keys_hash (cenv : chain_environment) (cp : lite_header)
    (st : chain_sync_state) (hr : tracker_reachable cenv cp st)
    (hcph : cenv.bitcoin_hash (cp.to_data true) = (cp.hash cenv).1) :
    ∀ k e, map_find k st.known_blocks_ = some e → cenv.bitcoin_hash (e.to_data true) = k := by
  induction hr with
  | construct =>
    intro k e hf
    rw [construct_known] at hf
    unfold map_find at hf
    split at hf
    · rename_i hk
      cases hf
      rw [assign_to_data, hcph]
      exact hk
    · cases hf
  | merge time elements st _ ih =>
    unfold chain_sync_state.merge
    refine merge_from_induct cenv time (fun s => ∀ k e, map_find k s.known_blocks_ = some e →
      cenv.bitcoin_hash (e.to_data true) = k) ?_ elements st 0 null_hash ih
    intro s h id s2 hP hs
    obtain ⟨_, hid, hnone, parent, _, _, rfl⟩ := merge_step_inserted cenv time s s2 h id hs
    intro k e hf
    dsimp only at hf
    rw [map_find_map_insert hash_lt id k _ _ hnone] at hf
    by_cases hk : k = id
    · rw [if_pos hk] at hf
      cases hf
      rw [stored_header_to_data, hk, hid, header_hash_eq]
    · rw [if_neg hk] at hf
      exact hP k e hf

theorem length_filterMap_held (st : chain_sync_state) (l : List hash_digest)
    (hh : ∀ id ∈ l, ∃ e, st.get_header_by_id id = some e) :
    (l.filterMap fun id => (st.get_header_by_id id).map wire_header).length = l.length := by
  induction l with
  | nil => rfl
  | cons a rest ih =>
    obtain ⟨e, he⟩ := hh a (List.mem_cons_self _ _)
    rw [List.filterMap_cons, he]
    simp only [Option.map_some', List.length_cons]
    rw [ih (fun id hid => hh id (List.mem_cons_of_mem _ hid))]

/-- The answer to a request whose stop hash ends a path that starts after the only held
hash `k` of the locator. -/
theorem handle_receive_get_headers_path (cenv : chain_environment) (st : chain_sync_state)
    (starts : List hash_digest) (k s : hash_digest) (ek : lite_header)
    (path : List hash_digest)
    (hk : k ∈ starts) (hsingle : ∀ x ∈ starts, x ≠ k → st.get_header_by_id x = none)
    (hek : st.get_header_by_id k = some ek) (hh : 0 < ek.height)
    (hb : cenv.bitcoin_hash (ek.to_data true) = k) (hkn : k ≠ null_hash)
    (hp : prev_path st k path) (hlast : path.getLast? = some s) (hnot : k ∉ path) :
    protocol_lite_header_sync.handle_receive_get_headers cenv st ⟨starts, s⟩
      = some [(path.take max_get_headers).filterMap
          fun id => (st.get_header_by_id id).map wire_header] := by
  obtain ⟨init, hinit⟩ := List.getLast?_eq_some_iff.mp hlast
  have hheld := prev_path_held st k path hp
  obtain ⟨es, hes⟩ := hheld s (by rw [hinit]; simp)
  have hlen := length_le_known st path (prev_path_nodup st path k hp hnot) hheld
  have hks := (known_start_single cenv st k ek hek hh hb starts hsingle
    (lite_header.default.assign es, 0, null_hash)).2 rfl rfl hk
  rcases hfold : starts.foldl (protocol_lite_header_sync.known_start_step cenv st)
    (lite_header.default.assign es, 0, null_hash) with ⟨lh, m, ks⟩
  rw [hfold] at hks
  dsimp only at hks
  subst hks
  have hwalk := walk_back_path st ks init s [] (st.known_blocks_.length + 1)
    (by rw [hinit, List.length_append, List.length_singleton] at hlen; omega)
    (by rw [← hinit]; exact hp) (by rw [← hinit]; exact hnot)
  rw [List.append_nil, ← hinit] at hwalk
  have hcollect := collect_headers_held st path [] (by unfold max_get_headers; simp) hheld
  rw [List.nil_append, List.length_nil, Nat.sub_zero] at hcollect
  have hne : ((path.take max_get_headers).filterMap
      fun id => (st.get_header_by_id id).map wire_header) ≠ [] := by
    intro he
    have hl := length_filterMap_held st (path.take max_get_headers)
      (fun id hid => hheld id (List.mem_of_mem_take hid))
    rw [he, List.length_take, hinit, List.length_append, List.length_singleton] at hl
    simp [max_get_headers] at hl
    omega
  unfold protocol_lite_header_sync.handle_receive_get_headers
  dsimp only
  rw [hes]
  dsimp only
  unfold protocol_lite_header_sync.answer_from
  rw [hfold]
  dsimp only
  rw [if_neg hkn, hwalk]
  dsimp only
  rw [hcollect]
  dsimp only
  rw [if_pos hne]

/-- A header object whose cache is empty, as the constructors leave it, returns the hash of
its bytes from `hash()`, and so does the object after that call: the checkpoint that `main`
builds with the constructor and hands over after `hash()` is filed under the hash of its
bytes. -/
theorem hashed_header_hash (cenv : chain_environment) (h : lite_header) (hc : h.hash_ = none) :
    cenv.bitcoin_hash (h.to_data true) = (h.hash cenv).1 ∧
    cenv.bitcoin_hash (((h.hash cenv).2).to_data true) = (((h.hash cenv).2).hash cenv).1 := by
  refine ⟨(hash_of_uncached cenv h hc).symm, ?_⟩
  unfold lite_header.hash
  rw [hc]
  dsimp only
  rw [lite_header_to_data_wire, lite_header_to_data_wire]

/-- C28: in a tracker reachable from the constructor, for a locator whose only held hash is
`k`, held with a height above zero, and a stop hash `s` that ends a path of previous-block
links which starts at the child of `k` and does not contain `k`: all hashes of the path are
held, and `handle_receive_get_headers` sends one `headers` message with the wire headers of
the path, parent before child, cut after the first `max_get_headers` (those nearest `k`);
the header of `k` is not in it. The checkpoint is one whose `hash()` is the hash of its
bytes, as that of `main` is, and `k` is not the null hash, which no header of the library
hashes to. -/
theorem get_headers_answer (cenv : chain_environment) (cp : lite_header)
    (st : chain_sync_state) (hr : tracker_reachable cenv cp st)
    (hcph : cenv.bitcoin_hash (cp.to_data true) = (cp.hash cenv).1)
    (starts : List hash_digest) (k s : hash_digest) (ek : lite_header)
    (path : List hash_digest)
    (hk : k ∈ starts) (hsingle : ∀ x ∈ starts, x ≠ k → st.get_header_by_id x = none)
    (hek : st.get_header_by_id k = some ek) (hh : 0 < ek.height) (hkn : k ≠ null_hash)
    (hp : prev_path st k path) (hlast : path.getLast? = some s) (hnot : k ∉ path) :
    (∀ id ∈ path, ∃ e, st.get_header_by_id id = some e) ∧
    protocol_lite_header_sync.handle_receive_get_headers cenv st ⟨starts, s⟩
      = some [(path.take max_get_headers).filterMap
          fun id => (st.get_header_by_id id).map wire_header] ∧
    ((path.take max_get_headers).filterMap
      fun id => (st.get_header_by_id id).map wire_header).length
      = min max_get_headers path.length :=
  ⟨prev_path_held st k path hp,
    handle_receive_get_headers_path cenv st starts k s ek path hk hsingle hek hh
      (reachable_keys_hash cenv cp st hr hcph k ek hek) hkn hp hlast hnot,
    by
      rw [length_filterMap_held st _
        (fun id hid => prev_path_held st k path hp id (List.mem_of_mem_take hid)),
        List.length_take]⟩

/-- C28, witness: the tracker `sample_long_state`, asked with the locator
`[unit_hash 0 7, unit_hash 0 2]`, of which it holds `unit_hash 0 2` only, and the stop hash
`unit_hash 0 4`, sends the two headers after `unit_hash 0 2`. -/
theorem get_headers_answer_witness :
    protocol_lite_header_sync.handle_receive_get_headers sample_chain_environment
      sample_long_state ⟨[unit_hash 0 7, unit_hash 0 2], unit_hash 0 4⟩
      = some [[sample_message_header (unit_hash 0 2) 3,
          sample_message_header (unit_hash 0 3) 4]] :=
  (get_headers_answer sample_chain_environment sample_checkpoint sample_long_state
    (tracker_reachable.merge 2000 _ _ tracker_reachable.construct) (by decide)
    [unit_hash 0 7, unit_hash 0 2] (unit_hash 0 2) (unit_hash 0 4)
    (stored_header (sample_message_header (unit_hash 0 1) 2) 11)
    [unit_hash 0 3, unit_hash 0 4] (by decide) (by decide) (by decide) (by decide)
    (by decide) (by decide) (by decide) (by decide)).2.1

/-- On a checkpoint object whose cache is stale, which `main` does not build: the tracker
`stale_chain_state` is built on a checkpoint whose `hash()` returns a cached `unit_hash 0 9`
while its bytes hash to `unit_hash 0 1`; it holds the checkpoint under `unit_hash 0 9` at
height 10 and its child `unit_hash 0 2`. Asked with the locator `[unit_hash 0 9]` and the
stop hash `unit_hash 0 2`, it takes the hash of the bytes as `known_start`, walks past the
checkpoint and sends nothing. -/
theorem stale_checkpoint_not_answered :
    tracker_reachable sample_chain_environment stale_checkpoint stale_chain_state ∧
    stale_chain_state.get_height_by_id (unit_hash 0 9) = some 10 ∧
    prev_path stale_chain_state (unit_hash 0 9) [unit_hash 0 2] ∧
    (stale_chain_state.get_header_by_id (unit_hash 0 2)).isSome = true ∧
    ([unit_hash 0 9].foldl
      (protocol_lite_header_sync.known_start_step sample_chain_environment stale_chain_state)
      (lite_header.default, 0, null_hash)).2.2 = unit_hash 0 1 ∧
    protocol_lite_header_sync.handle_receive_get_headers sample_chain_environment
      stale_chain_state ⟨[unit_hash 0 9], unit_hash 0 2⟩ = some [] := by
  refine ⟨tracker_reachable.merge 2000 _ _ tracker_reachable.construct, by decide, by decide,
    by decide, by decide, by decide⟩

/-! ## Pin sync: the handler of `inv` -/

/-- When the entry acted on names a known header above the height of `oldest_known_hashes`,
the set afterwards is the old set with the new hash inserted. -/
theorem handle_receive_inventory_oldest (chain_state : chain_sync_state) (store : pinboard)
    (oldest : List hash_digest) (inventories : List inventory_vector)
    (entry : inventory_vector) (new_height : Nat) (r : protocol_pinboard_sync.inventory_result)
    (hne : inventories ≠ [])
    (hscan : protocol_pinboard_sync.scan_tail inventories (inventories.length - 1) = some entry)
    (hh : chain_state.get_height_by_id entry.hash = some new_height)
    (hgt : new_height > oldest.foldl (protocol_pinboard_sync.max_old_height_step chain_state) 0)
    (hr : protocol_pinboard_sync.handle_receive_inventory chain_state store oldest inventories
      = some r) :
    r.oldest_known_hashes = set_insert hash_lt entry.hash oldest := by
  unfold protocol_pinboard_sync.handle_receive_inventory at hr
  rw [if_neg hne, hscan] at hr
  dsimp only at hr
  rw [hh] at hr
  dsimp only at hr
  rw [if_pos hgt] at hr
  cases hf : store.for_each with
  | none => rw [hf] at hr; cases hr
  | some ops =>
    rw [hf] at hr
    cases hr
    rfl

/-- C30 (as the code behaves): with `oldest_known_hashes = {unit_hash 0 2}` (height 11) and an
inventory whose block entry names `unit_hash 0 3`, known at height 12, the set afterwards
holds both hashes instead of the new one alone: `oldest_known_hashes.empty()` asks whether
the set is empty and removes nothing. -/
theorem handle_receive_inventory_keeps_old :
    sample_chain_state.get_height_by_id (unit_hash 0 2) = some 11 ∧
    sample_chain_state.get_height_by_id (unit_hash 0 3) = some 12 ∧
    (protocol_pinboard_sync.handle_receive_inventory sample_chain_state pinboard.empty
      [unit_hash 0 2] [⟨inventory_type_id.block, unit_hash 0 3⟩]).map
        (fun r => r.oldest_known_hashes)
      = some [unit_hash 0 2, unit_hash 0 3] ∧
    [unit_hash 0 2, unit_hash 0 3] ≠ [unit_hash 0 3] := by
  decide

/-! ## The work formula in 256-bit arithmetic -/

theorem work_done_of_antitone (v w : Nat) (h1 : 1 ≤ v) (h2 : v ≤ w) (h3 : w < 2 ^ 256 - 1) :
    ∃ a b, work_done_of v = some a ∧ work_done_of w = some b ∧ b ≤ a := by
  refine ⟨_, _, work_done_of_floor v h1 (by omega), work_done_of_floor w (by omega) h3, ?_⟩
  exact Nat.div_le_div_left (by omega) (by omega)

/-- C37: for every `pow_value` `v` below `2^256 - 1`, the expression
`((~v) / (v + 1)) + 1` over `uint256_t`, which `get_work_done`, `calculate_work_done` and
the estimate of the miner (which therefore does not raise) evaluate, is
`floor(2^256 / (v + 1)) mod 2^256`: it is 0 for `v = 0`, the floor itself for `v ≥ 1`, and
there it does not increase with `v`. -/
theorem work_done_formula (v : Nat) (h : v < 2 ^ 256 - 1) :
    work_done_of v = some ((2 ^ 256 / (v + 1)) % 2 ^ 256) ∧
    (v = 0 → work_done_of v = some 0) ∧
    (1 ≤ v → work_done_of v = some (2 ^ 256 / (v + 1))) ∧
    (∀ w, 1 ≤ v → v ≤ w → w < 2 ^ 256 - 1 →
      ∃ a b, work_done_of v = some a ∧ work_done_of w = some b ∧ b ≤ a) ∧
    (∀ (env : environment) (c : pow_certificate) (chunk : data_chunk),
      c.calculate_work_done env chunk
        = work_done_of (to_uint256 (c.calculate_pow_hash env chunk))) ∧
    (∀ (env : environment) (p : object_payload), p.validation.work_done = 0 →
      (p.get_work_done env).1 = work_done_of (p.get_pow_value env).1) ∧
    (∀ (env : environment) (chain_state : chain_sync_state) (start_nonce : Nat)
      (obj : object_payload),
      miner.start_mining env chain_state v start_nonce obj
        = miner.mine env chain_state v (2 ^ 64 - 1 - start_nonce)
            { obj with pow_ := { obj.pow_ with
              type_ := default_pow.type, tag_ := chain_tag.litecoin_main,
              nonce_ := start_nonce } }) := by
  refine ⟨work_done_of_eq v h, ?_, fun h1 => work_done_of_floor v h1 h,
    fun w h1 h2 h3 => work_done_of_antitone v w h1 h2 h3, fun _ _ _ => rfl,
    fun env p h0 => get_work_done_eq env p h0, ?_⟩
  · intro h0; subst h0; decide
  · intro env chain_state start_nonce obj
    unfold miner.start_mining
    rw [work_done_of_eq v h]

/-- C37, witness: at `v = 3` the expression is `2^256 / 4 = 2^254`. -/
theorem work_done_formula_witness :
    work_done_of 3 = some (2 ^ 254) ∧ work_done_of 0 = some 0 ∧
    work_done_of 3 = some ((2 ^ 256 / (3 + 1)) % 2 ^ 256) :=
  ⟨by decide, by decide, (work_done_formula 3 (by decide)).1⟩

/-! ## Pin sync: the scan of the inventory from its tail -/

/-- Without an entry of type block the scan leaves the list, from whatever index. -/
theorem scan_tail_no_block (inventories : List inventory_vector)
    (h : ∀ e ∈ inventories, e.type ≠ inventory_type_id.block) (i : Nat) :
    protocol_pinboard_sync.scan_tail inventories i = none := by
  induction i with
  | zero =>
    unfold protocol_pinboard_sync.scan_tail
    cases hc : inventories[0]? with
    | none => rfl
    | some e =>
      dsimp only
      rw [if_neg (h e (List.getElem?_mem hc))]
  | succ i ih =>
    unfold protocol_pinboard_sync.scan_tail
    cases hc : inventories[i + 1]? with
    | none => rfl
    | some e =>
      dsimp only
      rw [if_neg (h e (List.getElem?_mem hc))]
      exact ih

/-- With an entry of type block that only entries of other types follow, the scan from the
last index yields that entry. -/
theorem scan_tail_last_block (pre post : List inventory_vector) (entry : inventory_vector)
    (he : entry.type = inventory_type_id.block)
    (hpost : ∀ e ∈ post, e.type ≠ inventory_type_id.block) :
    protocol_pinboard_sync.scan_tail (pre ++ entry :: post)
      ((pre ++ entry :: post).length - 1) = some entry := by
  have hgen : ∀ n, n ≤ post.length →
      protocol_pinboard_sync.scan_tail (pre ++ entry :: post) (pre.length + n) = some entry := by
    intro n
    induction n with
    | zero =>
      intro _
      have hc : (pre ++ entry :: post)[pre.length]? = some entry := by
        rw [List.getElem?_append_right (Nat.le_refl _), Nat.sub_self, List.getElem?_cons_zero]
      rw [Nat.add_zero]
      cases hp : pre.length with
      | zero =>
        rw [hp] at hc
        unfold protocol_pinboard_sync.scan_tail
        rw [hc]
        dsimp only
        rw [if_pos he]
      | succ m =>
        rw [hp] at hc
        unfold protocol_pinboard_sync.scan_tail
        rw [hc]
        dsimp only
        rw [if_pos he]
    | succ n ih =>
      intro hn
      have hidx : pre.length + (n + 1) = (pre.length + n) + 1 := by omega
      obtain ⟨e, hce⟩ : ∃ e, post[n]? = some e := ⟨post[n], List.getElem?_eq_getElem (by omega)⟩
      have hc : (pre ++ entry :: post)[pre.length + n + 1]? = some e := by
        rw [List.getElem?_append_right (by omega)]
        have : pre.length + n + 1 - pre.length = n + 1 := by omega
        rw [this, List.getElem?_cons_succ, hce]
      rw [hidx]
      unfold protocol_pinboard_sync.scan_tail
      rw [hc]
      dsimp only
      rw [if_neg (hpost e (List.getElem?_mem hce))]
      exact ih (by omega)
  have hlen : (pre ++ entry :: post).length - 1 = pre.length + post.length := by
    simp
  rw [hlen]
  exact hgen post.length (Nat.le_refl _)

/-- C40 (as the code behaves): for the inventory of one entry of type transaction the loop
`for (size_t i = ...; i >= 0; i--)` finds no entry of type block down to index 0 and then
leaves the list, so the handler has no result; an inventory with an entry of type block is
acted on at its last such entry. -/
theorem handle_receive_inventory_no_block :
    protocol_pinboard_sync.scan_tail [⟨inventory_type_id.transaction, unit_hash 0 2⟩] 0
      = none ∧
    protocol_pinboard_sync.handle_receive_inventory sample_chain_state pinboard.empty
      [unit_hash 0 2] [⟨inventory_type_id.transaction, unit_hash 0 2⟩] = none ∧
    protocol_pinboard_sync.scan_tail
      [⟨inventory_type_id.block, unit_hash 0 2⟩, ⟨inventory_type_id.block, unit_hash 0 3⟩,
        ⟨inventory_type_id.transaction, unit_hash 0 4⟩] 2
      = some ⟨inventory_type_id.block, unit_hash 0 3⟩ := by
  decide

/-! ## The miner -/

/-- After `get_body_id` the member `body_id_` is not empty: it was not, or it holds the 32
bytes of a SHA-256 hash. -/
theorem get_body_id_filled (env : environment) (p : object_payload) :
    (p.get_body_id env).2.body_id_.empty = false ∧
    (p.get_body_id env).1 = (p.get_body_id env).2.body_id_ ∧
    (p.get_body_id env).2.pow_ = p.pow_ ∧ (p.get_body_id env).2.body_ = p.body_ := by
  unfold object_payload.get_body_id
  by_cases h : p.body_id_.empty = true
  · rw [if_pos h]
    refine ⟨?_, rfl, rfl, rfl⟩
    unfold multihash.empty
    have hl := (env.sha256_hash p.body_).property
    cases hv : (env.sha256_hash p.body_).val with
    | nil => rw [hv] at hl; cases hl
    | cons a l => simp [hv]
  · rw [if_neg h]
    exact ⟨by simpa using h, rfl, rfl, rfl⟩

theorem get_body_id_of_filled (env : environment) (p : object_payload)
    (h : p.body_id_.empty = false) : p.get_body_id env = (p.body_id_, p) := by
  unfold object_payload.get_body_id
  rw [if_neg (by rw [h]; simp)]

/-- A second `serialize_id_and_pow` yields the bytes of the first and leaves the payload. -/
theorem serialize_id_and_pow_again (env : environment) (p : object_payload) :
    (p.serialize_id_and_pow env).2.serialize_id_and_pow env = p.serialize_id_and_pow env := by
  obtain ⟨h1, _, _, _⟩ := get_body_id_filled env p
  have h2 := get_body_id_of_filled env (p.get_body_id env).2 h1
  unfold object_payload.serialize_id_and_pow
  dsimp only
  rw [h2]

/-- What the loop of the miner hands to the handler with the code `success`: a payload whose
PoW hash is below the target, or the payload it has after the last round. -/
theorem mine_success_cases (env : environment) (chain_state : chain_sync_state) (target : Nat) :
    ∀ (rounds : Nat) (obj q : object_payload),
      miner.mine env chain_state target rounds obj = some (code.success, q) →
      to_uint256 (env.scrypt (q.serialize_id_and_pow env).1) < target ∨
      q.pow_.nonce_ = obj.pow_.nonce_ + rounds := by
  intro rounds
  induction rounds with
  | zero =>
    intro obj q h
    unfold miner.mine at h
    cases h
    exact Or.inr rfl
  | succ rounds ih =>
    intro obj q h
    unfold miner.mine at h
    cases ht : chain_state.get_last_known_block_hash with
    | none => rw [ht] at h; cases h
    | some top =>
      rw [ht] at h
      cases top with
      | nil => cases h
      | cons first rest =>
        dsimp only at h
        split at h
        · cases h
          left
          rw [serialize_id_and_pow_again]
          assumption
        · rcases ih _ q h with hq | hq
          · exact Or.inl hq
          · right
            rw [hq]
            have := (get_body_id_filled env
              { obj with pow_ := { obj.pow_ with anchor_ := first } }).2.2.1
            unfold object_payload.serialize_id_and_pow
            dsimp only
            rw [this]
            dsimp only
            omega

/-- From the starting nonce `2 ^ 64 - 1` the loop of the miner has no round: the handler is
called with `success` and the payload as it was given, whatever its PoW hash is. -/
theorem start_mining_last_nonce (env : environment) (chain_state : chain_sync_state)
    (target : Nat) (obj : object_payload) (ht : target < 2 ^ 256 - 1) :
    miner.start_mining env chain_state target (2 ^ 64 - 1) obj
      = some (code.success,
          { obj with pow_ := { obj.pow_ with
              type_ := default_pow.type, tag_ := chain_tag.litecoin_main,
              nonce_ := 2 ^ 64 - 1 } }) := by
  unfold miner.start_mining
  rw [work_done_of_eq target ht]
  dsimp only
  rw [Nat.sub_self]
  unfold miner.mine
  rfl

/-- C34 (as the code behaves): with the starting nonce `2 ^ 64 - 1` the loop
`for (nonce = start_nonce; nonce < max; nonce++)` has no round, `ec` keeps its initial value
and the handler is called with `success` and the payload as it was; under a hash function
that yields `2 ^ 256 - 1` on every input its PoW hash is not below the target `2 ^ 250`;
from the starting nonce `2 ^ 64 - 3` the two rounds miss, and the handler is called with
`success` as well, the payload anchored at the top hash with the nonce `2 ^ 64 - 1`. -/
theorem start_mining_success_without_hit :
    miner.start_mining (sample_environment ones_hash) sample_chain_state (2 ^ 250)
      (2 ^ 64 - 1) sample_payload
      = some (code.success,
          { sample_payload with pow_ := { sample_payload.pow_ with
              type_ := default_pow.type, tag_ := chain_tag.litecoin_main,
              nonce_ := 2 ^ 64 - 1 } }) ∧
    ¬ to_uint256 ((sample_environment ones_hash).scrypt
        (object_payload.serialize_id_and_pow (sample_environment ones_hash)
          { sample_payload with pow_ := { sample_payload.pow_ with
              type_ := default_pow.type, tag_ := chain_tag.litecoin_main,
              nonce_ := 2 ^ 64 - 1 } }).1) < 2 ^ 250 ∧
    (miner.start_mining (sample_environment ones_hash) sample_chain_state (2 ^ 250)
      (2 ^ 64 - 3) sample_payload).map (fun r => (r.1, r.2.pow_.nonce_, r.2.pow_.anchor_,
        decide (pow_value (sample_environment ones_hash) r.2 < 2 ^ 250)))
      = some (code.success, 2 ^ 64 - 1, unit_hash 0 3, false) := by
  decide

/-! ## The bytes the miner hashes and the bytes admission hashes -/

/-- A payload read by `from_data` that has a body has the default `body_id_`. -/
theorem from_data_body_id (self : object_payload) (source : reader)
    (hb : (self.from_data source).2.1.body_ ≠ []) :
    (self.from_data source).2.1.body_id_ = multihash.default := by
  unfold object_payload.from_data at hb ⊢
  generalize source.read_size_little_endian = r1 at hb ⊢
  obtain ⟨body_size, s1⟩ := r1
  dsimp only at hb ⊢
  by_cases hs : body_size > 0
  · rw [if_pos hs] at hb ⊢
    generalize s1.read_bytes body_size = r2 at hb ⊢
    obtain ⟨body, s2⟩ := r2
    dsimp only at hb ⊢
    generalize pow_certificate.from_data s2 = r3 at hb ⊢
    obtain ⟨ok, pow, s3⟩ := r3
    dsimp only at hb ⊢
    by_cases hv : s3.valid = true
    · rw [if_pos hv]; rfl
    · rw [if_neg hv]; rfl
  · rw [if_neg hs] at hb ⊢
    generalize multihash.from_data s1 = r2 at hb ⊢
    obtain ⟨ok2, id, s2⟩ := r2
    dsimp only at hb ⊢
    generalize pow_certificate.from_data s2 = r3 at hb ⊢
    obtain ⟨ok, pow, s3⟩ := r3
    dsimp only at hb ⊢
    by_cases hv : s3.valid = true
    · rw [if_pos hv] at hb; exact absurd rfl hb
    · rw [if_neg hv] at hb; exact absurd rfl hb

/-- In a payload that arises through the interface of the class and has a body, `body_id_`
is empty or the SHA-256 multihash of the body. -/
theorem constructible_body_id (env : environment) (p : object_payload)
    (hc : constructible env p) (hb : p.body_ ≠ []) :
    p.body_id_.empty = true ∨
    p.body_id_ = ⟨digest_type.sha2_256, (env.sha256_hash p.body_).val⟩ := by
  induction hc with
  | default => exact absurd rfl hb
  | from_string str => exact Or.inl rfl
  | copy p _ ih => exact ih hb
  | reset p _ _ => exact absurd rfl hb
  | from_data p source _ _ =>
    left
    rw [from_data_body_id p source hb]
    rfl
  | get_body_id p _ ih =>
    have hb2 : p.body_ ≠ [] := by
      rw [(get_body_id_filled env p).2.2.2] at hb
      exact hb
    rcases ih hb2 with h | h
    · right
      unfold object_payload.get_body_id
      rw [if_pos h]
    · right
      have he : p.body_id_.empty = false := by
        rw [h]
        unfold multihash.empty
        have hl := (env.sha256_hash p.body_).property
        cases hv : (env.sha256_hash p.body_).val with
        | nil => rw [hv] at hl; cases hl
        | cons a l => rfl
      rw [get_body_id_of_filled env p he]
      exact h
  | set_pow p c _ ih => exact ih hb
  | set_validation p v _ ih => exact ih hb

/-- The body id that `get_body_id` yields for a payload with a body whose `body_id_` is empty
or the SHA-256 multihash of the body. -/
theorem get_body_id_of_body (env : environment) (p : object_payload)
    (hid : p.body_id_.empty = true ∨
      p.body_id_ = ⟨digest_type.sha2_256, (env.sha256_hash p.body_).val⟩) :
    (p.get_body_id env).1 = ⟨digest_type.sha2_256, (env.sha256_hash p.body_).val⟩ := by
  unfold object_payload.get_body_id
  by_cases h : p.body_id_.empty = true
  · rw [if_pos h]
  · rw [if_neg h]
    rcases hid with h2 | h2
    · exact absurd h2 h
    · exact h2

/-- The bytes that `serialize_id_and_pow` yields: those of the body id that `get_body_id`
yields, then those of the certificate. -/
theorem serialize_id_and_pow_eq (env : environment) (p : object_payload) :
    (p.serialize_id_and_pow env).1 = (p.get_body_id env).1.to_data ++ p.pow_.to_data := by
  obtain ⟨_, h2, h3, _⟩ := get_body_id_filled env p
  unfold object_payload.serialize_id_and_pow
  dsimp only
  rw [h2, h3]

/-- The PoW value that admission obtains: the hash of the bytes of the body id that
`get_body_id` yields on the copy, then those of the certificate. -/
theorem pow_value_eq (env : environment) (q : object_payload) :
    pow_value env q
      = to_uint256 (env.scrypt ((q.copy.get_body_id env).1.to_data ++ q.pow_.to_data)) := by
  have h3 := (get_body_id_filled env q.copy).2.2.1
  unfold pow_value object_payload.get_pow_value
  have h0 : q.copy.validation.pow_value = 0 := rfl
  rw [if_pos h0]
  rcases hg : object_payload.get_body_id env q.copy with ⟨body_id, self⟩
  rw [hg] at h3
  dsimp only at h3 ⊢
  unfold pow_certificate.calculate_pow_hash pow_certificate.to_pow_blob
  rw [h3]
  rfl

/-- C38: for every payload `p` that arises through the interface of the class, within the
ranges of the C++ types and with a body, the payload `q` read back from `to_data(p)` is read
with success, and the bytes `serialize_id_and_pow(p)` that the miner hashes are the bytes
`to_pow_blob` of the certificate of `q` on the bytes of the body id that `get_body_id`
recomputes for `q`, which admission hashes; the PoW value that admission obtains from `q` is
the number that the miner compares with its target, so a hash below `MIN_TARGET` at the miner
is not above `MIN_TARGET` at admission. -/
theorem miner_hashes_admission_bytes (env : environment) (p : object_payload)
    (hc : constructible env p) (hr : p.in_range) (hb : p.body_ ≠ []) :
    (object_payload.default.from_data_chunk p.to_data).1 = true ∧
    (p.serialize_id_and_pow env).1
      = (object_payload.default.from_data_chunk p.to_data).2.pow_.to_pow_blob
          (((object_payload.default.from_data_chunk p.to_data).2.get_body_id env).1.to_data) ∧
    pow_value env (object_payload.default.from_data_chunk p.to_data).2
      = to_uint256 (env.scrypt (p.serialize_id_and_pow env).1) ∧
    (to_uint256 (env.scrypt (p.serialize_id_and_pow env).1) < env.MIN_TARGET →
      ¬ pow_value env (object_payload.default.from_data_chunk p.to_data).2 > env.MIN_TARGET) := by
  have hid := constructible_body_id env p hc hb
  have h := object_payload_from_data_to_data object_payload.default p [] hr
  rw [List.append_nil] at h
  have hne : p.body_.isEmpty = false := by
    cases hp : p.body_ with
    | nil => exact absurd hp hb
    | cons a l => rfl
  have hq : object_payload.default.from_data_chunk p.to_data
      = (true, ⟨object_payload.default.validation, p.body_, multihash.default, p.pow_⟩) := by
    unfold object_payload.from_data_chunk reader.open
    rw [h, hne]
    rfl
  rw [hq]
  have hs := serialize_id_and_pow_eq env p
  rw [get_body_id_of_body env p hid] at hs
  have hqid : (object_payload.get_body_id env
      ⟨object_payload.default.validation, p.body_, multihash.default, p.pow_⟩).1
      = ⟨digest_type.sha2_256, (env.sha256_hash p.body_).val⟩ :=
    get_body_id_of_body env _ (Or.inl rfl)
  have hpv : pow_value env
      ⟨object_payload.default.validation, p.body_, multihash.default, p.pow_⟩
      = to_uint256 (env.scrypt (p.serialize_id_and_pow env).1) := by
    rw [pow_value_eq, hs]
    have : (object_payload.get_body_id env (object_payload.copy
        ⟨object_payload.default.validation, p.body_, multihash.default, p.pow_⟩)).1
        = ⟨digest_type.sha2_256, (env.sha256_hash p.body_).val⟩ :=
      get_body_id_of_body env _ (Or.inl rfl)
    rw [this]
  refine ⟨rfl, ?_, hpv, ?_⟩
  · dsimp only
    rw [hqid, hs]
    rfl
  · intro hlt
    dsimp only
    rw [hpv]
    omega

/-- C38, witness: the payload built from the string `a`, given the certificate
`sample_certificate` by the miner and serialized after `get_body_id`. -/
theorem miner_hashes_admission_bytes_witness :
    (object_payload.get_body_id (sample_environment (unit_hash 31 1))
      { object_payload.from_string [0x61] with pow_ := sample_certificate }).2.in_range ∧
    (object_payload.default.from_data_chunk
      (object_payload.get_body_id (sample_environment (unit_hash 31 1))
        { object_payload.from_string [0x61] with pow_ := sample_certificate }).2.to_data).1
      = true ∧
    pow_value (sample_environment (unit_hash 31 1))
      (object_payload.default.from_data_chunk
        (object_payload.get_body_id (sample_environment (unit_hash 31 1))
          { object_payload.from_string [0x61] with pow_ := sample_certificate }).2.to_data).2
      = 2 ^ 248 :=
  ⟨by decide,
    (miner_hashes_admission_bytes (sample_environment (unit_hash 31 1)) _
      (constructible.get_body_id _ (constructible.set_pow _ sample_certificate
        (constructible.from_string [0x61]))) (by decide) (by decide)).1,
    by decide⟩

/-! ## Address cache: the indices that `lite_node::store` visits -/

/-- The number of the indices `index, index + step, ...` below `usable`. -/
theorem visit_count_step (usable step index : Nat) (hs : 1 ≤ step) (hi : index < usable) :
    (usable - index + step - 1) / step
      = (usable - (index + step) + step - 1) / step + 1 := by
  by_cases h : index + step ≤ usable
  · have e : usable - index + step - 1 = (usable - (index + step) + step - 1) + step := by
      omega
    rw [e, Nat.add_div_right _ (by omega)]
  · have e0 : usable - (index + step) = 0 := by omega
    have h1 : (usable - (index + step) + step - 1) / step = 0 := by
      rw [e0, Nat.zero_add]
      exact Nat.div_eq_of_lt (by omega)
    rw [h1]
    have e : usable - index + step - 1 = (usable - index - 1) + step := by omega
    rw [e, Nat.add_div_right _ (by omega), Nat.div_eq_of_lt (by omega)]

/-- The loop of `store` visits the indices `index, index + step, ...` below `usable`, when it
is given at least `usable - index` rounds. -/
theorem store_loop_visited (is_valid : network_address → Bool)
    (addresses : List network_address) (usable step : Nat) (hs : 1 ≤ step)
    (hu : usable < 2 ^ 64) :
    ∀ (rounds index : Nat) (r : lite_node.store_result), usable - index ≤ rounds →
      (lite_node.store_loop is_valid addresses usable step rounds index r).visited
        = r.visited ++ (List.range ((usable - index + step - 1) / step)).map
            (fun k => index + k * step) := by
  intro rounds
  induction rounds with
  | zero =>
    intro index r h
    have e : usable - index = 0 := by omega
    unfold lite_node.store_loop
    rw [e, Nat.zero_add, Nat.div_eq_of_lt (by omega)]
    simp
  | succ rounds ih =>
    intro index r h
    unfold lite_node.store_loop
    by_cases hi : index < usable
    · rw [if_pos hi]
      dsimp only
      have hv : ∀ r2 : lite_node.store_result,
          r2.visited = r.visited ++ [index] →
          (lite_node.store_loop is_valid addresses usable step rounds
            (ceiling_add index step) r2).visited
            = r.visited ++ (List.range ((usable - index + step - 1) / step)).map
              (fun k => index + k * step) := by
        intro r2 hr2
        rw [visit_count_step usable step index hs hi, List.range_succ_eq_map, List.map_cons,
          List.map_map]
        by_cases hc : index + step < 2 ^ 64
        · have hca : ceiling_add index step = index + step := by
            unfold ceiling_add; rw [if_pos hc]
          rw [hca, ih (index + step) r2 (by omega), hr2, List.append_assoc]
          congr 1
          simp only [List.singleton_append, Nat.zero_mul, Nat.add_zero, List.cons.injEq,
            true_and]
          apply List.map_congr_left
          intro k _
          simp only [Function.comp_apply, Nat.succ_eq_add_one]
          rw [Nat.add_mul, Nat.one_mul]
          omega
        · have hca : ceiling_add index step = 2 ^ 64 - 1 := by
            unfold ceiling_add; rw [if_neg hc]
          have e0 : usable - (index + step) = 0 := by omega
          have h1 : (usable - (index + step) + step - 1) / step = 0 := by
            rw [e0, Nat.zero_add]
            exact Nat.div_eq_of_lt (by omega)
          rw [hca, ih (2 ^ 64 - 1) r2 (by omega), hr2, h1]
          have e1 : usable - (2 ^ 64 - 1) = 0 := by omega
          rw [e1, Nat.zero_add, Nat.div_eq_of_lt (by omega)]
          simp
      cases ha : addresses[index]? with
      | none => exact hv _ rfl
      | some host =>
        dsimp only
        by_cases h1 : (!is_valid host) = true
        · rw [if_pos h1]; exact hv _ rfl
        · rw [if_neg h1]
          by_cases h2 : (!lite_node.find r.peers.items host) = true
          · rw [if_pos h2]; exact hv _ rfl
          · rw [if_neg h2]; exact hv _ rfl
    · rw [if_neg hi]
      have e : usable - index = 0 := by omega
      rw [e, Nat.zero_add, Nat.div_eq_of_lt (by omega)]
      simp

/-- The number of visited indices is at least the gap, and at least `usable` when the gap is
larger than that. -/
theorem visit_count_ge (usable gap random : Nat) (h1 : 1 ≤ random) :
    min gap usable ≤ (usable + max (usable / max gap random) 1 - 1) / max (usable / max gap random) 1 := by
  have ha : 1 ≤ max gap random := le_trans h1 (le_max_right _ _)
  by_cases hq : usable / max gap random = 0
  · rw [hq]
    have : max 0 1 = 1 := rfl
    rw [this, Nat.add_sub_cancel, Nat.div_one]
    exact min_le_right _ _
  · have hq1 : 1 ≤ usable / max gap random := Nat.one_le_iff_ne_zero.mpr hq
    rw [max_eq_left hq1]
    have h2 : max gap random ≤ usable / (usable / max gap random) := by
      rw [Nat.le_div_iff_mul_le (by omega)]
      exact Nat.mul_div_le _ _
    have h3 : usable / (usable / max gap random)
        ≤ (usable + usable / max gap random - 1) / (usable / max gap random) :=
      Nat.div_le_div_right (by omega)
    exact le_trans (min_le_left _ _) (le_trans (le_max_left _ _) (le_trans h2 h3))

/-- C33: for every address list shorter than `2 ^ 64`, every ring and every random draw
`1 <= r <= usable`, where `usable = min(|incoming|, capacity)` and
`gap = capacity - |peers|`: `accept = max(gap, r)` is at least 1, so the division is defined
and `store` has a result, `step = max(usable / accept, 1)` is at least 1, the loop visits
exactly the indices `0, step, 2 * step, ...` below `usable`, and their number is at least
`min(gap, usable)`. -/
theorem store_visits_gap (is_valid : network_address → Bool) (random : Nat)
    (peers : circular_buffer) (addresses : List network_address)
    (hlen : addresses.length < 2 ^ 64)
    (h1 : 1 ≤ random) (h2 : random ≤ min addresses.length peers.capacity) :
    addresses ≠ [] ∧
    1 ≤ max (peers.capacity - peers.items.length) random ∧
    1 ≤ max (min addresses.length peers.capacity /
      max (peers.capacity - peers.items.length) random) 1 ∧
    ∃ r, lite_node.store is_valid random peers addresses = some r ∧
      r.visited = (List.range ((min addresses.length peers.capacity
          + max (min addresses.length peers.capacity /
              max (peers.capacity - peers.items.length) random) 1 - 1) /
          max (min addresses.length peers.capacity /
              max (peers.capacity - peers.items.length) random) 1)).map
        (fun k => k * max (min addresses.length peers.capacity /
              max (peers.capacity - peers.items.length) random) 1) ∧
      (∀ i ∈ r.visited, i < min addresses.length peers.capacity) ∧
      min (peers.capacity - peers.items.length) (min addresses.length peers.capacity)
        ≤ r.visited.length := by
  have ha : 1 ≤ max (peers.capacity - peers.items.length) random :=
    le_trans h1 (le_max_right _ _)
  have hs : 1 ≤ max (min addresses.length peers.capacity /
      max (peers.capacity - peers.items.length) random) 1 := le_max_right _ _
  have hu : min addresses.length peers.capacity < 2 ^ 64 :=
    lt_of_le_of_lt (min_le_left _ _) hlen
  have hvis := store_loop_visited is_valid addresses (min addresses.length peers.capacity)
    _ hs hu (min addresses.length peers.capacity) 0 ⟨peers, 0, []⟩ (by omega)
  refine ⟨?_, ha, hs,
    lite_node.store_loop is_valid addresses (min addresses.length peers.capacity)
      (max (min addresses.length peers.capacity /
        max (peers.capacity - peers.items.length) random) 1)
      (min addresses.length peers.capacity) 0 ⟨peers, 0, []⟩, ?_, ?_, ?_, ?_⟩
  · intro he
    rw [he] at h2
    simp at h2
    omega
  · unfold lite_node.store
    dsimp only
    rw [if_neg (by omega)]
  · rw [hvis]
    simp only [List.nil_append, Nat.sub_zero, Nat.zero_add]
  · rw [hvis]
    intro i hi
    simp only [List.nil_append, Nat.sub_zero, Nat.zero_add, List.mem_map, List.mem_range] at hi
    obtain ⟨k, hk, rfl⟩ := hi
    generalize max (min addresses.length peers.capacity /
      max (peers.capacity - peers.items.length) random) 1 = step at hs hk ⊢
    generalize min addresses.length peers.capacity = usable at hk ⊢
    have hk2 : (k + 1) * step ≤ usable + step - 1 := by
      have := (Nat.le_div_iff_mul_le (by omega : 0 < step)).mp (Nat.succ_le_of_lt hk)
      exact this
    rw [Nat.add_mul, Nat.one_mul] at hk2
    omega
  · rw [hvis]
    simp only [List.nil_append, Nat.sub_zero, List.length_map, List.length_range]
    exact visit_count_ge _ _ _ h1

/-- C33, witness: a ring of capacity 10 with 8 addresses, 12 incoming addresses and the draw
3 give `usable = 10`, `gap = 2`, `accept = 3`, `step = 3`; the indices 0, 3, 6 and 9 are
visited, and the address at index 3 is not accepted, being in the ring. -/
theorem store_visits_gap_witness :
    (lite_node.store (fun _ => true) 3 sample_ring sample_addresses).map
        (fun r => (r.visited, r.accepted)) = some ([0, 3, 6, 9], 3) ∧
    ∃ r, lite_node.store (fun _ => true) 3 sample_ring sample_addresses = some r ∧
      r.visited = (List.range ((min sample_addresses.length sample_ring.capacity
          + max (min sample_addresses.length sample_ring.capacity /
              max (sample_ring.capacity - sample_ring.items.length) 3) 1 - 1) /
          max (min sample_addresses.length sample_ring.capacity /
              max (sample_ring.capacity - sample_ring.items.length) 3) 1)).map
        (fun k => k * max (min sample_addresses.length sample_ring.capacity /
              max (sample_ring.capacity - sample_ring.items.length) 3) 1) ∧
      (∀ i ∈ r.visited, i < min sample_addresses.length sample_ring.capacity) ∧
      min (sample_ring.capacity - sample_ring.items.length)
          (min sample_addresses.length sample_ring.capacity)
        ≤ r.visited.length :=
  ⟨by decide,
    (store_visits_gap (fun _ => true) 3 sample_ring sample_addresses (by decide) (by decide)
      (by decide)).2.2.2⟩

/-! ## Pin sync: `send_object` -/

/-- C32 (as the code behaves): on the tracker `sample_chain_state` (checkpoint
`unit_hash 0 1`, then `unit_hash 0 2`, then `unit_hash 0 3`) with
`oldest_known_hashes = {unit_hash 0 1}`, `send_object` for a pin anchored at `unit_hash 0 3`
succeeds; it takes the missing headers from the back of the list, so the message holds the
header of the anchor first and that of `unit_hash 0 2` last, and `oldest_known_hashes`
becomes `{unit_hash 0 2}`, which does not hold the anchor; a second `send_object` for the
same anchor sends a headers message again, with the header of the anchor. -/
theorem send_object_forgets_anchor :
    protocol_pinboard_sync.send_object sample_chain_environment sample_chain_state
        [unit_hash 0 1] (anchored_payload 3)
      = some ⟨true, [unit_hash 0 2],
          [[sample_message_header (unit_hash 0 2) 3, sample_message_header (unit_hash 0 1) 2]],
          [⟨(anchored_payload 3).copy⟩]⟩ ∧
    (anchored_payload 3).get_anchor ∉ [unit_hash 0 2] ∧
    protocol_pinboard_sync.send_object sample_chain_environment sample_chain_state
        [unit_hash 0 2] (anchored_payload 3)
      = some ⟨true, [unit_hash 0 3], [[sample_message_header (unit_hash 0 2) 3]],
          [⟨(anchored_payload 3).copy⟩]⟩ := by
  decide

/-! ## Pin sync: what `send_object` sends along a path -/

/-- The walk of `send_object` from the last hash of a path that starts after a member `k` of
`oldest_known_hashes` and holds no member of it collects the path. -/
theorem collect_missing_collects (st : chain_sync_state) (oldest : List hash_digest)
    (k : hash_digest) (hk : k ∈ oldest) (init : List hash_digest) :
    ∀ (x : hash_digest) (rest : List hash_digest) (fuel : Nat), init.length + 2 ≤ fuel →
      prev_path st k (init ++ [x]) → (∀ y ∈ init ++ [x], y ∉ oldest) →
      protocol_pinboard_sync.collect_missing st oldest fuel x rest
        = some (some (init ++ [x] ++ rest)) := by
  induction init using List.reverseRecOn with
  | nil =>
    intro x rest fuel hf hp hno
    rw [List.nil_append, prev_path_cons] at hp
    obtain ⟨f, rfl⟩ : ∃ f, fuel = f + 2 := ⟨fuel - 2, by simp at hf; omega⟩
    unfold protocol_pinboard_sync.collect_missing
    rw [if_pos (hno x (by simp)), hp.1]
    dsimp only
    unfold protocol_pinboard_sync.collect_missing
    rw [if_neg (not_not.mpr hk)]
    rfl
  | append_singleton m y ih =>
    intro x rest fuel hf hp hno
    rw [prev_path_append, List.getLastD_concat, prev_path_cons] at hp
    obtain ⟨f, rfl⟩ : ∃ f, fuel = f + 1 := ⟨fuel - 1, by omega⟩
    unfold protocol_pinboard_sync.collect_missing
    rw [if_pos (hno x (by simp)), hp.2.1]
    dsimp only
    rw [ih y (x :: rest) f (by rw [List.length_append, List.length_singleton] at hf; omega)
      hp.1 (fun z hz => hno z (List.mem_append_left _ hz))]
    simp

/-- Fewer than 2000 headers, all held, go into one message. -/
theorem send_headers_short (cenv : chain_environment) (st : chain_sync_state) :
    ∀ (ids : List hash_digest) (elements : List header) (oldest : List hash_digest)
      (sent : List (List header)),
      (∀ id ∈ ids, ∃ e, st.get_header_by_id id = some e) →
      elements.length + ids.length < 2000 →
      protocol_pinboard_sync.send_headers cenv st ids elements oldest sent
        = protocol_pinboard_sync.send_headers cenv st []
            (elements ++ ids.filterMap fun id => (st.get_header_by_id id).map wire_header)
            oldest sent := by
  intro ids
  induction ids with
  | nil => intro elements oldest sent _ _; simp
  | cons id rest ih =>
    intro elements oldest sent hh hl
    obtain ⟨e, he⟩ := hh id (List.mem_cons_self _ _)
    conv_lhs => unfold protocol_pinboard_sync.send_headers
    rw [he]
    dsimp only
    rw [List.length_cons] at hl
    rw [if_neg (by rw [List.length_append, List.length_singleton]; omega),
      ih _ oldest sent (fun x hx => hh x (List.mem_cons_of_mem _ hx))
        (by rw [List.length_append, List.length_singleton]; omega),
      List.filterMap_cons, he]
    simp only [Option.map_some', List.append_assoc, List.singleton_append]
    rfl

/-- When a member `k` of `oldest_known_hashes` is the previous hash of the first hash of a
path of fewer than 2000 hashes that ends at the anchor and holds no member of the set,
`send_object` sends one headers message with the headers of the path from the anchor
downwards, then the object, and `oldest_known_hashes` becomes the set of the hash of the
last header sent, that of the first hash of the path. -/
theorem send_object_sends_path (cenv : chain_environment) (st : chain_sync_state)
    (oldest : List hash_digest) (op : object_payload) (k : hash_digest)
    (init : List hash_digest) (hk : k ∈ oldest)
    (hp : prev_path st k (init ++ [op.get_anchor]))
    (hno : ∀ y ∈ init ++ [op.get_anchor], y ∉ oldest) (hlen : init.length + 1 < 2000) :
    ∃ first e, (init ++ [op.get_anchor]).head? = some first ∧
      st.get_header_by_id first = some e ∧
      protocol_pinboard_sync.send_object cenv st oldest op
        = some ⟨true, [cenv.bitcoin_hash (wire_header e).to_data],
            [(init ++ [op.get_anchor]).reverse.filterMap fun id =>
              (st.get_header_by_id id).map wire_header],
            [⟨op.copy⟩]⟩ := by
  have hheld := prev_path_held st k _ hp
  have hnd : (init ++ [op.get_anchor]).Nodup :=
    prev_path_nodup st _ k hp (fun hm => hno k hm hk)
  have hle := length_le_known st _ hnd hheld
  rw [List.length_append, List.length_singleton] at hle
  obtain ⟨ea, hea⟩ := hheld op.get_anchor (by simp)
  have hheight : st.get_height_by_id op.get_anchor = some ea.height := by
    have : map_find op.get_anchor st.known_blocks_ = some ea := hea
    unfold chain_sync_state.get_height_by_id
    rw [this]; rfl
  have hc := collect_missing_collects st oldest k hk init op.get_anchor []
    (st.known_blocks_.length + 2) (by omega) hp hno
  rw [List.append_nil] at hc
  obtain ⟨first, hfirst⟩ : ∃ first, (init ++ [op.get_anchor]).head? = some first := by
    cases init with
    | nil => exact ⟨_, rfl⟩
    | cons a l => exact ⟨a, rfl⟩
  obtain ⟨e, he⟩ := hheld first (List.mem_of_mem_head? hfirst)
  refine ⟨first, e, hfirst, he, ?_⟩
  have hsh := send_headers_short cenv st (init ++ [op.get_anchor]).reverse [] oldest []
    (fun x hx => hheld x (List.mem_reverse.mp hx))
    (by rw [List.length_reverse, List.length_append, List.length_singleton]; simp; omega)
  rw [List.nil_append] at hsh
  have hlast : ((init ++ [op.get_anchor]).reverse.filterMap fun id =>
      (st.get_header_by_id id).map wire_header).getLast? = some (wire_header e) := by
    obtain ⟨tl, htl⟩ : ∃ tl, init ++ [op.get_anchor] = first :: tl := by
      cases hi : init ++ [op.get_anchor] with
      | nil => rw [hi] at hfirst; cases hfirst
      | cons a l =>
        rw [hi] at hfirst
        cases hfirst
        exact ⟨l, rfl⟩
    rw [htl, List.reverse_cons, List.filterMap_append, List.filterMap_cons, he]
    simp
  unfold protocol_pinboard_sync.send_object
  dsimp only
  rw [hheight]
  dsimp only
  rw [hc]
  dsimp only
  rw [hsh]
  unfold protocol_pinboard_sync.send_headers
  rw [hlast]
  rfl

/-- On a reachable tracker whose checkpoint is filed under the hash of its bytes,
`send_object` along a path of two or more hashes leaves a set `oldest_known_hashes` that
holds the first hash of the path and not the anchor. -/
theorem send_object_keeps_lowest (cenv : chain_environment) (cp : lite_header)
    (st : chain_sync_state) (hr : tracker_reachable cenv cp st)
    (hcph : cenv.bitcoin_hash (cp.to_data true) = (cp.hash cenv).1)
    (oldest : List hash_digest) (op : object_payload) (k first : hash_digest)
    (mid : List hash_digest) (hk : k ∈ oldest)
    (hp : prev_path st k (first :: mid ++ [op.get_anchor]))
    (hno : ∀ y ∈ first :: mid ++ [op.get_anchor], y ∉ oldest)
    (hlen : mid.length + 2 < 2000) :
    ∃ r, protocol_pinboard_sync.send_object cenv st oldest op = some r ∧
      r.result = true ∧ r.oldest_known_hashes = [first] ∧
      op.get_anchor ∉ r.oldest_known_hashes := by
  obtain ⟨f, e, hf, he, hs⟩ := send_object_sends_path cenv st oldest op k (first :: mid) hk hp
    hno (by rw [List.length_cons]; omega)
  rw [List.cons_append, List.head?_cons] at hf
  cases hf
  have hkey := reachable_keys_hash cenv cp st hr hcph first e he
  have hb : cenv.bitcoin_hash (wire_header e).to_data = first := by
    unfold wire_header
    rw [served_to_data, assign_to_data]
    exact hkey
  rw [hb] at hs
  refine ⟨_, hs, rfl, rfl, ?_⟩
  dsimp only
  have hnd : (first :: mid ++ [op.get_anchor]).Nodup :=
    prev_path_nodup st _ k hp (fun hm => hno k hm hk)
  rw [List.cons_append, List.nodup_cons] at hnd
  intro hm
  rw [List.mem_singleton] at hm
  exact hnd.1 (by rw [← hm]; simp)

/-! ## Header tracker: the chain vector and the lookups of the top queries -/

/-- In a tracker reachable from the constructor by merges every hash in a slot of the chain
vector is a key of `known_blocks_` whose header has the height of the slot, the vector is not
empty and its first slot holds the hash of the checkpoint. -/
theorem reachable_chain_slots (cenv : chain_environment) (cp : lite_header)
    (st : chain_sync_state) (hr : tracker_reachable cenv cp st) :
    (∀ (i : Nat) (slot : List hash_digest), st.chain_[i]? = some slot → ∀ x ∈ slot,
      ∃ e, map_find x st.known_blocks_ = some e ∧ e.height = st.starting_height_ + i) ∧
    0 < st.chain_.length ∧
    (∃ slot, st.chain_[0]? = some slot ∧ (cp.hash cenv).1 ∈ slot) := by
  induction hr with
  | construct =>
    rw [construct_chain, construct_known]
    refine ⟨?_, by simp, ⟨[(cp.hash cenv).1], rfl, List.mem_singleton.mpr rfl⟩⟩
    intro i slot hi x hx
    cases i with
    | zero =>
      simp only [List.getElem?_cons_zero, Option.some.injEq] at hi
      subst hi
      rw [List.mem_singleton] at hx
      subst hx
      exact ⟨lite_header.default.assign cp, by simp [map_find], rfl⟩
    | succ i => simp at hi
  | merge time elements st _ ih =>
    unfold chain_sync_state.merge
    refine merge_from_induct cenv time (fun s =>
      (∀ (i : Nat) (slot : List hash_digest), s.chain_[i]? = some slot → ∀ x ∈ slot,
        ∃ e, map_find x s.known_blocks_ = some e ∧ e.height = s.starting_height_ + i) ∧
      0 < s.chain_.length ∧
      (∃ slot, s.chain_[0]? = some slot ∧ (cp.hash cenv).1 ∈ slot)) ?_
      elements st 0 null_hash ih
    intro s hd id s2 ⟨i1, i2, i3⟩ hs
    obtain ⟨_, _, hnone, parent, hpar, hstart, rfl⟩ :=
      merge_step_inserted cenv time s s2 hd id hs
    dsimp only
    generalize hch : (if s.chain_.length ≤ parent.height + 1 then
      vector_resize (parent.height + 1 - s.starting_height_ + 1) [] s.chain_
      else s.chain_) = chain1
    have hc1 : ∀ (j : Nat) (slot : List hash_digest), chain1[j]? = some slot →
        ∀ x ∈ slot, x ∈ (s.chain_[j]?).getD [] := by
      intro j slot hj x hx
      by_cases hl : s.chain_.length ≤ parent.height + 1
      · rw [if_pos hl] at hch
        subst hch
        by_cases hji : j < parent.height + 1 - s.starting_height_ + 1
        · rw [getElem?_vector_resize _ _ _ _ hji] at hj
          by_cases hjl : j < s.chain_.length
          · rw [if_pos hjl] at hj; rw [hj]; exact hx
          · rw [if_neg hjl] at hj
            cases hj
            cases hx
        · rw [List.getElem?_eq_none (by rw [length_vector_resize]; omega)] at hj
          cases hj
      · rw [if_neg hl] at hch
        subst hch
        rw [hj]; exact hx
    have hlen1 : 0 < chain1.length := by
      by_cases hl : s.chain_.length ≤ parent.height + 1
      · rw [if_pos hl] at hch
        subst hch
        rw [length_vector_resize]; omega
      · rw [if_neg hl] at hch
        subst hch
        exact i2
    have hzero : chain1[0]? = s.chain_[0]? := by
      by_cases hl : s.chain_.length ≤ parent.height + 1
      · rw [if_pos hl] at hch
        subst hch
        rw [getElem?_vector_resize _ _ _ _ (by omega), if_pos i2]
      · rw [if_neg hl] at hch
        subst hch
        rfl
    have hkeep : ∀ x e, map_find x s.known_blocks_ = some e →
        map_find x (map_insert hash_lt id (stored_header hd (parent.height + 1))
          s.known_blocks_) = some e := by
      intro x e hx
      rw [map_find_map_insert hash_lt id x _ _ hnone]
      have hne : x ≠ id := by
        intro hk; rw [hk, hnone] at hx; cases hx
      rw [if_neg hne]; exact hx
    refine ⟨?_, by rw [length_modify_at]; exact hlen1, ?_⟩
    · intro i slot hi x hx
      rw [getElem?_modify_at] at hi
      have hold : x ∈ (s.chain_[i]?).getD [] →
          ∃ e, map_find x (map_insert hash_lt id (stored_header hd (parent.height + 1))
            s.known_blocks_) = some e ∧ e.height = s.starting_height_ + i := by
        intro hm
        cases hsl : s.chain_[i]? with
        | none => rw [hsl] at hm; cases hm
        | some sl =>
          rw [hsl] at hm
          obtain ⟨e, he1, he2⟩ := i1 i sl hsl x hm
          exact ⟨e, hkeep x e he1, he2⟩
      by_cases hii : i = parent.height + 1 - s.starting_height_
      · rw [if_pos hii] at hi
        cases hs1 : chain1[i]? with
        | none => rw [hs1] at hi; cases hi
        | some sl =>
          rw [hs1] at hi
          cases hi
          rcases (mem_set_insert hash_lt id x sl).mp hx with hx | hx
          · refine ⟨stored_header hd (parent.height + 1), ?_, ?_⟩
            · rw [hx, map_find_map_insert hash_lt id id _ _ hnone, if_pos rfl]
            · rw [stored_header_height]; omega
          · exact hold (hc1 i sl hs1 x hx)
      · rw [if_neg hii] at hi
        exact hold (hc1 i slot hi x hx)
    · obtain ⟨slot0, h0, hm0⟩ := i3
      rw [getElem?_modify_at, hzero, h0]
      by_cases hii : 0 = parent.height + 1 - s.starting_height_
      · rw [if_pos hii]
        exact ⟨_, rfl, (mem_set_insert hash_lt id _ slot0).mpr (Or.inr hm0)⟩
      · rw [if_neg hii]
        exact ⟨slot0, rfl, hm0⟩

/-- The loop of `get_top_height` over hashes that are keys of `known_blocks_` has a result. -/
theorem foldl_top_height_step (st : chain_sync_state) (top : List hash_digest)
    (hk : ∀ h ∈ top, ∃ e, map_find h st.known_blocks_ = some e) :
    ∀ m, ∃ n, top.foldl (chain_sync_state.top_height_step st) (some m) = some n := by
  induction top with
  | nil => intro m; exact ⟨m, rfl⟩
  | cons h rest ih =>
    intro m
    obtain ⟨e, he⟩ := hk h (List.mem_cons_self _ _)
    have ih2 := ih (fun x hx => hk x (List.mem_cons_of_mem _ hx))
    rw [List.foldl_cons]
    unfold chain_sync_state.top_height_step
    dsimp only
    by_cases hn : h ≠ null_hash
    · rw [if_pos hn, he]
      dsimp only
      by_cases hg : e.height > m
      · rw [if_pos hg]; exact ih2 _
      · rw [if_neg hg]; exact ih2 _
    · rw [if_neg hn]; exact ih2 _

/-- The loop of `get_latest_timestamp` over hashes that are keys of `known_blocks_` has a
result. -/
theorem foldl_latest_timestamp_step (st : chain_sync_state) (top : List hash_digest)
    (hk : ∀ h ∈ top, ∃ e, map_find h st.known_blocks_ = some e) :
    ∀ t, ∃ n, top.foldl (chain_sync_state.latest_timestamp_step st) (some t) = some n := by
  induction top with
  | nil => intro t; exact ⟨t, rfl⟩
  | cons h rest ih =>
    intro t
    obtain ⟨e, he⟩ := hk h (List.mem_cons_self _ _)
    have ih2 := ih (fun x hx => hk x (List.mem_cons_of_mem _ hx))
    rw [List.foldl_cons]
    unfold chain_sync_state.latest_timestamp_step
    dsimp only
    by_cases hn : h ≠ null_hash
    · rw [if_pos hn, he]
      dsimp only
      by_cases hg : e.timestamp_ > t
      · rw [if_pos hg]; exact ih2 _
      · rw [if_neg hg]; exact ih2 _
    · rw [if_neg hn]; exact ih2 _

/-- The loop of `get_top_checkpoint` over hashes that are keys of `known_blocks_` has a
result. -/
theorem foldl_top_checkpoint_step (cenv : chain_environment) (st : chain_sync_state)
    (top : List hash_digest)
    (hk : ∀ h ∈ top, ∃ e, map_find h st.known_blocks_ = some e) :
    ∀ v, ∃ c, top.foldl (chain_sync_state.top_checkpoint_step cenv st) (some v) = some c := by
  induction top with
  | nil => intro v; exact ⟨v, rfl⟩
  | cons h rest ih =>
    intro v
    obtain ⟨id_at_max_height, max_height⟩ := v
    obtain ⟨e, he⟩ := hk h (List.mem_cons_self _ _)
    have ih2 := ih (fun x hx => hk x (List.mem_cons_of_mem _ hx))
    rw [List.foldl_cons]
    unfold chain_sync_state.top_checkpoint_step
    dsimp only
    by_cases hn : h ≠ null_hash
    · rw [if_pos hn, he]
      dsimp only
      by_cases hg : e.height > max_height
      · rw [if_pos hg]; exact ih2 _
      · rw [if_neg hg]; exact ih2 _
    · rw [if_neg hn]; exact ih2 _

/-- C36: in every tracker reachable from the constructor by merges, every hash stored in
`chain_[i]` is a key of `known_blocks_` whose header has the height `starting_height_ + i`,
`chain_` is not empty and `chain_[0]` holds the hash of the checkpoint; so whenever
`get_last_known_block_hash()` yields a set, every member of it is found in `known_blocks_`,
and `get_top_height`, `get_latest_timestamp` and `get_top_checkpoint` have a result: their
lookups hit. -/
theorem chain_slots_are_known (cenv : chain_environment) (cp : lite_header)
    (st : chain_sync_state) (hr : tracker_reachable cenv cp st) :
    (∀ (i : Nat) (slot : List hash_digest), st.chain_[i]? = some slot → ∀ x ∈ slot,
      ∃ e, map_find x st.known_blocks_ = some e ∧ e.height = st.starting_height_ + i) ∧
    0 < st.chain_.length ∧
    (∃ slot, st.chain_[0]? = some slot ∧ (cp.hash cenv).1 ∈ slot) ∧
    (∀ top, st.get_last_known_block_hash = some top →
      (∀ h ∈ top, ∃ e, map_find h st.known_blocks_ = some e) ∧
      (∃ n, st.get_top_height = some n) ∧
      (∃ t, st.get_latest_timestamp = some t) ∧
      (∃ c, st.get_top_checkpoint cenv = some c)) := by
  obtain ⟨h1, h2, h3⟩ := reachable_chain_slots cenv cp st hr
  refine ⟨h1, h2, h3, ?_⟩
  intro top htop
  have hk : ∀ h ∈ top, ∃ e, map_find h st.known_blocks_ = some e := by
    intro h hh
    have hs := htop
    unfold chain_sync_state.get_last_known_block_hash at hs
    obtain ⟨j, _, hj, _, _⟩ := (scan_down_spec st.chain_ _ top).mp hs
    obtain ⟨e, he, _⟩ := h1 j top hj h hh
    exact ⟨e, he⟩
  refine ⟨hk, ?_, ?_, ?_⟩
  · unfold chain_sync_state.get_top_height
    rw [htop]
    exact foldl_top_height_step st top hk 0
  · unfold chain_sync_state.get_latest_timestamp
    rw [htop]
    exact foldl_latest_timestamp_step st top hk 0
  · unfold chain_sync_state.get_top_checkpoint
    rw [htop]
    exact foldl_top_checkpoint_step cenv st top hk (null_hash, 0)

/-- C36, witness: the tracker `sample_fork_state`, with two hashes in its top slot. -/
theorem chain_slots_are_known_witness :
    sample_fork_state.chain_ = [[unit_hash 0 1], [unit_hash 0 2, unit_hash 0 3]] ∧
    sample_fork_state.get_top_height = some 11 ∧
    sample_fork_state.get_latest_timestamp = some 1000 ∧
    sample_fork_state.get_top_checkpoint sample_chain_environment
      = some (unit_hash 0 2, 11) ∧
    (∀ (i : Nat) (slot : List hash_digest), sample_fork_state.chain_[i]? = some slot →
      ∀ x ∈ slot, ∃ e, map_find x sample_fork_state.known_blocks_ = some e ∧
        e.height = sample_fork_state.starting_height_ + i) :=
  ⟨by decide, by decide, by decide, by decide,
    (chain_slots_are_known sample_chain_environment sample_checkpoint sample_fork_state
      (tracker_reachable.merge 2000 _ _ tracker_reachable.construct)).1⟩

/-! ## Pin store: the two maps agree -/

theorem map_find_filter_key {K V : Type} [DecidableEq K] (p : K → Bool) (k : K)
    (m : List (K × V)) :
    map_find k (m.filter fun e => p e.1) = if p k = true then map_find k m else none := by
  induction m with
  | nil => simp [map_find]
  | cons e rest ih =>
    by_cases hp : p e.1 = true
    · rw [List.filter_cons, if_pos hp]
      unfold map_find
      by_cases hk : e.1 = k
      · rw [if_pos hk, if_pos hk, if_pos (by rw [← hk]; exact hp)]
      · rw [if_neg hk, if_neg hk]; exact ih
    · rw [List.filter_cons, if_neg hp, ih]
      by_cases hpk : p k = true
      · rw [if_pos hpk, if_pos hpk]
        have hek : ¬ e.1 = k := fun hk => hp (by rw [hk]; exact hpk)
        conv_rhs => unfold map_find
        rw [if_neg hek]
      · rw [if_neg hpk, if_neg hpk]

theorem map_insert_perm {K V : Type} (lt : K → K → Bool) (k : K) (v : V) (m : List (K × V)) :
    (map_insert lt k v m).Perm ((k, v) :: m) := by
  induction m with
  | nil => exact List.Perm.refl _
  | cons a rest ih =>
    unfold map_insert
    split
    · exact List.Perm.refl _
    · exact (List.Perm.cons a ih).trans (List.Perm.swap _ _ _)

theorem ordered_insert_perm {K : Type} (lt : K → K → Bool) (x : K) (s : List K) :
    (ordered_insert lt x s).Perm (x :: s) := by
  induction s with
  | nil => exact List.Perm.refl _
  | cons a rest ih =>
    unfold ordered_insert
    split
    · exact List.Perm.refl _
    · exact (List.Perm.cons a ih).trans (List.Perm.swap _ _ _)

theorem set_insert_nodup {K : Type} [DecidableEq K] (lt : K → K → Bool) (x : K) (s : List K)
    (h : s.Nodup) : (set_insert lt x s).Nodup := by
  unfold set_insert
  by_cases hx : x ∈ s
  · rw [if_pos hx]; exact h
  · rw [if_neg hx]
    exact (ordered_insert_perm lt x s).nodup_iff.mpr (List.nodup_cons.mpr ⟨hx, h⟩)

/-- A new key put at its place keeps a map with ascending keys ascending. -/
theorem map_insert_sorted {V : Type} (k : Nat) (v : V) (m : List (Nat × V))
    (hs : m.Pairwise fun a b => a.1 < b.1) (hk : ∀ e ∈ m, e.1 ≠ k) :
    (map_insert bucket_lt k v m).Pairwise fun a b => a.1 < b.1 := by
  induction m with
  | nil => unfold map_insert; simp
  | cons a rest ih =>
    obtain ⟨h1, h2⟩ := List.pairwise_cons.mp hs
    unfold map_insert
    by_cases hl : bucket_lt k a.1 = true
    · rw [if_pos hl]
      have hka : k < a.1 := by simpa [bucket_lt] using hl
      refine List.pairwise_cons.mpr ⟨?_, hs⟩
      intro b hb
      rcases List.mem_cons.mp hb with hb | hb
      · rw [hb]; exact hka
      · exact Nat.lt_trans hka (h1 b hb)
    · rw [if_neg hl]
      have hka : ¬ k < a.1 := by simpa [bucket_lt] using hl
      have hne : a.1 ≠ k := hk a (List.mem_cons_self _ _)
      refine List.pairwise_cons.mpr ⟨?_, ih h2 (fun e he => hk e (List.mem_cons_of_mem _ he))⟩
      intro b hb
      rcases (mem_map_insert bucket_lt k v rest b).mp hb with hb | hb
      · rw [hb]; dsimp only; omega
      · exact h1 b hb

theorem map_modify_keys {K V : Type} [DecidableEq K] (k : K) (f : V → V) (m : List (K × V)) :
    (map_modify k f m).map Prod.fst = m.map Prod.fst := by
  unfold map_modify
  rw [List.map_map]
  apply List.map_congr_left
  intro e _
  simp only [Function.comp_apply]
  split <;> rfl

theorem store_agrees_empty : store_agrees pinboard.empty :=
  ⟨fun b hb => (by cases hb), fun e he => (by cases he), List.Pairwise.nil,
    fun b hb => (by cases hb), List.nodup_nil⟩

/-- The critical section of `process` keeps the two maps in agreement. -/
theorem store_object_agrees (pb : pinboard) (id : hash_digest) (d : object_details)
    (h : store_agrees pb) : store_agrees (pb.store_object id d).2 := by
  obtain ⟨w1, w2, w3, w4, w5⟩ := h
  unfold pinboard.store_object
  cases hf : map_find id pb.objects_ with
  | some v => exact ⟨w1, w2, w3, w4, w5⟩
  | none =>
    dsimp only
    have hobj : map_emplace hash_lt id d pb.objects_ = map_insert hash_lt id d pb.objects_ := by
      unfold map_emplace; rw [hf]
    rw [hobj]
    have hfind : ∀ id2 d2, map_find id2 pb.objects_ = some d2 →
        map_find id2 (map_insert hash_lt id d pb.objects_) = some d2 := by
      intro id2 d2 h2
      rw [map_find_map_insert hash_lt id id2 d _ hf]
      have hne : id2 ≠ id := by
        intro e; rw [e, hf] at h2; cases h2
      rw [if_neg hne]; exact h2
    have hnew : map_find id (map_insert hash_lt id d pb.objects_) = some d := by
      rw [map_find_map_insert hash_lt id id d _ hf, if_pos rfl]
    have hkeys : ((map_insert hash_lt id d pb.objects_).map Prod.fst).Nodup := by
      have hp := (map_insert_perm hash_lt id d pb.objects_).map Prod.fst
      rw [hp.nodup_iff, List.map_cons]
      refine List.nodup_cons.mpr ⟨?_, w5⟩
      intro hm
      obtain ⟨e, he, hek⟩ := List.mem_map.mp hm
      exact (map_find_none_iff id pb.objects_).mp hf e he hek
    cases hbk : map_find d.bucket_id_ pb.buckets_ with
    | none =>
      dsimp only
      have hbuc : map_emplace bucket_lt d.bucket_id_ [id] pb.buckets_
          = map_insert bucket_lt d.bucket_id_ [id] pb.buckets_ := by
        unfold map_emplace; rw [hbk]
      rw [hbuc]
      refine ⟨?_, ?_, ?_, ?_, hkeys⟩
      · intro b hb id2 hid2
        rcases (mem_map_insert _ _ _ _ b).mp hb with hb | hb
        · subst hb
          rw [List.mem_singleton] at hid2
          subst hid2
          exact ⟨d, hnew, rfl⟩
        · obtain ⟨d2, hd2, hk2⟩ := w1 b hb id2 hid2
          exact ⟨d2, hfind id2 d2 hd2, hk2⟩
      · intro e he
        rcases (mem_map_insert _ _ _ _ e).mp he with he | he
        · subst he
          exact ⟨(d.bucket_id_, [id]), (mem_map_insert _ _ _ _ _).mpr (Or.inl rfl), rfl,
            List.mem_singleton.mpr rfl⟩
        · obtain ⟨b, hb, hk, hi⟩ := w2 e he
          exact ⟨b, (mem_map_insert _ _ _ _ _).mpr (Or.inr hb), hk, hi⟩
      · exact map_insert_sorted _ _ _ w3 ((map_find_none_iff _ _).mp hbk)
      · intro b hb
        rcases (mem_map_insert _ _ _ _ b).mp hb with hb | hb
        · subst hb
          exact ⟨List.nodup_singleton _, by simp⟩
        · exact w4 b hb
    | some s =>
      dsimp only
      rw [map_emplace_of_found _ _ _ s _ hbk]
      refine ⟨?_, ?_, ?_, ?_, hkeys⟩
      · intro b hb id2 hid2
        obtain ⟨a, ha, hba⟩ := (mem_map_modify _ _ _ b).mp hb
        by_cases hk : a.1 = d.bucket_id_
        · rw [if_pos hk] at hba
          subst hba
          rcases (mem_set_insert hash_lt id id2 a.2).mp hid2 with hi | hi
          · subst hi
            exact ⟨d, hnew, hk.symm⟩
          · obtain ⟨d2, hd2, hk2⟩ := w1 a ha id2 hi
            exact ⟨d2, hfind id2 d2 hd2, hk2⟩
        · rw [if_neg hk] at hba
          subst hba
          obtain ⟨d2, hd2, hk2⟩ := w1 b ha id2 hid2
          exact ⟨d2, hfind id2 d2 hd2, hk2⟩
      · intro e he
        rcases (mem_map_insert _ _ _ _ e).mp he with he | he
        · subst he
          refine ⟨(d.bucket_id_, set_insert hash_lt id s),
            (mem_map_modify _ _ _ _).mpr ⟨(d.bucket_id_, s), map_find_some_mem _ _ _ hbk, ?_⟩,
            rfl, (mem_set_insert _ _ _ _).mpr (Or.inl rfl)⟩
          simp
        · obtain ⟨b, hb, hk, hi⟩ := w2 e he
          refine ⟨(if b.1 = d.bucket_id_ then (b.1, set_insert hash_lt id b.2) else b),
            (mem_map_modify _ _ _ _).mpr ⟨b, hb, rfl⟩, ?_, ?_⟩
          · split <;> exact hk
          · split
            · exact (mem_set_insert _ _ _ _).mpr (Or.inr hi)
            · exact hi
      · rw [← List.pairwise_map (f := Prod.fst) (R := fun a b => a < b), map_modify_keys,
          List.pairwise_map]
        exact w3
      · intro b hb
        obtain ⟨a, ha, hba⟩ := (mem_map_modify _ _ _ b).mp hb
        by_cases hk : a.1 = d.bucket_id_
        · rw [if_pos hk] at hba
          subst hba
          exact ⟨set_insert_nodup _ _ _ (w4 a ha).1, set_insert_ne_nil _ _ _⟩
        · rw [if_neg hk] at hba
          subst hba
          exact w4 b ha

/-- The method `cleanup` keeps the two maps in agreement. -/
theorem cleanup_agrees (time : Nat) (pb : pinboard) (h : store_agrees pb) :
    store_agrees (pinboard.cleanup time pb) := by
  obtain ⟨w1, w2, w3, w4, w5⟩ := h
  obtain ⟨hb, ho⟩ := cleanup_eq time pb
  have hkept : ∀ b ∈ pb.buckets_, b.1 > time % 2 ^ 32 → ∀ id ∈ b.2,
      (!(pb.buckets_.any fun b2 => decide (b2.1 ≤ time % 2 ^ 32) && decide (id ∈ b2.2)))
        = true := by
    intro b hbm hgt id hid
    simp only [Bool.not_eq_true', List.any_eq_false, Bool.and_eq_true, decide_eq_true_eq,
      not_and]
    intro b2 hb2 hle hid2
    obtain ⟨d, hd, hk⟩ := w1 b hbm id hid
    obtain ⟨d2, hd2, hk2⟩ := w1 b2 hb2 id hid2
    rw [hd] at hd2
    cases hd2
    omega
  have hfind : ∀ id, map_find id (pinboard.cleanup time pb).objects_
      = if (!(pb.buckets_.any fun b2 => decide (b2.1 ≤ time % 2 ^ 32) && decide (id ∈ b2.2)))
          = true then map_find id pb.objects_ else none := by
    intro id
    rw [ho]
    exact map_find_filter_key
      (fun k => !(pb.buckets_.any fun b2 => decide (b2.1 ≤ time % 2 ^ 32) && decide (k ∈ b2.2)))
      id pb.objects_
  refine ⟨?_, ?_, ?_, ?_, ?_⟩
  · intro b hbm id hid
    rw [hb] at hbm
    obtain ⟨hbm1, hbm2⟩ := List.mem_filter.mp hbm
    have hgt : b.1 > time % 2 ^ 32 := by simpa using hbm2
    rw [hfind id, if_pos (hkept b hbm1 hgt id hid)]
    exact w1 b hbm1 id hid
  · intro e he
    rw [ho] at he
    rw [hb]
    obtain ⟨he1, he2⟩ := List.mem_filter.mp he
    obtain ⟨b, hbm, hbk, hbi⟩ := w2 e he1
    refine ⟨b, List.mem_filter.mpr ⟨hbm, ?_⟩, hbk, hbi⟩
    simp only [Bool.not_eq_true', List.any_eq_false, Bool.and_eq_true, decide_eq_true_eq,
      not_and] at he2
    have := he2 b hbm
    simp only [gt_iff_lt, decide_eq_true_eq]
    by_contra hle
    exact this (by omega) hbi
  · rw [hb]; exact w3.filter _
  · intro b hbm
    rw [hb] at hbm
    exact w4 b (List.mem_filter.mp hbm).1
  · rw [ho]
    exact w5.sublist ((List.filter_sublist _).map Prod.fst)

/-- In every pin store reachable from the empty store by `process` and `cleanup` the two
maps agree. -/
theorem reachable_agrees (env : environment) (pb : pinboard) (hr : reachable env pb) :
    store_agrees pb := by
  induction hr with
  | empty => exact store_agrees_empty
  | process tr time obj pb _ ih =>
    rcases process_either env tr time obj with ⟨c, hc⟩ | ⟨id, d, _, hsd⟩
    · rw [hc pb]; exact ih
    · have h := store_object_agrees pb id d ih
      rw [hsd pb]
      rcases hs : pb.store_object id d with ⟨_ | _, s⟩
      · rw [hs] at h; exact h
      · rw [hs] at h; exact h
  | cleanup time pb _ ih => exact cleanup_agrees time pb ih

/-! ## Pin store: what `for_each` visits and what `cleanup` finds -/

/-- In a map with ascending keys two entries with the same key are the same entry. -/
theorem ascending_key_unique {V : Type} (m : List (Nat × V))
    (hs : m.Pairwise fun a b => a.1 < b.1) :
    ∀ a ∈ m, ∀ b ∈ m, a.1 = b.1 → a = b := by
  induction m with
  | nil => intro a ha; cases ha
  | cons x rest ih =>
    obtain ⟨h1, h2⟩ := List.pairwise_cons.mp hs
    intro a ha b hb hk
    rcases List.mem_cons.mp ha with ha | ha <;> rcases List.mem_cons.mp hb with hb | hb
    · rw [ha, hb]
    · rw [ha] at hk
      have := h1 b hb
      omega
    · rw [hb] at hk
      have := h1 a ha
      omega
    · exact ih h2 a ha b hb hk

/-- The buckets of a store whose maps agree list no id twice. -/
theorem store_agrees_disjoint (pb : pinboard) (h : store_agrees pb) :
    pb.buckets_.Pairwise fun a b => ∀ id ∈ a.2, id ∉ b.2 := by
  refine List.Pairwise.imp_of_mem ?_ h.buckets_ascending
  intro a b ha hb hlt id hia hib
  obtain ⟨d, hd, hk⟩ := h.listed_is_stored a ha id hia
  obtain ⟨d2, hd2, hk2⟩ := h.listed_is_stored b hb id hib
  rw [hd] at hd2
  cases hd2
  omega

theorem flatMap_nodup (bs : List (Nat × List hash_digest))
    (h1 : ∀ b ∈ bs, b.2.Nodup)
    (h2 : bs.Pairwise fun a b => ∀ id ∈ a.2, id ∉ b.2) :
    (bs.flatMap fun b => b.2).Nodup := by
  induction bs with
  | nil => exact List.nodup_nil
  | cons b rest ih =>
    obtain ⟨p1, p2⟩ := List.pairwise_cons.mp h2
    rw [List.flatMap_cons]
    refine List.nodup_append.mpr ⟨h1 b (List.mem_cons_self _ _),
      ih (fun x hx => h1 x (List.mem_cons_of_mem _ hx)) p2, ?_⟩
    intro id hid hid2
    obtain ⟨b2, hb2, hi2⟩ := List.mem_flatMap.mp hid2
    exact p1 b2 hb2 id hid hi2

/-- The inner loop of `for_each` over ids that are found. -/
theorem foldl_for_each_step (pb : pinboard) (ids : List hash_digest)
    (hk : ∀ id ∈ ids, ∃ d, map_find id pb.objects_ = some d) :
    ∀ ops, ids.foldl pb.for_each_step (some ops)
      = some (ops ++ ids.filterMap fun id =>
          (map_find id pb.objects_).map fun d => d.object_) := by
  induction ids with
  | nil => intro ops; simp
  | cons id rest ih =>
    intro ops
    obtain ⟨d, hd⟩ := hk id (List.mem_cons_self _ _)
    rw [List.foldl_cons]
    have hstep : pb.for_each_step (some ops) id = some (ops ++ [d.object_]) := by
      unfold pinboard.for_each_step
      dsimp only
      rw [hd]
    rw [hstep, ih (fun x hx => hk x (List.mem_cons_of_mem _ hx)), List.filterMap_cons, hd]
    simp

/-- The loops of `for_each` over buckets whose ids are found. -/
theorem foldl_for_each_buckets (pb : pinboard) (bs : List (Nat × List hash_digest))
    (hk : ∀ b ∈ bs, ∀ id ∈ b.2, ∃ d, map_find id pb.objects_ = some d) :
    ∀ ops, bs.foldl (fun visited bucket => bucket.2.foldl pb.for_each_step visited) (some ops)
      = some (ops ++ (bs.flatMap fun b => b.2).filterMap fun id =>
          (map_find id pb.objects_).map fun d => d.object_) := by
  induction bs with
  | nil => intro ops; simp
  | cons b rest ih =>
    intro ops
    rw [List.foldl_cons, foldl_for_each_step pb b.2 (hk b (List.mem_cons_self _ _)),
      ih (fun x hx => hk x (List.mem_cons_of_mem _ hx)), List.flatMap_cons,
      List.filterMap_append, List.append_assoc]

/-- On a store whose maps agree `for_each` hands over the payload of every id of the
buckets, in their order. -/
theorem for_each_agrees (pb : pinboard) (h : store_agrees pb) :
    pb.for_each = some (pb.visited_ids.filterMap fun id =>
      (map_find id pb.objects_).map fun d => d.object_) := by
  unfold pinboard.for_each pinboard.visited_ids
  rw [foldl_for_each_buckets pb pb.buckets_
    (fun b hb id hid => (h.listed_is_stored b hb id hid).imp fun d hd => hd.1) []]
  rfl

theorem map_find_map_erase (id id2 : hash_digest)
    (objects : List (hash_digest × object_details)) (hne : id2 ≠ id) :
    map_find id2 (map_erase id objects) = map_find id2 objects := by
  unfold map_erase
  have := map_find_filter_key (fun k => decide (k ≠ id)) id2 objects
  rw [this, if_pos (by simpa using hne)]

/-- The inner loop of `cleanup` over distinct ids that are found takes no branch
`isn't found`. -/
theorem erase_ids_missed_nil (ids : List hash_digest) (hn : ids.Nodup) :
    ∀ objects : List (hash_digest × object_details),
      (∀ id ∈ ids, ∃ d, map_find id objects = some d) →
      pinboard.erase_ids_missed ids objects = [] := by
  induction ids with
  | nil => intro objects _; rfl
  | cons id rest ih =>
    intro objects hk
    obtain ⟨hnot, hn2⟩ := List.nodup_cons.mp hn
    obtain ⟨d, hd⟩ := hk id (List.mem_cons_self _ _)
    unfold pinboard.erase_ids_missed
    rw [hd]
    dsimp only
    apply ih hn2
    intro id2 hid2
    rw [map_find_map_erase id id2 objects (fun e => hnot (by rw [← e]; exact hid2))]
    exact hk id2 (List.mem_cons_of_mem _ hid2)

theorem map_find_erase_ids (ids : List hash_digest) (id2 : hash_digest)
    (objects : List (hash_digest × object_details)) (hne : id2 ∉ ids) :
    map_find id2 (pinboard.erase_ids ids objects) = map_find id2 objects := by
  rw [erase_ids_eq]
  have := map_find_filter_key (fun k => decide (k ∉ ids)) id2 objects
  rw [this, if_pos (by simpa using hne)]

/-- The first loop of `cleanup` over buckets that list distinct ids, all found, takes no
branch `isn't found`. -/
theorem sweep_missed_nil (now : Nat) (bs : List (Nat × List hash_digest))
    (h1 : ∀ b ∈ bs, b.2.Nodup)
    (h2 : bs.Pairwise fun a b => ∀ id ∈ a.2, id ∉ b.2) :
    ∀ objects : List (hash_digest × object_details),
      (∀ b ∈ bs, ∀ id ∈ b.2, ∃ d, map_find id objects = some d) →
      pinboard.sweep_missed now bs objects = [] := by
  induction bs with
  | nil => intro objects _; rfl
  | cons b rest ih =>
    intro objects hk
    obtain ⟨p1, p2⟩ := List.pairwise_cons.mp h2
    have ih2 := ih (fun x hx => h1 x (List.mem_cons_of_mem _ hx)) p2
    unfold pinboard.sweep_missed
    by_cases hb : b.1 > now
    · rw [if_pos hb]
      exact ih2 objects (fun x hx => hk x (List.mem_cons_of_mem _ hx))
    · rw [if_neg hb, erase_ids_missed_nil b.2 (h1 b (List.mem_cons_self _ _)) objects
        (hk b (List.mem_cons_self _ _)), List.nil_append]
      apply ih2
      intro x hx id hid
      rw [map_find_erase_ids b.2 id objects (fun hm => p1 x hx id hm hid)]
      exact hk x (List.mem_cons_of_mem _ hx) id hid

/-- The ids of the buckets of a store whose maps agree are the keys of `objects_`, each
once. -/
theorem store_agrees_perm (pb : pinboard) (h : store_agrees pb) :
    pb.visited_ids.Perm (pb.objects_.map Prod.fst) := by
  have hnd : pb.visited_ids.Nodup :=
    flatMap_nodup pb.buckets_ (fun b hb => (h.bucket_is_set b hb).1)
      (store_agrees_disjoint pb h)
  rw [List.perm_ext_iff_of_nodup hnd h.objects_is_map]
  intro id
  constructor
  · intro hid
    obtain ⟨b, hb, hi⟩ := List.mem_flatMap.mp hid
    obtain ⟨d, hd, _⟩ := h.listed_is_stored b hb id hi
    exact List.mem_map.mpr ⟨(id, d), map_find_some_mem id d _ hd, rfl⟩
  · intro hid
    obtain ⟨e, he, hek⟩ := List.mem_map.mp hid
    obtain ⟨b, hb, _, hi⟩ := h.stored_is_listed e he
    rw [← hek]
    exact List.mem_flatMap.mpr ⟨b, hb, hi⟩

/-- C35: in every pin store reachable from the empty store by `process` and `cleanup`, every
id listed in a bucket is a key of `objects_` whose `bucket_id_` is the key of that bucket,
every key of `objects_` is listed in one bucket and in no other, no bucket is empty and the
keys of the buckets ascend; so `for_each` finds every id it looks up and hands over the
payloads of the ids of the buckets in their order, these ids are the keys of `objects_`,
each once, and `cleanup` never takes its branch `isn't found`. -/
theorem store_maps_agree (env : environment) (pb : pinboard) (hr : reachable env pb) :
    (∀ b ∈ pb.buckets_, ∀ id ∈ b.2,
      ∃ d, map_find id pb.objects_ = some d ∧ d.bucket_id_ = b.1) ∧
    (∀ e ∈ pb.objects_, ∃ b ∈ pb.buckets_, b.1 = e.2.bucket_id_ ∧ e.1 ∈ b.2 ∧
      ∀ b2 ∈ pb.buckets_, e.1 ∈ b2.2 → b2 = b) ∧
    (∀ b ∈ pb.buckets_, b.2 ≠ []) ∧
    (pb.buckets_.Pairwise fun a b => a.1 < b.1) ∧
    pb.visited_ids.Nodup ∧
    pb.visited_ids.Perm (pb.objects_.map Prod.fst) ∧
    pb.for_each = some (pb.visited_ids.filterMap fun id =>
      (map_find id pb.objects_).map fun d => d.object_) ∧
    (∀ ops, pb.for_each = some ops → ops.length = pb.objects_.length) ∧
    (∀ time, pb.cleanup_missed time = []) := by
  have h := reachable_agrees env pb hr
  have hdis := store_agrees_disjoint pb h
  have hnd : pb.visited_ids.Nodup :=
    flatMap_nodup pb.buckets_ (fun b hb => (h.bucket_is_set b hb).1) hdis
  have hperm := store_agrees_perm pb h
  have hfe := for_each_agrees pb h
  refine ⟨h.listed_is_stored, ?_, fun b hb => (h.bucket_is_set b hb).2, h.buckets_ascending,
    hnd, hperm, hfe, ?_, ?_⟩
  · intro e he
    obtain ⟨b, hb, hk, hi⟩ := h.stored_is_listed e he
    refine ⟨b, hb, hk, hi, ?_⟩
    intro b2 hb2 hi2
    obtain ⟨d, hd, hkd⟩ := h.listed_is_stored b hb e.1 hi
    obtain ⟨d2, hd2, hkd2⟩ := h.listed_is_stored b2 hb2 e.1 hi2
    rw [hd] at hd2
    cases hd2
    exact ascending_key_unique pb.buckets_ h.buckets_ascending b2 hb2 b hb (by omega)
  · intro ops hops
    rw [hfe] at hops
    cases hops
    have hlen : ∀ ids : List hash_digest,
        (∀ id ∈ ids, ∃ d, map_find id pb.objects_ = some d) →
        (ids.filterMap fun id => (map_find id pb.objects_).map fun d => d.object_).length
          = ids.length := by
      intro ids
      induction ids with
      | nil => intro _; rfl
      | cons id rest ih =>
        intro hk
        obtain ⟨d, hd⟩ := hk id (List.mem_cons_self _ _)
        rw [List.filterMap_cons, hd]
        simp only [Option.map_some', List.length_cons]
        rw [ih (fun x hx => hk x (List.mem_cons_of_mem _ hx))]
    rw [hlen pb.visited_ids, hperm.length_eq, List.length_map]
    intro id hid
    obtain ⟨b, hb, hi⟩ := List.mem_flatMap.mp hid
    exact (h.listed_is_stored b hb id hi).imp fun d hd => hd.1
  · intro time
    unfold pinboard.cleanup_missed
    exact sweep_missed_nil _ pb.buckets_ (fun b hb => (h.bucket_is_set b hb).1) hdis
      pb.objects_ (fun b hb id hid => (h.listed_is_stored b hb id hid).imp fun d hd => hd.1)

/-- C35, witness: `two_pin_store` holds two pins in one bucket; `for_each` hands over both,
and a sweep at a clock value past the key of the bucket finds both. -/
theorem store_maps_agree_witness :
    two_pin_store.objects_.length = 2 ∧
    two_pin_store.buckets_.map (fun b => (b.1, b.2.length)) = [(87552, 2)] ∧
    (two_pin_store.for_each.map fun ops => ops.map fun op => op.get_anchor)
      = some [unit_hash 0 2, unit_hash 0 3] ∧
    two_pin_store.cleanup_missed 90000 = [] ∧
    (pinboard.cleanup 90000 two_pin_store).objects_ = [] ∧
    two_pin_store.visited_ids.Perm (two_pin_store.objects_.map Prod.fst) :=
  ⟨by decide, by decide, by decide, by decide, by decide,
    (store_maps_agree wide_environment two_pin_store
      (reachable.process _ _ _ _ (reachable.process _ _ _ _ reachable.empty))).2.2.2.2.2.1⟩

/-! ## Pin sync: the pins sent on an inventory -/

/-- The loop over `oldest_known_hashes` yields the greatest height among the start value and
the heights of the members that are held and are not the null hash. -/
theorem foldl_max_old_height (chain_state : chain_sync_state) (l : List hash_digest) :
    ∀ acc,
      acc ≤ l.foldl (protocol_pinboard_sync.max_old_height_step chain_state) acc ∧
      (∀ h ∈ l, h ≠ null_hash → ∀ k, chain_state.get_height_by_id h = some k →
        k ≤ l.foldl (protocol_pinboard_sync.max_old_height_step chain_state) acc) ∧
      (l.foldl (protocol_pinboard_sync.max_old_height_step chain_state) acc = acc ∨
        ∃ h ∈ l, h ≠ null_hash ∧ chain_state.get_height_by_id h
          = some (l.foldl (protocol_pinboard_sync.max_old_height_step chain_state) acc)) := by
  induction l with
  | nil => intro acc; exact ⟨Nat.le_refl _, fun h hh => (by cases hh), Or.inl rfl⟩
  | cons x rest ih =>
    intro acc
    rw [List.foldl_cons]
    obtain ⟨i1, i2, i3⟩ := ih (protocol_pinboard_sync.max_old_height_step chain_state acc x)
    have hstep : acc ≤ protocol_pinboard_sync.max_old_height_step chain_state acc x ∧
        (x ≠ null_hash → ∀ k, chain_state.get_height_by_id x = some k →
          k ≤ protocol_pinboard_sync.max_old_height_step chain_state acc x) ∧
        (protocol_pinboard_sync.max_old_height_step chain_state acc x = acc ∨
          (x ≠ null_hash ∧ chain_state.get_height_by_id x
            = some (protocol_pinboard_sync.max_old_height_step chain_state acc x))) := by
      unfold protocol_pinboard_sync.max_old_height_step
      by_cases hx : x = null_hash
      · rw [if_pos hx]
        exact ⟨Nat.le_refl _, fun hn => absurd hx hn, Or.inl rfl⟩
      · rw [if_neg hx]
        cases hh : chain_state.get_height_by_id x with
        | none => exact ⟨Nat.le_refl _, fun _ k hk => (by cases hk), Or.inl rfl⟩
        | some height =>
          dsimp only
          by_cases hg : height > acc
          · rw [if_pos hg]
            exact ⟨by omega, fun _ k hk => (by cases hk; exact Nat.le_refl _), Or.inr ⟨hx, rfl⟩⟩
          · rw [if_neg hg]
            exact ⟨Nat.le_refl _, fun _ k hk => (by cases hk; omega), Or.inl rfl⟩
    obtain ⟨s1, s2, s3⟩ := hstep
    refine ⟨Nat.le_trans s1 i1, ?_, ?_⟩
    · intro h hh hn k hk
      rcases List.mem_cons.mp hh with hh | hh
      · subst hh
        exact Nat.le_trans (s2 hn k hk) i1
      · exact i2 h hh hn k hk
    · rcases i3 with i3 | ⟨h, hh, hn, hk⟩
      · rcases s3 with s3 | ⟨hn, hk⟩
        · left; rw [i3, s3]
        · right
          refine ⟨x, List.mem_cons_self _ _, hn, ?_⟩
          rw [i3]; exact hk
      · exact Or.inr ⟨h, List.mem_cons_of_mem _ hh, hn, hk⟩

theorem in_window_iff (chain_state : chain_sync_state) (m n : Nat) (op : object_payload) :
    protocol_pinboard_sync.in_window chain_state m n op = true ↔
      ∃ k, chain_state.get_height_by_id op.get_anchor = some k ∧ m < k ∧ k ≤ n := by
  unfold protocol_pinboard_sync.in_window
  cases h : chain_state.get_height_by_id op.get_anchor with
  | none => simp
  | some k => simp

/-- C31: for a pin store reachable from the empty store by `process` and `cleanup` and an
inventory whose last entry of type block is `entry`, with `m` the greatest height of the
members of `oldest_known_hashes` that are held and are not the null hash (0 if there is
none; the greatest height of all held members when the null hash is not held): when `entry` names a held header of a height `n > m`, the objects sent are the
payloads that `for_each` hands over, those of the ids of the buckets in their order, each
stored pin once, filtered to the pins whose anchor is held with a height in `(m, n]`; when
`n <= m`, or the hash is not held, nothing is sent and `oldest_known_hashes` stays as it
is. -/
theorem inventory_sends_window (env : environment) (chain_state : chain_sync_state)
    (store : pinboard) (hr : reachable env store) (oldest : List hash_digest)
    (inventories : List inventory_vector) (entry : inventory_vector)
    (hne : inventories ≠ [])
    (hscan : protocol_pinboard_sync.scan_tail inventories (inventories.length - 1)
      = some entry) :
    (∀ n, chain_state.get_height_by_id entry.hash = some n →
      n > oldest.foldl (protocol_pinboard_sync.max_old_height_step chain_state) 0 →
      ∃ r, protocol_pinboard_sync.handle_receive_inventory chain_state store oldest
          inventories = some r ∧
        r.sent = (((store.visited_ids.filterMap fun id =>
            (map_find id store.objects_).map fun d => d.object_).filter
          (protocol_pinboard_sync.in_window chain_state
            (oldest.foldl (protocol_pinboard_sync.max_old_height_step chain_state) 0) n)).map
          fun op => ⟨op.copy⟩) ∧
        (∀ obj ∈ r.sent, ∃ k, chain_state.get_height_by_id obj.payload.get_anchor = some k ∧
          oldest.foldl (protocol_pinboard_sync.max_old_height_step chain_state) 0 < k ∧
          k ≤ n)) ∧
    (∀ n, chain_state.get_height_by_id entry.hash = some n →
      n ≤ oldest.foldl (protocol_pinboard_sync.max_old_height_step chain_state) 0 →
      protocol_pinboard_sync.handle_receive_inventory chain_state store oldest inventories
        = some ⟨oldest, []⟩) ∧
    (chain_state.get_height_by_id entry.hash = none →
      protocol_pinboard_sync.handle_receive_inventory chain_state store oldest inventories
        = some ⟨oldest, []⟩) ∧
    store.visited_ids.Perm (store.objects_.map Prod.fst) ∧
    (∀ h ∈ oldest, h ≠ null_hash → ∀ k, chain_state.get_height_by_id h = some k →
      k ≤ oldest.foldl (protocol_pinboard_sync.max_old_height_step chain_state) 0) ∧
    (oldest.foldl (protocol_pinboard_sync.max_old_height_step chain_state) 0 = 0 ∨
      ∃ h ∈ oldest, h ≠ null_hash ∧ chain_state.get_height_by_id h
        = some (oldest.foldl (protocol_pinboard_sync.max_old_height_step chain_state) 0)) ∧
    (chain_state.get_height_by_id null_hash = none →
      ∀ h ∈ oldest, ∀ k, chain_state.get_height_by_id h = some k →
        k ≤ oldest.foldl (protocol_pinboard_sync.max_old_height_step chain_state) 0) := by
  have hag := reachable_agrees env store hr
  have hfe := for_each_agrees store hag
  obtain ⟨_, m2, m3⟩ := foldl_max_old_height chain_state oldest 0
  have hperm := (store_agrees_perm store hag)
  refine ⟨?_, ?_, ?_, hperm, m2, m3, ?_⟩
  · intro n hn hgt
    refine ⟨⟨set_insert hash_lt entry.hash oldest,
      ((store.visited_ids.filterMap fun id =>
          (map_find id store.objects_).map fun d => d.object_).filter
        (protocol_pinboard_sync.in_window chain_state
          (oldest.foldl (protocol_pinboard_sync.max_old_height_step chain_state) 0) n)).map
        fun op => ⟨op.copy⟩⟩, ?_, rfl, ?_⟩
    · unfold protocol_pinboard_sync.handle_receive_inventory
      rw [if_neg hne, hscan]
      dsimp only
      rw [hn]
      dsimp only
      rw [if_pos hgt, hfe]
    · intro obj hobj
      dsimp only at hobj
      obtain ⟨op, hop, rfl⟩ := List.mem_map.mp hobj
      have hw := (List.mem_filter.mp hop).2
      exact (in_window_iff chain_state _ n op).mp hw
  · intro n hn hle
    unfold protocol_pinboard_sync.handle_receive_inventory
    rw [if_neg hne, hscan]
    dsimp only
    rw [hn]
    dsimp only
    rw [if_neg (by omega)]
  · intro hn
    unfold protocol_pinboard_sync.handle_receive_inventory
    rw [if_neg hne, hscan]
    dsimp only
    rw [hn]
  · intro hnull h hh k hk
    refine m2 h hh ?_ k hk
    intro he
    rw [he, hnull] at hk
    cases hk

/-- C31, witness: on `two_pin_store`, whose pins are anchored at heights 11 and 12, an
inventory that names the header of height 12 makes the handler send the pin of height 12
when the peer was at height 11 and both pins when it was at height 10; an inventory that
names the header of height 11 to a peer at height 12 sends nothing. -/
theorem inventory_sends_window_witness :
    ((protocol_pinboard_sync.handle_receive_inventory sample_chain_state two_pin_store
        [unit_hash 0 2] [⟨inventory_type_id.block, unit_hash 0 3⟩]).map
      fun r => r.sent.map fun obj => obj.payload.get_anchor) = some [unit_hash 0 3] ∧
    ((protocol_pinboard_sync.handle_receive_inventory sample_chain_state two_pin_store
        [unit_hash 0 1] [⟨inventory_type_id.block, unit_hash 0 3⟩]).map
      fun r => r.sent.map fun obj => obj.payload.get_anchor)
      = some [unit_hash 0 2, unit_hash 0 3] ∧
    protocol_pinboard_sync.handle_receive_inventory sample_chain_state two_pin_store
        [unit_hash 0 3] [⟨inventory_type_id.block, unit_hash 0 2⟩]
      = some ⟨[unit_hash 0 3], []⟩ :=
  ⟨by decide, by decide,
    (inventory_sends_window wide_environment sample_chain_state two_pin_store
      (reachable.process _ _ _ _ (reachable.process _ _ _ _ reachable.empty))
      [unit_hash 0 3] [⟨inventory_type_id.block, unit_hash 0 2⟩]
      ⟨inventory_type_id.block, unit_hash 0 2⟩ (by decide) (by decide)).2.1 11
      (by decide) (by decide)⟩

/-! ## Pin sync: the members of `oldest_known_hashes` -/

/-- Every entry of a reachable tracker is filed under the hash of its bytes, or its bytes
hash as those of the checkpoint do. -/
theorem reachable_keys_hash_or (cenv : chain_environment) (cp : lite_header)
    (st : chain_sync_state) (hr : tracker_reachable cenv cp st) :
    ∀ k e, map_find k st.known_blocks_ = some e →
      cenv.bitcoin_hash (e.to_data true) = k ∨
      cenv.bitcoin_hash (e.to_data true) = cenv.bitcoin_hash (cp.to_data true) := by
  induction hr with
  | construct =>
    intro k e hf
    rw [construct_known] at hf
    unfold map_find at hf
    split at hf
    · cases hf
      right
      rw [assign_to_data]
    · cases hf
  | merge time elements st _ ih =>
    unfold chain_sync_state.merge
    refine merge_from_induct cenv time (fun s => ∀ k e, map_find k s.known_blocks_ = some e →
      cenv.bitcoin_hash (e.to_data true) = k ∨
      cenv.bitcoin_hash (e.to_data true) = cenv.bitcoin_hash (cp.to_data true)) ?_
      elements st 0 null_hash ih
    intro s h id s2 hP hs
    obtain ⟨_, hid, hnone, parent, _, _, rfl⟩ := merge_step_inserted cenv time s s2 h id hs
    intro k e hf
    dsimp only at hf
    rw [map_find_map_insert hash_lt id k _ _ hnone] at hf
    by_cases hk : k = id
    · rw [if_pos hk] at hf
      cases hf
      left
      rw [stored_header_to_data, hk, hid, header_hash_eq]
    · rw [if_neg hk] at hf
      exact hP k e hf

/-- The list that the walk of `send_object` ends with holds held hashes only. -/
theorem collect_missing_held (st : chain_sync_state) (oldest : List hash_digest) :
    ∀ (fuel : Nat) (h : hash_digest) (missing r : List hash_digest),
      (∀ x ∈ missing, ∃ e, map_find x st.known_blocks_ = some e) →
      protocol_pinboard_sync.collect_missing st oldest fuel h missing = some (some r) →
      ∀ x ∈ r, ∃ e, map_find x st.known_blocks_ = some e := by
  intro fuel
  induction fuel with
  | zero =>
    intro h missing r _ hc
    unfold protocol_pinboard_sync.collect_missing at hc
    cases hc
  | succ fuel ih =>
    intro h missing r hm hc
    unfold protocol_pinboard_sync.collect_missing at hc
    by_cases ho : h ∉ oldest
    · rw [if_pos ho] at hc
      cases hf : map_find h st.known_blocks_ with
      | none =>
        rw [get_prev_hash_by_id_none st h hf] at hc
        cases hc
      | some e =>
        rw [get_prev_hash_by_id_eq st h e hf] at hc
        dsimp only at hc
        apply ih _ _ r _ hc
        intro x hx
        rcases List.mem_cons.mp hx with hx | hx
        · rw [hx]; exact ⟨e, hf⟩
        · exact hm x hx
    · rw [if_neg ho] at hc
      cases hc
      exact hm

/-- The loops of `send_object` that send the headers leave in `oldest_known_hashes` members
it had, ids it was given, or hashes of headers it sent. -/
theorem send_headers_oldest (cenv : chain_environment) (st : chain_sync_state)
    (P : hash_digest → Prop)
    (hP : ∀ id e, map_find id st.known_blocks_ = some e →
      P id ∧ P (cenv.bitcoin_hash (wire_header e).to_data)) :
    ∀ (ids : List hash_digest) (elements : List header) (oldest : List hash_digest)
      (sent : List (List header)),
      (∀ id ∈ ids, ∃ e, map_find id st.known_blocks_ = some e) →
      (∀ el ∈ elements, P (cenv.bitcoin_hash el.to_data)) → (∀ h ∈ oldest, P h) →
      ∀ h ∈ (protocol_pinboard_sync.send_headers cenv st ids elements oldest sent).2.1,
        P h := by
  intro ids
  induction ids with
  | nil =>
    intro elements oldest sent _ hel ho h hh
    unfold protocol_pinboard_sync.send_headers at hh
    cases hl : elements.getLast? with
    | none => rw [hl] at hh; exact ho h hh
    | some last =>
      rw [hl] at hh
      dsimp only at hh
      rw [List.mem_singleton] at hh
      rw [hh]
      exact hel last (List.mem_of_getLast?_eq_some hl)
  | cons id rest ih =>
    intro elements oldest sent hids hel ho h hh
    obtain ⟨e, he⟩ := hids id (List.mem_cons_self _ _)
    have hrest : ∀ x ∈ rest, ∃ e, map_find x st.known_blocks_ = some e :=
      fun x hx => hids x (List.mem_cons_of_mem _ hx)
    obtain ⟨p1, p2⟩ := hP id e he
    unfold protocol_pinboard_sync.send_headers at hh
    have hg : st.get_header_by_id id = some e := he
    rw [hg] at hh
    dsimp only at hh
    by_cases hlen : (elements ++ [header.factory_from_data
        ((lite_header.default.assign e).to_data true)]).length = 2000
    · rw [if_pos hlen] at hh
      refine ih [] [id] _ hrest (fun el hel2 => by cases hel2) ?_ h hh
      intro x hx
      rw [List.mem_singleton] at hx
      rw [hx]; exact p1
    · rw [if_neg hlen] at hh
      refine ih _ oldest sent hrest ?_ ho h hh
      intro el hel2
      rcases List.mem_append.mp hel2 with hel2 | hel2
      · exact hel el hel2
      · rw [List.mem_singleton] at hel2
        rw [hel2]; exact p2

/-- What `send_object` leaves in `oldest_known_hashes`. -/
theorem send_object_oldest (cenv : chain_environment) (st : chain_sync_state)
    (P : hash_digest → Prop)
    (hP : ∀ id e, map_find id st.known_blocks_ = some e →
      P id ∧ P (cenv.bitcoin_hash (wire_header e).to_data))
    (oldest : List hash_digest) (op : object_payload)
    (r : protocol_pinboard_sync.send_result) (ho : ∀ h ∈ oldest, P h)
    (hs : protocol_pinboard_sync.send_object cenv st oldest op = some r) :
    ∀ h ∈ r.oldest_known_hashes, P h := by
  unfold protocol_pinboard_sync.send_object at hs
  dsimp only at hs
  cases hh : st.get_height_by_id op.get_anchor with
  | none => rw [hh] at hs; cases hs; exact ho
  | some height =>
    rw [hh] at hs
    dsimp only at hs
    cases hc : protocol_pinboard_sync.collect_missing st oldest
        (st.known_blocks_.length + 2) op.get_anchor [] with
    | none => rw [hc] at hs; cases hs
    | some res =>
      rw [hc] at hs
      cases res with
      | none => cases hs; exact ho
      | some missing =>
        dsimp only at hs
        have hheld := collect_missing_held st oldest _ _ [] missing
          (fun x hx => by cases hx) hc
        have hso := send_headers_oldest cenv st P hP missing.reverse [] oldest []
          (fun x hx => hheld x (List.mem_reverse.mp hx)) (fun el hel => by cases hel) ho
        rcases hsh : protocol_pinboard_sync.send_headers cenv st missing.reverse [] oldest []
          with ⟨ok, oldest2, sent⟩
        rw [hsh] at hs hso
        cases ok with
        | false => cases hs; exact hso
        | true => cases hs; exact hso

/-- What `handle_receive_inventory` leaves in `oldest_known_hashes`: members it had and, at
most, a held hash. -/
theorem handle_receive_inventory_members (st : chain_sync_state) (store : pinboard)
    (oldest : List hash_digest) (inventories : List inventory_vector)
    (r : protocol_pinboard_sync.inventory_result)
    (hr : protocol_pinboard_sync.handle_receive_inventory st store oldest inventories
      = some r) :
    ∀ h ∈ r.oldest_known_hashes, h ∈ oldest ∨ ∃ e, map_find h st.known_blocks_ = some e := by
  unfold protocol_pinboard_sync.handle_receive_inventory at hr
  by_cases hne : inventories = []
  · rw [if_pos hne] at hr
    cases hr
    exact fun h hh => Or.inl hh
  · rw [if_neg hne] at hr
    cases hscan : protocol_pinboard_sync.scan_tail inventories (inventories.length - 1) with
    | none => rw [hscan] at hr; cases hr
    | some entry =>
      rw [hscan] at hr
      dsimp only at hr
      cases hf : map_find entry.hash st.known_blocks_ with
      | none =>
        have hh : st.get_height_by_id entry.hash = none := by
          unfold chain_sync_state.get_height_by_id; rw [hf]; rfl
        rw [hh] at hr
        cases hr
        exact fun h hh => Or.inl hh
      | some e =>
        have hh : st.get_height_by_id entry.hash = some e.height := by
          unfold chain_sync_state.get_height_by_id; rw [hf]; rfl
        rw [hh] at hr
        dsimp only at hr
        split at hr
        · cases hfe : store.for_each with
          | none => rw [hfe] at hr; cases hr
          | some ops =>
            rw [hfe] at hr
            cases hr
            intro h hm
            dsimp only at hm
            rcases (mem_set_insert hash_lt entry.hash h oldest).mp hm with hm | hm
            · right; rw [hm]; exact ⟨e, hf⟩
            · exact Or.inl hm
        · cases hr
          exact fun h hh => Or.inl hh

/-- What `start` leaves in `oldest_known_hashes`: the members it had, or those of a slot of
the chain vector. -/
theorem start_members (st : chain_sync_state) (peer_start_height : Nat)
    (oldest hashes : List hash_digest)
    (hs : protocol_pinboard_sync.start st peer_start_height oldest = some hashes) :
    hashes = oldest ∨ ∃ j : Nat, st.chain_[j]? = some hashes := by
  unfold protocol_pinboard_sync.start at hs
  cases hk : st.get_known_block_hashes peer_start_height with
  | none => rw [hk] at hs; cases hs
  | some found =>
    rw [hk] at hs
    cases found with
    | nil => cases hs; exact Or.inl rfl
    | cons first rest =>
      dsimp only at hs
      by_cases hn : first ≠ null_hash
      · rw [if_pos hn] at hs
        cases hs
        right
        unfold chain_sync_state.get_known_block_hashes at hk
        by_cases h1 : peer_start_height < st.starting_height_
        · rw [if_pos h1] at hk; cases hk
        · rw [if_neg h1] at hk
          by_cases h2 : peer_start_height - st.starting_height_ ≥ st.chain_.length
          · rw [if_pos h2] at hk; cases hk
          · rw [if_neg h2] at hk
            obtain ⟨j, _, hj, _, _⟩ := (scan_down_spec st.chain_ _ _).mp hk
            exact ⟨j, hj⟩
      · rw [if_neg hn] at hs
        cases hs
        exact Or.inl rfl

/-- In a tracker and a set `oldest_known_hashes` that arise together, the tracker is
reachable and every member of the set is held or is the hash of the bytes of the
checkpoint. -/
theorem peer_reachable_members (cenv : chain_environment) (cp : lite_header)
    (st : chain_sync_state) (oldest : List hash_digest)
    (hr : peer_reachable cenv cp st oldest) :
    tracker_reachable cenv cp st ∧
    ∀ h ∈ oldest, (∃ e, map_find h st.known_blocks_ = some e) ∨
      h = cenv.bitcoin_hash (cp.to_data true) := by
  induction hr with
  | construct st htr => exact ⟨htr, fun h hh => by cases hh⟩
  | merge time elements st oldest _ ih =>
    refine ⟨tracker_reachable.merge time elements st ih.1, ?_⟩
    intro h hh
    rcases ih.2 h hh with ⟨e, he⟩ | hb
    · exact Or.inl ⟨e, merge_keeps_entries cenv time st elements h e he⟩
    · exact Or.inr hb
  | start height st oldest hashes _ hs ih =>
    refine ⟨ih.1, ?_⟩
    rcases start_members st height oldest hashes hs with he | ⟨j, hj⟩
    · rw [he]; exact ih.2
    · intro h hh
      obtain ⟨e, he, _⟩ := (reachable_chain_slots cenv cp st ih.1).1 j hashes hj h hh
      exact Or.inl ⟨e, he⟩
  | inventory store inventories st oldest r _ hs ih =>
    refine ⟨ih.1, ?_⟩
    intro h hh
    rcases handle_receive_inventory_members st store oldest inventories r hs h hh with hm | hm
    · exact ih.2 h hm
    · exact Or.inl hm
  | send op st oldest r _ hs ih =>
    refine ⟨ih.1, ?_⟩
    refine send_object_oldest cenv st
      (fun h => (∃ e, map_find h st.known_blocks_ = some e) ∨
        h = cenv.bitcoin_hash (cp.to_data true)) ?_ oldest op r ih.2 hs
    intro id e he
    refine ⟨Or.inl ⟨e, he⟩, ?_⟩
    have hb : cenv.bitcoin_hash (wire_header e).to_data
        = cenv.bitcoin_hash (e.to_data true) := by
      unfold wire_header
      rw [served_to_data, assign_to_data]
    rw [hb]
    rcases reachable_keys_hash_or cenv cp st ih.1 id e he with hk | hk
    · left; rw [hk]; exact ⟨e, he⟩
    · right; exact hk

/-! ## Pin sync: the walk of `send_object` back from the anchor -/

/-- In a reachable tracker a held hash of the height `cp.height + n` ends a path of `n + 1`
hashes along the previous-block hashes that starts after the previous hash of the
checkpoint. -/
theorem reachable_path (cenv : chain_environment) (cp : lite_header)
    (st : chain_sync_state) (hr : tracker_reachable cenv cp st) :
    ∀ (n : Nat) (x : hash_digest) (e : lite_header),
      map_find x st.known_blocks_ = some e → e.height = cp.height + n →
      ∃ init, prev_path st cp.previous_block_hash_ (init ++ [x]) ∧ init.length = n := by
  obtain ⟨_, h2, h3⟩ := reachable_invariant cenv cp st hr
  have hcpe := reachable_checkpoint_entry cenv cp st hr
  intro n
  induction n with
  | zero =>
    intro x e hf he
    have hxc : x = (cp.hash cenv).1 := by
      by_contra hne
      obtain ⟨parent, hpar, hh⟩ := h3 x e hf hne
      have := h2 _ _ hpar
      omega
    rw [hxc, hcpe] at hf
    cases hf
    refine ⟨[], ?_, rfl⟩
    rw [List.nil_append, prev_path_cons, hxc]
    exact ⟨get_prev_hash_by_id_eq st _ (lite_header.default.assign cp) hcpe, trivial⟩
  | succ n ih =>
    intro x e hf he
    have hne : x ≠ (cp.hash cenv).1 := by
      intro hxc
      rw [hxc, hcpe] at hf
      cases hf
      have : (lite_header.default.assign cp).height = cp.height := rfl
      omega
    obtain ⟨parent, hpar, hh⟩ := h3 x e hf hne
    obtain ⟨init, hp, hl⟩ := ih e.previous_block_hash_ parent hpar (by omega)
    refine ⟨init ++ [e.previous_block_hash_], ?_, by rw [List.length_append, hl]; rfl⟩
    rw [prev_path_append, List.getLastD_concat, prev_path_cons]
    exact ⟨hp, get_prev_hash_by_id_eq st x e hf, trivial⟩

/-- A path that starts after a hash that is not held is not longer than `known_blocks_`. -/
theorem prev_path_length (st : chain_sync_state) (k : hash_digest) (path : List hash_digest)
    (hk : map_find k st.known_blocks_ = none) (hp : prev_path st k path) :
    path.length ≤ st.known_blocks_.length := by
  have hheld := prev_path_held st k path hp
  refine length_le_known st path (prev_path_nodup st path k hp ?_) hheld
  intro hm
  obtain ⟨e, he⟩ := hheld k hm
  have : st.get_header_by_id k = map_find k st.known_blocks_ := rfl
  rw [this, hk] at he
  cases he

/-- The walk of `send_object` from the last hash of a path that starts after `k`, where `k`
is in `oldest_known_hashes` or is not held, ends within two rounds more than the path has
hashes before the last; it ends with the failure of `get_prev_hash_by_id` when neither `k`
nor a hash of the path is in `oldest_known_hashes`. -/
theorem collect_missing_path (st : chain_sync_state) (oldest : List hash_digest)
    (k : hash_digest) (hk : k ∈ oldest ∨ st.get_prev_hash_by_id k = none)
    (init : List hash_digest) :
    ∀ (x : hash_digest) (rest : List hash_digest) (fuel : Nat), init.length + 2 ≤ fuel →
      prev_path st k (init ++ [x]) →
      ∃ r, protocol_pinboard_sync.collect_missing st oldest fuel x rest = some r ∧
        ((∀ y ∈ init ++ [x], y ∉ oldest) → k ∉ oldest → r = none) := by
  induction init using List.reverseRecOn with
  | nil =>
    intro x rest fuel hf hp
    rw [List.nil_append, prev_path_cons] at hp
    obtain ⟨f, rfl⟩ : ∃ f, fuel = f + 2 := ⟨fuel - 2, by simp at hf; omega⟩
    unfold protocol_pinboard_sync.collect_missing
    by_cases hx : x ∉ oldest
    · rw [if_pos hx, hp.1]
      dsimp only
      unfold protocol_pinboard_sync.collect_missing
      by_cases hko : k ∉ oldest
      · rw [if_pos hko]
        rcases hk with hk | hk
        · exact absurd hk hko
        · rw [hk]
          exact ⟨none, rfl, fun _ _ => rfl⟩
      · rw [if_neg hko]
        exact ⟨_, rfl, fun _ h => absurd h hko⟩
    · rw [if_neg hx]
      exact ⟨_, rfl, fun h _ => absurd (h x (by simp)) hx⟩
  | append_singleton m y ih =>
    intro x rest fuel hf hp
    rw [prev_path_append, List.getLastD_concat, prev_path_cons] at hp
    obtain ⟨f, rfl⟩ : ∃ f, fuel = f + 1 := ⟨fuel - 1, by omega⟩
    unfold protocol_pinboard_sync.collect_missing
    by_cases hx : x ∉ oldest
    · rw [if_pos hx, hp.2.1]
      dsimp only
      obtain ⟨r, hr1, hr2⟩ := ih y (x :: rest) f
        (by rw [List.length_append, List.length_singleton] at hf; omega) hp.1
      exact ⟨r, hr1, fun h hko => hr2 (fun z hz => h z (List.mem_append_left _ hz)) hko⟩
    · rw [if_neg hx]
      exact ⟨_, rfl, fun h _ => absurd (h x (by simp)) hx⟩

/-- C39: for every tracker and set `oldest_known_hashes` that arise together from the
constructors (the tracker by merges, the set by `start`, `handle_receive_inventory` and
`send_object`), when the previous hash of the checkpoint is not held and is not the hash of
the bytes of the checkpoint, `send_object` ends with a result; it returns false, sends no
header and no object and leaves the set, when the anchor of the pin is not held, and when no
member of the set is on the path of previous-block hashes from the checkpoint to the anchor,
as when the set is empty. -/
theorem send_object_refuses (cenv : chain_environment) (cp : lite_header)
    (st : chain_sync_state) (oldest : List hash_digest)
    (hr : peer_reachable cenv cp st oldest)
    (hprev : map_find cp.previous_block_hash_ st.known_blocks_ = none)
    (hself : cenv.bitcoin_hash (cp.to_data true) ≠ cp.previous_block_hash_)
    (op : object_payload) :
    (∃ r, protocol_pinboard_sync.send_object cenv st oldest op = some r) ∧
    (st.get_height_by_id op.get_anchor = none →
      protocol_pinboard_sync.send_object cenv st oldest op = some ⟨false, oldest, [], []⟩) ∧
    (∀ path, prev_path st cp.previous_block_hash_ path →
      path.getLast? = some op.get_anchor → (∀ h ∈ oldest, h ∉ path) →
      protocol_pinboard_sync.send_object cenv st oldest op = some ⟨false, oldest, [], []⟩) ∧
    (oldest = [] →
      protocol_pinboard_sync.send_object cenv st oldest op
        = some ⟨false, oldest, [], []⟩) := by
  obtain ⟨htr, hmem⟩ := peer_reachable_members cenv cp st oldest hr
  obtain ⟨_, h2, _⟩ := reachable_invariant cenv cp st htr
  have hpo : cp.previous_block_hash_ ∉ oldest := by
    intro hm
    rcases hmem _ hm with ⟨e, he⟩ | hb
    · rw [hprev] at he; cases he
    · exact hself hb.symm
  have hpn : st.get_prev_hash_by_id cp.previous_block_hash_ = none :=
    get_prev_hash_by_id_none st _ hprev
  have hunknown : st.get_height_by_id op.get_anchor = none →
      protocol_pinboard_sync.send_object cenv st oldest op
        = some ⟨false, oldest, [], []⟩ := by
    intro hn
    unfold protocol_pinboard_sync.send_object
    dsimp only
    rw [hn]
  have hwalk : ∀ init : List hash_digest,
      prev_path st cp.previous_block_hash_ (init ++ [op.get_anchor]) →
      ∃ r, protocol_pinboard_sync.collect_missing st oldest (st.known_blocks_.length + 2)
          op.get_anchor [] = some r ∧
        ((∀ y ∈ init ++ [op.get_anchor], y ∉ oldest) → r = none) := by
    intro init hp
    have hlen := prev_path_length st _ _ hprev hp
    rw [List.length_append, List.length_singleton] at hlen
    obtain ⟨r, hr1, hr2⟩ := collect_missing_path st oldest cp.previous_block_hash_
      (Or.inr hpn) init op.get_anchor [] (st.known_blocks_.length + 2) (by omega) hp
    exact ⟨r, hr1, fun h => hr2 h hpo⟩
  have hheight : ∀ e, map_find op.get_anchor st.known_blocks_ = some e →
      st.get_height_by_id op.get_anchor = some e.height := by
    intro e he
    unfold chain_sync_state.get_height_by_id
    rw [he]; rfl
  have hpath : ∀ init : List hash_digest,
      prev_path st cp.previous_block_hash_ (init ++ [op.get_anchor]) →
      (∀ h ∈ oldest, h ∉ init ++ [op.get_anchor]) →
      protocol_pinboard_sync.send_object cenv st oldest op
        = some ⟨false, oldest, [], []⟩ := by
    intro init hp hno
    obtain ⟨e, he⟩ := prev_path_held st _ _ hp op.get_anchor (by simp)
    have he2 : map_find op.get_anchor st.known_blocks_ = some e := he
    obtain ⟨r, hr1, hr2⟩ := hwalk init hp
    have hrn := hr2 (fun y hy hyo => hno y hyo hy)
    subst hrn
    unfold protocol_pinboard_sync.send_object
    dsimp only
    rw [hheight e he2]
    dsimp only
    rw [hr1]
  refine ⟨?_, hunknown, ?_, ?_⟩
  · cases hf : map_find op.get_anchor st.known_blocks_ with
    | none =>
      have hn : st.get_height_by_id op.get_anchor = none := by
        unfold chain_sync_state.get_height_by_id; rw [hf]; rfl
      exact ⟨_, hunknown hn⟩
    | some e =>
      have hge := h2 _ _ hf
      obtain ⟨init, hp, _⟩ := reachable_path cenv cp st htr (e.height - cp.height)
        op.get_anchor e hf (by omega)
      obtain ⟨r, hr1, _⟩ := hwalk init hp
      unfold protocol_pinboard_sync.send_object
      dsimp only
      rw [hheight e hf]
      dsimp only
      rw [hr1]
      cases r with
      | none => exact ⟨_, rfl⟩
      | some missing =>
        dsimp only
        rcases protocol_pinboard_sync.send_headers cenv st missing.reverse [] oldest []
          with ⟨ok, oldest2, sent⟩
        cases ok with
        | false => exact ⟨_, rfl⟩
        | true => exact ⟨_, rfl⟩
  · intro path hp hlast hno
    obtain ⟨init, rfl⟩ : ∃ init, path = init ++ [op.get_anchor] := by
      rcases List.eq_nil_or_concat path with hnil | ⟨init, last, hc⟩
      · rw [hnil] at hlast; cases hlast
      · rw [List.concat_eq_append] at hc
        rw [hc, List.getLast?_concat] at hlast
        cases hlast
        exact ⟨init, hc⟩
    exact hpath init hp hno
  · intro hempty
    cases hf : map_find op.get_anchor st.known_blocks_ with
    | none =>
      have hn : st.get_height_by_id op.get_anchor = none := by
        unfold chain_sync_state.get_height_by_id; rw [hf]; rfl
      exact hunknown hn
    | some e =>
      have hge := h2 _ _ hf
      obtain ⟨init, hp, _⟩ := reachable_path cenv cp st htr (e.height - cp.height)
        op.get_anchor e hf (by omega)
      exact hpath init hp (fun h hh => by rw [hempty] at hh; cases hh)

/-- C39, witness: on `sample_chain_state`, after `start` for a peer at height 12 has set
`oldest_known_hashes` to `{unit_hash 0 3}`, `send_object` for a pin anchored at
`unit_hash 0 2` (height 11) finds no member of the set on the path from the checkpoint to
the anchor and returns false; so it does for a pin whose anchor is not held. -/
theorem send_object_refuses_witness :
    protocol_pinboard_sync.start sample_chain_state 12 [] = some [unit_hash 0 3] ∧
    protocol_pinboard_sync.send_object sample_chain_environment sample_chain_state
        [unit_hash 0 3] (anchored_payload 2) = some ⟨false, [unit_hash 0 3], [], []⟩ ∧
    protocol_pinboard_sync.send_object sample_chain_environment sample_chain_state
        [unit_hash 0 3] (anchored_payload 7) = some ⟨false, [unit_hash 0 3], [], []⟩ :=
  ⟨by decide,
    (send_object_refuses sample_chain_environment sample_checkpoint sample_chain_state
      [unit_hash 0 3]
      (peer_reachable.start 12 _ [] _
        (peer_reachable.construct _ (tracker_reachable.merge 2000 _ _
          tracker_reachable.construct)) (by decide))
      (by decide) (by decide) (anchored_payload 2)).2.2.1
      [unit_hash 0 1, unit_hash 0 2] (by decide) (by decide) (by decide),
    by decide⟩

/-- The walk of `send_object` goes one hash past the checkpoint: on a set
`oldest_known_hashes` that holds the previous hash of the checkpoint, which no writer of the
set puts there, it stops at that hash and sends the headers from the anchor down to the
checkpoint. -/
theorem send_object_past_checkpoint :
    sample_checkpoint.previous_block_hash_ = null_hash ∧
    (protocol_pinboard_sync.send_object sample_chain_environment sample_chain_state
        [null_hash] (anchored_payload 3)).map (fun r => (r.result, r.oldest_known_hashes))
      = some (true, [unit_hash 0 1]) := by
  decide

end Pinboard
